import Mathlib

/-!
# tuRINGed: LWE / RLWE / GLWE / GLev / GGSW

A shallow embedding of the cryptographic core of the library
(`src/turinged/**`) and the properties of its specification.

Conventions of the embedding.

* `int64` and `__int128` values are integers (`Int`); every `+`, `-`, `*`
  and every narrowing cast of the source is followed by `wrap64` /
  `wrap128`, the two's complement reduction to the width of the C++ type.
* C++ `/` and `%` on integers truncate toward zero: `Int.tdiv`, `Int.tmod`
  (a zero divisor, undefined in C++, gives `0` and the dividend).
* `std::vector<int64>` is `List Int`; `v[i]` is `v.getD i 0`.
* `throw std::runtime_error(..)` is `Except.error`, with the three error
  kinds of the specification.
* The values drawn from the process-level generator (`uniform_dist(rng)`,
  `binary_dist(rng)`, `noise_dist(rng)`) are arguments of the encryption
  functions, indexed by the loop counter of the draw.
* `double` is IEEE-754 binary64 with round-to-nearest, ties-to-even
  (`Dbl`, `Dbl.ofInt`, `Dbl.div`, `Dbl.llround`).
-/

namespace turinged

/-! ## Machine integers -/

/-- Two's complement reduction to 64 bits (`static_cast<int64>` and the result
of an `int64` operation). -/
def wrap64 (x : Int) : Int := (x + 9223372036854775808) % 18446744073709551616 - 9223372036854775808

/-- Two's complement reduction to 128 bits (`__int128`). -/
def wrap128 (x : Int) : Int :=
  (x + 170141183460469231731687303715884105728) % 340282366920938463463374607431768211456
    - 170141183460469231731687303715884105728

/-- Range of `int64`. -/
def isInt64 (x : Int) : Prop := -9223372036854775808 ≤ x ∧ x < 9223372036854775808

instance (x : Int) : Decidable (isInt64 x) := by unfold isInt64; infer_instance

/-- Range of `__int128`. -/
def isInt128 (x : Int) : Prop :=
  -170141183460469231731687303715884105728 ≤ x ∧ x < 170141183460469231731687303715884105728

instance (x : Int) : Decidable (isInt128 x) := by unfold isInt128; infer_instance

/-! ## Errors and parameters (`core/types.hpp`) -/

/-- The error kinds of the specification; the source throws
`std::runtime_error` with a message for each. `NoResult` stands for a call that
ends without a value and without one of these errors: an integer division by
zero, or an exception of the standard library (`std::length_error`). -/
inductive Error where
  | InvalidSize
  | InvalidMessage
  | LevelOutOfRange
  | NoResult
  deriving DecidableEq, Repr

deriving instance DecidableEq for Except

/-- The record `Parameters` of `core/types.hpp`. -/
structure Parameters where
  n : Nat
  q : Int
  t : Int
  noise_bound : Int
  deriving DecidableEq, Repr

/-! ## `core/math_utils.cpp` -/

/-- `int64 modq(int64 x, int64 q)`. -/
def modq (x q : Int) : Int :=
  let r := x.tmod q
  if r < 0 then wrap64 (r + q) else r

/-- `int64 center_rep(int64 x, int64 q)`. -/
def center_rep (x q : Int) : Int :=
  let v := modq x q
  let half := q.tdiv 2
  if v > half then wrap64 (v - q) else v

/-- The accumulation loop of `dot_product_modq`: `acc += (int128)a[i] * (int128)b[i]`
for `i = 0 .. len-1`. -/
def dot_acc (a b : List Int) (len : Nat) : Int :=
  (List.range len).foldl
    (fun acc i => wrap128 (acc + wrap128 (a.getD i 0 * b.getD i 0))) 0

/-- `int64 dot_product_modq(const vector<int64>& a, const vector<int64>& b, int64 q)`. -/
def dot_product_modq (a b : List Int) (q : Int) : Except Error Int :=
  if a.length ≠ b.length then .error .InvalidSize
  else
    let acc := dot_acc a b a.length
    let acc64 := wrap64 (acc.tmod q)
    .ok (if acc64 < 0 then wrap64 (acc64 + q) else acc64)

/-! ## IEEE-754 binary64 -/

/-- A finite binary64 value `m * 2 ^ e` (sign carried by `m`). -/
structure Dbl where
  m : Int
  e : Int
  deriving Repr

namespace Dbl

/-- The rational value of a double. -/
def toRat (d : Dbl) : ℚ := (d.m : ℚ) * (2 : ℚ) ^ d.e

/-- Quotient `a / b` of naturals rounded to the nearest integer, ties to even. -/
def rteDiv (a b : Nat) : Nat :=
  let f := a / b
  let r := a % b
  if 2 * r < b then f
  else if b < 2 * r then f + 1
  else if f % 2 = 0 then f else f + 1

/-- Position of the leading bit of `n`, searched with `fuel` halvings. -/
def log2Fuel : Nat → Nat → Nat
  | 0, _ => 0
  | fuel + 1, n => if n < 2 then 0 else log2Fuel fuel (n / 2) + 1

/-- The integer `⌊log₂ n⌋` for `n > 0`. -/
def floorLog2 (n : Nat) : Nat := log2Fuel n n

/-- Exponent of the unit in the last place of the binary64 nearest to
`p / q * 2 ^ s` (`p, q > 0`): 53 significant bits, exponent at least `-1074`. -/
def ulpExp (p q : Nat) (s : Int) : Int :=
  let L : Int := (floorLog2 p : Int) - (floorLog2 q : Int)
  let E : Int := if q * 2 ^ L.toNat ≤ p * 2 ^ (-L).toNat then L else L - 1
  max (E + s - 52) (-1074)

/-- Round the non-negative real `p / q * 2 ^ s` to binary64 (nearest, ties to
even); the result is the significand and the exponent. Zero when `p = 0`; the
quotient by zero (`q = 0`, an infinity or NaN in C++) is not represented and
is zero. -/
def round (p q : Nat) (s : Int) : Nat × Int :=
  if p = 0 ∨ q = 0 then (0, 0)
  else
    let e := ulpExp p q s
    let k := s - e
    (rteDiv (p * 2 ^ k.toNat) (q * 2 ^ (-k).toNat), e)

/-- `static_cast<double>(x)` for an `int64` `x`. -/
def ofInt (x : Int) : Dbl :=
  let r := round x.natAbs 1 0
  ⟨if x < 0 then -(r.1 : Int) else r.1, r.2⟩

/-- The double-precision quotient `a / b`. -/
def div (a b : Dbl) : Dbl :=
  let r := round a.m.natAbs b.m.natAbs (a.e - b.e)
  ⟨if (a.m < 0 ↔ b.m < 0) then (r.1 : Int) else -(r.1 : Int), r.2⟩

/-- Nearest integer to `m * 2 ^ e` for a natural `m`, halfway cases upward. -/
def llroundMag (m : Nat) (e : Int) : Nat :=
  if 0 ≤ e then m * 2 ^ e.toNat
  else (2 * m + 2 ^ (-e).toNat) / (2 * 2 ^ (-e).toNat)

/-- `std::llround`: nearest integer, halfway cases away from zero. -/
def llround (d : Dbl) : Int :=
  if d.m < 0 then -(llroundMag d.m.natAbs d.e : Int) else llroundMag d.m.natAbs d.e

/-- Rational value of a significand-exponent pair (used to state the rounding
lemmas). -/
def pval (r : Nat × Int) : ℚ := (r.1 : ℚ) * (2 : ℚ) ^ r.2

end Dbl

/-! ## `schemes/lwe.cpp` -/

/-- The record `LWECiphertext`. -/
structure LWECiphertext where
  a : List Int
  b : Int
  deriving DecidableEq, Repr

/-- `encrypt_lwe(message, sk, params)`; `ua i` is the `i`-th draw of
`uniform_dist` and `e` the draw of `noise_dist`. -/
def encrypt_lwe (message : Int) (sk : List Int) (params : Parameters)
    (ua : Nat → Int) (e : Int) : Except Error LWECiphertext :=
  let k := sk.length
  if message < 0 ∨ message ≥ params.t then .error .InvalidMessage
  else
    let a := (List.range k).map ua
    match dot_product_modq a sk params.q with
    | .error err => .error err
    | .ok inner =>
      let delta := params.q.tdiv params.t
      let scaled_m := wrap64 (delta * message)
      let s128 := wrap128 (wrap128 (inner + scaled_m) + e)
      let s64 := wrap64 (s128.tmod params.q)
      let s64 := if s64 < 0 then wrap64 (s64 + params.q) else s64
      .ok ⟨a, s64⟩

/-- `decrypt_lwe(ct, sk, params)`. -/
def decrypt_lwe (ct : LWECiphertext) (sk : List Int) (params : Parameters) :
    Except Error Int :=
  let k := sk.length
  if ct.a.length ≠ k then .error .InvalidSize
  else
    match dot_product_modq ct.a sk params.q with
    | .error err => .error err
    | .ok inner =>
      let diff := modq (wrap64 (ct.b - inner)) params.q
      let centered := center_rep diff params.q
      let delta := params.q.tdiv params.t
      let val := Dbl.div (Dbl.ofInt centered) (Dbl.ofInt delta)
      let m_hat := Dbl.llround val
      let m_hat := m_hat.tmod params.t
      .ok (if m_hat < 0 then wrap64 (m_hat + params.t) else m_hat)


/-! ## `polynomial/polynomial.cpp` -/

namespace polynomial

/-- `Polynomial add(const Polynomial& a, const Polynomial& b, int64 q)`. -/
def add (a b : List Int) (q : Int) : Except Error (List Int) :=
  if a.length ≠ b.length then .error .InvalidSize
  else .ok ((List.range a.length).map
    (fun i => modq (wrap64 (a.getD i 0 + b.getD i 0)) q))

/-- `Polynomial subtract(const Polynomial& a, const Polynomial& b, int64 q)`. -/
def subtract (a b : List Int) (q : Int) : Except Error (List Int) :=
  if a.length ≠ b.length then .error .InvalidSize
  else .ok ((List.range a.length).map
    (fun i => modq (wrap64 (a.getD i 0 - b.getD i 0)) q))

/-- `Polynomial scalar_multiply(const Polynomial& a, int64 scalar, int64 q)`. -/
def scalar_multiply (a : List Int) (scalar q : Int) : List Int :=
  (List.range a.length).map
    (fun i =>
      let tmp := wrap128 (a.getD i 0 * scalar)
      modq (wrap64 (tmp.tmod q)) q)

/-- `Polynomial negate(const Polynomial& a, int64 q)`. -/
def negate (a : List Int) (q : Int) : List Int :=
  (List.range a.length).map (fun i => modq (wrap64 (-(a.getD i 0))) q)

/-- The body of the inner loop of `negacyclic_multiply` at the indices `i`, `j`:
the product `a[i] * b[j]` is added at `j + i`, or subtracted at `j + i - n` when
the index wraps. -/
def nm_step (a b : List Int) (q : Int) (n : Nat) (result : List Int) (i j : Nat) :
    List Int :=
  let idx := j + i
  let prod := wrap128 (a.getD i 0 * b.getD j 0)
  if idx < n then
    let tmp := wrap128 (result.getD idx 0 + prod)
    result.set idx (wrap64 (tmp.tmod q))
  else
    let idx2 := idx - n
    let tmp := wrap128 (result.getD idx2 0 - prod)
    result.set idx2 (wrap64 ((wrap128 (tmp.tmod q + q)).tmod q))

/-- The two nested loops of `negacyclic_multiply`, from the zero vector. -/
def nm_loops (a b : List Int) (q : Int) (n : Nat) : List Int :=
  (List.range n).foldl
    (fun res i => (List.range n).foldl (fun res j => nm_step a b q n res i j) res)
    (List.replicate n 0)

/-- `Polynomial negacyclic_multiply(const Polynomial& a, const Polynomial& b, int64 q)`. -/
def negacyclic_multiply (a b : List Int) (q : Int) : Except Error (List Int) :=
  if a.length ≠ b.length then .error .InvalidSize
  else
    let n := a.length
    let result := nm_loops a b q n
    .ok ((List.range n).map (fun i => modq (result.getD i 0) q))

/-- `std::vector<int64> center_representation(const Polynomial& a, int64 q)`. -/
def center_representation (a : List Int) (q : Int) : List Int :=
  (List.range a.length).map (fun i => center_rep (a.getD i 0) q)

/-- `bool is_equal(const Polynomial& a, const Polynomial& b)`. -/
def is_equal (a b : List Int) : Bool :=
  if a.length ≠ b.length then false else decide (a = b)

end polynomial

/-! ## `schemes/rlwe.cpp` -/

/-- The record `RLWECiphertext`. -/
structure RLWECiphertext where
  a : List Int
  b : List Int
  deriving DecidableEq, Repr

/-- Rounding of one centred coefficient in `decrypt_lwe` / `decrypt_rlwe`:
`llround((double)centered / (double)delta)` reduced modulo `t` into `[0, t)`. -/
def round_coeff_double (centered delta t : Int) : Int :=
  let val := Dbl.div (Dbl.ofInt centered) (Dbl.ofInt delta)
  let rounded := Dbl.llround val
  let m_coeff := rounded.tmod t
  if m_coeff < 0 then wrap64 (m_coeff + t) else m_coeff

/-- `encrypt_rlwe(message, sk, params)`; `ua i` is the `i`-th draw of
`uniform_dist` and `ue i` the `i`-th draw of `noise_dist`. -/
def encrypt_rlwe (message sk : List Int) (params : Parameters)
    (ua ue : Nat → Int) : Except Error RLWECiphertext :=
  let n := sk.length
  if message.length ≠ n then .error .InvalidSize
  else
    let a := (List.range n).map ua
    let e := (List.range n).map (fun i => modq (ue i) params.q)
    let delta := params.q.tdiv params.t
    let scaled_m := polynomial.scalar_multiply message delta params.q
    match polynomial.negacyclic_multiply a sk params.q with
    | .error err => .error err
    | .ok as =>
      match polynomial.add as scaled_m params.q with
      | .error err => .error err
      | .ok s1 =>
        match polynomial.add s1 e params.q with
        | .error err => .error err
        | .ok b => .ok ⟨a, b⟩

/-- `decrypt_rlwe(ct, sk, params)`. -/
def decrypt_rlwe (ct : RLWECiphertext) (sk : List Int) (params : Parameters) :
    Except Error (List Int) :=
  let n := sk.length
  if ct.a.length ≠ n ∨ ct.b.length ≠ n then .error .InvalidSize
  else
    match polynomial.negacyclic_multiply ct.a sk params.q with
    | .error err => .error err
    | .ok as =>
      match polynomial.subtract ct.b as params.q with
      | .error err => .error err
      | .ok diff =>
        let centered := polynomial.center_representation diff params.q
        let delta := params.q.tdiv params.t
        .ok ((List.range n).map
          (fun i => round_coeff_double (centered.getD i 0) delta params.t))

/-! ## `operations/homomorphic.cpp` (LWE and RLWE) -/

/-- `add_lwe(ct1, ct2, params)`. -/
def add_lwe (ct1 ct2 : LWECiphertext) (params : Parameters) : Except Error LWECiphertext :=
  if ct1.a.length ≠ ct2.a.length then .error .InvalidSize
  else .ok
    ⟨(List.range ct1.a.length).map
        (fun i => modq (wrap64 (ct1.a.getD i 0 + ct2.a.getD i 0)) params.q),
      modq (wrap64 (ct1.b + ct2.b)) params.q⟩

/-- `subtract_lwe(ct1, ct2, params)`. -/
def subtract_lwe (ct1 ct2 : LWECiphertext) (params : Parameters) :
    Except Error LWECiphertext :=
  if ct1.a.length ≠ ct2.a.length then .error .InvalidSize
  else .ok
    ⟨(List.range ct1.a.length).map
        (fun i => modq (wrap64 (ct1.a.getD i 0 - ct2.a.getD i 0)) params.q),
      modq (wrap64 (ct1.b - ct2.b)) params.q⟩

/-- `scalar_multiply_lwe(ct, scalar, params)`. -/
def scalar_multiply_lwe (ct : LWECiphertext) (scalar : Int) (params : Parameters) :
    LWECiphertext :=
  ⟨(List.range ct.a.length).map
      (fun i =>
        let tmp := wrap128 (ct.a.getD i 0 * scalar)
        modq (wrap64 (tmp.tmod params.q)) params.q),
    let tmp_b := wrap128 (ct.b * scalar)
    modq (wrap64 (tmp_b.tmod params.q)) params.q⟩

/-- `add_rlwe(ct1, ct2, params)`. -/
def add_rlwe (ct1 ct2 : RLWECiphertext) (params : Parameters) :
    Except Error RLWECiphertext :=
  match polynomial.add ct1.a ct2.a params.q with
  | .error err => .error err
  | .ok a =>
    match polynomial.add ct1.b ct2.b params.q with
    | .error err => .error err
    | .ok b => .ok ⟨a, b⟩

/-- `subtract_rlwe(ct1, ct2, params)`. -/
def subtract_rlwe (ct1 ct2 : RLWECiphertext) (params : Parameters) :
    Except Error RLWECiphertext :=
  match polynomial.subtract ct1.a ct2.a params.q with
  | .error err => .error err
  | .ok a =>
    match polynomial.subtract ct1.b ct2.b params.q with
    | .error err => .error err
    | .ok b => .ok ⟨a, b⟩

/-- `scalar_multiply_rlwe(ct, scalar, params)`. -/
def scalar_multiply_rlwe (ct : RLWECiphertext) (scalar : Int) (params : Parameters) :
    RLWECiphertext :=
  ⟨polynomial.scalar_multiply ct.a scalar params.q,
    polynomial.scalar_multiply ct.b scalar params.q⟩

/-- `multiply_rlwe(ct1, ct2, params)`: the two negacyclic products. -/
def multiply_rlwe (ct1 ct2 : RLWECiphertext) (params : Parameters) :
    Except Error RLWECiphertext :=
  match polynomial.negacyclic_multiply ct1.a ct2.a params.q with
  | .error err => .error err
  | .ok a_mult =>
    match polynomial.negacyclic_multiply ct1.b ct2.b params.q with
    | .error err => .error err
    | .ok b_mult => .ok ⟨a_mult, b_mult⟩

/-! ## `keys/keys.cpp` and `schemes/glwe.cpp` -/

/-- The record `GLWEPublicKey` (`pk1 = A·S + E`, `pk2 = A`). -/
structure GLWEPublicKey where
  pk1 : List Int
  pk2 : List (List Int)
  deriving DecidableEq, Repr

/-- The record `GLWECiphertext`. -/
structure GLWECiphertext where
  b : List Int
  d_tilde : List (List Int)
  deriving DecidableEq, Repr

instance : Inhabited GLWECiphertext := ⟨⟨[], []⟩⟩

/-- The accumulation loop shared by `generate_glwe_public_key`, `decrypt_glwe` and
`decrypt_glev_level`: starting from the zero polynomial of length `n`, for
`j = 0 .. k-1`, `prod = negacyclic_multiply(xs[j], ss[j], q)` and
`acc = add(acc, prod, q)`. -/
def mul_accumulate (xs ss : List (List Int)) (k n : Nat) (q : Int) :
    Except Error (List Int) :=
  (List.range k).foldlM
    (fun acc j =>
      match polynomial.negacyclic_multiply (xs.getD j []) (ss.getD j []) q with
      | .error err => .error err
      | .ok prod => polynomial.add acc prod q)
    (List.replicate n 0)

/-- `generate_glwe_public_key(sk, params)`; `uA i j` is the draw of `uniform_dist`
for `pk2[i][j]` and `ue i` the `i`-th draw of `noise_dist`. -/
def generate_glwe_public_key (sk : List (List Int)) (params : Parameters)
    (uA : Nat → Nat → Int) (ue : Nat → Int) : Except Error GLWEPublicKey :=
  let k := sk.length
  let n := params.n
  let q := params.q
  let pk2 := (List.range k).map (fun i => (List.range n).map (fun j => uA i j))
  let e := (List.range n).map (fun i => modq (ue i) q)
  match mul_accumulate pk2 sk k n q with
  | .error err => .error err
  | .ok as =>
    match polynomial.add as e q with
    | .error err => .error err
    | .ok pk1 => .ok ⟨pk1, pk2⟩

/-- The steps of `encrypt_glwe` after the scaled message has been computed
(`glwe.cpp`, lines 35-62): sample `u`, `e1`, `e2`, then
`b = pk1·u + scaled_m + e1` and `d_tilde[i] = pk2[i]·u + e2[i]`.
`uu i` is the `i`-th draw of `binary_dist`, `ue1 i` and `ue2 i j` the draws of
`noise_dist`. -/
def glwe_encrypt_scaled (scaled_m : List Int) (pk : GLWEPublicKey) (params : Parameters)
    (uu ue1 : Nat → Int) (ue2 : Nat → Nat → Int) : Except Error GLWECiphertext :=
  let k := pk.pk2.length
  let n := params.n
  let u := (List.range n).map uu
  let e1 := (List.range n).map (fun i => modq (ue1 i) params.q)
  let e2 := (List.range k).map
    (fun i => (List.range n).map (fun j => modq (ue2 i j) params.q))
  match polynomial.negacyclic_multiply pk.pk1 u params.q with
  | .error err => .error err
  | .ok pk1u =>
    match polynomial.add pk1u scaled_m params.q with
    | .error err => .error err
    | .ok s1 =>
      match polynomial.add s1 e1 params.q with
      | .error err => .error err
      | .ok b =>
        match (List.range k).mapM
          (fun i =>
            match polynomial.negacyclic_multiply (pk.pk2.getD i []) u params.q with
            | .error err => Except.error err
            | .ok tmp => polynomial.add tmp (e2.getD i []) params.q) with
        | .error err => .error err
        | .ok d_tilde => .ok ⟨b, d_tilde⟩

/-- `encrypt_glwe(message, pk, params)`. -/
def encrypt_glwe (message : List Int) (pk : GLWEPublicKey) (params : Parameters)
    (uu ue1 : Nat → Int) (ue2 : Nat → Nat → Int) : Except Error GLWECiphertext :=
  if message.length ≠ params.n then .error .InvalidSize
  else
    let delta := params.q.tdiv params.t
    let scaled_m := polynomial.scalar_multiply message delta params.q
    glwe_encrypt_scaled scaled_m pk params uu ue1 ue2

/-- The integer rounding of `decrypt_glwe` and `decrypt_glev_level`:
`(centered + delta/2) / delta` for `centered >= 0`, `(centered - delta/2) / delta`
otherwise. -/
def round_div_int (centered delta : Int) : Int :=
  if centered ≥ 0 then (wrap64 (centered + delta.tdiv 2)).tdiv delta
  else (wrap64 (centered - delta.tdiv 2)).tdiv delta

/-- The decryption steps common to `decrypt_glwe` and `decrypt_glev_level`:
`d_times_s = Σ_j d_tilde[j]·s[j]`, `diff = b - d_times_s`, then every coefficient
is centred, divided by `delta` with rounding and reduced modulo `t` into
`[0, t)` (`modq(rounded, t)` in `decrypt_glev_level`; `decrypt_glwe` writes the
same two statements `mm = rounded % t; if (mm < 0) mm += t;` inline). -/
def glwe_decrypt_scaled (ct : GLWECiphertext) (sk : List (List Int)) (params : Parameters)
    (delta : Int) : Except Error (List Int) :=
  let k := sk.length
  let n := params.n
  match mul_accumulate ct.d_tilde sk k n params.q with
  | .error err => .error err
  | .ok d_times_s =>
    match polynomial.subtract ct.b d_times_s params.q with
    | .error err => .error err
    | .ok diff =>
      .ok ((List.range n).map
        (fun i =>
          let centered := center_rep (diff.getD i 0) params.q
          let rounded := round_div_int centered delta
          modq rounded params.t))

/-- `decrypt_glwe(ct, sk, params)`. -/
def decrypt_glwe (ct : GLWECiphertext) (sk : List (List Int)) (params : Parameters) :
    Except Error (List Int) :=
  let k := sk.length
  let n := params.n
  if ct.d_tilde.length ≠ k ∨ ct.b.length ≠ n then .error .InvalidSize
  else glwe_decrypt_scaled ct sk params (params.q.tdiv params.t)

/-! ## `schemes/glev.cpp` and `schemes/ggsw.cpp` -/

/-- The record `GLevCiphertext`. -/
structure GLevCiphertext where
  levels : List GLWECiphertext
  deriving DecidableEq, Repr

instance : Inhabited GLevCiphertext := ⟨⟨[]⟩⟩

/-- The record `GGSWCiphertext`. -/
structure GGSWCiphertext where
  glev_rows : List GLevCiphertext
  deriving DecidableEq, Repr

/-- The `int64` power `beta_pow` after `j` executions of `beta_pow *= beta`,
starting from `1`. -/
def beta_pow (beta : Int) : Nat → Int
  | 0 => 1
  | j + 1 => wrap64 (beta_pow beta j * beta)

/-- The scaling factor of a level from the current power:
`delta = q / (beta * beta_pow); if (delta == 0) delta = 1;`. The `int64` division
has no result when the divisor is `0`, nor for `INT64_MIN / -1`. -/
def glev_delta (q beta bp : Int) : Except Error Int :=
  let d := wrap64 (beta * bp)
  if d = 0 ∨ (q = -9223372036854775808 ∧ d = -1) then .error .NoResult
  else
    let delta := q.tdiv d
    .ok (if delta = 0 then 1 else delta)

/-- `encrypt_glev(message, pk, params, l, beta)` (`glev.cpp`, lines 14-75); the
draws of level `j` are `uu j`, `ue1 j`, `ue2 j`. The constructor
`GLevCiphertext(l)` allocates `l + 1` levels in `int` arithmetic: there is no
result when `l + 1` is negative or is not an `int` (`std::length_error`). The loop
runs for `j = 0 .. l`, the power of iteration `j` is `beta_pow beta j`, and an
iteration ends the call when its division fails or when a ring operation
throws. -/
def encrypt_glev (message : List Int) (pk : GLWEPublicKey) (params : Parameters)
    (l : Int) (beta : Int) (uu ue1 : Nat → Nat → Int) (ue2 : Nat → Nat → Nat → Int) :
    Except Error GLevCiphertext :=
  let k := pk.pk2.length
  let n := params.n
  if l + 1 < 0 ∨ 2147483648 ≤ l + 1 then .error .NoResult
  else
    match (List.range (l + 1).toNat).mapM
      (fun j =>
        match glev_delta params.q beta (beta_pow beta j) with
        | .error err => Except.error err
        | .ok delta_j =>
          let scaled_m := polynomial.scalar_multiply message delta_j params.q
          let u := (List.range n).map (uu j)
          let e1 := (List.range n).map (fun i => modq (ue1 j i) params.q)
          let e2 := (List.range k).map
            (fun i => (List.range n).map (fun co => modq (ue2 j i co) params.q))
          match polynomial.negacyclic_multiply pk.pk1 u params.q with
          | .error err => .error err
          | .ok pk1u =>
            match polynomial.add pk1u scaled_m params.q with
            | .error err => .error err
            | .ok b0 =>
              match polynomial.add b0 e1 params.q with
              | .error err => .error err
              | .ok b =>
                match (List.range k).mapM
                  (fun i =>
                    match polynomial.negacyclic_multiply (pk.pk2.getD i []) u params.q with
                    | .error err => Except.error err
                    | .ok tmp => polynomial.add tmp (e2.getD i []) params.q) with
                | .error err => .error err
                | .ok d_tilde => .ok (⟨b, d_tilde⟩ : GLWECiphertext)) with
    | .error err => .error err
    | .ok levels => .ok ⟨levels⟩

/-- `decrypt_glev_level(ct, sk, params, level_idx, beta)`. The index of
`ct.levels[level_idx]` is the conversion of the `int` to `size_t`; a read outside
the vector yields the empty ciphertext. The division of the scaling factor comes
before the ring operations. -/
def decrypt_glev_level (ct : GLevCiphertext) (sk : List (List Int)) (params : Parameters)
    (level_idx : Int) (beta : Int) : Except Error (List Int) :=
  if level_idx ≥ (ct.levels.length : Int) then .error .LevelOutOfRange
  else
    let ct_i := ct.levels.getD (level_idx % 18446744073709551616).toNat ⟨[], []⟩
    match glev_delta params.q beta (beta_pow beta level_idx.toNat) with
    | .error err => .error err
    | .ok delta_i => glwe_decrypt_scaled ct_i sk params delta_i

/-- The scaling factors `delta_j` computed by the loop of `encrypt_glev`, in the
order of the iterations `j = 0 .. l`, when every iteration computes one. The
state of the loop is `beta_pow_j`: `1` before the first iteration, and
`beta_pow_j *= beta` at the end of each one. -/
def encrypt_glev_deltas (q beta : Int) (l : Int) : Except Error (List Int) :=
  if l + 1 < 0 ∨ 2147483648 ≤ l + 1 then .error .NoResult
  else
    match (List.range (l + 1).toNat).foldlM
      (fun (st : List Int × Int) _ =>
        match glev_delta q beta st.2 with
        | .error err => Except.error err
        | .ok delta_j => .ok (st.1 ++ [delta_j], wrap64 (st.2 * beta)))
      (([], 1) : List Int × Int) with
    | .error err => .error err
    | .ok st => .ok st.1

/-- The scaling factor recomputed by `decrypt_glev_level`:
`beta_pow_i = 1; for (i = 0; i < level_idx; ++i) beta_pow_i *= beta;`, then
`delta_i = q / (beta * beta_pow_i)` with the clamp to 1. -/
def decrypt_glev_delta (q beta : Int) (level_idx : Int) : Except Error Int :=
  glev_delta q beta ((List.range level_idx.toNat).foldl (fun bp _ => wrap64 (bp * beta)) 1)

/-- `encrypt_ggsw(message, pk, sk, params, l, beta)`; the draws of row `i` are
`uu i`, `ue1 i`, `ue2 i` (row `k` is the final row). -/
def encrypt_ggsw (message : List Int) (pk : GLWEPublicKey) (sk : List (List Int))
    (params : Parameters) (l : Int) (beta : Int)
    (uu ue1 : Nat → Nat → Nat → Int) (ue2 : Nat → Nat → Nat → Nat → Int) :
    Except Error GGSWCiphertext :=
  let k := sk.length
  match (List.range k).mapM
    (fun i =>
      match polynomial.negacyclic_multiply (sk.getD i []) message params.q with
      | .error err => Except.error err
      | .ok si_m =>
        let neg_si_m := polynomial.negate si_m params.q
        encrypt_glev neg_si_m pk params l beta (uu i) (ue1 i) (ue2 i)) with
  | .error err => .error err
  | .ok rows =>
    match encrypt_glev message pk params l beta (uu k) (ue1 k) (ue2 k) with
    | .error err => .error err
    | .ok last => .ok ⟨rows ++ [last]⟩

/-- `decrypt_ggsw(ct, sk, params, level_idx, beta)`: the chosen level of the last
row (`glev_rows.back()`; the empty GLev when there is no row). -/
def decrypt_ggsw (ct : GGSWCiphertext) (sk : List (List Int)) (params : Parameters)
    (level_idx : Int) (beta : Int) : Except Error (List Int) :=
  let final_glev_row := ct.glev_rows.getLastD ⟨[]⟩
  decrypt_glev_level final_glev_row sk params level_idx beta

/-! ## `operations/homomorphic.cpp` (GLWE) -/

/-- `add_glwe(ct1, ct2, params)`. -/
def add_glwe (ct1 ct2 : GLWECiphertext) (params : Parameters) : Except Error GLWECiphertext :=
  if ct1.d_tilde.length ≠ ct2.d_tilde.length then .error .InvalidSize
  else
    let k := ct1.d_tilde.length
    match polynomial.add ct1.b ct2.b params.q with
    | .error err => .error err
    | .ok b =>
      match (List.range k).mapM
        (fun i => polynomial.add (ct1.d_tilde.getD i []) (ct2.d_tilde.getD i []) params.q) with
      | .error err => .error err
      | .ok d_tilde => .ok ⟨b, d_tilde⟩

/-- `subtract_glwe(ct1, ct2, params)`. -/
def subtract_glwe (ct1 ct2 : GLWECiphertext) (params : Parameters) :
    Except Error GLWECiphertext :=
  if ct1.d_tilde.length ≠ ct2.d_tilde.length then .error .InvalidSize
  else
    let k := ct1.d_tilde.length
    match polynomial.subtract ct1.b ct2.b params.q with
    | .error err => .error err
    | .ok b =>
      match (List.range k).mapM
        (fun i =>
          polynomial.subtract (ct1.d_tilde.getD i []) (ct2.d_tilde.getD i []) params.q) with
      | .error err => .error err
      | .ok d_tilde => .ok ⟨b, d_tilde⟩

/-- `scalar_multiply_glwe(ct, scalar, params)`. -/
def scalar_multiply_glwe (ct : GLWECiphertext) (scalar : Int) (params : Parameters) :
    GLWECiphertext :=
  ⟨polynomial.scalar_multiply ct.b scalar params.q,
    (List.range ct.d_tilde.length).map
      (fun i => polynomial.scalar_multiply (ct.d_tilde.getD i []) scalar params.q)⟩

/-! ## `operations/homomorphic.cpp` (decomposition) -/

/-- `decompose(value, base, levels)`: a vector of `levels` entries (zero-initialised);
for `i = 0 .. levels-1`, `result[i] = value % base; value /= base;`. -/
def decompose (value base : Int) (levels : Int) : List Int :=
  ((List.range levels.toNat).foldl
    (fun (st : List Int × Int) i =>
      (st.1.set i (st.2.tmod base), wrap64 (st.2.tdiv base)))
    (List.replicate levels.toNat 0, value)).1

/-! ## `math/bigint.cpp` -/

/-- Reduction to 64 bits of an unsigned value (`uint64_t` arithmetic). -/
def wrapU64 (x : Nat) : Nat := x % 18446744073709551616

/-- The class `BigInt`: the vector of `uint64_t` digits, least significant first,
and the sign flag. -/
structure BigInt where
  digits : List Nat
  negative : Bool
  deriving DecidableEq, Repr

/-- Outcomes of a `BigInt` operation other than a value: the exception of a
division by zero, and a call that does not return (a loop that is still running
when the fuel of the model is spent, or an unbounded recursion). -/
inductive BigIntError where
  | DivisionByZero
  | NoResult
  deriving DecidableEq, Repr

namespace BigInt

/-- The loop `while (digits.size() > 1 && digits.back() == 0) digits.pop_back();`
on the digits listed from the most significant one. -/
def popZeros : List Nat → List Nat
  | [] => []
  | [x] => [x]
  | x :: y :: rest => if x = 0 then popZeros (y :: rest) else x :: y :: rest

/-- `void BigInt::removeLeadingZeros()`. -/
def removeLeadingZeros (b : BigInt) : BigInt :=
  let ds := (popZeros b.digits.reverse).reverse
  ⟨ds, if ds = [0] then false else b.negative⟩

/-- `BigInt::BigInt(int64_t value)`. -/
def ofInt64 (value : Int) : BigInt :=
  let absValue := ((if value < 0 then -value else value) % 18446744073709551616).toNat
  ⟨if absValue = 0 then [0] else [absValue], decide (value < 0)⟩

/-- `BigInt::BigInt(const std::vector<uint64_t>& digits, bool neg)`. -/
def ofDigits (digits : List Nat) (neg : Bool) : BigInt :=
  removeLeadingZeros ⟨digits, neg⟩

/-- `bool BigInt::isZero() const`: `digits.size() == 1 && digits[0] == 0`. -/
def isZero (b : BigInt) : Bool := decide (b.digits = [0])

/-- The comparison loop of `operator<`, from the most significant digit. -/
def ltLoop (neg : Bool) : List Nat → List Nat → Bool
  | x :: xs, y :: ys =>
    if x ≠ y then (if neg then decide (x > y) else decide (x < y)) else ltLoop neg xs ys
  | _, _ => false

/-- `bool BigInt::operator<(const BigInt& other) const`. -/
def lt (a b : BigInt) : Bool :=
  if a.negative ≠ b.negative then a.negative && !b.negative
  else if a.digits.length ≠ b.digits.length then
    (if a.negative then decide (a.digits.length > b.digits.length)
      else decide (a.digits.length < b.digits.length))
  else ltLoop a.negative a.digits.reverse b.digits.reverse

/-- `operator>`: `other < *this`. -/
def gt (a b : BigInt) : Bool := lt b a

/-- `operator>=`: `!(*this < other)`. -/
def ge (a b : BigInt) : Bool := !(lt a b)

/-- Unary `operator-`. -/
def neg (b : BigInt) : BigInt :=
  if isZero b then b else ofDigits b.digits (!b.negative)

/-- The loop of `operator+`: `for (i = 0; i < maxSize || carry; ++i)`; a digit read
past the end of a vector is `0`. -/
def addLoop (x y : List Nat) : Nat → Nat → Nat → List Nat → Except BigIntError (List Nat)
  | 0, _, _, _ => .error .NoResult
  | fuel + 1, i, carry, result =>
    if i < max x.length y.length ∨ carry ≠ 0 then
      let sum := carry
      let sum := if i < x.length then wrapU64 (sum + x.getD i 0) else sum
      let sum := if i < y.length then wrapU64 (sum + y.getD i 0) else sum
      let carry := if sum < x.getD i 0 ∨ sum < y.getD i 0 then 1 else 0
      addLoop x y fuel (i + 1) carry (result ++ [sum])
    else .ok result

/-- The loop of `operator-` (`BASE = UINT64_MAX`). -/
def subLoop (x y : List Nat) : List Nat :=
  ((List.range x.length).foldl
    (fun (st : List Nat × Nat) i =>
      let sub := st.2
      let sub := if i < y.length then wrapU64 (sub + y.getD i 0) else sub
      if x.getD i 0 ≥ sub then (st.1 ++ [x.getD i 0 - sub], 0)
      else
        (st.1 ++ [wrapU64 (wrapU64 (x.getD i 0 + (18446744073709551615 - sub)) + 1)], 1))
    ([], 0)).1

/-- `operator+` (`isSub = false`) and `operator-` (`isSub = true`), which call each
other; `fuel` bounds the depth of the calls. -/
def addSub : Nat → Bool → BigInt → BigInt → Except BigIntError BigInt
  | 0, _, _, _ => .error .NoResult
  | fuel + 1, false, a, b =>
    if a.negative ≠ b.negative then
      if a.negative then addSub fuel true b (ofDigits a.digits false)
      else addSub fuel true a (ofDigits b.digits false)
    else
      match addLoop a.digits b.digits (fuel + 1) 0 0 [] with
      | .error err => .error err
      | .ok result => .ok (ofDigits result a.negative)
  | fuel + 1, true, a, b =>
    if a.negative ≠ b.negative then addSub fuel false a (ofDigits b.digits (!b.negative))
    else if (!a.negative && lt a b) || (a.negative && gt a b) then
      match addSub fuel true b a with
      | .error err => .error err
      | .ok r => .ok (neg r)
    else .ok (ofDigits (subLoop a.digits b.digits) a.negative)

/-- `operator+`. -/
def add (fuel : Nat) (a b : BigInt) : Except BigIntError BigInt := addSub fuel false a b

/-- `operator-`. -/
def sub (fuel : Nat) (a b : BigInt) : Except BigIntError BigInt := addSub fuel true a b

/-- The inner loop of `operator*` for the digit `x = digits[i]`:
`for (j = 0; j < other.digits.size() || carry; ++j)`. The product
`digits[i] * other.digits[j]` is a `uint64_t` product, and the carry is computed
after `result[i + j] = prod`. -/
def mulInner (x : Nat) (y : List Nat) (i : Nat) :
    Nat → Nat → Nat → List Nat → Except BigIntError (List Nat)
  | 0, _, _, _ => .error .NoResult
  | fuel + 1, j, carry, result =>
    if j < y.length ∨ carry ≠ 0 then
      let prod := wrapU64 (result.getD (i + j) 0 + carry)
      let prod := if j < y.length then wrapU64 (prod + wrapU64 (x * y.getD j 0)) else prod
      let result := result.set (i + j) prod
      let carry := if prod < result.getD (i + j) 0 then 1 else 0
      mulInner x y i fuel (j + 1) carry result
    else .ok result

/-- `operator*`. With more than ten digits on both sides the source calls
`multiplyKaratsuba`, which calls `operator*` on the same operands: that call does
not return. -/
def mul (fuel : Nat) (a b : BigInt) : Except BigIntError BigInt :=
  if isZero a || isZero b then .ok (ofInt64 0)
  else if a.digits.length > 10 ∧ b.digits.length > 10 then .error .NoResult
  else
    match (List.range a.digits.length).foldlM
      (fun result i => mulInner (a.digits.getD i 0) b.digits i fuel 0 0 result)
      (List.replicate (a.digits.length + b.digits.length) 0) with
    | .error err => .error err
    | .ok result => .ok (ofDigits result (a.negative != b.negative))

/-- `operator<<=`: `shift` multiplications by `BigInt(2)`. -/
def shlAssign (fuel : Nat) (a : BigInt) (shift : Nat) : Except BigIntError BigInt :=
  if isZero a || shift = 0 then .ok a
  else (List.range shift).foldlM (fun cur _ => mul fuel cur (ofInt64 2)) a

/-- `operator<<`. -/
def shl (fuel : Nat) (a : BigInt) (shift : Nat) : Except BigIntError BigInt :=
  if isZero a || shift = 0 then .ok a else shlAssign fuel a shift

/-- The inner loop of `operator/`:
`while (dividend >= (temp << 1)) { temp <<= 1; count <<= 1; }`. -/
def divInner (ops : Nat) (dividend : BigInt) :
    Nat → BigInt → BigInt → Except BigIntError (BigInt × BigInt)
  | 0, _, _ => .error .NoResult
  | fuel + 1, temp, count =>
    match shl ops temp 1 with
    | .error err => .error err
    | .ok t2 =>
      if ge dividend t2 then
        match shlAssign ops temp 1 with
        | .error err => .error err
        | .ok temp1 =>
          match shlAssign ops count 1 with
          | .error err => .error err
          | .ok count1 => divInner ops dividend fuel temp1 count1
      else .ok (temp, count)

/-- The outer loop of `operator/`: `while (dividend >= divisor) { ...;
dividend -= temp; quotient += count; }`. -/
def divOuter (ops : Nat) (divisor : BigInt) :
    Nat → BigInt → BigInt → Except BigIntError BigInt
  | 0, _, _ => .error .NoResult
  | fuel + 1, dividend, quotient =>
    if ge dividend divisor then
      match divInner ops dividend (fuel + 1) divisor (ofInt64 1) with
      | .error err => .error err
      | .ok (temp, count) =>
        match sub ops dividend temp with
        | .error err => .error err
        | .ok dividend1 =>
          match add ops quotient count with
          | .error err => .error err
          | .ok quotient1 => divOuter ops divisor fuel dividend1 quotient1
    else .ok quotient

/-- `operator/`. -/
def div (fuel : Nat) (a b : BigInt) : Except BigIntError BigInt :=
  if isZero b then .error .DivisionByZero
  else if isZero a then .ok (ofInt64 0)
  else
    let dividend : BigInt := ⟨a.digits, false⟩
    let divisor : BigInt := ⟨b.digits, false⟩
    let resultNegative := a.negative != b.negative
    if lt dividend divisor then .ok (ofInt64 0)
    else
      match divOuter fuel divisor fuel dividend (ofInt64 0) with
      | .error err => .error err
      | .ok quotient => .ok (removeLeadingZeros ⟨quotient.digits, resultNegative⟩)

end BigInt

/-! ## `math/ntt.cpp` -/

/-- Reduction to 128 bits of an unsigned value (`__uint128_t` arithmetic). -/
def wrapU128 (x : Nat) : Nat := x % 340282366920938463463374607431768211456

/-- The exceptions of the class `NTT` (`std::invalid_argument`), and a call that
does not return. -/
inductive NTTError where
  | InvalidArgument
  | NoResult
  deriving DecidableEq, Repr

/-- The data members of the class `NTT`. -/
structure NTT where
  modulus : Nat
  rootOfUnity : Nat
  roots : List Nat
  invRoots : List Nat
  deriving DecidableEq, Repr

namespace NTT

/-- The loop of `isPrime`: `for (i = 5; i * i <= n; i += 6)`, with `fuel`
iterations allowed. -/
def isPrimeLoop (n : Nat) : Nat → Nat → Except NTTError Bool
  | 0, i => if wrapU64 (i * i) ≤ n then .error .NoResult else .ok true
  | fuel + 1, i =>
    if wrapU64 (i * i) ≤ n then
      if n % i = 0 ∨ n % wrapU64 (i + 2) = 0 then .ok false
      else isPrimeLoop n fuel (wrapU64 (i + 6))
    else .ok true

/-- `static bool NTT::isPrime(uint64_t n)`; the loop runs at most `n` times. -/
def isPrime (n : Nat) : Except NTTError Bool :=
  if n < 2 then .ok false
  else if n = 2 ∨ n = 3 then .ok true
  else if n % 2 = 0 ∨ n % 3 = 0 then .ok false
  else isPrimeLoop n n 5

/-- The loop of `modPow`: `while (exp > 0) { if (exp & 1) result = (u128(result) *
base) % mod; base = (u128(base) * base) % mod; exp >>= 1; }`. A 64-bit `exp` is
zero after 64 shifts, where the loop ends with `result`. -/
def modPowLoop (mod : Nat) : Nat → Nat → Nat → Nat → Nat
  | 0, result, _, _ => result
  | fuel + 1, result, base, exp =>
    if exp > 0 then
      modPowLoop mod fuel
        (if exp &&& 1 ≠ 0 then wrapU128 (result * base) % mod else result)
        (wrapU128 (base * base) % mod) (exp >>> 1)
    else result

/-- `uint64_t NTT::modPow(uint64_t base, uint64_t exp, uint64_t mod) const`. -/
def modPow (base exp mod : Nat) : Nat := modPowLoop mod 64 1 (base % mod) exp

/-- `uint64_t NTT::modInverse(uint64_t a, uint64_t mod) const`. -/
def modInverse (a mod : Nat) : Nat := modPow a (wrapU64 (mod + 18446744073709551616 - 2)) mod

/-- The loop `while (temp % 2 == 0) { maxN *= 2; temp /= 2; }` of the constructor,
on the pair `(maxN, temp)`. A non-zero 64-bit `temp` is odd after at most 64
halvings (`temp = 0` needs `modulus = 1`, which `isPrime` rejects). -/
def maxNLoop : Nat → Nat → Nat → Nat × Nat
  | 0, maxN, temp => (maxN, temp)
  | fuel + 1, maxN, temp =>
    if temp % 2 = 0 then maxNLoop fuel (wrapU64 (maxN * 2)) (temp / 2) else (maxN, temp)

/-- The table loop of the constructor: `tab[0] = 1` and
`tab[i] = (tab[i - 1] * r) % modulus` for `i = 1 .. maxN-1`, the product in
`uint64_t`. -/
def fillTable (modulus r maxN : Nat) : List Nat :=
  (List.range (maxN - 1)).foldl
    (fun tab idx =>
      let i := idx + 1
      tab.set i (wrapU64 (tab.getD (i - 1) 0 * r) % modulus))
    ((List.replicate maxN 0).set 0 1)

/-- `NTT::NTT(uint64_t modulus, uint64_t primitiveRoot)`. -/
def create (modulus primitiveRoot : Nat) : Except NTTError NTT :=
  match isPrime modulus with
  | .error err => .error err
  | .ok false => .error .InvalidArgument
  | .ok true =>
    let maxN := (maxNLoop 64 1 (modulus - 1)).1
    let root := modPow primitiveRoot ((modulus - 1) / maxN) modulus
    let invRoot := modInverse root modulus
    .ok ⟨modulus, primitiveRoot, fillTable modulus root maxN, fillTable modulus invRoot maxN⟩

/-- The inner loop of the bit reversal, `for (; j & bit; bit >>= 1) j ^= bit;`,
followed by `j ^= bit`. A 64-bit `bit` is zero after 64 shifts, where the loop
ends. -/
def revCarry : Nat → Nat → Nat → Nat
  | 0, j, bit => j ^^^ bit
  | fuel + 1, j, bit =>
    if j &&& bit ≠ 0 then revCarry fuel (j ^^^ bit) (bit >>> 1) else j ^^^ bit

/-- `std::swap(data[i], data[j])`. -/
def swap (data : List Nat) (i j : Nat) : List Nat :=
  (data.set i (data.getD j 0)).set j (data.getD i 0)

/-- The bit reversal loop of `forward` and `inverse`:
`for (i = 1, j = 0; i < n; ++i) { ...; if (i < j) swap(data[i], data[j]); }`. -/
def bitReverse (data : List Nat) : List Nat :=
  ((List.range (data.length - 1)).foldl
    (fun (st : Nat × List Nat) idx =>
      let i := idx + 1
      let j := revCarry 64 st.1 (data.length >>> 1)
      (j, if i < j then swap st.2 i j else st.2))
    (0, data)).2

/-- One butterfly of `forward` / `inverse` on the table `tab` (`roots` or
`invRoots`): the product is a 128-bit product, the sum and the difference are
`uint64_t` operations. -/
def butterfly (modulus : Nat) (tab : List Nat) (step len i : Nat) (data : List Nat)
    (j : Nat) : List Nat :=
  let u := data.getD (i + j) 0
  let v := wrapU128 (data.getD (i + j + len / 2) 0 * tab.getD (step * j) 0) % modulus
  let data := data.set (i + j) (wrapU64 (u + v) % modulus)
  data.set (i + j + len / 2)
    (wrapU64 (wrapU64 (u + 18446744073709551616 - v) + modulus) % modulus)

/-- The two inner loops for one value of `len`:
`for (i = 0; i < n; i += len) for (j = 0; j < len / 2; ++j) { ... }`. -/
def stage (modulus : Nat) (tab : List Nat) (len : Nat) (data : List Nat) : List Nat :=
  let step := tab.length / len
  (List.range ((data.length + len - 1) / len)).foldl
    (fun data b =>
      (List.range (len / 2)).foldl (fun data j => butterfly modulus tab step len (b * len) data j)
        data)
    data

/-- The loop `for (len = 2; len <= n; len <<= 1)`, with `fuel` iterations
allowed. -/
def stages (modulus : Nat) (tab : List Nat) : Nat → Nat → List Nat → Except NTTError (List Nat)
  | 0, len, data => if len ≤ data.length then .error .NoResult else .ok data
  | fuel + 1, len, data =>
    if len ≤ data.length then stages modulus tab fuel (wrapU64 (len * 2)) (stage modulus tab len data)
    else .ok data

/-- The part common to `forward` and `inverse`: the size check, the bit reversal
and the butterflies on the table `tab`. -/
def transform (modulus : Nat) (tab : List Nat) (data : List Nat) :
    Except NTTError (List Nat) :=
  let n := data.length
  if n = 1 ∨ n &&& wrapU64 (n + 18446744073709551616 - 1) ≠ 0 then .error .InvalidArgument
  else stages modulus tab 64 2 (bitReverse data)

/-- `void NTT::forward(std::vector<uint64_t>& data) const`; the result is the
vector after the call. -/
def forward (ntt : NTT) (data : List Nat) : Except NTTError (List Nat) :=
  transform ntt.modulus ntt.roots data

/-- `void NTT::inverse(std::vector<uint64_t>& data) const`. -/
def inverse (ntt : NTT) (data : List Nat) : Except NTTError (List Nat) :=
  match transform ntt.modulus ntt.invRoots data with
  | .error err => .error err
  | .ok d =>
    let invN := modInverse data.length ntt.modulus
    .ok (d.map (fun x => wrapU128 (x * invN) % ntt.modulus))

/-- `size_t getMaxLength() const { return roots.size(); }`. -/
def getMaxLength (ntt : NTT) : Nat := ntt.roots.length

end NTT

/-! ## Reference functions used in the statements -/

/-- Exact rounding of the rational `c / d` (`d > 0`) to the nearest integer,
halfway cases away from zero. -/
def roundHalfAway (c d : Int) : Int :=
  if c < 0 then -((2 * (-c) + d) / (2 * d)) else (2 * c + d) / (2 * d)

/-- The exact inner product `Σ_{i < len} a_i * b_i`. -/
def dotZ (a b : List Int) (len : Nat) : Int :=
  ((List.range len).map (fun i => a.getD i 0 * b.getD i 0)).sum

/-- The sum `Σ a_i * b_j` over the pairs `i, j < n` with `i + j = k`. -/
def convSum (a b : List Int) (n k : Nat) : Int :=
  ((List.range n).map (fun i =>
    ((List.range n).map (fun j =>
      if i + j = k then a.getD i 0 * b.getD j 0 else 0)).sum)).sum

/-- The `k`-th coefficient of the negacyclic convolution of two polynomials of
length `n`: `Σ_{i+j=k} a_i b_j − Σ_{i+j=k+n} a_i b_j`. -/
def negacyclicCoeff (a b : List Int) (n k : Nat) : Int :=
  convSum a b n k - convSum a b n (k + n)

/-- The signed contribution of the pair `i, j` to coefficient `k` in the loops
of `negacyclic_multiply`. -/
def nmContrib (a b : List Int) (n i j k : Nat) : Int :=
  if j + i = k then a.getD i 0 * b.getD j 0
  else if j + i = k + n then -(a.getD i 0 * b.getD j 0)
  else 0

/-- Loop invariant of `negacyclic_multiply`: the accumulator has length `n` and
entry `k` is a residue in `(-q, q)` congruent to `P k`. -/
def NMInv (q : Int) (n : Nat) (res : List Int) (P : Nat → Int) : Prop :=
  res.length = n ∧ ∀ k, k < n →
    (-q < res.getD k 0 ∧ res.getD k 0 < q) ∧ res.getD k 0 ≡ P k [ZMOD q]

/-- The convolution sum of two coefficient functions: `Σ f i * g j` over
`i, j < n` with `i + j = k`. -/
def convSumF (f g : Nat → Int) (n k : Nat) : Int :=
  ((List.range n).map (fun i =>
    ((List.range n).map (fun j => if i + j = k then f i * g j else 0)).sum)).sum

/-- The negacyclic convolution of two coefficient functions (the product in
`Z[X]/(X^n + 1)`). -/
def ncF (f g : Nat → Int) (n k : Nat) : Int :=
  convSumF f g n k - convSumF f g n (k + n)

/-- A reduced polynomial: length `n` and coefficients in `[0, q)`. -/
def Reduced (q : Int) (n : Nat) (x : List Int) : Prop :=
  x.length = n ∧ ∀ v ∈ x, 0 ≤ v ∧ v < q

/-- A polynomial of length `n` with `int64` coefficients. -/
def IsPoly (n : Nat) (x : List Int) : Prop :=
  x.length = n ∧ ∀ v ∈ x, isInt64 v

/-- The monomial `X^j` as a polynomial of length `n`: a single `1` at index `j`
(the polynomial `1` is `xpow n 0`). -/
def xpow (n j : Nat) : List Int :=
  (List.range n).map (fun i => if i = j then 1 else 0)

instance (q : Int) (n : Nat) (x : List Int) : Decidable (Reduced q n x) := by
  unfold Reduced; infer_instance

instance (n : Nat) (x : List Int) : Decidable (IsPoly n x) := by
  unfold IsPoly; infer_instance

/-- The reversal of the `m` low bits of `b`. -/
def bitRev : Nat → Nat → Nat
  | 0, _ => 0
  | m + 1, b => (b % 2) * 2 ^ m + bitRev m (b / 2)

/-- A primitive root modulo `p`: a unit whose powers `g^k`, `0 < k < p - 1`, differ
from `1`. -/
def IsPrimitiveRootMod (p g : Nat) : Prop :=
  g % p ≠ 0 ∧ ∀ k, k < p - 1 → 0 < k → g ^ k % p ≠ 1

instance (p g : Nat) : Decidable (IsPrimitiveRootMod p g) := by
  unfold IsPrimitiveRootMod; infer_instance

/-- The bilinear form `Σ_t j_t · k_(s-1-t)` of the `s` low bits of `j` and the
reversed `s` low bits of `k`. -/
def walshBit : Nat → Nat → Nat → Nat
  | 0, _, _ => 0
  | s + 1, j, k => walshBit s (j / 2) (k % 2 ^ s) + (j % 2) * (k / 2 ^ s % 2)

/-! ## Binary64 rounding: error bound and exactness -/

namespace Dbl

theorem log2Fuel_spec (fuel : Nat) : ∀ n : Nat, 1 ≤ n → n ≤ fuel →
    2 ^ log2Fuel fuel n ≤ n ∧ n < 2 ^ (log2Fuel fuel n + 1) := by
  induction fuel with
  | zero => intro n h1 h2; omega
  | succ f ih =>
    intro n h1 h2
    unfold log2Fuel
    by_cases h : n < 2
    · simp only [h, if_true]; omega
    · simp only [h, if_false]
      have := ih (n / 2) (by omega) (by omega)
      obtain ⟨l, u⟩ := this
      constructor
      · rw [pow_succ]; omega
      · rw [pow_succ]; omega

theorem floorLog2_spec (n : Nat) (h : 1 ≤ n) :
    2 ^ floorLog2 n ≤ n ∧ n < 2 ^ (floorLog2 n + 1) :=
  log2Fuel_spec n n h le_rfl

theorem rteDiv_bounds (a b : Nat) (hb : 0 < b) :
    2 * (b * rteDiv a b) ≤ 2 * a + b ∧ 2 * a ≤ 2 * (b * rteDiv a b) + b := by
  have h1 := Nat.div_add_mod a b
  have h2 := Nat.mod_lt a hb
  unfold rteDiv
  simp only
  split_ifs <;> (try simp only [Nat.mul_add, Nat.mul_one]) <;> omega

theorem rteDiv_exact (a b z : Nat) (hb : 0 < b) (h : a = z * b) : rteDiv a b = z := by
  subst h
  unfold rteDiv
  simp [Nat.mul_div_cancel _ hb, hb]

theorem two_zpow_split (k : Int) :
    (2 : ℚ) ^ k = (2 : ℚ) ^ k.toNat / (2 : ℚ) ^ (-k).toNat := by
  rcases le_total 0 k with h | h
  · obtain ⟨n, rfl⟩ := Int.eq_ofNat_of_zero_le h
    simp
  · obtain ⟨n, rfl⟩ := Int.exists_eq_neg_ofNat h
    simp [zpow_neg]

theorem ulpExp_magnitude (p q : Nat) (s : Int) (hp : 0 < p) (hq : 0 < q) :
    ulpExp p q s = -1074 ∨
      (2 : ℚ) ^ (ulpExp p q s + 52) ≤ (p : ℚ) / q * (2 : ℚ) ^ s := by
  have hpQ : (0 : ℚ) < p := by exact_mod_cast hp
  have hqQ : (0 : ℚ) < q := by exact_mod_cast hq
  obtain ⟨hlp, -⟩ := floorLog2_spec p hp
  obtain ⟨-, hlq⟩ := floorLog2_spec q hq
  have hlpQ : (2 : ℚ) ^ (floorLog2 p) ≤ p := by exact_mod_cast hlp
  have hlqQ : (q : ℚ) ≤ (2 : ℚ) ^ (floorLog2 q + 1) := by exact_mod_cast hlq.le
  set L : Int := (floorLog2 p : Int) - (floorLog2 q : Int) with hL
  set E : Int := if q * 2 ^ L.toNat ≤ p * 2 ^ (-L).toNat then L else L - 1 with hE
  have hEb : (2 : ℚ) ^ E ≤ (p : ℚ) / q := by
    by_cases hc : q * 2 ^ L.toNat ≤ p * 2 ^ (-L).toNat
    · have hcQ : (q : ℚ) * 2 ^ L.toNat ≤ (p : ℚ) * 2 ^ (-L).toNat := by exact_mod_cast hc
      rw [hE, if_pos hc, two_zpow_split L, div_le_div_iff₀ (by positivity) hqQ]
      linarith
    · rw [hE, if_neg hc]
      have : (2 : ℚ) ^ (L - 1) = (2 : ℚ) ^ (floorLog2 p) / (2 : ℚ) ^ (floorLog2 q + 1) := by
        rw [hL, show ((floorLog2 p : Int) - (floorLog2 q : Int) - 1)
          = (floorLog2 p : Int) - ((floorLog2 q + 1 : Nat) : Int) by push_cast; ring]
        rw [zpow_sub₀ (by norm_num), zpow_natCast, zpow_natCast]
      rw [this]
      exact div_le_div₀ hpQ.le hlpQ hqQ hlqQ
  have hu : ulpExp p q s = max (E + s - 52) (-1074) := rfl
  rcases le_total (E + s - 52) (-1074) with h | h
  · left; rw [hu, max_eq_right h]
  · right
    rw [hu, max_eq_left h, show E + s - 52 + 52 = E + s by ring, zpow_add₀ (by norm_num)]
    exact mul_le_mul_of_nonneg_right hEb (by positivity)

theorem round_scaled (p q : Nat) (s : Int) (hq : 0 < q) :
    ((p * 2 ^ (s - ulpExp p q s).toNat : Nat) : ℚ) / ((q * 2 ^ (-(s - ulpExp p q s)).toNat : Nat) : ℚ)
      * (2 : ℚ) ^ ulpExp p q s = (p : ℚ) / q * (2 : ℚ) ^ s := by
  have hqQ : (q : ℚ) ≠ 0 := by exact_mod_cast hq.ne'
  have h2 := two_zpow_split (s - ulpExp p q s)
  have h3 : (2 : ℚ) ^ s = (2 : ℚ) ^ (s - ulpExp p q s) * (2 : ℚ) ^ ulpExp p q s := by
    rw [← zpow_add₀ (by norm_num)]; congr 1; ring
  rw [h3, h2]
  push_cast
  field_simp
  ring

theorem round_error (p q : Nat) (s : Int) (hp : 0 < p) (hq : 0 < q) :
    |pval (round p q s) - (p : ℚ) / q * (2 : ℚ) ^ s| ≤ (2 : ℚ) ^ ulpExp p q s / 2 := by
  have hsc := round_scaled p q s hq
  unfold round pval
  rw [if_neg (by omega)]
  simp only
  set e := ulpExp p q s
  set A := p * 2 ^ (s - e).toNat
  set B := q * 2 ^ (-(s - e)).toNat
  have hB : 0 < B := Nat.mul_pos hq (by positivity)
  have hBQ : (0 : ℚ) < B := by exact_mod_cast hB
  obtain ⟨b1, b2⟩ := rteDiv_bounds A B hB
  have b1Q : (2 : ℚ) * (B * rteDiv A B) ≤ 2 * A + B := by exact_mod_cast b1
  have b2Q : (2 : ℚ) * A ≤ 2 * (B * rteDiv A B) + B := by exact_mod_cast b2
  rw [← hsc, ← sub_mul, abs_mul, abs_of_pos (show (0 : ℚ) < 2 ^ e by positivity)]
  have key : |(rteDiv A B : ℚ) - (A : ℚ) / B| ≤ 1 / 2 := by
    have hA : (A : ℚ) = (A : ℚ) / B * B := by field_simp
    rw [hA] at b1Q b2Q
    generalize (A : ℚ) / B = r at b1Q b2Q ⊢
    rw [abs_le]
    constructor
    · by_contra hcon
      push_neg at hcon
      nlinarith [mul_pos hBQ (show (0 : ℚ) < -(1 / 2) - (↑(rteDiv A B) - r) by linarith)]
    · by_contra hcon
      push_neg at hcon
      nlinarith [mul_pos hBQ (show (0 : ℚ) < (↑(rteDiv A B) - r) - 1 / 2 by linarith)]
  calc |(rteDiv A B : ℚ) - (A : ℚ) / B| * (2 : ℚ) ^ e
      ≤ 1 / 2 * (2 : ℚ) ^ e := mul_le_mul_of_nonneg_right key (by positivity)
    _ = (2 : ℚ) ^ e / 2 := by ring

theorem round_exact (p q : Nat) (s : Int) (z : Nat) (hp : 0 < p) (hq : 0 < q)
    (h : (p : ℚ) / q * (2 : ℚ) ^ s = z * (2 : ℚ) ^ ulpExp p q s) :
    pval (round p q s) = (p : ℚ) / q * (2 : ℚ) ^ s := by
  have hsc := round_scaled p q s hq
  unfold round pval
  rw [if_neg (by omega)]
  simp only
  set e := ulpExp p q s
  set A := p * 2 ^ (s - e).toNat
  set B := q * 2 ^ (-(s - e)).toNat
  have hB : 0 < B := Nat.mul_pos hq (by positivity)
  have hBQ : (0 : ℚ) < B := by exact_mod_cast hB
  rw [← hsc] at h
  have h' : (A : ℚ) / B = z := mul_right_cancel₀ (by positivity) h
  have hz : A = z * B := by
    rw [div_eq_iff hBQ.ne'] at h'
    exact_mod_cast h'
  rw [rteDiv_exact A B z hB hz, ← hsc, h']

end Dbl

namespace Dbl

theorem llroundMag_unique (m : Nat) (e : Int) (N : Nat)
    (h1 : (N : ℚ) ≤ pval (m, e) + 1 / 2) (h2 : pval (m, e) + 1 / 2 < N + 1) :
    llroundMag m e = N := by
  unfold pval at h1 h2
  simp only at h1 h2
  unfold llroundMag
  rcases le_or_lt 0 e with h | h
  · rw [if_pos h]
    obtain ⟨n, rfl⟩ := Int.eq_ofNat_of_zero_le h
    simp only [Int.toNat_ofNat, zpow_natCast] at h1 h2 ⊢
    have h1' : (2 * N : ℚ) ≤ ((2 * (m * 2 ^ n) + 1 : Nat) : ℚ) := by push_cast; linarith
    have h2' : ((2 * (m * 2 ^ n) + 1 : Nat) : ℚ) < ((2 * N + 2 : Nat) : ℚ) := by
      push_cast; linarith
    have h1'' : 2 * N ≤ 2 * (m * 2 ^ n) + 1 := by exact_mod_cast h1'
    have h2'' : 2 * (m * 2 ^ n) + 1 < 2 * N + 2 := by exact_mod_cast h2'
    omega
  · rw [if_neg (by omega)]
    obtain ⟨n, rfl⟩ := Int.exists_eq_neg_ofNat h.le
    simp only [neg_neg, Int.toNat_ofNat, zpow_neg, zpow_natCast] at h1 h2 ⊢
    have hT : (0 : ℚ) < 2 ^ n := by positivity
    have e1 : (m : ℚ) * ((2 : ℚ) ^ n)⁻¹ = m / 2 ^ n := by rw [div_eq_mul_inv]
    rw [e1] at h1 h2
    have h1' : ((N * (2 * 2 ^ n) : Nat) : ℚ) ≤ ((2 * m + 2 ^ n : Nat) : ℚ) := by
      push_cast
      have := mul_le_mul_of_nonneg_right h1 (show (0 : ℚ) ≤ 2 * 2 ^ n by positivity)
      calc (N : ℚ) * (2 * 2 ^ n) ≤ ((m : ℚ) / 2 ^ n + 1 / 2) * (2 * 2 ^ n) := this
        _ = 2 * m + 2 ^ n := by field_simp; ring
    have h2' : ((2 * m + 2 ^ n : Nat) : ℚ) < (((N + 1) * (2 * 2 ^ n) : Nat) : ℚ) := by
      push_cast
      have := mul_lt_mul_of_pos_right h2 (show (0 : ℚ) < 2 * 2 ^ n by positivity)
      calc (2 : ℚ) * m + 2 ^ n = ((m : ℚ) / 2 ^ n + 1 / 2) * (2 * 2 ^ n) := by field_simp; ring
        _ < ((N : ℚ) + 1) * (2 * 2 ^ n) := this
    have h1'' : N * (2 * 2 ^ n) ≤ 2 * m + 2 ^ n := by exact_mod_cast h1'
    have h2'' : 2 * m + 2 ^ n < (N + 1) * (2 * 2 ^ n) := by exact_mod_cast h2'
    exact Nat.div_eq_of_lt_le h1'' h2''


/-- An exponent bound from a magnitude bound: if `x < 2 ^ b` then the unit in
the last place of `x` has exponent below `b - 52`. -/
theorem ulpExp_lt (p q : Nat) (s : Int) (b : Int) (hp : 0 < p) (hq : 0 < q)
    (hb : -1074 < b - 52)
    (hx : (p : ℚ) / q * (2 : ℚ) ^ s < (2 : ℚ) ^ b) : ulpExp p q s < b - 52 := by
  rcases ulpExp_magnitude p q s hp hq with h | h
  · omega
  · have := lt_of_le_of_lt h hx
    rw [zpow_lt_zpow_iff_right₀ (by norm_num)] at this
    omega

theorem round_zero_left (q : Nat) (s : Int) : round 0 q s = (0, 0) := by
  unfold round; simp

theorem ofInt_natAbs (x : Int) : (ofInt x).m.natAbs = (round x.natAbs 1 0).1 := by
  unfold ofInt
  simp only
  split_ifs <;> simp

theorem ofInt_e (x : Int) : (ofInt x).e = (round x.natAbs 1 0).2 := rfl

theorem ofInt_exact (x : Int) (hx : x.natAbs < 2 ^ 53) :
    pval ((ofInt x).m.natAbs, (ofInt x).e) = (x.natAbs : ℚ) := by
  rw [ofInt_natAbs, ofInt_e]
  rcases Nat.eq_zero_or_pos x.natAbs with h0 | hpos
  · rw [h0, round_zero_left]; simp [pval]
  · have hxQ : ((x.natAbs : ℚ) / (1 : Nat) * (2 : ℚ) ^ (0 : Int)) = x.natAbs := by simp
    have he : ulpExp x.natAbs 1 0 < 53 - 52 := by
      apply ulpExp_lt _ _ _ _ hpos Nat.one_pos (by norm_num)
      rw [hxQ]
      have h2 : (2 : ℚ) ^ (53 : Int) = ((2 ^ 53 : Nat) : ℚ) := by norm_num
      rw [h2]
      exact_mod_cast hx
    have he0 : ulpExp x.natAbs 1 0 ≤ 0 := by omega
    have := round_exact x.natAbs 1 0 (x.natAbs * 2 ^ (-(ulpExp x.natAbs 1 0)).toNat) hpos
      Nat.one_pos (by
        rw [hxQ, two_zpow_split (ulpExp x.natAbs 1 0)]
        rw [Int.toNat_eq_zero.mpr he0]
        push_cast
        field_simp)
    show pval (round x.natAbs 1 0) = _
    rw [this, hxQ]

theorem ofInt_neg_iff (x : Int) (hx : x.natAbs < 2 ^ 53) : (ofInt x).m < 0 ↔ x < 0 := by
  have h := ofInt_exact x hx
  rw [ofInt_natAbs] at h
  unfold pval at h
  simp only at h
  unfold ofInt
  simp only
  constructor
  · intro hm
    by_contra hx0
    rw [if_neg hx0] at hm
    omega
  · intro hx0
    rw [if_pos hx0]
    have : (round x.natAbs 1 0).1 ≠ 0 := by
      intro h0
      rw [h0] at h
      have hx1 : (x.natAbs : ℚ) ≠ 0 := by
        have : x.natAbs ≠ 0 := by omega
        exact_mod_cast this
      simp at h
      exact hx1 h.symm
    omega


/-- The nearest-integer magnitude of the double quotient of two exactly
converted naturals is the exact rounding of their quotient. -/
theorem llroundMag_round (P Q : Nat) (s : Int) (C D : Nat)
    (hC : C < 2 ^ 52) (hD : 0 < D) (hD2 : D < 2 ^ 53) (hQ : 0 < Q)
    (hx : (P : ℚ) / Q * (2 : ℚ) ^ s = (C : ℚ) / D) :
    llroundMag (round P Q s).1 (round P Q s).2 = (2 * C + D) / (2 * D) := by
  have hDQ : (0 : ℚ) < D := by exact_mod_cast hD
  have hQQ : (0 : ℚ) < Q := by exact_mod_cast hQ
  rcases Nat.eq_zero_or_pos C with hC0 | hCpos
  · -- zero numerator
    have hP0 : P = 0 := by
      subst hC0
      have h2 : (0 : ℚ) < (2 : ℚ) ^ s := by positivity
      have hx0 : (P : ℚ) / Q * (2 : ℚ) ^ s = 0 := by rw [hx]; simp
      have : (P : ℚ) / Q = 0 := by
        rcases mul_eq_zero.mp hx0 with h | h
        · exact h
        · exact absurd h h2.ne'
      have : (P : ℚ) = 0 := by
        rcases div_eq_zero_iff.mp this with h | h
        · exact h
        · exact absurd h hQQ.ne'
      exact_mod_cast this
    subst hP0 hC0
    rw [round_zero_left]
    have : (2 * 0 + D) / (2 * D) = 0 := Nat.div_eq_of_lt (by omega)
    rw [this]
    unfold llroundMag
    simp
  · have hCQ : (0 : ℚ) < C := by exact_mod_cast hCpos
    have hPpos : 0 < P := by
      rcases Nat.eq_zero_or_pos P with h | h
      · subst h
        have : (0 : ℚ) = (C : ℚ) / D := by simpa using hx
        have : (0 : ℚ) < (C : ℚ) / D := div_pos hCQ hDQ
        linarith
      · exact h
    set e := ulpExp P Q s with he
    set x : ℚ := (C : ℚ) / D with hxdef
    have hxD : x * D = C := by rw [hxdef]; field_simp
    have hxlt : x < (2 : ℚ) ^ (52 : Int) := by
      have h1 : (C : ℚ) < ((2 ^ 52 : Nat) : ℚ) := by exact_mod_cast hC
      have h2 : (2 : ℚ) ^ (52 : Int) = ((2 ^ 52 : Nat) : ℚ) := by norm_num
      have h3 : (1 : ℚ) ≤ D := by exact_mod_cast hD
      rw [h2, hxdef, div_lt_iff₀ hDQ]
      nlinarith
    have helt : e < 52 - 52 := ulpExp_lt P Q s 52 hPpos hQ (by norm_num) (by rw [hx]; exact hxlt)
    -- the unit in the last place is below 1 / D
    have hε : (2 : ℚ) ^ e * D < 1 := by
      rcases ulpExp_magnitude P Q s hPpos hQ with h | h
      · rw [← he] at h
        rw [h]
        have h1 : (D : ℚ) < ((2 ^ 53 : Nat) : ℚ) := by exact_mod_cast hD2
        have h2 : (2 : ℚ) ^ (-1074 : Int) ≤ (2 : ℚ) ^ (-53 : Int) :=
          zpow_le_zpow_right₀ (by norm_num) (by norm_num)
        have h3 : (2 : ℚ) ^ (-53 : Int) * ((2 ^ 53 : Nat) : ℚ) = 1 := by
          rw [zpow_neg]; norm_num
        have h4 : (0 : ℚ) < (2 : ℚ) ^ (-1074 : Int) := by positivity
        nlinarith
      · rw [← he, hx, zpow_add₀ (by norm_num)] at h
        have h1 : (C : ℚ) < ((2 ^ 52 : Nat) : ℚ) := by exact_mod_cast hC
        have h2 : (2 : ℚ) ^ (52 : Int) = ((2 ^ 52 : Nat) : ℚ) := by norm_num
        rw [h2] at h
        have h5 : (2 : ℚ) ^ e * ((2 ^ 52 : Nat) : ℚ) * D ≤ C := by
          have := mul_le_mul_of_nonneg_right h hDQ.le
          rwa [hxD] at this
        have h6 : (0 : ℚ) < ((2 ^ 52 : Nat) : ℚ) := by positivity
        by_contra hcon
        push_neg at hcon
        nlinarith
    have herr := round_error P Q s hPpos hQ
    rw [hx, ← he, abs_le] at herr
    obtain ⟨herr1, herr2⟩ := herr
    set N := (2 * C + D) / (2 * D) with hN
    have hNlo : N * (2 * D) ≤ 2 * C + D := Nat.div_mul_le_self _ _
    have hNhi : 2 * C + D < (N + 1) * (2 * D) := by
      have := Nat.lt_succ_self N
      rw [hN]
      exact Nat.lt_mul_of_div_lt (Nat.lt_succ_self _) (by omega)
    have hNhi' : 2 * C + D + 1 ≤ (N + 1) * (2 * D) := hNhi
    have hNloQ : (N : ℚ) * (2 * D) ≤ 2 * C + D := by exact_mod_cast hNlo
    have hNhiQ : (2 : ℚ) * C + D + 1 ≤ (N + 1) * (2 * D) := by exact_mod_cast hNhi'
    have hεpos : (0 : ℚ) < (2 : ℚ) ^ e := by positivity
    apply llroundMag_unique
    · -- lower bound
      show (N : ℚ) ≤ pval (round P Q s) + 1 / 2
      rcases Nat.eq_or_lt_of_le hNlo with heq | hlt
      · -- the quotient is a half-integer, computed exactly
        have hN1 : 1 ≤ N := by
          rcases Nat.eq_zero_or_pos N with h | h
          · rw [h] at heq; omega
          · exact h
        have hxN : x = (N : ℚ) - 1 / 2 := by
          have : (N : ℚ) * (2 * D) = 2 * C + D := by exact_mod_cast heq
          rw [hxdef, div_eq_iff hDQ.ne']
          linarith
        have hexact := round_exact P Q s ((2 * N - 1) * 2 ^ (-(e + 1)).toNat) hPpos hQ (by
          rw [hx, ← he, hxN]
          have hsplit := two_zpow_split (e + 1)
          rw [Int.toNat_eq_zero.mpr (by omega : e + 1 ≤ 0)] at hsplit
          have h2e : (2 : ℚ) ^ e = (2 : ℚ) ^ (e + 1) / 2 := by
            rw [zpow_add₀ (by norm_num)]; simp
          rw [h2e, hsplit]
          have : ((2 * N - 1 : Nat) : ℚ) = 2 * N - 1 := by
            rw [Nat.cast_sub (by omega)]; push_cast; ring
          push_cast
          rw [this]
          field_simp
          ring)
        rw [hexact, hx, hxN]
        linarith
      · have hltQ : (N : ℚ) * (2 * D) + 1 ≤ 2 * C + D := by exact_mod_cast hlt
        by_contra hcon
        push_neg at hcon
        nlinarith
    · -- upper bound
      show pval (round P Q s) + 1 / 2 < (N : ℚ) + 1
      by_contra hcon
      push_neg at hcon
      nlinarith


theorem llroundMag_zero (e : Int) : llroundMag 0 e = 0 := by
  unfold llroundMag
  split_ifs
  · simp
  · apply Nat.div_eq_of_lt
    have : 0 < 2 ^ (-e).toNat := by positivity
    omega

/-- For `|c| < 2^52` and `0 < d < 2^53` the source's
`llround((double)c / (double)d)` is the exact rounding of `c / d` to the nearest
integer, halfway cases away from zero. -/
theorem llround_div_ofInt (c d : Int) (hc : c.natAbs < 2 ^ 52) (hd : 0 < d)
    (hd2 : d < 2 ^ 53) :
    llround (div (ofInt c) (ofInt d)) = roundHalfAway c d := by
  have hcN : c.natAbs < 2 ^ 53 := by omega
  have hdN : d.natAbs < 2 ^ 53 := by omega
  have hDpos : 0 < d.natAbs := by omega
  have hPa := ofInt_exact c hcN
  have hQb := ofInt_exact d hdN
  have hsa := ofInt_neg_iff c hcN
  have hsb := ofInt_neg_iff d hdN
  set a := ofInt c
  set b := ofInt d
  unfold pval at hPa hQb
  simp only at hPa hQb
  have hDQ : (0 : ℚ) < (d.natAbs : ℚ) := by exact_mod_cast hDpos
  have hQ : 0 < b.m.natAbs := by
    rcases Nat.eq_zero_or_pos b.m.natAbs with h | h
    · have : (d.natAbs : ℚ) = 0 := by rw [← hQb, h]; simp
      linarith
    · exact h
  have hx : (a.m.natAbs : ℚ) / b.m.natAbs * (2 : ℚ) ^ (a.e - b.e)
      = (c.natAbs : ℚ) / d.natAbs := by
    rw [← hPa, ← hQb, zpow_sub₀ (by norm_num)]
    have h1 : (2 : ℚ) ^ b.e ≠ 0 := by positivity
    have h2 : (b.m.natAbs : ℚ) ≠ 0 := by exact_mod_cast hQ.ne'
    field_simp
  have hmag := llroundMag_round a.m.natAbs b.m.natAbs (a.e - b.e) c.natAbs d.natAbs hc hDpos
    hdN hQ hx
  have hbneg : ¬ b.m < 0 := by rw [hsb]; omega
  have hcast : (((2 * c.natAbs + d.natAbs) / (2 * d.natAbs) : Nat) : Int)
      = (2 * (c.natAbs : Int) + d.natAbs) / (2 * d.natAbs) := by push_cast; rfl
  have hdabs : (d.natAbs : Int) = d := Int.natAbs_of_nonneg hd.le
  unfold llround div roundHalfAway
  simp only
  by_cases hc0 : c < 0
  · have ha : a.m < 0 := hsa.mpr hc0
    have hiff : ¬ (a.m < 0 ↔ b.m < 0) := by
      intro h; exact hbneg (h.mp ha)
    rw [if_neg hiff, if_pos hc0]
    have hcabs : (c.natAbs : Int) = -c := by omega
    rw [Int.natAbs_neg, Int.natAbs_ofNat, hmag, hcast, hdabs, hcabs]
    split_ifs with h1
    · rfl
    · have h0 : (round a.m.natAbs b.m.natAbs (a.e - b.e)).1 = 0 := by omega
      rw [h0, llroundMag_zero] at hmag
      have : ((2 * c.natAbs + d.natAbs) / (2 * d.natAbs) : Nat) = 0 := hmag.symm
      have h2 := hcast
      rw [this, hdabs, hcabs] at h2
      simp only [Nat.cast_zero] at h2
      rw [← h2]
      simp
  · have ha : ¬ a.m < 0 := fun h => hc0 (hsa.mp h)
    have hiff : (a.m < 0 ↔ b.m < 0) := by
      constructor
      · intro h; exact absurd h ha
      · intro h; exact absurd h hbneg
    rw [if_pos hiff, if_neg hc0]
    have hcabs : (c.natAbs : Int) = c := by omega
    rw [Int.natAbs_ofNat, hmag, hcast, hdabs, hcabs]
    rw [if_neg (by omega)]

end Dbl

/-! ## Machine arithmetic without overflow -/

theorem wrap64_eq (x : Int) (h1 : -9223372036854775808 ≤ x) (h2 : x < 9223372036854775808) :
    wrap64 x = x := by
  unfold wrap64; omega

theorem wrap128_eq (x : Int) (h1 : -170141183460469231731687303715884105728 ≤ x)
    (h2 : x < 170141183460469231731687303715884105728) : wrap128 x = x := by
  unfold wrap128; omega

theorem emod_unique (x q j r : Int) (h0 : 0 ≤ r) (h1 : r < q) (h : x = q * j + r) :
    x % q = r := by
  subst h
  rw [Int.add_comm, Int.add_mul_emod_self_left]
  exact Int.emod_eq_of_lt h0 h1

theorem ediv_unique (x q j r : Int) (h0 : 0 ≤ r) (h1 : r < q) (h : x = q * j + r) :
    x / q = j := by
  subst h
  have hq : q ≠ 0 := by omega
  rw [Int.add_comm, Int.add_mul_ediv_left _ _ hq, Int.ediv_eq_zero_of_lt h0 h1]
  simp

theorem tdiv_pos_cases (x q : Int) (hq : 0 < q) :
    x.tdiv q = if 0 ≤ x then x / q else -((-x) / q) := by
  split_ifs with h
  · exact Int.tdiv_eq_ediv h hq.le
  · have : x = -(-x) := by ring
    rw [this, Int.neg_tdiv, Int.tdiv_eq_ediv (by omega) hq.le]
    simp

theorem tmod_pos_cases (x q : Int) (hq : 0 < q) :
    x.tmod q = if 0 ≤ x then x % q else -((-x) % q) := by
  rw [Int.tmod_def, tdiv_pos_cases x q hq]
  split_ifs with h
  · rw [Int.emod_def]
  · rw [Int.emod_def]; ring

/-- The C++ idiom `r = x % q; if (r < 0) r += q;` is the mathematical residue. -/
theorem tmod_fix (x q : Int) (hq : 0 < q) :
    (if x.tmod q < 0 then x.tmod q + q else x.tmod q) = x % q := by
  rw [tmod_pos_cases x q hq]
  by_cases h : 0 ≤ x
  · simp only [h, if_true]
    have := Int.emod_nonneg x hq.ne'
    rw [if_neg (by omega)]
  · simp only [h, if_false]
    have h1 := Int.emod_nonneg (-x) hq.ne'
    have h2 := Int.emod_lt_of_pos (-x) hq
    have h3 := Int.emod_add_ediv (-x) q
    by_cases h0 : (-x) % q = 0
    · rw [h0]; simp
      symm
      apply emod_unique x q (-((-x) / q)) 0 le_rfl hq
      rw [h0] at h3
      have : q * -(-x / q) = -(q * (-x / q)) := by ring
      rw [this]; omega
    · rw [if_pos (by omega)]
      symm
      apply emod_unique x q (-((-x) / q) - 1) _ (by omega) (by omega)
      have : q * (-(-x / q) - 1) = -(q * (-x / q)) - q := by ring
      rw [this]; omega

theorem tmod_abs_lt (x q : Int) (hq : 0 < q) : -q < x.tmod q ∧ x.tmod q < q := by
  rw [tmod_pos_cases x q hq]
  split_ifs with h
  · have := Int.emod_nonneg x hq.ne'
    have := Int.emod_lt_of_pos x hq
    omega
  · have := Int.emod_nonneg (-x) hq.ne'
    have := Int.emod_lt_of_pos (-x) hq
    omega

theorem modq_spec (x q : Int) (hq : 0 < q) (hq2 : q < 9223372036854775808) : modq x q = x % q := by
  unfold modq
  simp only
  rw [← tmod_fix x q hq]
  obtain ⟨h1, h2⟩ := tmod_abs_lt x q hq
  split_ifs with h
  · exact wrap64_eq _ (by omega) (by omega)
  · rfl

theorem center_rep_spec (x q : Int) (hq : 0 < q) (hq2 : q < 9223372036854775808) :
    center_rep x q = if x % q > q / 2 then x % q - q else x % q := by
  unfold center_rep
  simp only
  rw [modq_spec x q hq hq2, Int.tdiv_eq_ediv hq.le (by norm_num)]
  have h1 := Int.emod_nonneg x hq.ne'
  have h2 := Int.emod_lt_of_pos x hq
  split_ifs with h
  · exact wrap64_eq _ (by omega) (by omega)
  · rfl

/-- The centred representative is congruent to its argument and of magnitude
at most `q / 2`. -/
theorem center_rep_modEq (x q : Int) (hq : 0 < q) (hq2 : q < 9223372036854775808) :
    center_rep x q ≡ x [ZMOD q] ∧ -(q / 2) ≤ center_rep x q ∧ center_rep x q ≤ q / 2
      ∧ 2 * (center_rep x q).natAbs ≤ q.natAbs := by
  rw [center_rep_spec x q hq hq2]
  have h1 := Int.emod_nonneg x hq.ne'
  have h2 := Int.emod_lt_of_pos x hq
  split_ifs with h
  · refine ⟨?_, by omega, by omega, by omega⟩
    refine Int.modEq_iff_dvd.mpr ⟨x / q + 1, ?_⟩
    have := Int.emod_add_ediv x q
    linarith
  · refine ⟨Int.mod_modEq x q, by omega, by omega, by omega⟩

theorem dot_acc_succ (a b : List Int) (len : Nat) :
    dot_acc a b (len + 1)
      = wrap128 (dot_acc a b len + wrap128 (a.getD len 0 * b.getD len 0)) := by
  unfold dot_acc
  rw [List.range_succ, List.foldl_append]
  rfl

theorem dotZ_succ (a b : List Int) (len : Nat) :
    dotZ a b (len + 1) = dotZ a b len + a.getD len 0 * b.getD len 0 := by
  unfold dotZ
  rw [List.range_succ, List.map_append, List.sum_append]
  simp

/-- With products in `[0, M]` and `len * M` below `2^127` the 128-bit
accumulation is the exact inner product. -/
theorem dot_acc_eq (a b : List Int) (M : Int) (len : Nat)
    (hprod : ∀ i, i < len → 0 ≤ a.getD i 0 * b.getD i 0 ∧ a.getD i 0 * b.getD i 0 ≤ M)
    (hM : (len : Int) * M < 170141183460469231731687303715884105728) (hM0 : 0 ≤ M) :
    dot_acc a b len = dotZ a b len ∧ 0 ≤ dotZ a b len ∧ dotZ a b len ≤ len * M := by
  induction len with
  | zero => simp [dot_acc, dotZ]
  | succ n ih =>
    have hn : (n : Int) * M < 170141183460469231731687303715884105728 := by
      push_cast at hM
      have : (n : Int) * M ≤ ((n : Int) + 1) * M := by nlinarith
      omega
    obtain ⟨h1, h2, h3⟩ := ih (fun i hi => hprod i (by omega)) hn
    obtain ⟨p1, p2⟩ := hprod n (by omega)
    rw [dot_acc_succ, dotZ_succ, h1]
    push_cast at hM ⊢
    have e1 : ((n : Int) + 1) * M = n * M + M := by ring
    rw [e1] at hM ⊢
    rw [wrap128_eq (a.getD n 0 * b.getD n 0) (by omega) (by omega),
      wrap128_eq _ (by omega) (by omega)]
    omega

theorem dot_product_modq_eq (a b : List Int) (q M : Int) (hlen : a.length = b.length)
    (hq : 0 < q) (hq2 : q < 9223372036854775808)
    (hprod : ∀ i, i < a.length → 0 ≤ a.getD i 0 * b.getD i 0 ∧ a.getD i 0 * b.getD i 0 ≤ M)
    (hM : (a.length : Int) * M < 170141183460469231731687303715884105728) (hM0 : 0 ≤ M) :
    dot_product_modq a b q = .ok (dotZ a b a.length % q) := by
  unfold dot_product_modq
  rw [if_neg (by simpa using hlen)]
  simp only
  obtain ⟨h1, -, -⟩ := dot_acc_eq a b M a.length hprod hM hM0
  rw [h1]
  obtain ⟨t1, t2⟩ := tmod_abs_lt (dotZ a b a.length) q hq
  rw [wrap64_eq _ (by omega) (by omega)]
  congr 1
  rw [← tmod_fix _ q hq]
  split_ifs with h
  · exact wrap64_eq _ (by omega) (by omega)
  · rfl

/-- Exact rounding recovers the multiple of `Δ` nearest to `Δ * K + ε` when
`2 |ε| < Δ`. -/
theorem roundHalfAway_add (Δ K ε : Int) (hε : 2 * |ε| < Δ) :
    roundHalfAway (Δ * K + ε) Δ = K := by
  have hε' := abs_lt.mp (show |ε| < Δ - |ε| by linarith [abs_nonneg ε])
  have hε1 : -Δ < 2 * ε := by
    have := neg_abs_le ε; linarith
  have hε2 : 2 * ε < Δ := by
    have := le_abs_self ε; linarith
  unfold roundHalfAway
  split_ifs with h
  · have : (2 * -(Δ * K + ε) + Δ) / (2 * Δ) = -K :=
      ediv_unique _ (2 * Δ) (-K) (Δ - 2 * ε) (by omega) (by omega) (by ring)
    rw [this]; simp
  · exact ediv_unique _ (2 * Δ) K (2 * ε + Δ) (by omega) (by omega) (by ring)

/-- Decoding: a value congruent to `Δ * μ + ε` modulo `q = t * Δ` rounds to `μ`
modulo `t`. -/
theorem decode_round (q t Δ μ ε v : Int) (hq : q = t * Δ)
    (hε : 2 * |ε| < Δ) (hv : v ≡ Δ * μ + ε [ZMOD q]) :
    roundHalfAway v Δ % t = μ % t := by
  obtain ⟨j, hj⟩ := Int.modEq_iff_dvd.mp hv
  have hv' : v = Δ * (μ - t * j) + ε := by
    rw [hq] at hj
    linear_combination -hj
  rw [hv', roundHalfAway_add Δ _ ε hε]
  exact Int.modEq_iff_dvd.mpr ⟨j, by ring⟩

/-! ## LWE -/

theorem getD_binary (sk : List Int) (hsk : ∀ x ∈ sk, x = 0 ∨ x = 1) (i : Nat) :
    sk.getD i 0 = 0 ∨ sk.getD i 0 = 1 := by
  rcases Nat.lt_or_ge i sk.length with h | h
  · have : sk.getD i 0 = sk[i] := by simp [List.getD, List.getElem?_eq_getElem h]
    rw [this]
    exact hsk _ (List.getElem_mem _)
  · left
    simp [List.getD, List.getElem?_eq_none h]

theorem prod_binary_bounds (a sk : List Int) (q : Int) (hsk : ∀ x ∈ sk, x = 0 ∨ x = 1)
    (ha : ∀ i, i < a.length → 0 ≤ a.getD i 0 ∧ a.getD i 0 < q) (i : Nat) (hi : i < a.length) :
    0 ≤ a.getD i 0 * sk.getD i 0 ∧ a.getD i 0 * sk.getD i 0 ≤ q := by
  obtain ⟨h1, h2⟩ := ha i hi
  rcases getD_binary sk hsk i with h | h <;> rw [h] <;> constructor <;> omega

/-- What `decrypt_lwe` returns on a ciphertext whose phase `b - ⟨a, s⟩` is
`Δ * μ + ε` modulo `q` with `2 |ε| < Δ`. -/
theorem decrypt_lwe_of_phase (ct : LWECiphertext) (sk : List Int) (params : Parameters)
    (μ ε : Int)
    (hq : 0 < params.q) (hq2 : params.q < 2 ^ 53) (ht : 0 < params.t)
    (hdiv : params.t ∣ params.q)
    (hlen : ct.a.length = sk.length) (hk : sk.length < 2 ^ 64)
    (hsk : ∀ x ∈ sk, x = 0 ∨ x = 1)
    (ha : ∀ i, i < ct.a.length → 0 ≤ ct.a.getD i 0 ∧ ct.a.getD i 0 < params.q)
    (hb : 0 ≤ ct.b ∧ ct.b < params.q)
    (hε : 2 * |ε| < params.q / params.t)
    (hphase : ct.b - dotZ ct.a sk ct.a.length ≡ params.q / params.t * μ + ε [ZMOD params.q]) :
    decrypt_lwe ct sk params = .ok (μ % params.t) := by
  have hq63 : params.q < 9223372036854775808 := by omega
  have hkb : (ct.a.length : Int) * params.q < 170141183460469231731687303715884105728 := by
    have h1 : (ct.a.length : Int) < 18446744073709551616 := by
      rw [hlen]; exact_mod_cast hk
    have h2 : (0 : Int) ≤ ct.a.length := Int.natCast_nonneg _
    nlinarith
  have hdot := dot_product_modq_eq ct.a sk params.q params.q hlen hq hq63
    (prod_binary_bounds ct.a sk params.q hsk ha) hkb hq.le
  have hΔ : params.q.tdiv params.t = params.q / params.t := Int.tdiv_eq_ediv hq.le ht.le
  have hqΔ : params.q = params.t * (params.q / params.t) := (Int.mul_ediv_cancel' hdiv).symm
  have hΔpos : 0 < params.q / params.t := by
    rcases lt_or_ge 0 (params.q / params.t) with h | h
    · exact h
    · have := abs_nonneg ε; omega
  have hΔle : params.q / params.t ≤ params.q := by
    have : (params.q / params.t) * 1 ≤ (params.q / params.t) * params.t :=
      mul_le_mul_of_nonneg_left (by omega) hΔpos.le
    rw [mul_comm (params.q / params.t) params.t, ← hqΔ] at this
    omega
  unfold decrypt_lwe
  simp only
  rw [if_neg (by simpa using hlen), hdot]
  simp only
  set I := dotZ ct.a sk ct.a.length % params.q with hI
  have hI0 := Int.emod_nonneg (dotZ ct.a sk ct.a.length) hq.ne'
  have hI1 := Int.emod_lt_of_pos (dotZ ct.a sk ct.a.length) hq
  rw [wrap64_eq (ct.b - I) (by omega) (by omega), modq_spec _ _ hq hq63, hΔ]
  obtain ⟨c1, c2, c3, c4⟩ := center_rep_modEq ((ct.b - I) % params.q) params.q hq hq63
  set v := center_rep ((ct.b - I) % params.q) params.q with hv
  have hvabs : v.natAbs < 2 ^ 52 := by omega
  rw [Dbl.llround_div_ofInt v (params.q / params.t) hvabs hΔpos (by omega)]
  have hvphase : v ≡ params.q / params.t * μ + ε [ZMOD params.q] := by
    refine c1.trans ((Int.mod_modEq _ _).trans ?_)
    refine Int.ModEq.trans ?_ hphase
    exact Int.ModEq.sub_left _ (Int.mod_modEq _ _)
  have hdec := decode_round params.q params.t (params.q / params.t) μ ε v hqΔ hε hvphase
  obtain ⟨t1, t2⟩ := tmod_abs_lt (roundHalfAway v (params.q / params.t)) params.t ht
  have ht63 : params.t < 9007199254740992 := by
    have := Int.le_of_dvd hq hdiv
    omega
  congr 1
  rw [← hdec, ← tmod_fix _ params.t ht]
  split_ifs with h
  · exact wrap64_eq _ (by omega) (by omega)
  · rfl

theorem getD_map_range (f : Nat → Int) (k i : Nat) (hi : i < k) :
    ((List.range k).map f).getD i 0 = f i := by
  simp [List.getD, List.getElem?_map, List.getElem?_range hi]

/-- The ciphertext produced by `encrypt_lwe` for a message in range. -/
theorem encrypt_lwe_eq (m : Int) (sk : List Int) (params : Parameters) (ua : Nat → Int)
    (e : Int)
    (hq : 0 < params.q) (hq2 : params.q < 2 ^ 53) (ht : 0 < params.t)
    (hdiv : params.t ∣ params.q) (hk : sk.length < 2 ^ 64)
    (hsk : ∀ x ∈ sk, x = 0 ∨ x = 1)
    (hm : 0 ≤ m ∧ m < params.t)
    (hua : ∀ i, i < sk.length → 0 ≤ ua i ∧ ua i < params.q)
    (he : isInt64 e) :
    encrypt_lwe m sk params ua e = .ok
      ⟨(List.range sk.length).map ua,
        (dotZ ((List.range sk.length).map ua) sk sk.length % params.q
          + params.q / params.t * m + e) % params.q⟩ := by
  have hq63 : params.q < 9223372036854775808 := by omega
  set a := (List.range sk.length).map ua with ha
  have hlen : a.length = sk.length := by simp [ha]
  have haR : ∀ i, i < a.length → 0 ≤ a.getD i 0 ∧ a.getD i 0 < params.q := by
    intro i hi
    rw [hlen] at hi
    rw [ha, getD_map_range ua _ _ hi]
    exact hua i hi
  have hkb : (a.length : Int) * params.q < 170141183460469231731687303715884105728 := by
    have h1 : (a.length : Int) < 18446744073709551616 := by
      rw [hlen]; exact_mod_cast hk
    have h2 : (0 : Int) ≤ a.length := Int.natCast_nonneg _
    nlinarith
  have hdot := dot_product_modq_eq a sk params.q params.q hlen hq hq63
    (prod_binary_bounds a sk params.q hsk haR) hkb hq.le
  rw [hlen] at hdot
  have hΔ : params.q.tdiv params.t = params.q / params.t := Int.tdiv_eq_ediv hq.le ht.le
  have hqΔ : params.q = params.t * (params.q / params.t) := (Int.mul_ediv_cancel' hdiv).symm
  have hΔpos : 0 < params.q / params.t := Int.ediv_pos_of_pos_of_dvd hq ht.le hdiv
  have hΔle : params.q / params.t ≤ params.q := by
    have : (params.q / params.t) * 1 ≤ (params.q / params.t) * params.t :=
      mul_le_mul_of_nonneg_left (by omega) hΔpos.le
    rw [mul_comm (params.q / params.t) params.t, ← hqΔ] at this
    omega
  have hsm0 : 0 ≤ params.q / params.t * m := mul_nonneg hΔpos.le hm.1
  have hsm1 : params.q / params.t * m < params.q := by
    have : params.q / params.t * m ≤ params.q / params.t * (params.t - 1) :=
      mul_le_mul_of_nonneg_left (by omega) hΔpos.le
    have e1 : params.q / params.t * (params.t - 1) = params.q - params.q / params.t := by
      rw [mul_sub, mul_one, mul_comm, ← hqΔ]
    omega
  obtain ⟨he1, he2⟩ := he
  unfold encrypt_lwe
  simp only
  rw [if_neg (by omega), hdot]
  simp only
  set I := dotZ a sk sk.length % params.q with hI
  have hI0 := Int.emod_nonneg (dotZ a sk sk.length) hq.ne'
  have hI1 := Int.emod_lt_of_pos (dotZ a sk sk.length) hq
  rw [hΔ, wrap64_eq (params.q / params.t * m) (by omega) (by omega),
    wrap128_eq (I + params.q / params.t * m) (by omega) (by omega),
    wrap128_eq (I + params.q / params.t * m + e) (by omega) (by omega)]
  obtain ⟨t1, t2⟩ := tmod_abs_lt (I + params.q / params.t * m + e) params.q hq
  rw [wrap64_eq _ (by omega) (by omega)]
  congr 2
  rw [← tmod_fix _ params.q hq]
  split_ifs with h
  · exact wrap64_eq _ (by omega) (by omega)
  · rfl

/-- LWE round trip: for `0 < q < 2^53`, `t` dividing `q`, a binary
key of fewer than `2^64` entries, a message in `[0, t)`, a mask drawn from `[0, q)`
and a noise `e` with `2 |e| < Δ = q / t`, `encrypt_lwe` returns a ciphertext and
`decrypt_lwe` returns the message. -/
theorem lwe_round_trip (m : Int) (sk : List Int) (params : Parameters) (ua : Nat → Int)
    (e : Int)
    (hq : 0 < params.q) (hq2 : params.q < 2 ^ 53) (ht : 0 < params.t)
    (hdiv : params.t ∣ params.q) (hk : sk.length < 2 ^ 64)
    (hsk : ∀ x ∈ sk, x = 0 ∨ x = 1)
    (hm : 0 ≤ m ∧ m < params.t)
    (hua : ∀ i, i < sk.length → 0 ≤ ua i ∧ ua i < params.q)
    (he : 2 * |e| < params.q / params.t) :
    ∃ ct, encrypt_lwe m sk params ua e = .ok ct ∧ decrypt_lwe ct sk params = .ok m := by
  have heI : isInt64 e := by
    have h1 := neg_abs_le e
    have h2 := le_abs_self e
    have h3 : params.q / params.t ≤ params.q := Int.ediv_le_self _ hq.le
    unfold isInt64
    omega
  refine ⟨_, encrypt_lwe_eq m sk params ua e hq hq2 ht hdiv hk hsk hm hua heI, ?_⟩
  have hmod : m % params.t = m := Int.emod_eq_of_lt hm.1 hm.2
  have hlen : ((List.range sk.length).map ua).length = sk.length := by simp
  have := decrypt_lwe_of_phase
    ⟨(List.range sk.length).map ua,
      (dotZ ((List.range sk.length).map ua) sk sk.length % params.q
        + params.q / params.t * m + e) % params.q⟩ sk params m e hq hq2 ht hdiv hlen hk hsk
    (by
      intro i hi
      rw [hlen] at hi
      show 0 ≤ ((List.range sk.length).map ua).getD i 0 ∧ _
      rw [getD_map_range ua _ _ hi]
      exact hua i hi)
    ⟨Int.emod_nonneg _ hq.ne', Int.emod_lt_of_pos _ hq⟩ he
    (by
      show (dotZ ((List.range sk.length).map ua) sk sk.length % params.q
        + params.q / params.t * m + e) % params.q
          - dotZ ((List.range sk.length).map ua) sk ((List.range sk.length).map ua).length
        ≡ params.q / params.t * m + e [ZMOD params.q]
      rw [hlen]
      have h1 : (dotZ ((List.range sk.length).map ua) sk sk.length % params.q
          + params.q / params.t * m + e) % params.q
          ≡ dotZ ((List.range sk.length).map ua) sk sk.length
            + (params.q / params.t * m + e) [ZMOD params.q] := by
        refine (Int.mod_modEq _ _).trans ?_
        rw [add_assoc]
        exact (Int.mod_modEq _ _).add_right _
      have := h1.sub_right (dotZ ((List.range sk.length).map ua) sk sk.length)
      simpa using this)
  rw [hmod] at this
  exact this

/-- Witness of `lwe_round_trip`: `q = 64`, `t = 4`, key `[1, 0]`, message `3`. -/
theorem lwe_round_trip_witness :
    ∃ ct, encrypt_lwe 3 [1, 0] ⟨0, 64, 4, 7⟩ (fun i => 5 + 2 * (i : Int)) (-7) = .ok ct
      ∧ decrypt_lwe ct [1, 0] ⟨0, 64, 4, 7⟩ = .ok 3 :=
  lwe_round_trip 3 [1, 0] ⟨0, 64, 4, 7⟩ (fun i => 5 + 2 * (i : Int)) (-7)
    (by decide) (by decide) (by decide) (by decide) (by decide) (by decide) (by decide)
    (by intro i hi; simp at hi; dsimp only; constructor <;> omega) (by decide)

/-- The integer rounding of `decrypt_glwe` and `decrypt_glev_level` on the phase
`2^54 - 1` with `Δ = 2^55`: the nearest integer is `0`. -/
theorem integer_rounding_at_large_phase :
    modq (round_div_int 18014398509481983 36028797018963968) 2 = 0 := by
  decide

/-- C1 (the code at the failing input). With `q = 2^56`, `t = 2` (`Δ = 2^55`),
key `[1]`, mask `[0]`, message `0` and noise `e = 2^54 - 1` (so `2 |e| < Δ`), the
conversion of the phase `2^54 - 1` to `double` rounds up to `2^54`, the quotient
by `Δ` is exactly `0.5`, `llround` returns `1`, and the decryption is `1`, not `0`. -/
theorem lwe_round_trip_fails_large_q :
    (2 : Int) ∣ 72057594037927936 ∧
    2 * |(18014398509481983 : Int)| < 72057594037927936 / 2 ∧
    encrypt_lwe 0 [1] ⟨0, 72057594037927936, 2, 18014398509481983⟩ (fun _ => 0)
        18014398509481983 = .ok ⟨[0], 18014398509481983⟩ ∧
    decrypt_lwe ⟨[0], 18014398509481983⟩ [1] ⟨0, 72057594037927936, 2, 18014398509481983⟩
      = .ok 1 ∧
    decrypt_lwe ⟨[0], 18014398509481983⟩ [1] ⟨0, 72057594037927936, 2, 18014398509481983⟩
      ≠ .ok 0 := by
  refine ⟨by decide, by decide, by decide, by decide, by decide⟩

/-! ## Negacyclic multiplication -/

theorem tmod_modEq (x q : Int) : x.tmod q ≡ x [ZMOD q] := by
  refine Int.modEq_iff_dvd.mpr ⟨x.tdiv q, ?_⟩
  rw [Int.tmod_def]; ring

theorem getD_set_eq (l : List Int) (i : Nat) (v : Int) (h : i < l.length) :
    (l.set i v).getD i 0 = v := by
  simp [List.getElem?_set, h]

theorem getD_set_ne (l : List Int) (i k : Nat) (v : Int) (h : i ≠ k) :
    (l.set i v).getD k 0 = l.getD k 0 := by
  simp [List.getElem?_set_ne h]

theorem getD_isInt64 (a : List Int) (ha : ∀ x ∈ a, isInt64 x) (i : Nat) :
    isInt64 (a.getD i 0) := by
  rcases Nat.lt_or_ge i a.length with h | h
  · have : a.getD i 0 = a[i] := by simp [List.getD, List.getElem?_eq_getElem h]
    rw [this]
    exact ha _ (List.getElem_mem _)
  · have : a.getD i 0 = 0 := by simp [List.getD, List.getElem?_eq_none h]
    rw [this]
    unfold isInt64; omega

/-- The product of two `int64` values fits in `__int128`. -/
theorem prod_int64_bounds (x y : Int) (hx : isInt64 x) (hy : isInt64 y) :
    -85070591730234615865843651857942052864 ≤ x * y ∧
      x * y ≤ 85070591730234615865843651857942052864 := by
  unfold isInt64 at hx hy
  obtain ⟨x1, x2⟩ := hx
  obtain ⟨y1, y2⟩ := hy
  constructor
  · nlinarith [mul_nonneg (show (0 : Int) ≤ x + 9223372036854775808 by omega)
      (show (0 : Int) ≤ 9223372036854775808 - y by omega),
      mul_nonneg (show (0 : Int) ≤ 9223372036854775808 - x by omega)
      (show (0 : Int) ≤ y + 9223372036854775808 by omega)]
  · nlinarith [mul_nonneg (show (0 : Int) ≤ x + 9223372036854775808 by omega)
      (show (0 : Int) ≤ y + 9223372036854775808 by omega),
      mul_nonneg (show (0 : Int) ≤ 9223372036854775808 - x by omega)
      (show (0 : Int) ≤ 9223372036854775808 - y by omega)]

theorem NMInv.congr {q : Int} {n : Nat} {res : List Int} {P P' : Nat → Int}
    (h : NMInv q n res P) (hP : ∀ k, k < n → P k = P' k) : NMInv q n res P' := by
  refine ⟨h.1, fun k hk => ?_⟩
  rw [← hP k hk]
  exact h.2 k hk

namespace polynomial

/-- One iteration of the inner loop preserves the invariant and adds the
contribution of the pair `i, j`. -/
theorem nm_step_inv (a b : List Int) (q : Int) (n : Nat) (res : List Int) (P : Nat → Int)
    (i j : Nat) (hq : 0 < q) (hq2 : q < 9223372036854775808)
    (ha : ∀ x ∈ a, isInt64 x) (hb : ∀ x ∈ b, isInt64 x)
    (hi : i < n) (hj : j < n) (h : NMInv q n res P) :
    NMInv q n (nm_step a b q n res i j) (fun k => P k + nmContrib a b n i j k) := by
  obtain ⟨hlen, hres⟩ := h
  obtain ⟨p1, p2⟩ := prod_int64_bounds _ _ (getD_isInt64 a ha i) (getD_isInt64 b hb j)
  have hprod : wrap128 (a.getD i 0 * b.getD j 0) = a.getD i 0 * b.getD j 0 :=
    wrap128_eq _ (by omega) (by omega)
  unfold nm_step
  simp only
  rw [hprod]
  by_cases hidx : j + i < n
  · rw [if_pos hidx]
    obtain ⟨⟨r1, r2⟩, r3⟩ := hres (j + i) hidx
    rw [wrap128_eq _ (by omega) (by omega)]
    obtain ⟨t1, t2⟩ := tmod_abs_lt (res.getD (j + i) 0 + a.getD i 0 * b.getD j 0) q hq
    rw [wrap64_eq _ (by omega) (by omega)]
    refine ⟨by rw [List.length_set]; exact hlen, fun k hk => ?_⟩
    by_cases hkeq : j + i = k
    · subst hkeq
      rw [getD_set_eq _ _ _ (by omega)]
      refine ⟨⟨t1, t2⟩, ?_⟩
      have : nmContrib a b n i j (j + i) = a.getD i 0 * b.getD j 0 := by
        unfold nmContrib; simp
      beta_reduce
      rw [this]
      exact (tmod_modEq _ _).trans (r3.add_right _)
    · rw [getD_set_ne _ _ _ _ hkeq]
      have : nmContrib a b n i j k = 0 := by
        unfold nmContrib
        rw [if_neg hkeq, if_neg (by omega)]
      beta_reduce
      rw [this, add_zero]
      exact hres k hk
  · rw [if_neg hidx]
    have hidx2 : j + i - n < n := by omega
    obtain ⟨⟨r1, r2⟩, r3⟩ := hres (j + i - n) hidx2
    rw [wrap128_eq (res.getD (j + i - n) 0 - a.getD i 0 * b.getD j 0) (by omega) (by omega)]
    obtain ⟨t1, t2⟩ := tmod_abs_lt (res.getD (j + i - n) 0 - a.getD i 0 * b.getD j 0) q hq
    rw [wrap128_eq _ (by omega) (by omega)]
    have hnn : 0 ≤ (res.getD (j + i - n) 0 - a.getD i 0 * b.getD j 0).tmod q + q := by omega
    have u1 := Int.tmod_nonneg q hnn
    have u2 := Int.tmod_lt_of_pos
      ((res.getD (j + i - n) 0 - a.getD i 0 * b.getD j 0).tmod q + q) hq
    rw [wrap64_eq _ (by omega) (by omega)]
    refine ⟨by rw [List.length_set]; exact hlen, fun k hk => ?_⟩
    by_cases hkeq : j + i - n = k
    · subst hkeq
      rw [getD_set_eq _ _ _ (by omega)]
      refine ⟨⟨by omega, u2⟩, ?_⟩
      have : nmContrib a b n i j (j + i - n) = -(a.getD i 0 * b.getD j 0) := by
        unfold nmContrib
        rw [if_neg (by omega), if_pos (by omega)]
      beta_reduce
      rw [this]
      refine (tmod_modEq _ _).trans ?_
      have h1 : (res.getD (j + i - n) 0 - a.getD i 0 * b.getD j 0).tmod q + q
          ≡ res.getD (j + i - n) 0 - a.getD i 0 * b.getD j 0 [ZMOD q] := by
        have := (tmod_modEq (res.getD (j + i - n) 0 - a.getD i 0 * b.getD j 0) q).add
          (show q ≡ 0 [ZMOD q] from Int.modEq_iff_dvd.mpr ⟨-1, by ring⟩)
        simpa using this
      refine h1.trans ?_
      rw [sub_eq_add_neg]
      exact r3.add_right _
    · rw [getD_set_ne _ _ _ _ hkeq]
      have : nmContrib a b n i j k = 0 := by
        unfold nmContrib
        rw [if_neg (by omega), if_neg (by omega)]
      beta_reduce
      rw [this, add_zero]
      exact hres k hk

theorem nm_inner_inv (a b : List Int) (q : Int) (n : Nat) (i : Nat)
    (hq : 0 < q) (hq2 : q < 9223372036854775808)
    (ha : ∀ x ∈ a, isInt64 x) (hb : ∀ x ∈ b, isInt64 x) (hi : i < n) :
    ∀ (js : List Nat) (res : List Int) (P : Nat → Int), (∀ j ∈ js, j < n) →
      NMInv q n res P →
      NMInv q n (js.foldl (fun r j => nm_step a b q n r i j) res)
        (fun k => P k + (js.map (fun j => nmContrib a b n i j k)).sum) := by
  intro js
  induction js with
  | nil => intro res P _ h; simpa using h
  | cons j js ih =>
    intro res P hjs h
    rw [List.foldl_cons]
    have h1 := nm_step_inv a b q n res P i j hq hq2 ha hb hi (hjs j (by simp)) h
    have h2 := ih _ _ (fun j' hj' => hjs j' (by simp [hj'])) h1
    refine h2.congr (fun k _ => ?_)
    simp only [List.map_cons, List.sum_cons]
    ring

theorem nm_outer_inv (a b : List Int) (q : Int) (n : Nat)
    (hq : 0 < q) (hq2 : q < 9223372036854775808)
    (ha : ∀ x ∈ a, isInt64 x) (hb : ∀ x ∈ b, isInt64 x) :
    ∀ (is : List Nat) (res : List Int) (P : Nat → Int), (∀ i ∈ is, i < n) →
      NMInv q n res P →
      NMInv q n
        (is.foldl (fun r i => (List.range n).foldl (fun r j => nm_step a b q n r i j) r) res)
        (fun k => P k + (is.map (fun i =>
          ((List.range n).map (fun j => nmContrib a b n i j k)).sum)).sum) := by
  intro is
  induction is with
  | nil => intro res P _ h; simpa using h
  | cons i is ih =>
    intro res P his h
    rw [List.foldl_cons]
    have h1 := nm_inner_inv a b q n i hq hq2 ha hb (his i (by simp)) (List.range n) res P
      (fun j hj => List.mem_range.mp hj) h
    have h2 := ih _ _ (fun i' hi' => his i' (by simp [hi'])) h1
    refine h2.congr (fun k _ => ?_)
    simp only [List.map_cons, List.sum_cons]
    ring

end polynomial

theorem list_sum_map_sub (l : List Nat) (f g : Nat → Int) :
    (l.map (fun x => f x - g x)).sum = (l.map f).sum - (l.map g).sum := by
  induction l with
  | nil => simp
  | cons x xs ih => simp only [List.map_cons, List.sum_cons, ih]; ring

theorem nmContrib_eq (a b : List Int) (n i j k : Nat) (hn : 0 < n) :
    nmContrib a b n i j k
      = (if i + j = k then a.getD i 0 * b.getD j 0 else 0)
        - (if i + j = k + n then a.getD i 0 * b.getD j 0 else 0) := by
  unfold nmContrib
  split_ifs <;> first | (exfalso; omega) | ring

theorem nmContrib_sum (a b : List Int) (n k : Nat) (hn : 0 < n) :
    ((List.range n).map (fun i =>
      ((List.range n).map (fun j => nmContrib a b n i j k)).sum)).sum
      = negacyclicCoeff a b n k := by
  unfold negacyclicCoeff convSum
  simp only [nmContrib_eq a b n _ _ k hn, list_sum_map_sub]

namespace polynomial

theorem nm_loops_inv (a b : List Int) (q : Int) (n : Nat)
    (hq : 0 < q) (hq2 : q < 9223372036854775808)
    (ha : ∀ x ∈ a, isInt64 x) (hb : ∀ x ∈ b, isInt64 x) :
    NMInv q n (nm_loops a b q n) (fun k => negacyclicCoeff a b n k) := by
  have h0 : NMInv q n (List.replicate n 0) (fun _ => 0) := by
    refine ⟨by simp, fun k hk => ?_⟩
    have : (List.replicate n (0 : Int)).getD k 0 = 0 := by
      simp [List.getElem?_replicate, hk]
    rw [this]
    exact ⟨⟨by omega, hq⟩, Int.ModEq.refl 0⟩
  have h1 := nm_outer_inv a b q n hq hq2 ha hb (List.range n) _ _
    (fun i hi => List.mem_range.mp hi) h0
  refine h1.congr (fun k hk => ?_)
  rw [nmContrib_sum a b n k (by omega)]
  simp

/-- The result of `negacyclic_multiply`, coefficient by coefficient. -/
theorem negacyclic_multiply_eq (a b : List Int) (q : Int)
    (hq : 0 < q) (hq2 : q < 9223372036854775808) (hlen : a.length = b.length)
    (ha : ∀ x ∈ a, isInt64 x) (hb : ∀ x ∈ b, isInt64 x) :
    negacyclic_multiply a b q
      = .ok ((List.range a.length).map (fun k => negacyclicCoeff a b a.length k % q)) := by
  unfold negacyclic_multiply
  rw [if_neg (by simpa using hlen)]
  simp only
  congr 1
  apply List.map_congr_left
  intro k hk
  have hk' := List.mem_range.mp hk
  obtain ⟨-, hinv⟩ := nm_loops_inv a b q a.length hq hq2 ha hb
  obtain ⟨-, h3⟩ := hinv k hk'
  rw [modq_spec _ _ hq hq2]
  exact h3

end polynomial

/-- C6. `negacyclic_multiply` computes the negacyclic convolution: for `0 < q`
(an `int64`) and polynomials `a`, `b` of equal length `n` with arbitrary `int64`
coefficients, the call returns a polynomial of length `n` whose `k`-th coefficient
is `modq(Σ_{i+j=k} a_i b_j − Σ_{i+j=k+n} a_i b_j, q)`, the residue in `[0, q)`. -/
theorem negacyclic_multiply_spec (a b : List Int) (q : Int)
    (hq : 0 < q) (hq2 : q < 2 ^ 63) (hlen : a.length = b.length)
    (ha : ∀ x ∈ a, isInt64 x) (hb : ∀ x ∈ b, isInt64 x) :
    ∃ r, polynomial.negacyclic_multiply a b q = .ok r ∧ r.length = a.length ∧
      ∀ k, k < a.length →
        r.getD k 0 = modq (negacyclicCoeff a b a.length k) q ∧
        r.getD k 0 = negacyclicCoeff a b a.length k % q ∧
        0 ≤ r.getD k 0 ∧ r.getD k 0 < q := by
  have hq63 : q < 9223372036854775808 := by omega
  refine ⟨_, polynomial.negacyclic_multiply_eq a b q hq hq63 hlen ha hb, by simp, ?_⟩
  intro k hk
  rw [getD_map_range _ _ _ hk, modq_spec _ _ hq hq63]
  exact ⟨rfl, rfl, Int.emod_nonneg _ hq.ne', Int.emod_lt_of_pos _ hq⟩

/-- Witness of `negacyclic_multiply_spec`: `(1 + 2X + 3X²)(4 + 5X + 6X²)` modulo
`X³ + 1` and `q = 100`, with a negative and an extreme `int64` coefficient. -/
theorem negacyclic_multiply_spec_witness :
    ∃ r, polynomial.negacyclic_multiply [1, -2, 9223372036854775807] [4, 5, -6] 100 = .ok r ∧
      r.length = [1, -2, 9223372036854775807].length ∧
      ∀ k, k < [1, -2, 9223372036854775807].length →
        r.getD k 0 = modq (negacyclicCoeff [1, -2, 9223372036854775807] [4, 5, -6]
          [1, -2, 9223372036854775807].length k) 100 ∧
        r.getD k 0 = negacyclicCoeff [1, -2, 9223372036854775807] [4, 5, -6]
          [1, -2, 9223372036854775807].length k % 100 ∧
        0 ≤ r.getD k 0 ∧ r.getD k 0 < 100 :=
  negacyclic_multiply_spec [1, -2, 9223372036854775807] [4, 5, -6] 100 (by decide) (by decide)
    (by decide) (by decide) (by decide)

/-! ## Coefficient-wise polynomial operations -/

/-- Decoding of one coefficient through the `double` rounding of
`decrypt_lwe` / `decrypt_rlwe`, for `q < 2^53`. -/
theorem round_coeff_double_spec (x q t μ ε : Int)
    (hq : 0 < q) (hq2 : q < 2 ^ 53) (ht : 0 < t) (hdiv : t ∣ q)
    (hε : 2 * |ε| < q / t) (hphase : x ≡ q / t * μ + ε [ZMOD q]) :
    round_coeff_double (center_rep x q) (q.tdiv t) t = μ % t := by
  have hq63 : q < 9223372036854775808 := by omega
  have hΔ : q.tdiv t = q / t := Int.tdiv_eq_ediv hq.le ht.le
  have hqΔ : q = t * (q / t) := (Int.mul_ediv_cancel' hdiv).symm
  have hΔpos : 0 < q / t := by
    rcases lt_or_ge 0 (q / t) with h | h
    · exact h
    · have := abs_nonneg ε; omega
  have hΔle : q / t ≤ q := by
    have : (q / t) * 1 ≤ (q / t) * t := mul_le_mul_of_nonneg_left (by omega) hΔpos.le
    rw [mul_comm (q / t) t, ← hqΔ] at this
    omega
  obtain ⟨c1, c2, c3, c4⟩ := center_rep_modEq x q hq hq63
  unfold round_coeff_double
  simp only
  rw [hΔ]
  set v := center_rep x q with hv
  have hvabs : v.natAbs < 2 ^ 52 := by omega
  rw [Dbl.llround_div_ofInt v (q / t) hvabs hΔpos (by omega)]
  have hdec := decode_round q t (q / t) μ ε v hqΔ hε (c1.trans hphase)
  obtain ⟨t1, t2⟩ := tmod_abs_lt (roundHalfAway v (q / t)) t ht
  have ht63 : t < 9007199254740992 := by
    have := Int.le_of_dvd hq hdiv
    omega
  rw [← hdec, ← tmod_fix _ t ht]
  split_ifs with h
  · exact wrap64_eq _ (by omega) (by omega)
  · rfl

namespace polynomial

theorem add_eq (a b : List Int) (q : Int) (hq : 0 < q) (hq2 : q < 9223372036854775808)
    (hlen : a.length = b.length)
    (h : ∀ i, i < a.length → isInt64 (a.getD i 0 + b.getD i 0)) :
    add a b q = .ok ((List.range a.length).map (fun i => (a.getD i 0 + b.getD i 0) % q)) := by
  unfold add
  rw [if_neg (by simpa using hlen)]
  congr 1
  apply List.map_congr_left
  intro i hi
  obtain ⟨h1, h2⟩ := h i (List.mem_range.mp hi)
  rw [wrap64_eq _ h1 h2, modq_spec _ _ hq hq2]

theorem subtract_eq (a b : List Int) (q : Int) (hq : 0 < q) (hq2 : q < 9223372036854775808)
    (hlen : a.length = b.length)
    (h : ∀ i, i < a.length → isInt64 (a.getD i 0 - b.getD i 0)) :
    subtract a b q
      = .ok ((List.range a.length).map (fun i => (a.getD i 0 - b.getD i 0) % q)) := by
  unfold subtract
  rw [if_neg (by simpa using hlen)]
  congr 1
  apply List.map_congr_left
  intro i hi
  obtain ⟨h1, h2⟩ := h i (List.mem_range.mp hi)
  rw [wrap64_eq _ h1 h2, modq_spec _ _ hq hq2]

theorem scalar_multiply_eq (a : List Int) (c q : Int) (hq : 0 < q)
    (hq2 : q < 9223372036854775808) (ha : ∀ x ∈ a, isInt64 x) (hc : isInt64 c) :
    scalar_multiply a c q = (List.range a.length).map (fun i => (a.getD i 0 * c) % q) := by
  unfold scalar_multiply
  apply List.map_congr_left
  intro i _
  obtain ⟨p1, p2⟩ := prod_int64_bounds _ _ (getD_isInt64 a ha i) hc
  simp only
  rw [wrap128_eq _ (by omega) (by omega)]
  obtain ⟨t1, t2⟩ := tmod_abs_lt (a.getD i 0 * c) q hq
  rw [wrap64_eq _ (by omega) (by omega), modq_spec _ _ hq hq2]
  exact tmod_modEq (a.getD i 0 * c) q

end polynomial

/-! ## RLWE -/

theorem isInt64_of_binary (sk : List Int) (hsk : ∀ x ∈ sk, x = 0 ∨ x = 1) :
    ∀ x ∈ sk, isInt64 x := by
  intro x hx
  unfold isInt64
  rcases hsk x hx with h | h <;> omega

theorem isInt64_of_range (a : List Int) (q : Int) (hq2 : q < 9223372036854775808)
    (ha : ∀ x ∈ a, 0 ≤ x ∧ x < q) : ∀ x ∈ a, isInt64 x := by
  intro x hx
  unfold isInt64
  obtain ⟨h1, h2⟩ := ha x hx
  omega

theorem getD_range_bounds (a : List Int) (q : Int) (hq : 0 < q)
    (ha : ∀ x ∈ a, 0 ≤ x ∧ x < q) (i : Nat) : 0 ≤ a.getD i 0 ∧ a.getD i 0 < q := by
  rcases Nat.lt_or_ge i a.length with h | h
  · have : a.getD i 0 = a[i] := by simp [List.getD, List.getElem?_eq_getElem h]
    rw [this]
    exact ha _ (List.getElem_mem _)
  · have : a.getD i 0 = 0 := by simp [List.getD, List.getElem?_eq_none h]
    rw [this]
    omega

/-- What `decrypt_rlwe` returns on a ciphertext whose phase `b - a·s` has
coefficients `Δ * μ k + ε k` modulo `q` with `2 |ε k| < Δ`. -/
theorem decrypt_rlwe_of_phase (ct : RLWECiphertext) (sk : List Int) (params : Parameters)
    (μ ε : Nat → Int)
    (hq : 0 < params.q) (hq2 : params.q < 2 ^ 53) (ht : 0 < params.t)
    (hdiv : params.t ∣ params.q)
    (hla : ct.a.length = sk.length) (hlb : ct.b.length = sk.length)
    (hsk : ∀ x ∈ sk, isInt64 x) (ha : ∀ x ∈ ct.a, isInt64 x)
    (hb : ∀ x ∈ ct.b, 0 ≤ x ∧ x < params.q)
    (hε : ∀ k, k < sk.length → 2 * |ε k| < params.q / params.t)
    (hphase : ∀ k, k < sk.length →
      ct.b.getD k 0 - negacyclicCoeff ct.a sk sk.length k
        ≡ params.q / params.t * μ k + ε k [ZMOD params.q]) :
    decrypt_rlwe ct sk params = .ok ((List.range sk.length).map (fun k => μ k % params.t)) := by
  have hq63 : params.q < 9223372036854775808 := by omega
  unfold decrypt_rlwe
  simp only
  rw [if_neg (by simp [hla, hlb]), polynomial.negacyclic_multiply_eq ct.a sk params.q hq hq63 hla ha hsk]
  simp only
  rw [polynomial.subtract_eq _ _ _ hq hq63 (by simp [hla, hlb]) (by
    intro i hi
    rw [hlb] at hi
    rw [hla, getD_map_range _ _ _ hi]
    have h1 := getD_range_bounds ct.b params.q hq hb i
    have h2 := Int.emod_nonneg (negacyclicCoeff ct.a sk sk.length i) hq.ne'
    have h3 := Int.emod_lt_of_pos (negacyclicCoeff ct.a sk sk.length i) hq
    unfold isInt64
    omega)]
  simp only
  congr 1
  apply List.map_congr_left
  intro k hk
  have hk' := List.mem_range.mp hk
  unfold polynomial.center_representation
  simp only [List.length_map, List.length_range]
  rw [hlb, getD_map_range _ _ _ hk', getD_map_range _ _ _ hk', hla, getD_map_range _ _ _ hk']
  apply round_coeff_double_spec _ _ _ (μ k) (ε k) hq hq2 ht hdiv (hε k hk')
  refine (Int.mod_modEq _ _).trans ?_
  refine Int.ModEq.trans ?_ (hphase k hk')
  exact Int.ModEq.sub_left _ (Int.mod_modEq _ _)

theorem map_getD_range_self (l : List Int) :
    (List.range l.length).map (fun k => l.getD k 0) = l := by
  apply List.ext_getElem
  · simp
  · intro i h1 h2
    simp [List.getElem?_eq_getElem h2]

theorem map_range_mem_bounds (f : Nat → Int) (n : Nat) (lo hi : Int)
    (h : ∀ i, i < n → lo ≤ f i ∧ f i < hi) :
    ∀ x ∈ (List.range n).map f, lo ≤ x ∧ x < hi := by
  intro x hx
  obtain ⟨i, hi', rfl⟩ := List.mem_map.mp hx
  exact h i (List.mem_range.mp hi')

/-- The ciphertext produced by `encrypt_rlwe`. -/
theorem encrypt_rlwe_eq (message sk : List Int) (params : Parameters) (ua ue : Nat → Int)
    (hq : 0 < params.q) (hq2 : params.q < 2 ^ 53) (ht : 0 < params.t)
    (hlen : message.length = sk.length)
    (hsk : ∀ x ∈ sk, isInt64 x) (hm : ∀ x ∈ message, isInt64 x)
    (hua : ∀ i, i < sk.length → 0 ≤ ua i ∧ ua i < params.q) :
    encrypt_rlwe message sk params ua ue = .ok
      ⟨(List.range sk.length).map ua,
        (List.range sk.length).map (fun k =>
          ((negacyclicCoeff ((List.range sk.length).map ua) sk sk.length k % params.q
            + message.getD k 0 * (params.q / params.t) % params.q) % params.q
            + ue k % params.q) % params.q)⟩ := by
  have hq63 : params.q < 9223372036854775808 := by omega
  have hΔ : params.q.tdiv params.t = params.q / params.t := Int.tdiv_eq_ediv hq.le ht.le
  have hΔ0 : 0 ≤ params.q / params.t := Int.ediv_nonneg hq.le ht.le
  have hΔle : params.q / params.t ≤ params.q := Int.ediv_le_self _ hq.le
  have haI : ∀ x ∈ (List.range sk.length).map ua, isInt64 x :=
    isInt64_of_range _ params.q hq63 (map_range_mem_bounds ua _ 0 params.q hua)
  unfold encrypt_rlwe
  simp only
  rw [if_neg (by simpa using hlen),
    polynomial.negacyclic_multiply_eq _ sk params.q hq hq63 (by simp) haI hsk]
  simp only [List.length_map, List.length_range]
  rw [hΔ, polynomial.scalar_multiply_eq message _ params.q hq hq63 hm
    (by unfold isInt64; omega), hlen]
  rw [polynomial.add_eq _ _ _ hq hq63 (by simp) (by
    intro i hi
    simp only [List.length_map, List.length_range] at hi
    rw [getD_map_range _ _ _ hi, getD_map_range _ _ _ hi]
    have h1 := Int.emod_nonneg (negacyclicCoeff ((List.range sk.length).map ua) sk sk.length i) hq.ne'
    have h2 := Int.emod_lt_of_pos (negacyclicCoeff ((List.range sk.length).map ua) sk sk.length i) hq
    have h3 := Int.emod_nonneg (message.getD i 0 * (params.q / params.t)) hq.ne'
    have h4 := Int.emod_lt_of_pos (message.getD i 0 * (params.q / params.t)) hq
    unfold isInt64
    omega)]
  simp only [List.length_map, List.length_range]
  rw [polynomial.add_eq _ _ _ hq hq63 (by simp) (by
    intro i hi
    simp only [List.length_map, List.length_range] at hi
    rw [getD_map_range _ _ _ hi, getD_map_range _ _ _ hi, getD_map_range _ _ _ hi,
      getD_map_range _ _ _ hi, modq_spec _ _ hq hq63]
    have h1 := Int.emod_nonneg ((negacyclicCoeff ((List.range sk.length).map ua) sk sk.length i % params.q
            + message.getD i 0 * (params.q / params.t) % params.q)) hq.ne'
    have h2 := Int.emod_lt_of_pos ((negacyclicCoeff ((List.range sk.length).map ua) sk sk.length i % params.q
            + message.getD i 0 * (params.q / params.t) % params.q)) hq
    have h3 := Int.emod_nonneg (ue i) hq.ne'
    have h4 := Int.emod_lt_of_pos (ue i) hq
    unfold isInt64
    omega)]
  simp only [List.length_map, List.length_range]
  congr 2
  apply List.map_congr_left
  intro k hk
  have hk' := List.mem_range.mp hk
  rw [getD_map_range _ _ _ hk', getD_map_range _ _ _ hk', getD_map_range _ _ _ hk',
    getD_map_range _ _ _ hk', modq_spec _ _ hq hq63]

/-- RLWE round trip: for `0 < q < 2^53`, `t` dividing `q`, a binary
secret polynomial `s` of length `n`, a message of length `n` with coefficients in
`[0, t)`, a mask with coefficients in `[0, q)` and noise draws with
`2 |e_i| < Δ = q / t`, `encrypt_rlwe` returns a ciphertext and `decrypt_rlwe`
returns the message, coefficient for coefficient. -/
theorem rlwe_round_trip (message sk : List Int) (params : Parameters) (ua ue : Nat → Int)
    (hq : 0 < params.q) (hq2 : params.q < 2 ^ 53) (ht : 0 < params.t)
    (hdiv : params.t ∣ params.q)
    (hlen : message.length = sk.length)
    (hsk : ∀ x ∈ sk, x = 0 ∨ x = 1)
    (hm : ∀ x ∈ message, 0 ≤ x ∧ x < params.t)
    (hua : ∀ i, i < sk.length → 0 ≤ ua i ∧ ua i < params.q)
    (hue : ∀ i, i < sk.length → 2 * |ue i| < params.q / params.t) :
    ∃ ct, encrypt_rlwe message sk params ua ue = .ok ct ∧
      decrypt_rlwe ct sk params = .ok message := by
  have hq63 : params.q < 9223372036854775808 := by omega
  have ht63 : params.t < 9223372036854775808 := by
    have := Int.le_of_dvd hq hdiv
    omega
  have hskI := isInt64_of_binary sk hsk
  have hmI := isInt64_of_range message params.t ht63 hm
  refine ⟨_, encrypt_rlwe_eq message sk params ua ue hq hq2 ht hlen hskI hmI hua, ?_⟩
  have hdec := decrypt_rlwe_of_phase
    ⟨(List.range sk.length).map ua,
        (List.range sk.length).map (fun k =>
          ((negacyclicCoeff ((List.range sk.length).map ua) sk sk.length k % params.q
            + message.getD k 0 * (params.q / params.t) % params.q) % params.q
            + ue k % params.q) % params.q)⟩ sk params
    (fun k => message.getD k 0) ue hq hq2 ht hdiv (by simp) (by simp) hskI
    (isInt64_of_range _ params.q hq63 (map_range_mem_bounds ua _ 0 params.q hua))
    (map_range_mem_bounds _ _ 0 params.q
      (fun i _ => ⟨Int.emod_nonneg _ hq.ne', Int.emod_lt_of_pos _ hq⟩))
    hue
    (by
      intro k hk
      show ((List.range sk.length).map _).getD k 0 - _ ≡ _ [ZMOD params.q]
      rw [getD_map_range _ _ _ hk]
      have h1 : ((negacyclicCoeff ((List.range sk.length).map ua) sk sk.length k % params.q
            + message.getD k 0 * (params.q / params.t) % params.q) % params.q
            + ue k % params.q) % params.q
          ≡ negacyclicCoeff ((List.range sk.length).map ua) sk sk.length k
            + (params.q / params.t * message.getD k 0 + ue k) [ZMOD params.q] := by
        refine (Int.mod_modEq _ _).trans ?_
        rw [← add_assoc]
        refine Int.ModEq.add ?_ (Int.mod_modEq _ _)
        refine (Int.mod_modEq _ _).trans ?_
        refine Int.ModEq.add (Int.mod_modEq _ _) ?_
        rw [mul_comm]
        exact Int.mod_modEq _ _
      have := h1.sub_right (negacyclicCoeff ((List.range sk.length).map ua) sk sk.length k)
      simpa using this)
  rw [hdec]
  congr 1
  have : (List.range sk.length).map (fun k => message.getD k 0 % params.t)
      = (List.range sk.length).map (fun k => message.getD k 0) := by
    apply List.map_congr_left
    intro k _
    obtain ⟨h1, h2⟩ := getD_range_bounds message params.t ht hm k
    exact Int.emod_eq_of_lt h1 h2
  rw [this, ← hlen]
  exact map_getD_range_self message

/-- Witness of `rlwe_round_trip`: `n = 2`, `q = 64`, `t = 4`. -/
theorem rlwe_round_trip_witness :
    ∃ ct, encrypt_rlwe [3, 1] [1, 0] ⟨2, 64, 4, 7⟩ (fun i => 5 + 2 * (i : Int))
        (fun i => 7 - 14 * (i : Int)) = .ok ct ∧
      decrypt_rlwe ct [1, 0] ⟨2, 64, 4, 7⟩ = .ok [3, 1] :=
  rlwe_round_trip [3, 1] [1, 0] ⟨2, 64, 4, 7⟩ (fun i => 5 + 2 * (i : Int))
    (fun i => 7 - 14 * (i : Int))
    (by decide) (by decide) (by decide) (by decide) (by decide) (by decide) (by decide)
    (by intro i hi; simp at hi; dsimp only; constructor <;> omega)
    (by
      intro i hi
      simp at hi
      have : i = 0 ∨ i = 1 := by omega
      rcases this with h | h <;> subst h <;> decide)

/-- C2 (the code at the failing input). For `n = 1`, `q = 2^56`, `t = 2`, key `[1]`,
message `[0]`, mask `[0]`, noise `2^54 - 1` (`2 |e| < Δ = 2^55`): the decryption
is `[1]`. -/
theorem rlwe_round_trip_fails_large_q :
    (2 : Int) ∣ 72057594037927936 ∧
    2 * |(18014398509481983 : Int)| < 72057594037927936 / 2 ∧
    encrypt_rlwe [0] [1] ⟨1, 72057594037927936, 2, 18014398509481983⟩ (fun _ => 0)
        (fun _ => 18014398509481983) = .ok ⟨[0], [18014398509481983]⟩ ∧
    decrypt_rlwe ⟨[0], [18014398509481983]⟩ [1]
        ⟨1, 72057594037927936, 2, 18014398509481983⟩ = .ok [1] ∧
    decrypt_rlwe ⟨[0], [18014398509481983]⟩ [1]
        ⟨1, 72057594037927936, 2, 18014398509481983⟩ ≠ .ok [0] := by
  refine ⟨by decide, by decide, by decide, by decide, by decide⟩

/-! ## Homomorphic operations on LWE ciphertexts -/

theorem dotZ_modEq_add (a x y s : List Int) (q : Int) (n : Nat)
    (h : ∀ i, i < n → a.getD i 0 ≡ x.getD i 0 + y.getD i 0 [ZMOD q]) :
    dotZ a s n ≡ dotZ x s n + dotZ y s n [ZMOD q] := by
  induction n with
  | zero => simp [dotZ]
  | succ n ih =>
    rw [dotZ_succ, dotZ_succ, dotZ_succ]
    have h1 := ih (fun i hi => h i (by omega))
    have h2 := (h n (by omega)).mul_right (s.getD n 0)
    have := h1.add h2
    refine this.trans ?_
    rw [show dotZ x s n + dotZ y s n + (x.getD n 0 + y.getD n 0) * s.getD n 0
      = dotZ x s n + x.getD n 0 * s.getD n 0 + (dotZ y s n + y.getD n 0 * s.getD n 0) by ring]

theorem dotZ_modEq_sub (a x y s : List Int) (q : Int) (n : Nat)
    (h : ∀ i, i < n → a.getD i 0 ≡ x.getD i 0 - y.getD i 0 [ZMOD q]) :
    dotZ a s n ≡ dotZ x s n - dotZ y s n [ZMOD q] := by
  induction n with
  | zero => simp [dotZ]
  | succ n ih =>
    rw [dotZ_succ, dotZ_succ, dotZ_succ]
    have h1 := ih (fun i hi => h i (by omega))
    have h2 := (h n (by omega)).mul_right (s.getD n 0)
    have := h1.add h2
    refine this.trans ?_
    rw [show dotZ x s n - dotZ y s n + (x.getD n 0 - y.getD n 0) * s.getD n 0
      = dotZ x s n + x.getD n 0 * s.getD n 0 - (dotZ y s n + y.getD n 0 * s.getD n 0) by ring]

theorem dotZ_modEq_smul (a x s : List Int) (c q : Int) (n : Nat)
    (h : ∀ i, i < n → a.getD i 0 ≡ x.getD i 0 * c [ZMOD q]) :
    dotZ a s n ≡ dotZ x s n * c [ZMOD q] := by
  induction n with
  | zero => simp [dotZ]
  | succ n ih =>
    rw [dotZ_succ, dotZ_succ]
    have h1 := ih (fun i hi => h i (by omega))
    have h2 := (h n (by omega)).mul_right (s.getD n 0)
    have := h1.add h2
    refine this.trans ?_
    rw [show dotZ x s n * c + x.getD n 0 * c * s.getD n 0
      = (dotZ x s n + x.getD n 0 * s.getD n 0) * c by ring]

/-- The invariant of a fresh LWE ciphertext: `encrypt_lwe` returns `(a, b)` with
`a` the drawn mask, `b` in `[0, q)` and `b - ⟨a, s⟩ ≡ Δ m + e (mod q)`. -/
theorem encrypt_lwe_phase (m : Int) (sk : List Int) (params : Parameters) (ua : Nat → Int)
    (e : Int)
    (hq : 0 < params.q) (hq2 : params.q < 2 ^ 53) (ht : 0 < params.t)
    (hdiv : params.t ∣ params.q) (hk : sk.length < 2 ^ 64)
    (hsk : ∀ x ∈ sk, x = 0 ∨ x = 1)
    (hm : 0 ≤ m ∧ m < params.t)
    (hua : ∀ i, i < sk.length → 0 ≤ ua i ∧ ua i < params.q)
    (he : isInt64 e) :
    ∃ ct, encrypt_lwe m sk params ua e = .ok ct ∧ ct.a.length = sk.length ∧
      (∀ i, i < sk.length → ct.a.getD i 0 = ua i) ∧
      (0 ≤ ct.b ∧ ct.b < params.q) ∧
      ct.b - dotZ ct.a sk sk.length ≡ params.q / params.t * m + e [ZMOD params.q] := by
  refine ⟨_, encrypt_lwe_eq m sk params ua e hq hq2 ht hdiv hk hsk hm hua he, by simp,
    fun i hi => getD_map_range ua _ _ hi,
    ⟨Int.emod_nonneg _ hq.ne', Int.emod_lt_of_pos _ hq⟩, ?_⟩
  show (dotZ ((List.range sk.length).map ua) sk sk.length % params.q
        + params.q / params.t * m + e) % params.q
          - dotZ ((List.range sk.length).map ua) sk sk.length
        ≡ params.q / params.t * m + e [ZMOD params.q]
  have h1 : (dotZ ((List.range sk.length).map ua) sk sk.length % params.q
      + params.q / params.t * m + e) % params.q
      ≡ dotZ ((List.range sk.length).map ua) sk sk.length
        + (params.q / params.t * m + e) [ZMOD params.q] := by
    refine (Int.mod_modEq _ _).trans ?_
    rw [add_assoc]
    exact (Int.mod_modEq _ _).add_right _
  have := h1.sub_right (dotZ ((List.range sk.length).map ua) sk sk.length)
  simpa using this

/-- LWE homomorphic addition, for `0 < q < 2^53`: the sum of two
fresh encryptions of `m1`, `m2` with noises `2 (|e1| + |e2|) < Δ` decrypts to
`(m1 + m2) mod t`. -/
theorem lwe_add_correct (m1 m2 : Int) (sk : List Int) (params : Parameters)
    (ua1 ua2 : Nat → Int) (e1 e2 : Int)
    (hq : 0 < params.q) (hq2 : params.q < 2 ^ 53) (ht : 0 < params.t)
    (hdiv : params.t ∣ params.q) (hk : sk.length < 2 ^ 64)
    (hsk : ∀ x ∈ sk, x = 0 ∨ x = 1)
    (hm1 : 0 ≤ m1 ∧ m1 < params.t) (hm2 : 0 ≤ m2 ∧ m2 < params.t)
    (hua1 : ∀ i, i < sk.length → 0 ≤ ua1 i ∧ ua1 i < params.q)
    (hua2 : ∀ i, i < sk.length → 0 ≤ ua2 i ∧ ua2 i < params.q)
    (he : 2 * (|e1| + |e2|) < params.q / params.t) :
    ∃ ct1 ct2 ct, encrypt_lwe m1 sk params ua1 e1 = .ok ct1 ∧
      encrypt_lwe m2 sk params ua2 e2 = .ok ct2 ∧
      add_lwe ct1 ct2 params = .ok ct ∧
      decrypt_lwe ct sk params = .ok ((m1 + m2) % params.t) := by
  have hq63 : params.q < 9223372036854775808 := by omega
  have a1 := abs_nonneg e1
  have a2 := abs_nonneg e2
  have hΔle : params.q / params.t ≤ params.q := Int.ediv_le_self _ hq.le
  obtain ⟨ct1, hc1, l1, g1, b1, p1⟩ := encrypt_lwe_phase m1 sk params ua1 e1 hq hq2 ht hdiv hk
    hsk hm1 hua1 (by
      have h1 := neg_abs_le e1
      have h2 := le_abs_self e1
      unfold isInt64; omega)
  obtain ⟨ct2, hc2, l2, g2, b2, p2⟩ := encrypt_lwe_phase m2 sk params ua2 e2 hq hq2 ht hdiv hk
    hsk hm2 hua2 (by
      have h1 := neg_abs_le e2
      have h2 := le_abs_self e2
      unfold isInt64; omega)
  have hadd : add_lwe ct1 ct2 params = .ok
      ⟨(List.range ct1.a.length).map
          (fun i => modq (wrap64 (ct1.a.getD i 0 + ct2.a.getD i 0)) params.q),
        modq (wrap64 (ct1.b + ct2.b)) params.q⟩ := by
    unfold add_lwe
    rw [if_neg (by simp [l1, l2])]
  refine ⟨ct1, ct2, _, hc1, hc2, hadd, ?_⟩
  · have hgetD : ∀ i, i < sk.length →
        ((List.range ct1.a.length).map
          (fun i => modq (wrap64 (ct1.a.getD i 0 + ct2.a.getD i 0)) params.q)).getD i 0
          = (ct1.a.getD i 0 + ct2.a.getD i 0) % params.q := by
      intro i hi
      rw [l1, getD_map_range _ _ _ hi, g1 i hi, g2 i hi]
      obtain ⟨u1, u2⟩ := hua1 i hi
      obtain ⟨v1, v2⟩ := hua2 i hi
      rw [wrap64_eq _ (by omega) (by omega), modq_spec _ _ hq hq63]
    apply decrypt_lwe_of_phase _ sk params (m1 + m2) (e1 + e2) hq hq2 ht hdiv
      (by simp [l1]) hk hsk
    · intro i hi
      simp only [List.length_map, List.length_range, l1] at hi
      show 0 ≤ ((List.range ct1.a.length).map _).getD i 0 ∧ _
      rw [hgetD i hi]
      exact ⟨Int.emod_nonneg _ hq.ne', Int.emod_lt_of_pos _ hq⟩
    · show 0 ≤ modq _ _ ∧ modq _ _ < _
      rw [modq_spec _ _ hq hq63]
      exact ⟨Int.emod_nonneg _ hq.ne', Int.emod_lt_of_pos _ hq⟩
    · have := abs_add e1 e2
      omega
    · show modq (wrap64 (ct1.b + ct2.b)) params.q
          - dotZ ((List.range ct1.a.length).map _) sk ((List.range ct1.a.length).map _).length
          ≡ _ [ZMOD params.q]
      simp only [List.length_map, List.length_range, l1]
      rw [wrap64_eq _ (by omega) (by omega), modq_spec _ _ hq hq63]
      have hd := dotZ_modEq_add _ ct1.a ct2.a sk params.q sk.length (fun i hi => by
        have := hgetD i hi
        rw [l1] at this
        rw [this]
        exact Int.mod_modEq _ _)
      have := ((Int.mod_modEq (ct1.b + ct2.b) params.q).sub hd)
      refine this.trans ?_
      have := p1.add p2
      refine Int.ModEq.trans ?_ (this.trans ?_)
      · rw [show ct1.b + ct2.b - (dotZ ct1.a sk sk.length + dotZ ct2.a sk sk.length)
          = ct1.b - dotZ ct1.a sk sk.length + (ct2.b - dotZ ct2.a sk sk.length) by ring]
      · rw [show params.q / params.t * m1 + e1 + (params.q / params.t * m2 + e2)
          = params.q / params.t * (m1 + m2) + (e1 + e2) by ring]

/-- Witness of `lwe_add_correct`: `q = 2^25`, `t = 8`, `m1 = 3`, `m2 = 5`. -/
theorem lwe_add_correct_witness :
    ∃ ct1 ct2 ct, encrypt_lwe 3 [1, 0, 1] ⟨0, 33554432, 8, 524288⟩
        (fun i => 7 + 1000 * (i : Int)) 524288 = .ok ct1 ∧
      encrypt_lwe 5 [1, 0, 1] ⟨0, 33554432, 8, 524288⟩
        (fun i => 33554431 - (i : Int)) (-524288) = .ok ct2 ∧
      add_lwe ct1 ct2 ⟨0, 33554432, 8, 524288⟩ = .ok ct ∧
      decrypt_lwe ct [1, 0, 1] ⟨0, 33554432, 8, 524288⟩ = .ok ((3 + 5) % 8) :=
  lwe_add_correct 3 5 [1, 0, 1] ⟨0, 33554432, 8, 524288⟩ (fun i => 7 + 1000 * (i : Int))
    (fun i => 33554431 - (i : Int)) 524288 (-524288)
    (by decide) (by decide) (by decide) (by decide) (by decide) (by decide) (by decide)
    (by decide)
    (by intro i hi; simp at hi; dsimp only; constructor <;> omega)
    (by intro i hi; simp at hi; dsimp only; constructor <;> omega)
    (by decide)

/-- C7 (the code at the failing input). For `q = 2^56`, `t = 2`, key `[1]`, masks
`[0]`, `m1 = m2 = 0`, `e1 = 2^54 - 1`, `e2 = 0` (`2 (|e1| + |e2|) < Δ = 2^55`): the
sum decrypts to `1`, not to `(0 + 0) mod 2 = 0`. -/
theorem lwe_add_fails_large_q :
    (2 : Int) ∣ 72057594037927936 ∧
    2 * (|(18014398509481983 : Int)| + |(0 : Int)|) < 72057594037927936 / 2 ∧
    encrypt_lwe 0 [1] ⟨0, 72057594037927936, 2, 18014398509481983⟩ (fun _ => 0)
        18014398509481983 = .ok ⟨[0], 18014398509481983⟩ ∧
    encrypt_lwe 0 [1] ⟨0, 72057594037927936, 2, 18014398509481983⟩ (fun _ => 0) 0
        = .ok ⟨[0], 0⟩ ∧
    add_lwe ⟨[0], 18014398509481983⟩ ⟨[0], 0⟩
        ⟨0, 72057594037927936, 2, 18014398509481983⟩ = .ok ⟨[0], 18014398509481983⟩ ∧
    decrypt_lwe ⟨[0], 18014398509481983⟩ [1]
        ⟨0, 72057594037927936, 2, 18014398509481983⟩ = .ok 1 ∧
    (1 : Int) ≠ (0 + 0) % 2 := by
  refine ⟨by decide, by decide, by decide, by decide, by decide, by decide, by decide⟩

/-- LWE homomorphic subtraction, for `0 < q < 2^53`: the difference
of two fresh encryptions of `m1`, `m2` with noises `2 (|e1| + |e2|) < Δ` decrypts
to `(m1 - m2) mod t`, the residue in `[0, t)`. -/
theorem lwe_subtract_correct (m1 m2 : Int) (sk : List Int) (params : Parameters)
    (ua1 ua2 : Nat → Int) (e1 e2 : Int)
    (hq : 0 < params.q) (hq2 : params.q < 2 ^ 53) (ht : 0 < params.t)
    (hdiv : params.t ∣ params.q) (hk : sk.length < 2 ^ 64)
    (hsk : ∀ x ∈ sk, x = 0 ∨ x = 1)
    (hm1 : 0 ≤ m1 ∧ m1 < params.t) (hm2 : 0 ≤ m2 ∧ m2 < params.t)
    (hua1 : ∀ i, i < sk.length → 0 ≤ ua1 i ∧ ua1 i < params.q)
    (hua2 : ∀ i, i < sk.length → 0 ≤ ua2 i ∧ ua2 i < params.q)
    (he : 2 * (|e1| + |e2|) < params.q / params.t) :
    ∃ ct1 ct2 ct, encrypt_lwe m1 sk params ua1 e1 = .ok ct1 ∧
      encrypt_lwe m2 sk params ua2 e2 = .ok ct2 ∧
      subtract_lwe ct1 ct2 params = .ok ct ∧
      decrypt_lwe ct sk params = .ok ((m1 - m2) % params.t) ∧
      0 ≤ (m1 - m2) % params.t ∧ (m1 - m2) % params.t < params.t := by
  have hq63 : params.q < 9223372036854775808 := by omega
  have a1 := abs_nonneg e1
  have a2 := abs_nonneg e2
  have hΔle : params.q / params.t ≤ params.q := Int.ediv_le_self _ hq.le
  obtain ⟨ct1, hc1, l1, g1, b1, p1⟩ := encrypt_lwe_phase m1 sk params ua1 e1 hq hq2 ht hdiv hk
    hsk hm1 hua1 (by
      have h1 := neg_abs_le e1
      have h2 := le_abs_self e1
      unfold isInt64; omega)
  obtain ⟨ct2, hc2, l2, g2, b2, p2⟩ := encrypt_lwe_phase m2 sk params ua2 e2 hq hq2 ht hdiv hk
    hsk hm2 hua2 (by
      have h1 := neg_abs_le e2
      have h2 := le_abs_self e2
      unfold isInt64; omega)
  have hsub : subtract_lwe ct1 ct2 params = .ok
      ⟨(List.range ct1.a.length).map
          (fun i => modq (wrap64 (ct1.a.getD i 0 - ct2.a.getD i 0)) params.q),
        modq (wrap64 (ct1.b - ct2.b)) params.q⟩ := by
    unfold subtract_lwe
    rw [if_neg (by simp [l1, l2])]
  refine ⟨ct1, ct2, _, hc1, hc2, hsub, ?_, Int.emod_nonneg _ ht.ne',
    Int.emod_lt_of_pos _ ht⟩
  have hgetD : ∀ i, i < sk.length →
      ((List.range ct1.a.length).map
        (fun i => modq (wrap64 (ct1.a.getD i 0 - ct2.a.getD i 0)) params.q)).getD i 0
        = (ct1.a.getD i 0 - ct2.a.getD i 0) % params.q := by
    intro i hi
    rw [l1, getD_map_range _ _ _ hi, g1 i hi, g2 i hi]
    obtain ⟨u1, u2⟩ := hua1 i hi
    obtain ⟨v1, v2⟩ := hua2 i hi
    rw [wrap64_eq _ (by omega) (by omega), modq_spec _ _ hq hq63]
  apply decrypt_lwe_of_phase _ sk params (m1 - m2) (e1 - e2) hq hq2 ht hdiv
    (by simp [l1]) hk hsk
  · intro i hi
    simp only [List.length_map, List.length_range, l1] at hi
    show 0 ≤ ((List.range ct1.a.length).map _).getD i 0 ∧ _
    rw [hgetD i hi]
    exact ⟨Int.emod_nonneg _ hq.ne', Int.emod_lt_of_pos _ hq⟩
  · show 0 ≤ modq _ _ ∧ modq _ _ < _
    rw [modq_spec _ _ hq hq63]
    exact ⟨Int.emod_nonneg _ hq.ne', Int.emod_lt_of_pos _ hq⟩
  · have := abs_sub e1 e2
    omega
  · show modq (wrap64 (ct1.b - ct2.b)) params.q
        - dotZ ((List.range ct1.a.length).map _) sk ((List.range ct1.a.length).map _).length
        ≡ _ [ZMOD params.q]
    simp only [List.length_map, List.length_range, l1]
    rw [wrap64_eq _ (by omega) (by omega), modq_spec _ _ hq hq63]
    have hd := dotZ_modEq_sub _ ct1.a ct2.a sk params.q sk.length (fun i hi => by
      have := hgetD i hi
      rw [l1] at this
      rw [this]
      exact Int.mod_modEq _ _)
    have := ((Int.mod_modEq (ct1.b - ct2.b) params.q).sub hd)
    refine this.trans ?_
    have := p1.sub p2
    refine Int.ModEq.trans ?_ (this.trans ?_)
    · rw [show ct1.b - ct2.b - (dotZ ct1.a sk sk.length - dotZ ct2.a sk sk.length)
        = ct1.b - dotZ ct1.a sk sk.length - (ct2.b - dotZ ct2.a sk sk.length) by ring]
    · rw [show params.q / params.t * m1 + e1 - (params.q / params.t * m2 + e2)
        = params.q / params.t * (m1 - m2) + (e1 - e2) by ring]

/-- Witness of `lwe_subtract_correct`: `q = 2^25`, `t = 8`, `m1 = 3`, `m2 = 5`
(the difference is `6 = (3 - 5) mod 8`). -/
theorem lwe_subtract_correct_witness :
    ∃ ct1 ct2 ct, encrypt_lwe 3 [1, 0, 1] ⟨0, 33554432, 8, 524288⟩
        (fun i => 7 + 1000 * (i : Int)) 524288 = .ok ct1 ∧
      encrypt_lwe 5 [1, 0, 1] ⟨0, 33554432, 8, 524288⟩
        (fun i => 33554431 - (i : Int)) (-524288) = .ok ct2 ∧
      subtract_lwe ct1 ct2 ⟨0, 33554432, 8, 524288⟩ = .ok ct ∧
      decrypt_lwe ct [1, 0, 1] ⟨0, 33554432, 8, 524288⟩ = .ok ((3 - 5) % 8) ∧
      0 ≤ ((3 : Int) - 5) % 8 ∧ ((3 : Int) - 5) % 8 < 8 :=
  lwe_subtract_correct 3 5 [1, 0, 1] ⟨0, 33554432, 8, 524288⟩
    (fun i => 7 + 1000 * (i : Int)) (fun i => 33554431 - (i : Int)) 524288 (-524288)
    (by decide) (by decide) (by decide) (by decide) (by decide) (by decide) (by decide)
    (by decide)
    (by intro i hi; simp at hi; dsimp only; constructor <;> omega)
    (by intro i hi; simp at hi; dsimp only; constructor <;> omega)
    (by decide)

/-- C9 (the code at the failing input). For `q = 2^56`, `t = 2`, key `[1]`, masks
`[0]`, `m1 = m2 = 0`, `e1 = 2^54 - 1`, `e2 = 0`: the difference decrypts to `1`, not
to `(0 - 0) mod 2 = 0`. -/
theorem lwe_subtract_fails_large_q :
    (2 : Int) ∣ 72057594037927936 ∧
    2 * (|(18014398509481983 : Int)| + |(0 : Int)|) < 72057594037927936 / 2 ∧
    encrypt_lwe 0 [1] ⟨0, 72057594037927936, 2, 18014398509481983⟩ (fun _ => 0)
        18014398509481983 = .ok ⟨[0], 18014398509481983⟩ ∧
    encrypt_lwe 0 [1] ⟨0, 72057594037927936, 2, 18014398509481983⟩ (fun _ => 0) 0
        = .ok ⟨[0], 0⟩ ∧
    subtract_lwe ⟨[0], 18014398509481983⟩ ⟨[0], 0⟩
        ⟨0, 72057594037927936, 2, 18014398509481983⟩ = .ok ⟨[0], 18014398509481983⟩ ∧
    decrypt_lwe ⟨[0], 18014398509481983⟩ [1]
        ⟨0, 72057594037927936, 2, 18014398509481983⟩ = .ok 1 ∧
    (1 : Int) ≠ (0 - 0) % 2 := by
  refine ⟨by decide, by decide, by decide, by decide, by decide, by decide, by decide⟩

/-- LWE scalar multiplication, for `0 < q < 2^53`: for an `int64`
scalar `c` and a fresh encryption of `m` with an `int64` noise `e` such that
`2 |c| |e| < Δ`, the scaled ciphertext decrypts to `(c m) mod t`. -/
theorem lwe_scalar_multiply_correct (m c : Int) (sk : List Int) (params : Parameters)
    (ua : Nat → Int) (e : Int)
    (hq : 0 < params.q) (hq2 : params.q < 2 ^ 53) (ht : 0 < params.t)
    (hdiv : params.t ∣ params.q) (hk : sk.length < 2 ^ 64)
    (hsk : ∀ x ∈ sk, x = 0 ∨ x = 1)
    (hm : 0 ≤ m ∧ m < params.t)
    (hua : ∀ i, i < sk.length → 0 ≤ ua i ∧ ua i < params.q)
    (hc : isInt64 c) (heI : isInt64 e)
    (he : 2 * |c| * |e| < params.q / params.t) :
    ∃ ct, encrypt_lwe m sk params ua e = .ok ct ∧
      decrypt_lwe (scalar_multiply_lwe ct c params) sk params = .ok ((c * m) % params.t) := by
  have hq63 : params.q < 9223372036854775808 := by omega
  obtain ⟨ct, hc1, l1, g1, b1, p1⟩ := encrypt_lwe_phase m sk params ua e hq hq2 ht hdiv hk
    hsk hm hua heI
  refine ⟨ct, hc1, ?_⟩
  have hmul : ∀ x : Int, isInt64 x →
      modq (wrap64 ((wrap128 (x * c)).tmod params.q)) params.q = (x * c) % params.q := by
    intro x hx
    obtain ⟨p1, p2⟩ := prod_int64_bounds _ _ hx hc
    rw [wrap128_eq _ (by omega) (by omega)]
    obtain ⟨t1, t2⟩ := tmod_abs_lt (x * c) params.q hq
    rw [wrap64_eq _ (by omega) (by omega), modq_spec _ _ hq hq63]
    exact tmod_modEq (x * c) params.q
  have hgetD : ∀ i, i < sk.length →
      (scalar_multiply_lwe ct c params).a.getD i 0 = (ct.a.getD i 0 * c) % params.q := by
    intro i hi
    unfold scalar_multiply_lwe
    simp only
    rw [l1, getD_map_range _ _ _ hi]
    apply hmul
    rw [g1 i hi]
    obtain ⟨u1, u2⟩ := hua i hi
    unfold isInt64; omega
  have hb : (scalar_multiply_lwe ct c params).b = (ct.b * c) % params.q := by
    unfold scalar_multiply_lwe
    simp only
    apply hmul
    unfold isInt64; omega
  have hlen : (scalar_multiply_lwe ct c params).a.length = sk.length := by
    unfold scalar_multiply_lwe
    simp [l1]
  apply decrypt_lwe_of_phase _ sk params (c * m) (c * e) hq hq2 ht hdiv hlen hk hsk
  · intro i hi
    rw [hlen] at hi
    rw [hgetD i hi]
    exact ⟨Int.emod_nonneg _ hq.ne', Int.emod_lt_of_pos _ hq⟩
  · rw [hb]
    exact ⟨Int.emod_nonneg _ hq.ne', Int.emod_lt_of_pos _ hq⟩
  · rw [abs_mul, ← mul_assoc]
    exact he
  · rw [hb, hlen]
    have hd := dotZ_modEq_smul (scalar_multiply_lwe ct c params).a ct.a sk c params.q sk.length
      (fun i hi => by rw [hgetD i hi]; exact Int.mod_modEq _ _)
    have := (Int.mod_modEq (ct.b * c) params.q).sub hd
    refine this.trans ?_
    have := p1.mul_right c
    refine Int.ModEq.trans ?_ (this.trans ?_)
    · rw [show ct.b * c - dotZ ct.a sk sk.length * c = (ct.b - dotZ ct.a sk sk.length) * c by ring]
    · rw [show (params.q / params.t * m + e) * c = params.q / params.t * (c * m) + c * e by ring]

/-- Witness of `lwe_scalar_multiply_correct`: the scenario `q = 2^25`, `t = 8`,
`B = ⌊q / (8 t)⌋ = 2^19`, `m = 3`, `c = 3` at the extreme noise `e = B`, where the
result is `(3 * 3) mod 8 = 1`. -/
theorem lwe_scalar_multiply_correct_witness :
    ∃ ct, encrypt_lwe 3 [1, 0, 1] ⟨0, 33554432, 8, 524288⟩
        (fun i => 7 + 1000 * (i : Int)) 524288 = .ok ct ∧
      decrypt_lwe (scalar_multiply_lwe ct 3 ⟨0, 33554432, 8, 524288⟩) [1, 0, 1]
        ⟨0, 33554432, 8, 524288⟩ = .ok ((3 * 3) % 8) :=
  lwe_scalar_multiply_correct 3 3 [1, 0, 1] ⟨0, 33554432, 8, 524288⟩
    (fun i => 7 + 1000 * (i : Int)) 524288
    (by decide) (by decide) (by decide) (by decide) (by decide) (by decide) (by decide)
    (by intro i hi; simp at hi; dsimp only; constructor <;> omega)
    (by decide) (by decide) (by decide)

/-- C10 (the code at the failing input). For `q = 2^56`, `t = 2`, key `[1]`, mask
`[0]`, `m = 0`, `c = 1`, `e = 2^54 - 1` (`2 |c| |e| < Δ = 2^55`): the scaled
ciphertext decrypts to `1`, not to `(1 * 0) mod 2 = 0`. -/
theorem lwe_scalar_multiply_fails_large_q :
    (2 : Int) ∣ 72057594037927936 ∧
    2 * |(1 : Int)| * |(18014398509481983 : Int)| < 72057594037927936 / 2 ∧
    encrypt_lwe 0 [1] ⟨0, 72057594037927936, 2, 18014398509481983⟩ (fun _ => 0)
        18014398509481983 = .ok ⟨[0], 18014398509481983⟩ ∧
    decrypt_lwe (scalar_multiply_lwe ⟨[0], 18014398509481983⟩ 1
        ⟨0, 72057594037927936, 2, 18014398509481983⟩) [1]
        ⟨0, 72057594037927936, 2, 18014398509481983⟩ = .ok 1 ∧
    (1 : Int) ≠ (1 * 0) % 2 := by
  refine ⟨by decide, by decide, by decide, by decide, by decide⟩

/-! ## Homomorphic addition on RLWE ciphertexts -/

theorem list_sum_map_add (l : List Nat) (f g : Nat → Int) :
    (l.map (fun x => f x + g x)).sum = (l.map f).sum + (l.map g).sum := by
  induction l with
  | nil => simp
  | cons x xs ih => simp only [List.map_cons, List.sum_cons, ih]; ring

theorem list_sum_modEq (l : List Nat) (f g : Nat → Int) (q : Int)
    (h : ∀ i ∈ l, f i ≡ g i [ZMOD q]) : (l.map f).sum ≡ (l.map g).sum [ZMOD q] := by
  induction l with
  | nil => simp
  | cons x xs ih =>
    simp only [List.map_cons, List.sum_cons]
    exact (h x (by simp)).add (ih (fun i hi => h i (by simp [hi])))

theorem convSum_modEq_add (a x y s : List Int) (q : Int) (n k : Nat)
    (h : ∀ i, i < n → a.getD i 0 ≡ x.getD i 0 + y.getD i 0 [ZMOD q]) :
    convSum a s n k ≡ convSum x s n k + convSum y s n k [ZMOD q] := by
  unfold convSum
  rw [← list_sum_map_add]
  apply list_sum_modEq
  intro i hi
  rw [← list_sum_map_add]
  apply list_sum_modEq
  intro j _
  by_cases hc : i + j = k
  · simp only [hc, if_true]
    have := (h i (List.mem_range.mp hi)).mul_right (s.getD j 0)
    rwa [add_mul] at this
  · simp only [hc, if_false]
    rfl

theorem negacyclicCoeff_modEq_add (a x y s : List Int) (q : Int) (n k : Nat)
    (h : ∀ i, i < n → a.getD i 0 ≡ x.getD i 0 + y.getD i 0 [ZMOD q]) :
    negacyclicCoeff a s n k ≡ negacyclicCoeff x s n k + negacyclicCoeff y s n k [ZMOD q] := by
  unfold negacyclicCoeff
  have h1 := convSum_modEq_add a x y s q n k h
  have h2 := convSum_modEq_add a x y s q n (k + n) h
  have := h1.sub h2
  refine this.trans ?_
  rw [show convSum x s n k + convSum y s n k - (convSum x s n (k + n) + convSum y s n (k + n))
    = convSum x s n k - convSum x s n (k + n) + (convSum y s n k - convSum y s n (k + n)) by ring]

/-- The invariant of a fresh RLWE ciphertext: `a` is the drawn mask, `b` has
coefficients in `[0, q)`, and `b - a·s ≡ Δ m + e (mod q)` coefficient-wise. -/
theorem encrypt_rlwe_phase (message sk : List Int) (params : Parameters) (ua ue : Nat → Int)
    (hq : 0 < params.q) (hq2 : params.q < 2 ^ 53) (ht : 0 < params.t)
    (hlen : message.length = sk.length)
    (hsk : ∀ x ∈ sk, isInt64 x) (hm : ∀ x ∈ message, isInt64 x)
    (hua : ∀ i, i < sk.length → 0 ≤ ua i ∧ ua i < params.q) :
    ∃ ct, encrypt_rlwe message sk params ua ue = .ok ct ∧
      ct.a.length = sk.length ∧ ct.b.length = sk.length ∧
      (∀ x ∈ ct.a, 0 ≤ x ∧ x < params.q) ∧ (∀ x ∈ ct.b, 0 ≤ x ∧ x < params.q) ∧
      ∀ k, k < sk.length →
        ct.b.getD k 0 - negacyclicCoeff ct.a sk sk.length k
          ≡ params.q / params.t * message.getD k 0 + ue k [ZMOD params.q] := by
  refine ⟨_, encrypt_rlwe_eq message sk params ua ue hq hq2 ht hlen hsk hm hua, by simp,
    by simp, map_range_mem_bounds ua _ 0 params.q hua,
    map_range_mem_bounds _ _ 0 params.q
      (fun i _ => ⟨Int.emod_nonneg _ hq.ne', Int.emod_lt_of_pos _ hq⟩), ?_⟩
  intro k hk
  show ((List.range sk.length).map _).getD k 0 - _ ≡ _ [ZMOD params.q]
  rw [getD_map_range _ _ _ hk]
  have h1 : ((negacyclicCoeff ((List.range sk.length).map ua) sk sk.length k % params.q
        + message.getD k 0 * (params.q / params.t) % params.q) % params.q
        + ue k % params.q) % params.q
      ≡ negacyclicCoeff ((List.range sk.length).map ua) sk sk.length k
        + (params.q / params.t * message.getD k 0 + ue k) [ZMOD params.q] := by
    refine (Int.mod_modEq _ _).trans ?_
    rw [← add_assoc]
    refine Int.ModEq.add ?_ (Int.mod_modEq _ _)
    refine (Int.mod_modEq _ _).trans ?_
    refine Int.ModEq.add (Int.mod_modEq _ _) ?_
    rw [mul_comm]
    exact Int.mod_modEq _ _
  have := h1.sub_right (negacyclicCoeff ((List.range sk.length).map ua) sk sk.length k)
  simpa using this

/-- RLWE homomorphic addition, for `0 < q < 2^53`: the sum of two
fresh encryptions of `m1`, `m2` (coefficients in `[0, t)`) with noises
`2 (|e1_i| + |e2_i|) < Δ` decrypts, coefficient by coefficient, to
`(m1_i + m2_i) mod t`. -/
theorem rlwe_add_correct (m1 m2 sk : List Int) (params : Parameters)
    (ua1 ue1 ua2 ue2 : Nat → Int)
    (hq : 0 < params.q) (hq2 : params.q < 2 ^ 53) (ht : 0 < params.t)
    (hdiv : params.t ∣ params.q)
    (hlen1 : m1.length = sk.length) (hlen2 : m2.length = sk.length)
    (hsk : ∀ x ∈ sk, x = 0 ∨ x = 1)
    (hm1 : ∀ x ∈ m1, 0 ≤ x ∧ x < params.t) (hm2 : ∀ x ∈ m2, 0 ≤ x ∧ x < params.t)
    (hua1 : ∀ i, i < sk.length → 0 ≤ ua1 i ∧ ua1 i < params.q)
    (hua2 : ∀ i, i < sk.length → 0 ≤ ua2 i ∧ ua2 i < params.q)
    (hue : ∀ i, i < sk.length → 2 * (|ue1 i| + |ue2 i|) < params.q / params.t) :
    ∃ ct1 ct2 ct r, encrypt_rlwe m1 sk params ua1 ue1 = .ok ct1 ∧
      encrypt_rlwe m2 sk params ua2 ue2 = .ok ct2 ∧
      add_rlwe ct1 ct2 params = .ok ct ∧
      decrypt_rlwe ct sk params = .ok r ∧ r.length = sk.length ∧
      ∀ i, i < sk.length → r.getD i 0 = (m1.getD i 0 + m2.getD i 0) % params.t := by
  have hq63 : params.q < 9223372036854775808 := by omega
  have ht63 : params.t < 9223372036854775808 := by
    have := Int.le_of_dvd hq hdiv
    omega
  have hskI := isInt64_of_binary sk hsk
  obtain ⟨ct1, hc1, la1, lb1, ra1, rb1, p1⟩ := encrypt_rlwe_phase m1 sk params ua1 ue1 hq hq2 ht
    hlen1 hskI (isInt64_of_range m1 params.t ht63 hm1) hua1
  obtain ⟨ct2, hc2, la2, lb2, ra2, rb2, p2⟩ := encrypt_rlwe_phase m2 sk params ua2 ue2 hq hq2 ht
    hlen2 hskI (isInt64_of_range m2 params.t ht63 hm2) hua2
  have hsum : ∀ (x y : List Int), (∀ v ∈ x, 0 ≤ v ∧ v < params.q) →
      (∀ v ∈ y, 0 ≤ v ∧ v < params.q) → ∀ i, i < x.length →
      isInt64 (x.getD i 0 + y.getD i 0) := by
    intro x y hx hy i _
    have h1 := getD_range_bounds x params.q hq hx i
    have h2 := getD_range_bounds y params.q hq hy i
    unfold isInt64; omega
  have hadd : add_rlwe ct1 ct2 params = .ok
      ⟨(List.range sk.length).map (fun i => (ct1.a.getD i 0 + ct2.a.getD i 0) % params.q),
        (List.range sk.length).map (fun i => (ct1.b.getD i 0 + ct2.b.getD i 0) % params.q)⟩ := by
    unfold add_rlwe
    rw [polynomial.add_eq ct1.a ct2.a params.q hq hq63 (by rw [la1, la2]) (hsum _ _ ra1 ra2),
      polynomial.add_eq ct1.b ct2.b params.q hq hq63 (by rw [lb1, lb2]) (hsum _ _ rb1 rb2)]
    simp only [la1, lb1]
  have hdec := decrypt_rlwe_of_phase
    ⟨(List.range sk.length).map (fun i => (ct1.a.getD i 0 + ct2.a.getD i 0) % params.q),
      (List.range sk.length).map (fun i => (ct1.b.getD i 0 + ct2.b.getD i 0) % params.q)⟩
    sk params (fun k => m1.getD k 0 + m2.getD k 0) (fun k => ue1 k + ue2 k)
    hq hq2 ht hdiv (by simp) (by simp) hskI
    (isInt64_of_range _ params.q hq63 (map_range_mem_bounds _ _ 0 params.q
      (fun i _ => ⟨Int.emod_nonneg _ hq.ne', Int.emod_lt_of_pos _ hq⟩)))
    (map_range_mem_bounds _ _ 0 params.q
      (fun i _ => ⟨Int.emod_nonneg _ hq.ne', Int.emod_lt_of_pos _ hq⟩))
    (by
      intro k hk
      have := abs_add (ue1 k) (ue2 k)
      have := hue k hk
      dsimp only
      omega)
    (by
      intro k hk
      show ((List.range sk.length).map _).getD k 0
        - negacyclicCoeff ((List.range sk.length).map _) sk sk.length k ≡ _ [ZMOD params.q]
      rw [getD_map_range _ _ _ hk]
      have hd := negacyclicCoeff_modEq_add
        ((List.range sk.length).map (fun i => (ct1.a.getD i 0 + ct2.a.getD i 0) % params.q))
        ct1.a ct2.a sk params.q sk.length k (fun i hi => by
          rw [getD_map_range _ _ _ hi]
          exact Int.mod_modEq _ _)
      have := (Int.mod_modEq (ct1.b.getD k 0 + ct2.b.getD k 0) params.q).sub hd
      refine this.trans ?_
      have := (p1 k hk).add (p2 k hk)
      refine Int.ModEq.trans ?_ (this.trans ?_)
      · rw [show ct1.b.getD k 0 + ct2.b.getD k 0
            - (negacyclicCoeff ct1.a sk sk.length k + negacyclicCoeff ct2.a sk sk.length k)
          = ct1.b.getD k 0 - negacyclicCoeff ct1.a sk sk.length k
            + (ct2.b.getD k 0 - negacyclicCoeff ct2.a sk sk.length k) by ring]
      · rw [show params.q / params.t * m1.getD k 0 + ue1 k
            + (params.q / params.t * m2.getD k 0 + ue2 k)
          = params.q / params.t * (m1.getD k 0 + m2.getD k 0) + (ue1 k + ue2 k) by ring])
  refine ⟨ct1, ct2, _, _, hc1, hc2, hadd, hdec, by simp, ?_⟩
  intro i hi
  rw [getD_map_range _ _ _ hi]

/-- Witness of `rlwe_add_correct`: `n = 2`, `q = 8192`, `t = 16`, `B = 2`. -/
theorem rlwe_add_correct_witness :
    ∃ ct1 ct2 ct r, encrypt_rlwe [1, 2] [1, 0] ⟨2, 8192, 16, 2⟩
        (fun i => 8191 - (i : Int)) (fun _ => 2) = .ok ct1 ∧
      encrypt_rlwe [15, 3] [1, 0] ⟨2, 8192, 16, 2⟩
        (fun i => 5 + 2 * (i : Int)) (fun _ => -2) = .ok ct2 ∧
      add_rlwe ct1 ct2 ⟨2, 8192, 16, 2⟩ = .ok ct ∧
      decrypt_rlwe ct [1, 0] ⟨2, 8192, 16, 2⟩ = .ok r ∧ r.length = [1, (0 : Int)].length ∧
      ∀ i, i < [1, (0 : Int)].length →
        r.getD i 0 = (([1, 2] : List Int).getD i 0 + ([15, 3] : List Int).getD i 0) % 16 :=
  rlwe_add_correct [1, 2] [15, 3] [1, 0] ⟨2, 8192, 16, 2⟩
    (fun i => 8191 - (i : Int)) (fun _ => 2) (fun i => 5 + 2 * (i : Int)) (fun _ => -2)
    (by decide) (by decide) (by decide) (by decide) (by decide) (by decide) (by decide)
    (by decide) (by decide)
    (by intro i hi; simp at hi; dsimp only; constructor <;> omega)
    (by intro i hi; simp at hi; dsimp only; constructor <;> omega)
    (by intro i _; show 2 * (|(2 : Int)| + |(-2 : Int)|) < (8192 : Int) / 16; decide)

/-- C8 (the code at the failing input). For `n = 1`, `q = 2^56`, `t = 2`, key `[1]`,
messages `[0]`, masks `[0]`, noises `2^54 - 1` and `0`: the sum decrypts to `[1]`,
not to `[(0 + 0) mod 2]`. -/
theorem rlwe_add_fails_large_q :
    (2 : Int) ∣ 72057594037927936 ∧
    2 * (|(18014398509481983 : Int)| + |(0 : Int)|) < 72057594037927936 / 2 ∧
    encrypt_rlwe [0] [1] ⟨1, 72057594037927936, 2, 18014398509481983⟩ (fun _ => 0)
        (fun _ => 18014398509481983) = .ok ⟨[0], [18014398509481983]⟩ ∧
    encrypt_rlwe [0] [1] ⟨1, 72057594037927936, 2, 18014398509481983⟩ (fun _ => 0)
        (fun _ => 0) = .ok ⟨[0], [0]⟩ ∧
    add_rlwe ⟨[0], [18014398509481983]⟩ ⟨[0], [0]⟩
        ⟨1, 72057594037927936, 2, 18014398509481983⟩ = .ok ⟨[0], [18014398509481983]⟩ ∧
    decrypt_rlwe ⟨[0], [18014398509481983]⟩ [1]
        ⟨1, 72057594037927936, 2, 18014398509481983⟩ = .ok [1] ∧
    (1 : Int) ≠ (0 + 0) % 2 := by
  refine ⟨by decide, by decide, by decide, by decide, by decide, by decide, by decide⟩

/-! ## The ring `Z[X]/(X^n + 1)` -/

theorem negacyclicCoeff_eq_ncF (a b : List Int) (n k : Nat) :
    negacyclicCoeff a b n k = ncF (fun i => a.getD i 0) (fun j => b.getD j 0) n k := rfl

theorem list_sum_range_eq (f : Nat → Int) (n : Nat) :
    ((List.range n).map f).sum = ∑ i ∈ Finset.range n, f i := by
  induction n with
  | zero => simp
  | succ n ih => rw [List.range_succ, List.map_append, List.sum_append, ih,
      Finset.sum_range_succ]; simp

theorem convSumF_eq (f g : Nat → Int) (n k : Nat) :
    convSumF f g n k
      = ∑ i ∈ Finset.range n, ∑ j ∈ Finset.range n, if i + j = k then f i * g j else 0 := by
  unfold convSumF
  rw [list_sum_range_eq]
  apply Finset.sum_congr rfl
  intro i _
  rw [list_sum_range_eq]

open Polynomial in
theorem coeff_toPoly (f : Nat → Int) (n k : Nat) :
    (∑ i ∈ Finset.range n, monomial i (f i) : ℤ[X]).coeff k = if k < n then f k else 0 := by
  rw [finset_sum_coeff]
  simp only [coeff_monomial]
  rw [Finset.sum_ite_eq' (Finset.range n) k (fun i => f i)]
  simp

open Polynomial in
theorem natDegree_toPoly_lt (f : Nat → Int) (n : Nat) (hn : 0 < n) :
    (∑ i ∈ Finset.range n, monomial i (f i) : ℤ[X]).natDegree < n := by
  by_cases h0 : (∑ i ∈ Finset.range n, monomial i (f i) : ℤ[X]) = 0
  · rw [h0]; simpa using hn
  · rw [natDegree_lt_iff_degree_lt h0, degree_lt_iff_coeff_zero]
    intro m hm
    rw [coeff_toPoly, if_neg (by omega)]

open Polynomial in
theorem coeff_mul_toPoly (f g : Nat → Int) (n k : Nat) :
    ((∑ i ∈ Finset.range n, monomial i (f i) : ℤ[X])
      * (∑ j ∈ Finset.range n, monomial j (g j) : ℤ[X])).coeff k = convSumF f g n k := by
  rw [convSumF_eq, Finset.sum_mul_sum, finset_sum_coeff]
  apply Finset.sum_congr rfl
  intro i _
  rw [finset_sum_coeff]
  apply Finset.sum_congr rfl
  intro j _
  rw [monomial_mul_monomial, coeff_monomial]

open Polynomial in
/-- In `Z[X]/(X^n + 1)` the class of `X^n` is `-1`. -/
theorem adjoinRoot_X_pow (n : Nat) :
    AdjoinRoot.mk (X ^ n + 1 : ℤ[X]) (X ^ n) = -1 := by
  have h := AdjoinRoot.mk_self (f := (X ^ n + 1 : ℤ[X]))
  rw [map_add, map_one] at h
  exact eq_neg_of_add_eq_zero_left h

open Polynomial in
/-- Folding a polynomial of degree below `2n` at `X^n = -1`. -/
theorem adjoinRoot_fold (P : ℤ[X]) (n : Nat) (hP : P.natDegree < n + n) :
    AdjoinRoot.mk (X ^ n + 1 : ℤ[X])
        (∑ k ∈ Finset.range n, monomial k (P.coeff k - P.coeff (k + n)))
      = AdjoinRoot.mk (X ^ n + 1 : ℤ[X]) P := by
  conv_rhs => rw [as_sum_range' P (n + n) hP, Finset.sum_range_add]
  have h2 : ∀ k, (monomial (n + k) (P.coeff (n + k)) : ℤ[X])
      = X ^ n * monomial k (P.coeff (k + n)) := by
    intro k
    rw [X_pow_mul_monomial, add_comm n k]
  simp only [h2]
  rw [← Finset.mul_sum, map_add, map_mul, adjoinRoot_X_pow]
  simp only [monomial_sub, Finset.sum_sub_distrib, map_sub]
  ring

open Polynomial in
/-- The negacyclic convolution is the product in `Z[X]/(X^n + 1)`. -/
theorem adjoinRoot_ncF (f g : Nat → Int) (n : Nat) (hn : 0 < n) :
    AdjoinRoot.mk (X ^ n + 1 : ℤ[X]) (∑ k ∈ Finset.range n, monomial k (ncF f g n k))
      = AdjoinRoot.mk (X ^ n + 1 : ℤ[X]) (∑ i ∈ Finset.range n, monomial i (f i))
        * AdjoinRoot.mk (X ^ n + 1 : ℤ[X]) (∑ j ∈ Finset.range n, monomial j (g j)) := by
  rw [← map_mul]
  have hdeg : ((∑ i ∈ Finset.range n, monomial i (f i) : ℤ[X])
      * (∑ j ∈ Finset.range n, monomial j (g j) : ℤ[X])).natDegree < n + n := by
    have h1 := natDegree_toPoly_lt f n hn
    have h2 := natDegree_toPoly_lt g n hn
    have h3 := natDegree_mul_le (p := (∑ i ∈ Finset.range n, monomial i (f i) : ℤ[X]))
      (q := (∑ j ∈ Finset.range n, monomial j (g j) : ℤ[X]))
    omega
  rw [← adjoinRoot_fold _ n hdeg]
  congr 1
  apply Finset.sum_congr rfl
  intro k _
  rw [coeff_mul_toPoly, coeff_mul_toPoly]
  rfl

open Polynomial in
/-- Polynomials of degree below `n` with the same class in `Z[X]/(X^n + 1)` have
the same coefficients. -/
theorem adjoinRoot_injective (f g : Nat → Int) (n : Nat) (hn : 0 < n)
    (h : AdjoinRoot.mk (X ^ n + 1 : ℤ[X]) (∑ i ∈ Finset.range n, monomial i (f i))
      = AdjoinRoot.mk (X ^ n + 1 : ℤ[X]) (∑ i ∈ Finset.range n, monomial i (g i))) :
    ∀ k, k < n → f k = g k := by
  rw [AdjoinRoot.mk_eq_mk] at h
  have hmonic : (X ^ n + 1 : ℤ[X]).Monic := by
    have := monic_X_pow_add_C (1 : ℤ) (n := n) (by omega)
    simpa using this
  have hdegm : (X ^ n + 1 : ℤ[X]).natDegree = n := by
    have := natDegree_X_pow_add_C (R := ℤ) (n := n) (r := 1)
    simpa using this
  have hsub : (∑ i ∈ Finset.range n, monomial i (f i) : ℤ[X])
      - (∑ i ∈ Finset.range n, monomial i (g i) : ℤ[X])
      = ∑ i ∈ Finset.range n, monomial i (f i - g i) := by
    simp only [monomial_sub, Finset.sum_sub_distrib]
  rw [hsub] at h
  have hzero : (∑ i ∈ Finset.range n, monomial i (f i - g i) : ℤ[X]) = 0 := by
    by_contra hne
    have hlt : (∑ i ∈ Finset.range n, monomial i (f i - g i) : ℤ[X]).natDegree
        < (X ^ n + 1 : ℤ[X]).natDegree := by
      rw [hdegm]
      exact natDegree_toPoly_lt (fun i => f i - g i) n hn
    exact hmonic.not_dvd_of_natDegree_lt hne hlt h
  intro k hk
  have := congrArg (fun p => p.coeff k) hzero
  simp only [coeff_zero] at this
  rw [coeff_toPoly, if_pos hk] at this
  omega

/-- Associativity and commutativity of the negacyclic convolution, in the form
used by the decryption of GLWE: `(A·s)·u = (A·u)·s`. -/
theorem ncF_swap (A s u : Nat → Int) (n : Nat) :
    ∀ k, k < n → ncF (fun i => ncF A s n i) u n k = ncF (fun i => ncF A u n i) s n k := by
  intro k hk
  have hn : 0 < n := by omega
  apply adjoinRoot_injective _ _ n hn _ k hk
  rw [adjoinRoot_ncF _ _ n hn, adjoinRoot_ncF _ _ n hn, adjoinRoot_ncF _ _ n hn,
    adjoinRoot_ncF _ _ n hn]
  ring

theorem convSumF_congr_left (f f' g : Nat → Int) (q : Int) (n k : Nat)
    (h : ∀ i, i < n → f i ≡ f' i [ZMOD q]) :
    convSumF f g n k ≡ convSumF f' g n k [ZMOD q] := by
  unfold convSumF
  apply list_sum_modEq
  intro i hi
  apply list_sum_modEq
  intro j _
  by_cases hc : i + j = k
  · simp only [hc, if_true]
    exact (h i (List.mem_range.mp hi)).mul_right _
  · simp only [hc, if_false]
    rfl

theorem ncF_congr_left (f f' g : Nat → Int) (q : Int) (n k : Nat)
    (h : ∀ i, i < n → f i ≡ f' i [ZMOD q]) :
    ncF f g n k ≡ ncF f' g n k [ZMOD q] :=
  (convSumF_congr_left f f' g q n k h).sub (convSumF_congr_left f f' g q n (k + n) h)

theorem convSumF_add_left (f f' g : Nat → Int) (n k : Nat) :
    convSumF (fun i => f i + f' i) g n k = convSumF f g n k + convSumF f' g n k := by
  simp only [convSumF_eq, ← Finset.sum_add_distrib]
  apply Finset.sum_congr rfl
  intro i _
  apply Finset.sum_congr rfl
  intro j _
  split_ifs <;> ring

theorem ncF_add_left (f f' g : Nat → Int) (n k : Nat) :
    ncF (fun i => f i + f' i) g n k = ncF f g n k + ncF f' g n k := by
  unfold ncF
  rw [convSumF_add_left, convSumF_add_left]
  ring

theorem convSumF_zero_left (g : Nat → Int) (n k : Nat) :
    convSumF (fun _ => 0) g n k = 0 := by
  simp [convSumF_eq]

theorem ncF_zero_left (g : Nat → Int) (n k : Nat) : ncF (fun _ => 0) g n k = 0 := by
  unfold ncF
  rw [convSumF_zero_left, convSumF_zero_left]
  ring

/-- One row of the negacyclic convolution: the terms with first index `i`. -/
theorem ncF_row (f g : Nat → Int) (n k i : Nat) (hi : i < n) (hk : k < n) :
    (∑ j ∈ Finset.range n, if i + j = k then f i * g j else 0)
      - (∑ j ∈ Finset.range n, if i + j = k + n then f i * g j else 0)
      = if i ≤ k then f i * g (k - i) else -(f i * g (k + n - i)) := by
  by_cases hik : i ≤ k
  · rw [if_pos hik]
    have h1 : ∀ j, (if i + j = k then f i * g j else 0)
        = (if k - i = j then f i * g j else 0) := by
      intro j
      by_cases hc : i + j = k
      · rw [if_pos hc, if_pos (by omega)]
      · rw [if_neg hc, if_neg (by omega)]
    have h2 : ∀ j ∈ Finset.range n, (if i + j = k + n then f i * g j else 0) = 0 := by
      intro j hj
      have := Finset.mem_range.mp hj
      rw [if_neg (by omega)]
    simp only [h1]
    rw [Finset.sum_ite_eq (Finset.range n) (k - i) (fun j => f i * g j),
      Finset.sum_eq_zero h2, if_pos (Finset.mem_range.mpr (by omega))]
    ring
  · rw [if_neg hik]
    have h1 : ∀ j ∈ Finset.range n, (if i + j = k then f i * g j else 0) = 0 := by
      intro j _
      rw [if_neg (by omega)]
    have h2 : ∀ j, (if i + j = k + n then f i * g j else 0)
        = (if k + n - i = j then f i * g j else 0) := by
      intro j
      by_cases hc : i + j = k + n
      · rw [if_pos hc, if_pos (by omega)]
      · rw [if_neg hc, if_neg (by omega)]
    simp only [h2]
    rw [Finset.sum_eq_zero h1,
      Finset.sum_ite_eq (Finset.range n) (k + n - i) (fun j => f i * g j),
      if_pos (Finset.mem_range.mpr (by omega))]
    ring

theorem ncF_eq_rows (f g : Nat → Int) (n k : Nat) (hk : k < n) :
    ncF f g n k
      = ∑ i ∈ Finset.range n, if i ≤ k then f i * g (k - i) else -(f i * g (k + n - i)) := by
  unfold ncF
  rw [convSumF_eq, convSumF_eq, ← Finset.sum_sub_distrib]
  apply Finset.sum_congr rfl
  intro i hi
  exact ncF_row f g n k i (Finset.mem_range.mp hi) hk

/-- Noise growth of a product with a binary polynomial: at most `n * B`. -/
theorem ncF_abs_le (e u : Nat → Int) (n k : Nat) (B : Int) (hk : k < n)
    (he : ∀ i, i < n → |e i| ≤ B) (hu : ∀ j, j < n → u j = 0 ∨ u j = 1) :
    |ncF e u n k| ≤ n * B := by
  rw [ncF_eq_rows e u n k hk]
  refine (Finset.abs_sum_le_sum_abs _ _).trans ?_
  have : ∀ i ∈ Finset.range n,
      |if i ≤ k then e i * u (k - i) else -(e i * u (k + n - i))| ≤ B := by
    intro i hi
    have hi' := Finset.mem_range.mp hi
    have hB := he i hi'
    have hB0 : 0 ≤ B := (abs_nonneg _).trans hB
    split_ifs with h
    · rcases hu (k - i) (by omega) with h0 | h1
      · rw [h0]; simpa using hB0
      · rw [h1]; simpa using hB
    · rcases hu (k + n - i) (by omega) with h0 | h1
      · rw [h0]; simpa using hB0
      · rw [h1]; simpa using hB
  have := Finset.sum_le_sum this
  simpa using this

/-! ## GLWE: the operations on reduced polynomials -/

theorem Reduced.isPoly {q : Int} {n : Nat} {x : List Int} (h : Reduced q n x)
    (hq2 : q < 9223372036854775808) : IsPoly n x :=
  ⟨h.1, isInt64_of_range x q hq2 h.2⟩

theorem reduced_map_emod (f : Nat → Int) (q : Int) (n : Nat) (hq : 0 < q) :
    Reduced q n ((List.range n).map (fun k => f k % q)) :=
  ⟨by simp, map_range_mem_bounds _ _ 0 q
    (fun i _ => ⟨Int.emod_nonneg _ hq.ne', Int.emod_lt_of_pos _ hq⟩)⟩

theorem reduced_replicate (q : Int) (n : Nat) (hq : 0 < q) :
    Reduced q n (List.replicate n 0) := by
  refine ⟨by simp, ?_⟩
  intro v hv
  rw [List.eq_of_mem_replicate hv]
  omega

/-- `negacyclic_multiply` on polynomials of length `n`. -/
theorem nm_poly (x y : List Int) (q : Int) (n : Nat)
    (hq : 0 < q) (hq2 : q < 9223372036854775808) (hx : IsPoly n x) (hy : IsPoly n y) :
    polynomial.negacyclic_multiply x y q
      = .ok ((List.range n).map (fun k => negacyclicCoeff x y n k % q)) := by
  have := polynomial.negacyclic_multiply_eq x y q hq hq2 (by rw [hx.1, hy.1]) hx.2 hy.2
  rw [hx.1] at this
  exact this

/-- `add` on reduced polynomials, for `q ≤ 2^62`. -/
theorem add_reduced (x y : List Int) (q : Int) (n : Nat)
    (hq : 0 < q) (hq2 : q ≤ 4611686018427387904) (hx : Reduced q n x) (hy : Reduced q n y) :
    polynomial.add x y q
      = .ok ((List.range n).map (fun k => (x.getD k 0 + y.getD k 0) % q)) := by
  have := polynomial.add_eq x y q hq (by omega) (by rw [hx.1, hy.1]) (by
    intro i _
    have h1 := getD_range_bounds x q hq hx.2 i
    have h2 := getD_range_bounds y q hq hy.2 i
    unfold isInt64; omega)
  rw [hx.1] at this
  exact this

/-- `subtract` on reduced polynomials. -/
theorem subtract_reduced (x y : List Int) (q : Int) (n : Nat)
    (hq : 0 < q) (hq2 : q < 9223372036854775808) (hx : Reduced q n x) (hy : Reduced q n y) :
    polynomial.subtract x y q
      = .ok ((List.range n).map (fun k => (x.getD k 0 - y.getD k 0) % q)) := by
  have := polynomial.subtract_eq x y q hq hq2 (by rw [hx.1, hy.1]) (by
    intro i _
    have h1 := getD_range_bounds x q hq hx.2 i
    have h2 := getD_range_bounds y q hq hy.2 i
    unfold isInt64; omega)
  rw [hx.1] at this
  exact this

theorem mul_accumulate_succ (xs ss : List (List Int)) (k n : Nat) (q : Int) :
    mul_accumulate xs ss (k + 1) n q
      = (mul_accumulate xs ss k n q).bind (fun acc =>
          match polynomial.negacyclic_multiply (xs.getD k []) (ss.getD k []) q with
          | .error err => .error err
          | .ok prod => polynomial.add acc prod q) := by
  unfold mul_accumulate
  rw [List.range_succ, List.foldlM_append]
  simp only [List.foldlM_cons, List.foldlM_nil, bind_pure]
  rfl

/-- The accumulation loop returns a reduced polynomial congruent to the sum of
the negacyclic products. -/
theorem mul_accumulate_spec (xs ss : List (List Int)) (n : Nat) (q : Int)
    (hq : 0 < q) (hq2 : q ≤ 4611686018427387904) :
    ∀ k, (∀ j, j < k → IsPoly n (xs.getD j []) ∧ IsPoly n (ss.getD j [])) →
      ∃ acc, mul_accumulate xs ss k n q = .ok acc ∧ Reduced q n acc ∧
        ∀ i, i < n → acc.getD i 0
          ≡ ∑ j ∈ Finset.range k, negacyclicCoeff (xs.getD j []) (ss.getD j []) n i
            [ZMOD q] := by
  intro k
  induction k with
  | zero =>
    intro _
    refine ⟨List.replicate n 0, rfl, reduced_replicate q n hq, ?_⟩
    intro i hi
    simp [List.getElem?_replicate, hi]
  | succ k ih =>
    intro h
    obtain ⟨acc, hacc, hred, hcong⟩ := ih (fun j hj => h j (by omega))
    obtain ⟨hx, hy⟩ := h k (by omega)
    rw [mul_accumulate_succ, hacc]
    simp only [Except.bind]
    rw [nm_poly _ _ q n hq (by omega) hx hy]
    simp only
    rw [add_reduced _ _ q n hq hq2 hred (reduced_map_emod _ q n hq)]
    refine ⟨_, rfl, reduced_map_emod _ q n hq, ?_⟩
    intro i hi
    rw [getD_map_range _ _ _ hi, getD_map_range _ _ _ hi, Finset.sum_range_succ]
    refine (Int.mod_modEq _ _).trans ?_
    exact (hcong i hi).add (Int.mod_modEq _ _)

theorem getD_map_range_gen {α : Type} (f : Nat → α) (k i : Nat) (d : α) (hi : i < k) :
    ((List.range k).map f).getD i d = f i := by
  simp [List.getD, List.getElem?_map, List.getElem?_range hi]

theorem mapM_ok {α β : Type} (l : List α) (f : α → Except Error β) (g : α → β)
    (h : ∀ x ∈ l, f x = .ok (g x)) : l.mapM f = .ok (l.map g) := by
  induction l with
  | nil => rfl
  | cons x xs ih =>
    rw [List.mapM_cons, h x (by simp), ih (fun y hy => h y (by simp [hy]))]
    rfl

theorem isPoly_map_range (f : Nat → Int) (n : Nat) (q : Int) (hq2 : q < 9223372036854775808)
    (h : ∀ i, i < n → 0 ≤ f i ∧ f i < q) : IsPoly n ((List.range n).map f) :=
  ⟨by simp, isInt64_of_range _ q hq2 (map_range_mem_bounds f n 0 q h)⟩

theorem isPoly_of_binary (s : List Int) (n : Nat) (hlen : s.length = n)
    (hs : ∀ x ∈ s, x = 0 ∨ x = 1) : IsPoly n s :=
  ⟨hlen, isInt64_of_binary s hs⟩

theorem convSumF_ext (f f' g g' : Nat → Int) (n k : Nat)
    (hf : ∀ i, i < n → f i = f' i) (hg : ∀ j, j < n → g j = g' j) :
    convSumF f g n k = convSumF f' g' n k := by
  unfold convSumF
  congr 1
  apply List.map_congr_left
  intro i hi
  congr 1
  apply List.map_congr_left
  intro j hj
  rw [hf i (List.mem_range.mp hi), hg j (List.mem_range.mp hj)]

theorem ncF_ext (f f' g g' : Nat → Int) (n k : Nat)
    (hf : ∀ i, i < n → f i = f' i) (hg : ∀ j, j < n → g j = g' j) :
    ncF f g n k = ncF f' g' n k := by
  unfold ncF
  rw [convSumF_ext f f' g g' n k hf hg, convSumF_ext f f' g g' n (k + n) hf hg]

/-- The public key returned by `generate_glwe_public_key`: `pk2` is the drawn
matrix and `pk1 ≡ Σ_j pk2_j·s_j + e (mod q)`, reduced. -/
theorem generate_glwe_public_key_spec (sk : List (List Int)) (params : Parameters)
    (uA : Nat → Nat → Int) (ue : Nat → Int)
    (hq : 0 < params.q) (hq2 : params.q ≤ 4611686018427387904)
    (hsk : ∀ j, j < sk.length → IsPoly params.n (sk.getD j []))
    (hA : ∀ i j, i < sk.length → j < params.n → 0 ≤ uA i j ∧ uA i j < params.q) :
    ∃ pk1, generate_glwe_public_key sk params uA ue
        = .ok ⟨pk1, (List.range sk.length).map
            (fun i => (List.range params.n).map (fun j => uA i j))⟩ ∧
      Reduced params.q params.n pk1 ∧
      ∀ i, i < params.n → pk1.getD i 0
        ≡ (∑ j ∈ Finset.range sk.length,
            ncF (fun c => uA j c) (fun c => (sk.getD j []).getD c 0) params.n i) + ue i
          [ZMOD params.q] := by
  have hq63 : params.q < 9223372036854775808 := by omega
  set pk2 := (List.range sk.length).map
    (fun i => (List.range params.n).map (fun j => uA i j)) with hpk2
  have hpk2get : ∀ j, j < sk.length →
      pk2.getD j [] = (List.range params.n).map (fun c => uA j c) := by
    intro j hj
    rw [hpk2, getD_map_range_gen _ _ _ _ hj]
  obtain ⟨acc, hacc, hred, hcong⟩ := mul_accumulate_spec pk2 sk params.n params.q hq hq2
    sk.length (fun j hj => ⟨by
      rw [hpk2get j hj]
      exact isPoly_map_range _ _ params.q hq63 (fun c hc => hA j c hj hc), hsk j hj⟩)
  unfold generate_glwe_public_key
  simp only
  rw [← hpk2, hacc]
  simp only
  have hred_e : Reduced params.q params.n
      ((List.range params.n).map (fun i => modq (ue i) params.q)) := by
    have : (List.range params.n).map (fun i => modq (ue i) params.q)
        = (List.range params.n).map (fun i => ue i % params.q) := by
      apply List.map_congr_left
      intro i _
      rw [modq_spec _ _ hq hq63]
    rw [this]
    exact reduced_map_emod _ _ _ hq
  rw [add_reduced _ _ params.q params.n hq hq2 hred hred_e]
  refine ⟨_, rfl, reduced_map_emod _ _ _ hq, ?_⟩
  intro i hi
  rw [getD_map_range _ _ _ hi, getD_map_range _ _ _ hi, modq_spec _ _ hq hq63]
  refine (Int.mod_modEq _ _).trans ?_
  refine Int.ModEq.add ?_ (Int.mod_modEq _ _)
  refine (hcong i hi).trans ?_
  rw [Finset.sum_congr rfl (fun j hj => ?_)]
  have hj' := Finset.mem_range.mp hj
  rw [negacyclicCoeff_eq_ncF, hpk2get j hj']
  exact ncF_ext _ _ _ _ _ _ (fun c hc => getD_map_range _ _ _ hc) (fun _ _ => rfl)

theorem reduced_map_modq (f : Nat → Int) (q : Int) (n : Nat) (hq : 0 < q)
    (hq2 : q < 9223372036854775808) :
    Reduced q n ((List.range n).map (fun i => modq (f i) q)) := by
  have : (List.range n).map (fun i => modq (f i) q)
      = (List.range n).map (fun i => f i % q) := by
    apply List.map_congr_left
    intro i _
    rw [modq_spec _ _ hq hq2]
  rw [this]
  exact reduced_map_emod _ _ _ hq

/-- The ciphertext returned by the common encryption steps:
`b ≡ pk1·u + scaled_m + e1` and `d_tilde[j] ≡ pk2[j]·u + e2[j]` modulo `q`,
all reduced. -/
theorem glwe_encrypt_scaled_spec (scaled_m : List Int) (pk : GLWEPublicKey)
    (params : Parameters) (uu ue1 : Nat → Int) (ue2 : Nat → Nat → Int)
    (hq : 0 < params.q) (hq2 : params.q ≤ 4611686018427387904)
    (hpk1 : Reduced params.q params.n pk.pk1)
    (hpk2 : ∀ j, j < pk.pk2.length → Reduced params.q params.n (pk.pk2.getD j []))
    (hsm : Reduced params.q params.n scaled_m)
    (hu : ∀ i, i < params.n → uu i = 0 ∨ uu i = 1) :
    ∃ b d, glwe_encrypt_scaled scaled_m pk params uu ue1 ue2 = .ok ⟨b, d⟩ ∧
      Reduced params.q params.n b ∧
      (∀ i, i < params.n → b.getD i 0
        ≡ ncF (fun c => pk.pk1.getD c 0) uu params.n i + scaled_m.getD i 0 + ue1 i
          [ZMOD params.q]) ∧
      d.length = pk.pk2.length ∧
      ∀ j, j < pk.pk2.length → Reduced params.q params.n (d.getD j []) ∧
        ∀ i, i < params.n → (d.getD j []).getD i 0
          ≡ ncF (fun c => (pk.pk2.getD j []).getD c 0) uu params.n i + ue2 j i
            [ZMOD params.q] := by
  have hq63 : params.q < 9223372036854775808 := by omega
  have hupoly : IsPoly params.n ((List.range params.n).map uu) := by
    refine ⟨by simp, ?_⟩
    intro v hv
    obtain ⟨i, hi, rfl⟩ := List.mem_map.mp hv
    rcases hu i (List.mem_range.mp hi) with h | h <;> rw [h] <;> unfold isInt64 <;> omega
  have hmapM : (List.range pk.pk2.length).mapM
      (fun i =>
        match polynomial.negacyclic_multiply (pk.pk2.getD i [])
            ((List.range params.n).map uu) params.q with
        | .error err => Except.error err
        | .ok tmp => polynomial.add tmp
            (((List.range pk.pk2.length).map
              (fun i => (List.range params.n).map (fun j => modq (ue2 i j) params.q))).getD i [])
            params.q)
      = .ok ((List.range pk.pk2.length).map (fun j =>
          (List.range params.n).map (fun i =>
            (negacyclicCoeff (pk.pk2.getD j []) ((List.range params.n).map uu) params.n i
                % params.q + modq (ue2 j i) params.q) % params.q))) := by
    apply mapM_ok
    intro j hj
    have hj' := List.mem_range.mp hj
    rw [nm_poly _ _ params.q params.n hq hq63 ((hpk2 j hj').isPoly hq63) hupoly]
    simp only
    rw [getD_map_range_gen _ _ _ _ hj',
      add_reduced _ _ params.q params.n hq hq2 (reduced_map_emod _ _ _ hq)
        (reduced_map_modq _ _ _ hq hq63)]
    congr 1
    apply List.map_congr_left
    intro i hi
    have hi' := List.mem_range.mp hi
    rw [getD_map_range _ _ _ hi', getD_map_range _ _ _ hi']
  unfold glwe_encrypt_scaled
  simp only
  rw [nm_poly _ _ params.q params.n hq hq63 (hpk1.isPoly hq63) hupoly]
  simp only
  rw [add_reduced _ _ params.q params.n hq hq2 (reduced_map_emod _ _ _ hq) hsm]
  simp only
  rw [add_reduced _ _ params.q params.n hq hq2 (reduced_map_emod _ _ _ hq)
    (reduced_map_modq _ _ _ hq hq63)]
  simp only
  rw [hmapM]
  refine ⟨_, _, rfl, reduced_map_emod _ _ _ hq, ?_, by simp, ?_⟩
  · intro i hi
    rw [getD_map_range _ _ _ hi, getD_map_range _ _ _ hi, getD_map_range _ _ _ hi,
      getD_map_range _ _ _ hi, modq_spec _ _ hq hq63]
    refine (Int.mod_modEq _ _).trans ?_
    refine Int.ModEq.add ?_ (Int.mod_modEq _ _)
    refine (Int.mod_modEq _ _).trans ?_
    refine Int.ModEq.add ?_ (Int.ModEq.refl _)
    refine (Int.mod_modEq _ _).trans ?_
    rw [negacyclicCoeff_eq_ncF]
    rw [ncF_ext _ _ _ uu params.n i (fun _ _ => rfl) (fun c hc => getD_map_range _ _ _ hc)]
  · intro j hj
    rw [getD_map_range_gen _ _ _ _ hj]
    refine ⟨reduced_map_emod _ _ _ hq, ?_⟩
    intro i hi
    rw [getD_map_range _ _ _ hi, modq_spec _ _ hq hq63]
    refine (Int.mod_modEq _ _).trans ?_
    refine Int.ModEq.add ?_ (Int.mod_modEq _ _)
    refine (Int.mod_modEq _ _).trans ?_
    rw [negacyclicCoeff_eq_ncF]
    rw [ncF_ext _ _ _ uu params.n i (fun _ _ => rfl) (fun c hc => getD_map_range _ _ _ hc)]

/-- The common decryption steps: the rounded coefficients of a `diff` congruent
to `b - Σ_j d_tilde[j]·s[j]` modulo `q`. -/
theorem glwe_decrypt_scaled_spec (ct : GLWECiphertext) (sk : List (List Int))
    (params : Parameters) (delta : Int)
    (hq : 0 < params.q) (hq2 : params.q ≤ 4611686018427387904)
    (hb : Reduced params.q params.n ct.b)
    (hd : ∀ j, j < sk.length →
      IsPoly params.n (ct.d_tilde.getD j []) ∧ IsPoly params.n (sk.getD j [])) :
    ∃ D : Nat → Int, glwe_decrypt_scaled ct sk params delta
        = .ok ((List.range params.n).map
          (fun i => modq (round_div_int (center_rep (D i) params.q) delta) params.t)) ∧
      ∀ i, i < params.n → D i ≡ ct.b.getD i 0
        - ∑ j ∈ Finset.range sk.length,
            ncF (fun c => (ct.d_tilde.getD j []).getD c 0)
              (fun c => (sk.getD j []).getD c 0) params.n i [ZMOD params.q] := by
  have hq63 : params.q < 9223372036854775808 := by omega
  obtain ⟨acc, hacc, hred, hcong⟩ := mul_accumulate_spec ct.d_tilde sk params.n params.q hq hq2
    sk.length hd
  refine ⟨fun i => (ct.b.getD i 0 - acc.getD i 0) % params.q, ?_, ?_⟩
  · unfold glwe_decrypt_scaled
    simp only
    rw [hacc]
    simp only
    rw [subtract_reduced _ _ params.q params.n hq hq63 hb hred]
    simp only
    congr 1
    apply List.map_congr_left
    intro i hi
    rw [getD_map_range _ _ _ (List.mem_range.mp hi)]
  · intro i hi
    refine (Int.mod_modEq _ _).trans ?_
    exact Int.ModEq.sub (Int.ModEq.refl _) (hcong i hi)

theorem ncF_sum_left (F : Nat → Nat → Int) (g : Nat → Int) (n i : Nat) (k : Nat) :
    ncF (fun c => ∑ j ∈ Finset.range k, F j c) g n i
      = ∑ j ∈ Finset.range k, ncF (F j) g n i := by
  induction k with
  | zero => simp [ncF_zero_left]
  | succ k ih =>
    simp only [Finset.sum_range_succ]
    rw [ncF_add_left (fun c => ∑ j ∈ Finset.range k, F j c) (F k) g n i, ih]

/-- The total noise of a GLWE decryption: `e1 + e·u − Σ_j e2_j·s_j`. -/
theorem glwe_noise_bound (ue uu ue1 : Nat → Int) (ue2 : Nat → Nat → Int)
    (s : Nat → Nat → Int) (n k i : Nat) (B : Int) (hi : i < n)
    (he : ∀ c, c < n → |ue c| ≤ B) (hu : ∀ c, c < n → uu c = 0 ∨ uu c = 1)
    (he1 : ∀ c, c < n → |ue1 c| ≤ B)
    (he2 : ∀ j c, j < k → c < n → |ue2 j c| ≤ B)
    (hs : ∀ j c, j < k → c < n → s j c = 0 ∨ s j c = 1) :
    |ue1 i + ncF ue uu n i - ∑ j ∈ Finset.range k, ncF (ue2 j) (s j) n i|
      ≤ B * (1 + n + k * n) := by
  have h1 := he1 i hi
  have h2 := ncF_abs_le ue uu n i B hi he hu
  have h3 : |∑ j ∈ Finset.range k, ncF (ue2 j) (s j) n i| ≤ k * (n * B) := by
    refine (Finset.abs_sum_le_sum_abs _ _).trans ?_
    have : ∀ j ∈ Finset.range k, |ncF (ue2 j) (s j) n i| ≤ n * B := by
      intro j hj
      have hj' := Finset.mem_range.mp hj
      exact ncF_abs_le (ue2 j) (s j) n i B hi (fun c hc => he2 j c hj' hc)
        (fun c hc => hs j c hj' hc)
    have := Finset.sum_le_sum this
    simpa using this
  have h4 := abs_sub (ue1 i + ncF ue uu n i) (∑ j ∈ Finset.range k, ncF (ue2 j) (s j) n i)
  have h5 := abs_add (ue1 i) (ncF ue uu n i)
  have : B * (1 + n + k * n) = B + n * B + k * (n * B) := by ring
  rw [this]
  linarith

/-- The phase of a GLWE-style ciphertext built on a public key of
`generate_glwe_public_key`: the value `diff` that the decryption rounds is
congruent to `scaled_m + e1 + e·u − Σ_j e2_j·s_j` modulo `q`. -/
theorem glwe_phase (sk : List (List Int)) (params : Parameters)
    (uA : Nat → Nat → Int) (ue : Nat → Int) (scaled_m : List Int)
    (uu ue1 : Nat → Int) (ue2 : Nat → Nat → Int) (delta : Int)
    (hq : 0 < params.q) (hq2 : params.q ≤ 4611686018427387904)
    (hsk : ∀ j, j < sk.length → IsPoly params.n (sk.getD j []))
    (hA : ∀ i j, i < sk.length → j < params.n → 0 ≤ uA i j ∧ uA i j < params.q)
    (hsm : Reduced params.q params.n scaled_m)
    (hu : ∀ i, i < params.n → uu i = 0 ∨ uu i = 1) :
    ∃ (pk : GLWEPublicKey) (ct : GLWECiphertext) (D : Nat → Int),
      generate_glwe_public_key sk params uA ue = .ok pk ∧
      pk.pk2.length = sk.length ∧
      glwe_encrypt_scaled scaled_m pk params uu ue1 ue2 = .ok ct ∧
      ct.d_tilde.length = sk.length ∧ ct.b.length = params.n ∧
      glwe_decrypt_scaled ct sk params delta
        = .ok ((List.range params.n).map
          (fun i => modq (round_div_int (center_rep (D i) params.q) delta) params.t)) ∧
      ∀ i, i < params.n → D i ≡ scaled_m.getD i 0
        + (ue1 i + ncF ue uu params.n i
          - ∑ j ∈ Finset.range sk.length,
              ncF (ue2 j) (fun c => (sk.getD j []).getD c 0) params.n i) [ZMOD params.q] := by
  have hq63 : params.q < 9223372036854775808 := by omega
  obtain ⟨pk1, hpk, hpk1red, hpk1⟩ := generate_glwe_public_key_spec sk params uA ue hq hq2 hsk hA
  set pk : GLWEPublicKey := ⟨pk1, (List.range sk.length).map
    (fun i => (List.range params.n).map (fun j => uA i j))⟩ with hpkdef
  have hpk2len : pk.pk2.length = sk.length := by simp [hpkdef]
  have hpk2get : ∀ j, j < sk.length →
      pk.pk2.getD j [] = (List.range params.n).map (fun c => uA j c) := by
    intro j hj
    simp only [hpkdef]
    rw [getD_map_range_gen _ _ _ _ hj]
  have hpk2red : ∀ j, j < pk.pk2.length → Reduced params.q params.n (pk.pk2.getD j []) := by
    intro j hj
    rw [hpk2len] at hj
    rw [hpk2get j hj]
    exact ⟨by simp, map_range_mem_bounds _ _ 0 params.q (fun c hc => hA j c hj hc)⟩
  obtain ⟨b, d, hct, hbred, hb, hdlen, hd⟩ := glwe_encrypt_scaled_spec scaled_m pk params
    uu ue1 ue2 hq hq2 hpk1red hpk2red hsm hu
  obtain ⟨D, hdec, hD⟩ := glwe_decrypt_scaled_spec ⟨b, d⟩ sk params delta hq hq2 hbred
    (fun j hj => ⟨((hd j (by rw [hpk2len]; exact hj)).1).isPoly hq63, hsk j hj⟩)
  refine ⟨pk, ⟨b, d⟩, D, hpk, hpk2len, hct, by rw [hdlen, hpk2len], hbred.1, hdec, ?_⟩
  intro i hi
  refine (hD i hi).trans ?_
  -- the body
  have hbody : b.getD i 0 ≡ (∑ j ∈ Finset.range sk.length,
        ncF (fun c => ncF (fun c => uA j c) (fun c => (sk.getD j []).getD c 0) params.n c)
          uu params.n i) + ncF ue uu params.n i + scaled_m.getD i 0 + ue1 i
      [ZMOD params.q] := by
    refine (hb i hi).trans ?_
    refine Int.ModEq.add (Int.ModEq.add ?_ (Int.ModEq.refl _)) (Int.ModEq.refl _)
    refine (ncF_congr_left _ _ uu params.q params.n i (fun c hc => hpk1 c hc)).trans ?_
    rw [ncF_add_left, ncF_sum_left]
  -- the mask terms
  have hmask : (∑ j ∈ Finset.range sk.length,
        ncF (fun c => (d.getD j []).getD c 0) (fun c => (sk.getD j []).getD c 0) params.n i)
      ≡ ∑ j ∈ Finset.range sk.length,
        (ncF (fun c => ncF (fun c => uA j c) uu params.n c)
            (fun c => (sk.getD j []).getD c 0) params.n i
          + ncF (ue2 j) (fun c => (sk.getD j []).getD c 0) params.n i) [ZMOD params.q] := by
    have hsum : ∀ (k : Nat), k ≤ sk.length → (∑ j ∈ Finset.range k,
        ncF (fun c => (d.getD j []).getD c 0) (fun c => (sk.getD j []).getD c 0) params.n i)
      ≡ ∑ j ∈ Finset.range k,
        (ncF (fun c => ncF (fun c => uA j c) uu params.n c)
            (fun c => (sk.getD j []).getD c 0) params.n i
          + ncF (ue2 j) (fun c => (sk.getD j []).getD c 0) params.n i) [ZMOD params.q] := by
      intro k
      induction k with
      | zero => intro _; simp
      | succ k ih =>
        intro hk
        rw [Finset.sum_range_succ, Finset.sum_range_succ]
        refine (ih (by omega)).add ?_
        have hk' : k < pk.pk2.length := by rw [hpk2len]; omega
        refine (ncF_congr_left _ _ _ params.q params.n i
          (fun c hc => (hd k hk').2 c hc)).trans ?_
        rw [ncF_add_left]
        refine Int.ModEq.add ?_ (Int.ModEq.refl _)
        rw [ncF_ext _ (fun c => ncF (fun c => uA k c) uu params.n c) _ _ params.n i
          (fun c _ => ncF_ext _ _ _ _ params.n c
            (fun c' hc' => by rw [hpk2get k (by omega), getD_map_range _ _ _ hc'])
            (fun _ _ => rfl))
          (fun _ _ => rfl)]
    exact hsum sk.length le_rfl
  have hswap : (∑ j ∈ Finset.range sk.length,
        ncF (fun c => ncF (fun c => uA j c) (fun c => (sk.getD j []).getD c 0) params.n c)
          uu params.n i)
      = ∑ j ∈ Finset.range sk.length,
        ncF (fun c => ncF (fun c => uA j c) uu params.n c)
          (fun c => (sk.getD j []).getD c 0) params.n i := by
    apply Finset.sum_congr rfl
    intro j _
    exact ncF_swap _ _ _ params.n i hi
  have := hbody.sub hmask
  refine this.trans ?_
  rw [hswap, Finset.sum_add_distrib]
  have e : ∀ X Y Z W V : Int, X + Y + Z + W - (X + V) = Z + (W + Y - V) := by
    intros; ring
  rw [e]

/-! ## Integer rounding and the GLWE round trip -/

/-- The integer rounding of `decrypt_glwe` is the exact rounding half away from
zero, when `centered ± delta/2` does not overflow. -/
theorem round_div_int_eq (c δ : Int) (hδ : 0 < δ) (hδ2 : δ ≤ 4611686018427387904)
    (hc1 : -4611686018427387904 ≤ c) (hc2 : c ≤ 4611686018427387904) :
    round_div_int c δ = roundHalfAway c δ := by
  have hδ2' : δ.tdiv 2 = δ / 2 := Int.tdiv_eq_ediv hδ.le (by norm_num)
  have key : ∀ x : Int, 0 ≤ x → (x + δ / 2) / δ = (2 * x + δ) / (2 * δ) := by
    intro x _
    have h1 := Int.emod_add_ediv (x + δ / 2) δ
    have h2 := Int.emod_nonneg (x + δ / 2) hδ.ne'
    have h3 := Int.emod_lt_of_pos (x + δ / 2) hδ
    symm
    apply ediv_unique (2 * x + δ) (2 * δ) _ (2 * ((x + δ / 2) % δ) + δ % 2) (by omega) (by omega)
    have h4 : δ = 2 * (δ / 2) + δ % 2 := by omega
    linear_combination (-2) * h1 + h4
  unfold round_div_int roundHalfAway
  rw [hδ2']
  by_cases h : c ≥ 0
  · rw [if_pos h, if_neg (by omega), wrap64_eq _ (by omega) (by omega),
      Int.tdiv_eq_ediv (by omega) hδ.le]
    exact key c h
  · rw [if_neg h, if_pos (by omega), wrap64_eq _ (by omega) (by omega),
      tdiv_pos_cases _ _ hδ, if_neg (by omega)]
    rw [show -(c - δ / 2) = -c + δ / 2 by ring, key (-c) (by omega)]

/-- Decoding of one coefficient by the integer rounding of
`decrypt_glwe` / `decrypt_glev_level`: if `q = M * δ`, `t` divides `M` and the
phase is `δ * μ + ε` modulo `q` with `2 |ε| < δ`, the result is `μ mod t`. -/
theorem decode_int_coeff (x q t M δ μ ε : Int)
    (hq : 0 < q) (hq2 : q ≤ 4611686018427387904) (ht : 0 < t) (hδ : 0 < δ)
    (hqM : q = M * δ) (htM : t ∣ M) (ht2 : t < 9223372036854775808)
    (hε : 2 * |ε| < δ) (hphase : x ≡ δ * μ + ε [ZMOD q]) :
    modq (round_div_int (center_rep x q) δ) t = μ % t := by
  have hq63 : q < 9223372036854775808 := by omega
  obtain ⟨c1, c2, c3, c4⟩ := center_rep_modEq x q hq hq63
  have hMpos : 0 < M := by
    by_contra h
    have : M * δ ≤ 0 := mul_nonpos_of_nonpos_of_nonneg (by omega) hδ.le
    omega
  have hδle : δ ≤ q := by
    have : 1 * δ ≤ M * δ := mul_le_mul_of_nonneg_right (by omega) hδ.le
    omega
  rw [round_div_int_eq _ δ hδ (by omega) (by omega) (by omega), modq_spec _ _ ht ht2]
  have hdec := decode_round q M δ μ ε (center_rep x q) hqM hε (c1.trans hphase)
  rw [← Int.emod_emod_of_dvd _ htM, hdec, Int.emod_emod_of_dvd _ htM]

theorem getD_mem_or_nil (sk : List (List Int)) (j : Nat) (hj : j < sk.length) :
    sk.getD j [] ∈ sk := by
  have : sk.getD j [] = sk[j] := by simp [List.getD, List.getElem?_eq_getElem hj]
  rw [this]
  exact List.getElem_mem _

/-- C3 (amended). GLWE round trip, for `0 < q ≤ 2^62`: for a binary secret key
(`k` polynomials of length `n = params.n`), the public key of
`generate_glwe_public_key` with key noise bounded by `B = params.noise_bound`, a
message of length `n` with coefficients in `[0, t)`, binary `u` and noises `e1`,
`e2_i` bounded by `B`, if `t` divides `q` and `2 B (1 + n + k n) < Δ = q / t`, then
`decrypt_glwe(encrypt_glwe(m, pk, params), sk, params) = m`. -/
theorem glwe_round_trip (message : List Int) (sk : List (List Int)) (params : Parameters)
    (uA : Nat → Nat → Int) (ue : Nat → Int) (uu ue1 : Nat → Int) (ue2 : Nat → Nat → Int)
    (hq : 0 < params.q) (hq2 : params.q ≤ 2 ^ 62) (ht : 0 < params.t)
    (hdiv : params.t ∣ params.q)
    (hsk : ∀ s ∈ sk, s.length = params.n ∧ ∀ x ∈ s, x = 0 ∨ x = 1)
    (hA : ∀ i j, i < sk.length → j < params.n → 0 ≤ uA i j ∧ uA i j < params.q)
    (hue : ∀ c, c < params.n → |ue c| ≤ params.noise_bound)
    (hlen : message.length = params.n)
    (hm : ∀ x ∈ message, 0 ≤ x ∧ x < params.t)
    (hu : ∀ i, i < params.n → uu i = 0 ∨ uu i = 1)
    (he1 : ∀ c, c < params.n → |ue1 c| ≤ params.noise_bound)
    (he2 : ∀ j c, j < sk.length → c < params.n → |ue2 j c| ≤ params.noise_bound)
    (hnoise : 2 * params.noise_bound * (1 + params.n + sk.length * params.n)
      < params.q / params.t) :
    ∃ pk ct, generate_glwe_public_key sk params uA ue = .ok pk ∧
      encrypt_glwe message pk params uu ue1 ue2 = .ok ct ∧
      decrypt_glwe ct sk params = .ok message := by
  have hq62 : params.q ≤ 4611686018427387904 := by omega
  have hq63 : params.q < 9223372036854775808 := by omega
  have htq : params.t ≤ params.q := Int.le_of_dvd hq hdiv
  have hΔ : params.q.tdiv params.t = params.q / params.t := Int.tdiv_eq_ediv hq.le ht.le
  have hΔpos : 0 < params.q / params.t := Int.ediv_pos_of_pos_of_dvd hq ht.le hdiv
  have hΔle : params.q / params.t ≤ params.q := Int.ediv_le_self _ hq.le
  have hqΔ : params.q = params.t * (params.q / params.t) := (Int.mul_ediv_cancel' hdiv).symm
  have hskP : ∀ j, j < sk.length → IsPoly params.n (sk.getD j []) := by
    intro j hj
    obtain ⟨h1, h2⟩ := hsk _ (getD_mem_or_nil sk j hj)
    exact isPoly_of_binary _ _ h1 h2
  have hmI : ∀ x ∈ message, isInt64 x := isInt64_of_range message params.t (by omega) hm
  have hsm : polynomial.scalar_multiply message (params.q / params.t) params.q
      = (List.range params.n).map
        (fun i => (message.getD i 0 * (params.q / params.t)) % params.q) := by
    rw [polynomial.scalar_multiply_eq message _ params.q hq hq63 hmI
      (by unfold isInt64; omega), hlen]
  obtain ⟨pk, ct, D, hpk, hpk2len, hct, hdlen, hblen, hdec, hD⟩ :=
    glwe_phase sk params uA ue
      (polynomial.scalar_multiply message (params.q / params.t) params.q)
      uu ue1 ue2 (params.q / params.t) hq hq62 hskP hA
      (by rw [hsm]; exact reduced_map_emod _ _ _ hq) hu
  refine ⟨pk, ct, hpk, ?_, ?_⟩
  · unfold encrypt_glwe
    rw [if_neg (by simpa using hlen)]
    simp only
    rw [hΔ]
    exact hct
  · unfold decrypt_glwe
    simp only
    rw [if_neg (by simp [hdlen, hblen]), hΔ, hdec]
    congr 1
    have hgoal : ∀ i, i < params.n →
        modq (round_div_int (center_rep (D i) params.q) (params.q / params.t)) params.t
          = message.getD i 0 := by
      intro i hi
      have hbound := glwe_noise_bound ue uu ue1 ue2
        (fun j c => (sk.getD j []).getD c 0) params.n sk.length i params.noise_bound hi
        hue hu he1 he2 (by
          intro j c hj _
          exact getD_binary _ (hsk _ (getD_mem_or_nil sk j hj)).2 c)
      have hmi := getD_range_bounds message params.t ht hm i
      rw [decode_int_coeff (D i) params.q params.t params.t (params.q / params.t)
        (message.getD i 0) _ hq hq62 ht hΔpos hqΔ (dvd_refl _) (by omega) (by
          have e : 2 * params.noise_bound * (1 + ↑params.n + ↑sk.length * ↑params.n)
            = 2 * (params.noise_bound * (1 + ↑params.n + ↑sk.length * ↑params.n)) := by ring
          rw [e] at hnoise
          exact lt_of_le_of_lt (by linarith [hbound]) hnoise) (by
          refine (hD i hi).trans ?_
          refine Int.ModEq.add ?_ (Int.ModEq.refl _)
          rw [hsm, getD_map_range _ _ _ hi, mul_comm]
          exact Int.mod_modEq _ _)]
      exact Int.emod_eq_of_lt hmi.1 hmi.2
    have : (List.range params.n).map
        (fun i => modq (round_div_int (center_rep (D i) params.q) (params.q / params.t))
          params.t) = (List.range params.n).map (fun i => message.getD i 0) := by
      apply List.map_congr_left
      intro i hi
      exact hgoal i (List.mem_range.mp hi)
    rw [this, ← hlen]
    exact map_getD_range_self message

/-- Witness of `glwe_round_trip`: `n = 2`, `k = 2`, `q = 4096`, `t = 4`, `B = 1`. -/
theorem glwe_round_trip_witness :
    ∃ pk ct, generate_glwe_public_key [[1, 0], [0, 1]] ⟨2, 4096, 4, 1⟩
        (fun i j => 100 * (i : Int) + 7 * (j : Int) + 3) (fun _ => 1) = .ok pk ∧
      encrypt_glwe [3, 1] pk ⟨2, 4096, 4, 1⟩ (fun i => (i : Int)) (fun _ => -1)
        (fun _ _ => 1) = .ok ct ∧
      decrypt_glwe ct [[1, 0], [0, 1]] ⟨2, 4096, 4, 1⟩ = .ok [3, 1] :=
  glwe_round_trip [3, 1] [[1, 0], [0, 1]] ⟨2, 4096, 4, 1⟩
    (fun i j => 100 * (i : Int) + 7 * (j : Int) + 3) (fun _ => 1)
    (fun i => (i : Int)) (fun _ => -1) (fun _ _ => 1)
    (by decide) (by decide) (by decide) (by decide) (by decide)
    (by intro i j hi hj; simp at hi hj; dsimp only; constructor <;> omega)
    (by intro c _; show |(1 : Int)| ≤ 1; decide)
    (by decide) (by decide)
    (by intro i hi; simp at hi; dsimp only; omega)
    (by intro c _; show |(-1 : Int)| ≤ 1; decide)
    (by intro j c _ _; show |(1 : Int)| ≤ 1; decide)
    (by decide)

/-- C3 as stated fails when `q > 2^62`, where the `int64` sum in `add` wraps:
`n = k = 1`, `q = 5 * 2^60`, `t = 4` (`Δ = 5 * 2^58`), `B = 0`, key `[[1]]`,
`pk2 = [[q - 1]]`, message `[3]`, `u = [1]`, all noises `0`. The sum
`pk1·u + Δ m = (q - 1) + 15 * 2^58` exceeds `2^63`, and the decryption is `[2]`. -/
theorem glwe_round_trip_fails_large_q :
    (4 : Int) ∣ 5764607523034234880 ∧
    2 * (0 : Int) * (1 + 1 + 1 * 1) < 5764607523034234880 / 4 ∧
    generate_glwe_public_key [[1]] ⟨1, 5764607523034234880, 4, 0⟩
        (fun _ _ => 5764607523034234879) (fun _ => 0)
      = .ok ⟨[5764607523034234879], [[5764607523034234879]]⟩ ∧
    encrypt_glwe [3] ⟨[5764607523034234879], [[5764607523034234879]]⟩
        ⟨1, 5764607523034234880, 4, 0⟩ (fun _ => 1) (fun _ => 0) (fun _ _ => 0)
      = .ok ⟨[3170534137668829183], [[5764607523034234879]]⟩ ∧
    decrypt_glwe ⟨[3170534137668829183], [[5764607523034234879]]⟩ [[1]]
        ⟨1, 5764607523034234880, 4, 0⟩ = .ok [2] ∧
    decrypt_glwe ⟨[3170534137668829183], [[5764607523034234879]]⟩ [[1]]
        ⟨1, 5764607523034234880, 4, 0⟩ ≠ .ok [3] := by
  refine ⟨by decide, by decide, by decide, by decide, by decide, by decide⟩

/-! ## GLev -/

theorem mapM_ok_of_exists {α β : Type} [Inhabited β] (l : List α) (f : α → Except Error β)
    (h : ∀ x ∈ l, ∃ y, f x = .ok y) :
    l.mapM f = .ok (l.map (fun x =>
      match f x with
      | .ok y => y
      | .error _ => default)) := by
  apply mapM_ok
  intro x hx
  obtain ⟨y, hy⟩ := h x hx
  rw [hy]

theorem int_pow_le_pow (β : Int) (hβ : 0 < β) (j l : Nat) (h : j ≤ l) : β ^ j ≤ β ^ l :=
  pow_le_pow_right₀ (by omega) h

theorem beta_pow_eq (β : Int) (hβ : 0 < β) :
    ∀ j : Nat, β ^ j < 9223372036854775808 → beta_pow β j = β ^ j := by
  intro j
  induction j with
  | zero => intro _; rfl
  | succ j ih =>
    intro h
    have h1 : β ^ j ≤ β ^ (j + 1) := int_pow_le_pow β hβ j (j + 1) (by omega)
    have h2 : 0 < β ^ (j + 1) := pow_pos hβ _
    show wrap64 (beta_pow β j * β) = β ^ (j + 1)
    rw [ih (by omega), ← pow_succ]
    exact wrap64_eq _ (by omega) (by omega)

theorem tdiv_abs_le (q d : Int) (hq : 0 < q) : |q.tdiv d| ≤ q := by
  rcases le_or_lt 0 d with hd | hd
  · rw [Int.tdiv_eq_ediv hq.le hd]
    have h1 := Int.ediv_nonneg hq.le hd
    have h2 := Int.ediv_le_self d hq.le
    rw [abs_of_nonneg h1]; exact h2
  · have e : q.tdiv d = -(q.tdiv (-d)) := by
      rw [Int.tdiv_neg, neg_neg]
    rw [e, abs_neg, Int.tdiv_eq_ediv hq.le (by omega)]
    have h1 := Int.ediv_nonneg hq.le (by omega : (0:Int) ≤ -d)
    have h2 := Int.ediv_le_self (-d) hq.le
    rw [abs_of_nonneg h1]; exact h2

/-- With a non-zero divisor and `q > 0` the division of `glev_delta` has a result:
the truncated quotient, or `1` when that is zero. -/
theorem glev_delta_ok (q β bp : Int) (hq : 0 < q) (hd : wrap64 (β * bp) ≠ 0) :
    glev_delta q β bp
      = .ok (if q.tdiv (wrap64 (β * bp)) = 0 then 1 else q.tdiv (wrap64 (β * bp))) := by
  unfold glev_delta
  simp only
  rw [if_neg]
  intro h
  rcases h with h | h
  · exact hd h
  · omega

/-- A zero divisor ends `glev_delta` without a result. -/
theorem glev_delta_zero (q β bp : Int) (hd : wrap64 (β * bp) = 0) :
    glev_delta q β bp = .error .NoResult := by
  unfold glev_delta
  simp only
  rw [if_pos (Or.inl hd)]

/-- The only failure of `glev_delta` is `NoResult`. -/
theorem glev_delta_error (q β bp : Int) (err : Error) (h : glev_delta q β bp = .error err) :
    err = .NoResult := by
  unfold glev_delta at h
  simp only at h
  split_ifs at h
  exact (Except.error.inj h).symm

/-- A factor returned for an `int64` modulus `q > 0` is an `int64`, bounded by `q`
in absolute value, and the divisor was not zero. -/
theorem glev_delta_int64 (q β bp δ : Int) (hq : 0 < q) (hq2 : q < 9223372036854775808)
    (h : glev_delta q β bp = .ok δ) : isInt64 δ ∧ wrap64 (β * bp) ≠ 0 := by
  have hd : wrap64 (β * bp) ≠ 0 := by
    intro h0
    rw [glev_delta_zero q β bp h0] at h
    exact absurd h (by simp)
  rw [glev_delta_ok q β bp hq hd] at h
  have hδ := Except.ok.inj h
  have habs : |q.tdiv (wrap64 (β * bp))| ≤ q := tdiv_abs_le q _ hq
  have habs2 := abs_le.mp habs
  refine ⟨?_, hd⟩
  unfold isInt64
  rw [← hδ]
  split_ifs <;> omega

/-- The scaling factor of level `j` when the power does not overflow: the division
has a result, `⌊q / β^(j+1)⌋`, or `1` when that is zero; it lies in `[1, q]`. -/
theorem glev_delta_spec (q β : Int) (j : Nat) (hq : 0 < q) (hβ : 0 < β)
    (hpow : β ^ (j + 1) < 9223372036854775808) :
    glev_delta q β (beta_pow β j)
        = .ok (if q / β ^ (j + 1) = 0 then 1 else q / β ^ (j + 1)) ∧
      1 ≤ (if q / β ^ (j + 1) = 0 then 1 else q / β ^ (j + 1)) ∧
      (if q / β ^ (j + 1) = 0 then 1 else q / β ^ (j + 1)) ≤ q := by
  have h1 : β ^ j ≤ β ^ (j + 1) := int_pow_le_pow β hβ j (j + 1) (by omega)
  have h2 : 0 < β ^ (j + 1) := pow_pos hβ _
  have h3 : 0 ≤ q / β ^ (j + 1) := Int.ediv_nonneg hq.le h2.le
  have h4 : q / β ^ (j + 1) ≤ q := Int.ediv_le_self _ hq.le
  have hw : wrap64 (β * beta_pow β j) = β ^ (j + 1) := by
    rw [beta_pow_eq β hβ j (by omega), mul_comm β, ← pow_succ,
      wrap64_eq _ (by omega) (by omega)]
  have hd : glev_delta q β (beta_pow β j)
      = .ok (if q / β ^ (j + 1) = 0 then 1 else q / β ^ (j + 1)) := by
    rw [glev_delta_ok q β _ hq (by rw [hw]; omega), hw, Int.tdiv_eq_ediv hq.le h2.le]
  refine ⟨hd, ?_, ?_⟩ <;> split_ifs <;> omega

/-- The body of one iteration of `encrypt_glev` (`glev.cpp`, lines 36-69) performs
the same steps as `encrypt_glwe` after its scaling (`glwe.cpp`, lines 35-62). -/
theorem encrypt_glev_eq (message : List Int) (pk : GLWEPublicKey) (params : Parameters)
    (l β : Int) (uu ue1 : Nat → Nat → Int) (ue2 : Nat → Nat → Nat → Int) :
    encrypt_glev message pk params l β uu ue1 ue2
      = if l + 1 < 0 ∨ 2147483648 ≤ l + 1 then .error .NoResult
        else
          match (List.range (l + 1).toNat).mapM
            (fun j =>
              match glev_delta params.q β (beta_pow β j) with
              | .error err => Except.error err
              | .ok delta_j =>
                glwe_encrypt_scaled (polynomial.scalar_multiply message delta_j params.q)
                  pk params (uu j) (ue1 j) (ue2 j)) with
          | .error err => .error err
          | .ok levels => .ok ⟨levels⟩ := by
  rfl

/-- One more element of a `mapM` over `0 .. m`. -/
theorem mapM_range_succ {β : Type} (f : Nat → Except Error β) (m : Nat) :
    (List.range (m + 1)).mapM f
      = match (List.range m).mapM f with
        | .error e => .error e
        | .ok ys =>
          match f m with
          | .error e => .error e
          | .ok y => .ok (ys ++ [y]) := by
  rw [List.range_succ, List.mapM_append, List.mapM_cons, List.mapM_nil]
  cases (List.range m).mapM f <;> cases f m <;> rfl

/-- The results of a `mapM` over `0 .. m-1` that succeeds. -/
theorem mapM_range_inv {β : Type} [Inhabited β] (f : Nat → Except Error β) :
    ∀ (m : Nat) (ys : List β), (List.range m).mapM f = .ok ys →
      ys.length = m ∧ ∀ j, j < m → f j = .ok (ys.getD j default) := by
  intro m
  induction m with
  | zero =>
    intro ys h
    simp only [List.range_zero, List.mapM_nil] at h
    have : ys = [] := (Except.ok.inj h).symm
    subst this
    exact ⟨rfl, fun j hj => absurd hj (by omega)⟩
  | succ m ih =>
    intro ys h
    rw [mapM_range_succ] at h
    cases h1 : (List.range m).mapM f with
    | error e =>
      rw [h1] at h
      exact absurd h (by simp)
    | ok ys1 =>
      rw [h1] at h
      cases h2 : f m with
      | error e =>
        rw [h2] at h
        exact absurd h (by simp)
      | ok y =>
        rw [h2] at h
        have hys : ys1 ++ [y] = ys := Except.ok.inj h
        obtain ⟨hl, hv⟩ := ih ys1 h1
        subst hys
        refine ⟨by simp [hl], ?_⟩
        intro j hj
        by_cases hjm : j < m
        · rw [List.getD_append _ _ _ _ (by omega)]
          exact hv j hjm
        · have : j = m := by omega
          subst this
          rw [List.getD_append_right _ _ _ _ (by omega), hl]
          simpa using h2

/-- `scalar_multiply` returns a reduced polynomial. -/
theorem scalar_multiply_reduced (a : List Int) (c q : Int) (n : Nat) (hq : 0 < q)
    (hq2 : q < 9223372036854775808) (ha : IsPoly n a) (hc : isInt64 c) :
    polynomial.scalar_multiply a c q = (List.range n).map (fun i => (a.getD i 0 * c) % q) ∧
      Reduced q n (polynomial.scalar_multiply a c q) := by
  have h := polynomial.scalar_multiply_eq a c q hq hq2 ha.2 hc
  rw [ha.1] at h
  rw [h]
  exact ⟨rfl, reduced_map_emod _ _ _ hq⟩

/-- `encrypt_glev` succeeds and its level `j` is the GLWE-style encryption of the
message scaled by the factor of level `j`. -/
theorem encrypt_glev_spec (message : List Int) (pk : GLWEPublicKey) (params : Parameters)
    (l : Nat) (β : Int) (uu ue1 : Nat → Nat → Int) (ue2 : Nat → Nat → Nat → Int)
    (hq : 0 < params.q) (hq2 : params.q ≤ 4611686018427387904)
    (hβ : 0 < β) (hl : l + 1 < 2147483648) (hβl : β ^ (l + 1) < 9223372036854775808)
    (hpk1 : Reduced params.q params.n pk.pk1)
    (hpk2 : ∀ j, j < pk.pk2.length → Reduced params.q params.n (pk.pk2.getD j []))
    (hm : IsPoly params.n message)
    (hu : ∀ j i, j ≤ l → i < params.n → uu j i = 0 ∨ uu j i = 1) :
    ∃ levels, encrypt_glev message pk params (l : Int) β uu ue1 ue2 = .ok ⟨levels⟩ ∧
      levels.length = l + 1 ∧
      ∀ j, j ≤ l → glwe_encrypt_scaled
          (polynomial.scalar_multiply message
            (if params.q / β ^ (j + 1) = 0 then 1 else params.q / β ^ (j + 1)) params.q)
          pk params (uu j) (ue1 j) (ue2 j) = .ok (levels.getD j default) := by
  have hq63 : params.q < 9223372036854775808 := by omega
  have hex : ∀ j ∈ List.range (l + 1), ∃ y,
      (match glev_delta params.q β (beta_pow β j) with
        | .error err => Except.error err
        | .ok delta_j =>
          glwe_encrypt_scaled (polynomial.scalar_multiply message delta_j params.q)
            pk params (uu j) (ue1 j) (ue2 j)) = .ok y ∧
      glwe_encrypt_scaled
          (polynomial.scalar_multiply message
            (if params.q / β ^ (j + 1) = 0 then 1 else params.q / β ^ (j + 1)) params.q)
          pk params (uu j) (ue1 j) (ue2 j) = .ok y := by
    intro j hj
    have hj' : j < l + 1 := List.mem_range.mp hj
    have hpow : β ^ (j + 1) < 9223372036854775808 :=
      lt_of_le_of_lt (int_pow_le_pow β hβ (j + 1) (l + 1) (by omega)) hβl
    obtain ⟨hδ, d1, d2⟩ := glev_delta_spec params.q β j hq hβ hpow
    obtain ⟨b, d, h, -⟩ := glwe_encrypt_scaled_spec
      (polynomial.scalar_multiply message
        (if params.q / β ^ (j + 1) = 0 then 1 else params.q / β ^ (j + 1)) params.q)
      pk params (uu j) (ue1 j) (ue2 j) hq hq2 hpk1 hpk2
      (scalar_multiply_reduced message _ params.q params.n hq hq63 hm
        (by unfold isInt64; omega)).2
      (fun i hi => hu j i (by omega) hi)
    refine ⟨_, ?_, h⟩
    rw [hδ]
    exact h
  have hmap := mapM_ok_of_exists (List.range (l + 1)) _ (fun j hj =>
    let ⟨y, hy, _⟩ := hex j hj; ⟨y, hy⟩)
  have h1 : ∀ ls, (List.range (l + 1)).mapM
      (fun j =>
        match glev_delta params.q β (beta_pow β j) with
        | .error err => Except.error err
        | .ok delta_j =>
          glwe_encrypt_scaled (polynomial.scalar_multiply message delta_j params.q)
            pk params (uu j) (ue1 j) (ue2 j)) = .ok ls →
      encrypt_glev message pk params (l : Int) β uu ue1 ue2 = .ok ⟨ls⟩ := by
    intro ls h
    rw [encrypt_glev_eq, if_neg (by omega)]
    have : ((l : Int) + 1).toNat = l + 1 := by omega
    rw [this, h]
  refine ⟨_, h1 _ hmap, by simp, ?_⟩
  intro j hj
  rw [getD_map_range_gen _ _ _ _ (by omega)]
  obtain ⟨y, hy, hy2⟩ := hex j (List.mem_range.mpr (by omega))
  rw [hy, hy2]

/-- Decryption of one level of a GLev ciphertext whose level `i` is the
GLWE-style encryption of `message` under the scaling factor of level `i`, when
`β^(i+1)` divides `q` and `t` divides `β^(i+1)`. -/
theorem decrypt_glev_level_of_level (ct : GLevCiphertext) (message : List Int)
    (sk : List (List Int)) (params : Parameters) (pk : GLWEPublicKey)
    (uA : Nat → Nat → Int) (ue : Nat → Int) (uu ue1 : Nat → Int) (ue2 : Nat → Nat → Int)
    (i : Nat) (β : Int)
    (hq : 0 < params.q) (hq2 : params.q ≤ 4611686018427387904) (ht : 0 < params.t)
    (hβ : 0 < β) (hpow : β ^ (i + 1) < 9223372036854775808)
    (hi : i < ct.levels.length) (hi2 : i < 2 ^ 31)
    (hdivq : β ^ (i + 1) ∣ params.q) (hdivt : params.t ∣ β ^ (i + 1))
    (hsk : ∀ s ∈ sk, s.length = params.n ∧ ∀ x ∈ s, x = 0 ∨ x = 1)
    (hA : ∀ i j, i < sk.length → j < params.n → 0 ≤ uA i j ∧ uA i j < params.q)
    (hue : ∀ c, c < params.n → |ue c| ≤ params.noise_bound)
    (hlen : message.length = params.n)
    (hm : ∀ x ∈ message, 0 ≤ x ∧ x < params.t)
    (hu : ∀ c, c < params.n → uu c = 0 ∨ uu c = 1)
    (he1 : ∀ c, c < params.n → |ue1 c| ≤ params.noise_bound)
    (he2 : ∀ j c, j < sk.length → c < params.n → |ue2 j c| ≤ params.noise_bound)
    (hnoise : 2 * params.noise_bound * (1 + params.n + sk.length * params.n)
      < params.q / β ^ (i + 1))
    (hkey : generate_glwe_public_key sk params uA ue = .ok pk)
    (hlev : glwe_encrypt_scaled
      (polynomial.scalar_multiply message
        (if params.q / β ^ (i + 1) = 0 then 1 else params.q / β ^ (i + 1)) params.q)
      pk params uu ue1 ue2 = .ok (ct.levels.getD i default)) :
    decrypt_glev_level ct sk params (i : Int) β = .ok message := by
  have hq63 : params.q < 9223372036854775808 := by omega
  have hMpos : 0 < β ^ (i + 1) := pow_pos hβ _
  have hqM : params.q = β ^ (i + 1) * (params.q / β ^ (i + 1)) :=
    (Int.mul_ediv_cancel' hdivq).symm
  have hδpos : 0 < params.q / β ^ (i + 1) := Int.ediv_pos_of_pos_of_dvd hq hMpos.le hdivq
  have htM : params.t ≤ β ^ (i + 1) := Int.le_of_dvd hMpos hdivt
  obtain ⟨hδ, d1, d2⟩ := glev_delta_spec params.q β i hq hβ hpow
  rw [if_neg (by omega)] at hδ d1 d2
  have hskP : ∀ j, j < sk.length → IsPoly params.n (sk.getD j []) := by
    intro j hj
    obtain ⟨h1, h2⟩ := hsk _ (getD_mem_or_nil sk j hj)
    exact isPoly_of_binary _ _ h1 h2
  have hmP : IsPoly params.n message :=
    ⟨hlen, isInt64_of_range message params.t (by omega) hm⟩
  rw [if_neg (by omega)] at hlev
  obtain ⟨hsm, hsmred⟩ := scalar_multiply_reduced message (params.q / β ^ (i + 1)) params.q
    params.n hq hq63 hmP (by unfold isInt64; omega)
  obtain ⟨pk', ct', D, hpk', -, hct', -, -, hdec, hD⟩ :=
    glwe_phase sk params uA ue
      (polynomial.scalar_multiply message (params.q / β ^ (i + 1)) params.q)
      uu ue1 ue2 (params.q / β ^ (i + 1)) hq hq2 hskP hA hsmred hu
  have hpkeq : pk' = pk := by
    rw [hkey] at hpk'
    exact (Except.ok.inj hpk').symm
  rw [hpkeq, hlev] at hct'
  have hcteq : ct.levels.getD i default = ct' := Except.ok.inj hct'
  unfold decrypt_glev_level
  rw [if_neg (by omega)]
  simp only
  have hidx : ((i : Int) % 18446744073709551616).toNat = i := by omega
  have hdef : (default : GLWECiphertext) = ⟨[], []⟩ := rfl
  rw [hidx, Int.toNat_ofNat, hδ]
  simp only
  rw [← hdef, hcteq, hdec]
  congr 1
  have : (List.range params.n).map
      (fun c => modq (round_div_int (center_rep (D c) params.q) (params.q / β ^ (i + 1)))
        params.t) = (List.range params.n).map (fun c => message.getD c 0) := by
    apply List.map_congr_left
    intro c hc
    have hc' := List.mem_range.mp hc
    have hbound := glwe_noise_bound ue uu ue1 ue2
      (fun j c => (sk.getD j []).getD c 0) params.n sk.length c params.noise_bound hc'
      hue hu he1 he2 (by
        intro j c hj _
        exact getD_binary _ (hsk _ (getD_mem_or_nil sk j hj)).2 c)
    have hmi := getD_range_bounds message params.t ht hm c
    rw [decode_int_coeff (D c) params.q params.t (β ^ (i + 1)) (params.q / β ^ (i + 1))
      (message.getD c 0) _ hq hq2 ht hδpos hqM hdivt (by omega) (by
        have e : 2 * params.noise_bound * (1 + ↑params.n + ↑sk.length * ↑params.n)
          = 2 * (params.noise_bound * (1 + ↑params.n + ↑sk.length * ↑params.n)) := by ring
        rw [e] at hnoise
        exact lt_of_le_of_lt (by linarith [hbound]) hnoise) (by
        refine (hD c hc').trans ?_
        refine Int.ModEq.add ?_ (Int.ModEq.refl _)
        rw [hsm, getD_map_range _ _ _ hc', mul_comm]
        exact Int.mod_modEq _ _)]
    exact Int.emod_eq_of_lt hmi.1 hmi.2
  rw [this, ← hlen]
  exact map_getD_range_self message

/-- C4 (amended). GLev round trip at every level `i ≤ l` such that `β^(i+1)`
divides `q` and `t` divides `β^(i+1)`: for `0 < q ≤ 2^62`, `β ≥ 1` with
`β^(l+1) < 2^63`, `l + 1 < 2^31`, a binary secret key, the public key of
`generate_glwe_public_key`, noises bounded by `B = params.noise_bound` with
`2 B (1 + n + k n) < Δ_i = q / β^(i+1)`, and a message of length `n` with
coefficients in `[0, t)`,
`decrypt_glev_level(encrypt_glev(m, pk, params, l, β), sk, params, i, β) = m`. -/
theorem glev_round_trip (message : List Int) (sk : List (List Int)) (params : Parameters)
    (uA : Nat → Nat → Int) (ue : Nat → Int) (l i : Nat) (β : Int)
    (uu ue1 : Nat → Nat → Int) (ue2 : Nat → Nat → Nat → Int)
    (hq : 0 < params.q) (hq2 : params.q ≤ 2 ^ 62) (ht : 0 < params.t)
    (hβ : 0 < β) (hl : l + 1 < 2 ^ 31) (hβl : β ^ (l + 1) < 2 ^ 63) (hi : i ≤ l)
    (hdivq : β ^ (i + 1) ∣ params.q) (hdivt : params.t ∣ β ^ (i + 1))
    (hsk : ∀ s ∈ sk, s.length = params.n ∧ ∀ x ∈ s, x = 0 ∨ x = 1)
    (hA : ∀ i j, i < sk.length → j < params.n → 0 ≤ uA i j ∧ uA i j < params.q)
    (hue : ∀ c, c < params.n → |ue c| ≤ params.noise_bound)
    (hlen : message.length = params.n)
    (hm : ∀ x ∈ message, 0 ≤ x ∧ x < params.t)
    (hu : ∀ j c, j ≤ l → c < params.n → uu j c = 0 ∨ uu j c = 1)
    (he1 : ∀ j c, j ≤ l → c < params.n → |ue1 j c| ≤ params.noise_bound)
    (he2 : ∀ j r c, j ≤ l → r < sk.length → c < params.n →
      |ue2 j r c| ≤ params.noise_bound)
    (hnoise : 2 * params.noise_bound * (1 + params.n + sk.length * params.n)
      < params.q / β ^ (i + 1)) :
    ∃ pk ct, generate_glwe_public_key sk params uA ue = .ok pk ∧
      encrypt_glev message pk params (l : Int) β uu ue1 ue2 = .ok ct ∧
      decrypt_glev_level ct sk params (i : Int) β = .ok message := by
  have hq62 : params.q ≤ 4611686018427387904 := by omega
  have hq63 : params.q < 9223372036854775808 := by omega
  have hβl' : β ^ (l + 1) < 9223372036854775808 := by
    have : (2 : Int) ^ 63 = 9223372036854775808 := by norm_num
    omega
  have hpow : β ^ (i + 1) < 9223372036854775808 :=
    lt_of_le_of_lt (int_pow_le_pow β hβ (i + 1) (l + 1) (by omega)) hβl'
  have htM : params.t ≤ β ^ (i + 1) := Int.le_of_dvd (pow_pos hβ _) hdivt
  have hskP : ∀ j, j < sk.length → IsPoly params.n (sk.getD j []) := by
    intro j hj
    obtain ⟨h1, h2⟩ := hsk _ (getD_mem_or_nil sk j hj)
    exact isPoly_of_binary _ _ h1 h2
  obtain ⟨pk1, hpk, hpk1red, -⟩ :=
    generate_glwe_public_key_spec sk params uA ue hq hq62 hskP hA
  have hpk2red : ∀ j, j < ((List.range sk.length).map
      (fun i => (List.range params.n).map (fun j => uA i j))).length →
      Reduced params.q params.n (((List.range sk.length).map
        (fun i => (List.range params.n).map (fun j => uA i j))).getD j []) := by
    intro j hj
    simp only [List.length_map, List.length_range] at hj
    rw [getD_map_range_gen _ _ _ _ hj]
    exact ⟨by simp, map_range_mem_bounds _ _ 0 params.q (fun c hc => hA j c hj hc)⟩
  have hmP : IsPoly params.n message :=
    ⟨hlen, isInt64_of_range message params.t (by omega) hm⟩
  obtain ⟨levels, henc, hlevlen, hlev⟩ := encrypt_glev_spec message
    ⟨pk1, (List.range sk.length).map (fun i => (List.range params.n).map (fun j => uA i j))⟩
    params l β uu ue1 ue2 hq hq62 hβ (by norm_num at hl; omega) hβl' hpk1red hpk2red hmP hu
  refine ⟨_, ⟨levels⟩, hpk, henc, ?_⟩
  exact decrypt_glev_level_of_level ⟨levels⟩ message sk params _ uA ue (uu i) (ue1 i) (ue2 i)
    i β hq hq62 ht hβ hpow (by simp [hlevlen]; omega) (by omega) hdivq hdivt hsk hA hue hlen hm
    (fun c hc => hu i c hi hc) (fun c hc => he1 i c hi hc)
    (fun r c hr hc => he2 i r c hi hr hc) hnoise hpk (hlev i hi)

/-- Witness of `glev_round_trip`: `n = 2`, `k = 2`, `q = 2^32`, `t = 256`, `B = 8`,
`l = 3`, `β = 16`, level `i = 1` (`β² = t`), message `[200, 255]`. -/
theorem glev_round_trip_witness :
    ∃ pk ct, generate_glwe_public_key [[1, 0], [0, 1]] ⟨2, 4294967296, 256, 8⟩
        (fun i j => 1000003 * (i : Int) + 70001 * (j : Int) + 3) (fun _ => 8) = .ok pk ∧
      encrypt_glev [200, 255] pk ⟨2, 4294967296, 256, 8⟩ ((3 : Nat) : Int) 16
        (fun _ c => (c : Int)) (fun _ _ => -8) (fun _ _ _ => 8) = .ok ct ∧
      decrypt_glev_level ct [[1, 0], [0, 1]] ⟨2, 4294967296, 256, 8⟩ ((1 : Nat) : Int) 16
        = .ok [200, 255] :=
  glev_round_trip [200, 255] [[1, 0], [0, 1]] ⟨2, 4294967296, 256, 8⟩
    (fun i j => 1000003 * (i : Int) + 70001 * (j : Int) + 3) (fun _ => 8) 3 1 16
    (fun _ c => (c : Int)) (fun _ _ => -8) (fun _ _ _ => 8)
    (by decide) (by decide) (by decide) (by decide) (by decide) (by decide) (by decide)
    (by decide) (by decide) (by decide)
    (by intro i j hi hj; simp at hi hj; dsimp only; constructor <;> omega)
    (by intro c _; show |(8 : Int)| ≤ 8; decide)
    (by decide) (by decide)
    (by intro j c _ hc; simp at hc; dsimp only; omega)
    (by intro j c _ _; show |(-8 : Int)| ≤ 8; decide)
    (by intro j r c _ _ _; show |(8 : Int)| ≤ 8; decide)
    (by decide)

set_option maxRecDepth 100000 in
/-- C4 as stated fails at level `0` when `t > β`: for `n = 2`, `k = 2`,
`q = 2^32`, `t = 256`, `B = 8`, `l = 3`, `β = 16` (total noise `112 < Δ_i / 2` at
every level) and the message `[16, 17]`, level `0` has `Δ_0 = 2^28` and
`Δ_0 * 16 = 2^32 ≡ 0 (mod q)`, so the level carries the message modulo `16` only:
the decryption at level `0` is `[0, 1]`. -/
theorem glev_round_trip_fails_level0 :
    2 * (8 : Int) * (1 + 2 + 2 * 2) < 4294967296 / 16 ^ (3 + 1) ∧
    generate_glwe_public_key [[1, 0], [0, 1]] ⟨2, 4294967296, 256, 8⟩
        (fun i j => 1000003 * (i : Int) + 70001 * (j : Int) + 3) (fun _ => 8)
      = .ok ⟨[4293897300, 1070018], [[3, 70004], [1000006, 1070007]]⟩ ∧
    encrypt_glev [16, 17] ⟨[4293897300, 1070018], [[3, 70004], [1000006, 1070007]]⟩
        ⟨2, 4294967296, 256, 8⟩ 3 16 (fun _ c => (c : Int)) (fun _ _ => -8) (fun _ _ _ => 8)
      = .ok ⟨[⟨[4293897270, 267365452], [[4294897300, 11], [4293897297, 1000014]]⟩,
          ⟨[267365430, 284142668], [[4294897300, 11], [4293897297, 1000014]]⟩,
          ⟨[15707190, 16755788], [[4294897300, 11], [4293897297, 1000014]]⟩,
          ⟨[4294945846, 44108], [[4294897300, 11], [4293897297, 1000014]]⟩]⟩ ∧
    decrypt_glev_level
        ⟨[⟨[4293897270, 267365452], [[4294897300, 11], [4293897297, 1000014]]⟩,
          ⟨[267365430, 284142668], [[4294897300, 11], [4293897297, 1000014]]⟩,
          ⟨[15707190, 16755788], [[4294897300, 11], [4293897297, 1000014]]⟩,
          ⟨[4294945846, 44108], [[4294897300, 11], [4293897297, 1000014]]⟩]⟩
        [[1, 0], [0, 1]] ⟨2, 4294967296, 256, 8⟩ 0 16 = .ok [0, 1] ∧
    ([0, 1] : List Int) ≠ [16, 17] := by
  refine ⟨by decide, by decide, by decide, by decide, by decide⟩

/-! ## GGSW -/

theorem negate_reduced (x : List Int) (q : Int) (hq : 0 < q)
    (hq2 : q < 9223372036854775808) : Reduced q x.length (polynomial.negate x q) := by
  unfold polynomial.negate
  exact reduced_map_modq _ _ _ hq hq2

/-- C5 (amended). GGSW round trip at every level `i ≤ l` such that `β^(i+1)`
divides `q` and `t` divides `β^(i+1)`: for `0 < q ≤ 2^62`, `β ≥ 1` with
`β^(l+1) < 2^63`, `l + 1 < 2^31`, a binary secret key,
a public key built from it, a message of length `n` with coefficients in `[0, t)`,
binary masks and noise bounded by `B` in each of the `k + 1` rows, and
`2·B·(1 + n + k·n) < q / β^(i+1)`,
`decrypt_ggsw(encrypt_ggsw(m, pk, sk, params, l, β), sk, params, i, β) = m`. -/
theorem ggsw_round_trip (message : List Int) (sk : List (List Int)) (params : Parameters)
    (uA : Nat → Nat → Int) (ue : Nat → Int) (l i : Nat) (β : Int)
    (uu ue1 : Nat → Nat → Nat → Int) (ue2 : Nat → Nat → Nat → Nat → Int)
    (hq : 0 < params.q) (hq2 : params.q ≤ 2 ^ 62) (ht : 0 < params.t)
    (hβ : 0 < β) (hl : l + 1 < 2 ^ 31) (hβl : β ^ (l + 1) < 2 ^ 63) (hi : i ≤ l)
    (hdivq : β ^ (i + 1) ∣ params.q) (hdivt : params.t ∣ β ^ (i + 1))
    (hsk : ∀ s ∈ sk, s.length = params.n ∧ ∀ x ∈ s, x = 0 ∨ x = 1)
    (hA : ∀ i j, i < sk.length → j < params.n → 0 ≤ uA i j ∧ uA i j < params.q)
    (hue : ∀ c, c < params.n → |ue c| ≤ params.noise_bound)
    (hlen : message.length = params.n)
    (hm : ∀ x ∈ message, 0 ≤ x ∧ x < params.t)
    (hu : ∀ r j c, r ≤ sk.length → j ≤ l → c < params.n → uu r j c = 0 ∨ uu r j c = 1)
    (he1 : ∀ r j c, r ≤ sk.length → j ≤ l → c < params.n →
      |ue1 r j c| ≤ params.noise_bound)
    (he2 : ∀ r j s c, r ≤ sk.length → j ≤ l → s < sk.length → c < params.n →
      |ue2 r j s c| ≤ params.noise_bound)
    (hnoise : 2 * params.noise_bound * (1 + params.n + sk.length * params.n)
      < params.q / β ^ (i + 1)) :
    ∃ pk ct, generate_glwe_public_key sk params uA ue = .ok pk ∧
      encrypt_ggsw message pk sk params (l : Int) β uu ue1 ue2 = .ok ct ∧
      decrypt_ggsw ct sk params (i : Int) β = .ok message := by
  have hq62 : params.q ≤ 4611686018427387904 := by omega
  have hq63 : params.q < 9223372036854775808 := by omega
  have hβl' : β ^ (l + 1) < 9223372036854775808 := by
    have : (2 : Int) ^ 63 = 9223372036854775808 := by norm_num
    omega
  have hpow : β ^ (i + 1) < 9223372036854775808 :=
    lt_of_le_of_lt (int_pow_le_pow β hβ (i + 1) (l + 1) (by omega)) hβl'
  have hl' : l + 1 < 2147483648 := by norm_num at hl; omega
  have htM : params.t ≤ β ^ (i + 1) := Int.le_of_dvd (pow_pos hβ _) hdivt
  have hskP : ∀ j, j < sk.length → IsPoly params.n (sk.getD j []) := by
    intro j hj
    obtain ⟨h1, h2⟩ := hsk _ (getD_mem_or_nil sk j hj)
    exact isPoly_of_binary _ _ h1 h2
  obtain ⟨pk1, hpk, hpk1red, -⟩ :=
    generate_glwe_public_key_spec sk params uA ue hq hq62 hskP hA
  set pk : GLWEPublicKey := ⟨pk1, (List.range sk.length).map
    (fun i => (List.range params.n).map (fun j => uA i j))⟩ with hpkdef
  have hpk2red : ∀ j, j < pk.pk2.length →
      Reduced params.q params.n (pk.pk2.getD j []) := by
    intro j hj
    simp only [hpkdef, List.length_map, List.length_range] at hj
    simp only [hpkdef]
    rw [getD_map_range_gen _ _ _ _ hj]
    exact ⟨by simp, map_range_mem_bounds _ _ 0 params.q (fun c hc => hA j c hj hc)⟩
  have hmP : IsPoly params.n message :=
    ⟨hlen, isInt64_of_range message params.t (by omega) hm⟩
  -- the first k rows
  have hrows : ∀ r ∈ List.range sk.length, ∃ y,
      (match polynomial.negacyclic_multiply (sk.getD r []) message params.q with
        | .error err => Except.error err
        | .ok si_m =>
          encrypt_glev (polynomial.negate si_m params.q) pk params (l : Int) β
            (uu r) (ue1 r) (ue2 r)) = .ok y := by
    intro r hr
    have hr' := List.mem_range.mp hr
    rw [nm_poly _ _ params.q params.n hq hq63 (hskP r hr') hmP]
    simp only
    have hneg := negate_reduced ((List.range params.n).map
      (fun k => negacyclicCoeff (sk.getD r []) message params.n k % params.q)) params.q hq hq63
    simp only [List.length_map, List.length_range] at hneg
    obtain ⟨levels, henc, -⟩ := encrypt_glev_spec _ pk params l β (uu r) (ue1 r) (ue2 r)
      hq hq62 hβ hl' hβl' hpk1red hpk2red (hneg.isPoly hq63)
      (fun j c hj hc => hu r j c (by omega) hj hc)
    exact ⟨_, henc⟩
  have hmap := mapM_ok_of_exists (List.range sk.length) _ hrows
  -- the final row
  obtain ⟨levels, henc, hlevlen, hlev⟩ := encrypt_glev_spec message pk params l β
    (uu sk.length) (ue1 sk.length) (ue2 sk.length) hq hq62 hβ hl' hβl' hpk1red hpk2red hmP
    (fun j c hj hc => hu sk.length j c le_rfl hj hc)
  have hggsw : ∀ rows, (List.range sk.length).mapM
      (fun r =>
        match polynomial.negacyclic_multiply (sk.getD r []) message params.q with
        | .error err => Except.error err
        | .ok si_m =>
          encrypt_glev (polynomial.negate si_m params.q) pk params (l : Int) β
            (uu r) (ue1 r) (ue2 r)) = .ok rows →
      encrypt_ggsw message pk sk params (l : Int) β uu ue1 ue2
        = .ok ⟨rows ++ [⟨levels⟩]⟩ := by
    intro rows h
    unfold encrypt_ggsw
    simp only
    rw [h]
    simp only
    rw [henc]
  refine ⟨pk, _, hpk, hggsw _ hmap, ?_⟩
  unfold decrypt_ggsw
  simp only [List.getLastD_concat]
  exact decrypt_glev_level_of_level ⟨levels⟩ message sk params pk uA ue
    (uu sk.length i) (ue1 sk.length i) (ue2 sk.length i)
    i β hq hq62 ht hβ hpow (by simp [hlevlen]; omega) (by omega) hdivq hdivt hsk hA hue hlen hm
    (fun c hc => hu sk.length i c le_rfl hi hc) (fun c hc => he1 sk.length i c le_rfl hi hc)
    (fun r c hr hc => he2 sk.length i r c le_rfl hi hr hc) hnoise hpk (hlev i hi)

/-- Witness of `ggsw_round_trip`: `n = 2`, `k = 2`, `q = 2^32`, `t = 256`, `B = 8`,
`l = 4`, `β = 16`, level `i = 3`, message `[200, 255]`. -/
theorem ggsw_round_trip_witness :
    ∃ pk ct, generate_glwe_public_key [[1, 0], [0, 1]] ⟨2, 4294967296, 256, 8⟩
        (fun i j => 1000003 * (i : Int) + 70001 * (j : Int) + 3) (fun _ => 8) = .ok pk ∧
      encrypt_ggsw [200, 255] pk [[1, 0], [0, 1]] ⟨2, 4294967296, 256, 8⟩ ((4 : Nat) : Int) 16
        (fun _ _ c => (c : Int)) (fun _ _ _ => -8) (fun _ _ _ _ => 8) = .ok ct ∧
      decrypt_ggsw ct [[1, 0], [0, 1]] ⟨2, 4294967296, 256, 8⟩ ((3 : Nat) : Int) 16
        = .ok [200, 255] :=
  ggsw_round_trip [200, 255] [[1, 0], [0, 1]] ⟨2, 4294967296, 256, 8⟩
    (fun i j => 1000003 * (i : Int) + 70001 * (j : Int) + 3) (fun _ => 8) 4 3 16
    (fun _ _ c => (c : Int)) (fun _ _ _ => -8) (fun _ _ _ _ => 8)
    (by decide) (by decide) (by decide) (by decide) (by decide) (by decide) (by decide)
    (by decide) (by decide) (by decide)
    (by intro i j hi hj; simp at hi hj; dsimp only; constructor <;> omega)
    (by intro c _; show |(8 : Int)| ≤ 8; decide)
    (by decide) (by decide)
    (by intro r j c _ _ hc; simp at hc; dsimp only; omega)
    (by intro r j c _ _ _; show |(-8 : Int)| ≤ 8; decide)
    (by intro r j s c _ _ _ _; show |(8 : Int)| ≤ 8; decide)
    (by decide)

set_option maxRecDepth 100000 in
/-- C5 as stated fails at level `0` when `t > β`: for `n = 2`, `k = 2`,
`q = 2^32`, `t = 256`, `B = 8`, `l = 4`, `β = 16` and the message `[16, 17]`, the
last GLev row at level `0` carries the message modulo `16` only
(`Δ_0 * 16 = 2^32 ≡ 0 (mod q)`): `decrypt_ggsw` at level `0` returns `[0, 1]`. -/
theorem ggsw_round_trip_fails_level0 :
    2 * (8 : Int) * (1 + 2 + 2 * 2) < 4294967296 / 16 ^ (4 + 1) ∧
    generate_glwe_public_key [[1, 0], [0, 1]] ⟨2, 4294967296, 256, 8⟩
        (fun i j => 1000003 * (i : Int) + 70001 * (j : Int) + 3) (fun _ => 8)
      = .ok ⟨[4293897300, 1070018], [[3, 70004], [1000006, 1070007]]⟩ ∧
    encrypt_ggsw [16, 17] ⟨[4293897300, 1070018], [[3, 70004], [1000006, 1070007]]⟩
        [[1, 0], [0, 1]] ⟨2, 4294967296, 256, 8⟩ 4 16
        (fun _ _ c => (c : Int)) (fun _ _ _ => -8) (fun _ _ _ _ => 8)
      = .ok ⟨[⟨[⟨[4293897270, 4025461836], [[4294897300, 11], [4293897297, 1000014]]⟩,
          ⟨[4025461814, 4008684620], [[4294897300, 11], [4293897297, 1000014]]⟩,
          ⟨[4277120054, 4276071500], [[4294897300, 11], [4293897297, 1000014]]⟩,
          ⟨[4292848694, 4292783180], [[4294897300, 11], [4293897297, 1000014]]⟩,
          ⟨[4293831734, 4293827660], [[4294897300, 11], [4293897297, 1000014]]⟩]⟩,
        ⟨[⟨[267365430, 4293897292], [[4294897300, 11], [4293897297, 1000014]]⟩,
          ⟨[284142646, 4025461836], [[4294897300, 11], [4293897297, 1000014]]⟩,
          ⟨[16755766, 4277120076], [[4294897300, 11], [4293897297, 1000014]]⟩,
          ⟨[44086, 4292848716], [[4294897300, 11], [4293897297, 1000014]]⟩,
          ⟨[4293966902, 4293831756], [[4294897300, 11], [4293897297, 1000014]]⟩]⟩,
        ⟨[⟨[4293897270, 267365452], [[4294897300, 11], [4293897297, 1000014]]⟩,
          ⟨[267365430, 284142668], [[4294897300, 11], [4293897297, 1000014]]⟩,
          ⟨[15707190, 16755788], [[4294897300, 11], [4293897297, 1000014]]⟩,
          ⟨[4294945846, 44108], [[4294897300, 11], [4293897297, 1000014]]⟩,
          ⟨[4293962806, 4293966924], [[4294897300, 11], [4293897297, 1000014]]⟩]⟩]⟩ ∧
    decrypt_ggsw
        ⟨[⟨[⟨[4293897270, 4025461836], [[4294897300, 11], [4293897297, 1000014]]⟩,
          ⟨[4025461814, 4008684620], [[4294897300, 11], [4293897297, 1000014]]⟩,
          ⟨[4277120054, 4276071500], [[4294897300, 11], [4293897297, 1000014]]⟩,
          ⟨[4292848694, 4292783180], [[4294897300, 11], [4293897297, 1000014]]⟩,
          ⟨[4293831734, 4293827660], [[4294897300, 11], [4293897297, 1000014]]⟩]⟩,
        ⟨[⟨[267365430, 4293897292], [[4294897300, 11], [4293897297, 1000014]]⟩,
          ⟨[284142646, 4025461836], [[4294897300, 11], [4293897297, 1000014]]⟩,
          ⟨[16755766, 4277120076], [[4294897300, 11], [4293897297, 1000014]]⟩,
          ⟨[44086, 4292848716], [[4294897300, 11], [4293897297, 1000014]]⟩,
          ⟨[4293966902, 4293831756], [[4294897300, 11], [4293897297, 1000014]]⟩]⟩,
        ⟨[⟨[4293897270, 267365452], [[4294897300, 11], [4293897297, 1000014]]⟩,
          ⟨[267365430, 284142668], [[4294897300, 11], [4293897297, 1000014]]⟩,
          ⟨[15707190, 16755788], [[4294897300, 11], [4293897297, 1000014]]⟩,
          ⟨[4294945846, 44108], [[4294897300, 11], [4293897297, 1000014]]⟩,
          ⟨[4293962806, 4293966924], [[4294897300, 11], [4293897297, 1000014]]⟩]⟩]⟩
        [[1, 0], [0, 1]] ⟨2, 4294967296, 256, 8⟩ 0 16 = .ok [0, 1] ∧
    ([0, 1] : List Int) ≠ [16, 17] := by
  refine ⟨by decide, by decide, by decide, by decide, by decide⟩

/-! ## Error contracts of LWE -/

theorem dot_product_modq_ok (a b : List Int) (q : Int) (h : a.length = b.length) :
    ∃ v, dot_product_modq a b q = .ok v := by
  unfold dot_product_modq
  simp [h]

/-- C11. `encrypt_lwe` fails with `InvalidMessage` exactly when `m < 0` or
`m ≥ t`, in particular for `m = t` and `m = -1`; for every `m` in `[0, t)`
(and a modulus `q > 0`) it returns a ciphertext, whose mask has the length of
the key. -/
theorem encrypt_lwe_invalid_message_iff (message : Int) (sk : List Int) (params : Parameters)
    (ua : Nat → Int) (e : Int) :
    (encrypt_lwe message sk params ua e = .error .InvalidMessage
        ↔ (message < 0 ∨ message ≥ params.t))
      ∧ encrypt_lwe params.t sk params ua e = .error .InvalidMessage
      ∧ encrypt_lwe (-1) sk params ua e = .error .InvalidMessage
      ∧ (0 < params.q → 0 ≤ message → message < params.t →
          ∃ ct, encrypt_lwe message sk params ua e = .ok ct ∧ ct.a.length = sk.length) := by
  have hok : ¬ (message < 0 ∨ message ≥ params.t) →
      ∃ ct, encrypt_lwe message sk params ua e = .ok ct ∧ ct.a.length = sk.length := by
    intro h
    obtain ⟨v, hv⟩ := dot_product_modq_ok ((List.range sk.length).map ua) sk params.q (by simp)
    unfold encrypt_lwe
    simp only [h, if_false, hv]
    exact ⟨_, rfl, by simp⟩
  refine ⟨⟨?_, ?_⟩, ?_, ?_, ?_⟩
  · intro herr
    by_contra h
    obtain ⟨ct, hct, -⟩ := hok h
    rw [hct] at herr
    cases herr
  · intro h
    unfold encrypt_lwe
    simp only [h, if_true]
  · unfold encrypt_lwe
    simp
  · unfold encrypt_lwe
    simp
  · intro _ h0 h1
    exact hok (by omega)

/-- Witness of `encrypt_lwe_invalid_message_iff`: `q = 64`, `t = 4`, `m = 3`, key
`(1, 0)`. -/
theorem encrypt_lwe_invalid_message_iff_witness :
    ∃ ct, encrypt_lwe 3 [1, 0] ⟨2, 64, 4, 1⟩ (fun i => 5 + i) 1 = .ok ct ∧ ct.a.length = 2 :=
  (encrypt_lwe_invalid_message_iff 3 [1, 0] ⟨2, 64, 4, 1⟩ (fun i => 5 + i) 1).2.2.2
    (by decide) (by decide) (by decide)

/-- C13. `decrypt_lwe` fails with `InvalidSize` exactly when the mask of the
ciphertext and the secret key have different lengths; otherwise (moduli
`q, t > 0`) it returns a value. -/
theorem decrypt_lwe_invalid_size_iff (ct : LWECiphertext) (sk : List Int)
    (params : Parameters) :
    (decrypt_lwe ct sk params = .error .InvalidSize ↔ ct.a.length ≠ sk.length)
      ∧ (0 < params.q → 0 < params.t → ct.a.length = sk.length →
          ∃ v, decrypt_lwe ct sk params = .ok v) := by
  have hok : ct.a.length = sk.length → ∃ v, decrypt_lwe ct sk params = .ok v := by
    intro h
    obtain ⟨v, hv⟩ := dot_product_modq_ok ct.a sk params.q h
    unfold decrypt_lwe
    simp only [h, ne_eq, not_true_eq_false, if_false, hv]
    exact ⟨_, rfl⟩
  refine ⟨⟨?_, ?_⟩, fun _ _ h => hok h⟩
  · intro herr h
    obtain ⟨v, hv⟩ := hok h
    rw [hv] at herr
    cases herr
  · intro h
    unfold decrypt_lwe
    simp only [h, ne_eq, not_false_eq_true, if_true]

/-- Witness of `decrypt_lwe_invalid_size_iff`: `q = 64`, `t = 4`, a mask of
length 2 and the key `(1, 0)`. -/
theorem decrypt_lwe_invalid_size_iff_witness :
    ∃ v, decrypt_lwe ⟨[5, 6], 54⟩ [1, 0] ⟨2, 64, 4, 1⟩ = .ok v :=
  (decrypt_lwe_invalid_size_iff ⟨[5, 6], 54⟩ [1, 0] ⟨2, 64, 4, 1⟩).2
    (by decide) (by decide) (by decide)

/-! ## Which error an operation can raise -/

theorem add_error (a b : List Int) (q : Int) (err : Error)
    (h : polynomial.add a b q = .error err) : err = .InvalidSize := by
  unfold polynomial.add at h
  split_ifs at h
  cases h
  rfl

theorem subtract_error (a b : List Int) (q : Int) (err : Error)
    (h : polynomial.subtract a b q = .error err) : err = .InvalidSize := by
  unfold polynomial.subtract at h
  split_ifs at h
  cases h
  rfl

theorem negacyclic_multiply_error (a b : List Int) (q : Int) (err : Error)
    (h : polynomial.negacyclic_multiply a b q = .error err) : err = .InvalidSize := by
  unfold polynomial.negacyclic_multiply at h
  split_ifs at h
  cases h
  rfl

theorem foldlM_error {α β : Type} (f : β → α → Except Error β) (l : List α) (init : β)
    (err : Error) (hf : ∀ acc x e, f acc x = .error e → e = .InvalidSize)
    (h : l.foldlM f init = .error err) : err = .InvalidSize := by
  induction l generalizing init with
  | nil => simp [List.foldlM, pure, Except.pure] at h
  | cons x xs ih =>
    rw [List.foldlM_cons] at h
    cases hx : f init x with
    | error e =>
      rw [hx] at h
      have := hf init x e hx
      simp only [bind, Except.bind] at h
      cases h
      exact this
    | ok v =>
      rw [hx] at h
      simp only [bind, Except.bind] at h
      exact ih v h

theorem mul_accumulate_error (xs ss : List (List Int)) (k n : Nat) (q : Int) (err : Error)
    (h : mul_accumulate xs ss k n q = .error err) : err = .InvalidSize := by
  unfold mul_accumulate at h
  refine foldlM_error _ _ _ err ?_ h
  intro acc j e he
  beta_reduce at he
  cases hp : polynomial.negacyclic_multiply (xs.getD j []) (ss.getD j []) q with
  | error e2 =>
    rw [hp] at he
    cases he
    exact negacyclic_multiply_error _ _ _ _ hp
  | ok prod =>
    rw [hp] at he
    exact add_error _ _ _ _ he

theorem glwe_decrypt_scaled_error (ct : GLWECiphertext) (sk : List (List Int))
    (params : Parameters) (delta : Int) (err : Error)
    (h : glwe_decrypt_scaled ct sk params delta = .error err) : err = .InvalidSize := by
  unfold glwe_decrypt_scaled at h
  cases hm : mul_accumulate ct.d_tilde sk sk.length params.n params.q with
  | error e =>
    simp only [hm] at h
    cases h
    exact mul_accumulate_error _ _ _ _ _ _ hm
  | ok d =>
    simp only [hm] at h
    cases hs : polynomial.subtract ct.b d params.q with
    | error e =>
      simp only [hs] at h
      cases h
      exact subtract_error _ _ _ _ hs
    | ok diff =>
      simp only [hs] at h
      cases h

/-- The guard of `decrypt_glev_level`: `LevelOutOfRange` is raised exactly when
`level_idx ≥ levels.size()`; a negative index passes the guard. -/
theorem decrypt_glev_level_out_of_range_iff (ct : GLevCiphertext) (sk : List (List Int))
    (params : Parameters) (level_idx beta : Int) :
    decrypt_glev_level ct sk params level_idx beta = .error .LevelOutOfRange
      ↔ (ct.levels.length : Int) ≤ level_idx := by
  constructor
  · intro h
    by_contra hlt
    unfold decrypt_glev_level at h
    simp only [ge_iff_le, hlt, if_false] at h
    cases hd : glev_delta params.q beta (beta_pow beta level_idx.toNat) with
    | error err =>
      rw [hd] at h
      have h1 := glev_delta_error _ _ _ _ hd
      subst h1
      cases h
    | ok delta_i =>
      rw [hd] at h
      have := glwe_decrypt_scaled_error _ _ _ _ _ h
      cases this
  · intro h
    unfold decrypt_glev_level
    simp only [ge_iff_le, h, if_true]

/-- C12 (the code at the failing input). A GLev ciphertext with two levels
(`l = 1`), `n = 2`, `k = 1`, `q = 64`, `t = 4`, `β = 2`: the index `l + 1 = 2`
fails with `LevelOutOfRange` and the indices `0` and `1` do not, but the
negative index `-1` is not rejected with `LevelOutOfRange` either. -/
theorem decrypt_glev_level_negative_index :
    decrypt_glev_level ⟨[⟨[1, 2], [[3, 4]]⟩, ⟨[5, 6], [[7, 8]]⟩]⟩ [[1, 0]] ⟨2, 64, 4, 1⟩ (-1) 2
        ≠ .error .LevelOutOfRange
      ∧ decrypt_glev_level ⟨[⟨[1, 2], [[3, 4]]⟩, ⟨[5, 6], [[7, 8]]⟩]⟩ [[1, 0]] ⟨2, 64, 4, 1⟩ 2 2
        = .error .LevelOutOfRange
      ∧ decrypt_glev_level ⟨[⟨[1, 2], [[3, 4]]⟩, ⟨[5, 6], [[7, 8]]⟩]⟩ [[1, 0]] ⟨2, 64, 4, 1⟩ 0 2
        ≠ .error .LevelOutOfRange
      ∧ decrypt_glev_level ⟨[⟨[1, 2], [[3, 4]]⟩, ⟨[5, 6], [[7, 8]]⟩]⟩ [[1, 0]] ⟨2, 64, 4, 1⟩ 1 2
        ≠ .error .LevelOutOfRange := by
  decide

/-! ## Size contracts of the homomorphic and ring operations -/

/-- C14. `add_lwe` and `subtract_lwe` fail with `InvalidSize` exactly when the two
masks have different lengths; `add_glwe` and `subtract_glwe` fail with
`InvalidSize` whenever the two ciphertexts have different numbers of mask
polynomials. -/
theorem homomorphic_size_mismatch (c1 c2 : LWECiphertext) (g1 g2 : GLWECiphertext)
    (params : Parameters) :
    (add_lwe c1 c2 params = .error .InvalidSize ↔ c1.a.length ≠ c2.a.length)
      ∧ (subtract_lwe c1 c2 params = .error .InvalidSize ↔ c1.a.length ≠ c2.a.length)
      ∧ (g1.d_tilde.length ≠ g2.d_tilde.length →
          add_glwe g1 g2 params = .error .InvalidSize)
      ∧ (g1.d_tilde.length ≠ g2.d_tilde.length →
          subtract_glwe g1 g2 params = .error .InvalidSize) := by
  refine ⟨?_, ?_, ?_, ?_⟩
  · unfold add_lwe
    by_cases h : c1.a.length = c2.a.length <;> simp [h]
  · unfold subtract_lwe
    by_cases h : c1.a.length = c2.a.length <;> simp [h]
  · intro h
    unfold add_glwe
    simp only [h, ne_eq, not_false_eq_true, if_true]
  · intro h
    unfold subtract_glwe
    simp only [h, ne_eq, not_false_eq_true, if_true]

/-- Witness of `homomorphic_size_mismatch`: GLWE ciphertexts with one and with two
mask polynomials (`n = 2`, `q = 64`). -/
theorem homomorphic_size_mismatch_witness :
    add_glwe ⟨[1, 2], [[3, 4]]⟩ ⟨[5, 6], [[7, 8], [9, 10]]⟩ ⟨2, 64, 4, 1⟩
        = .error .InvalidSize
      ∧ subtract_glwe ⟨[1, 2], [[3, 4]]⟩ ⟨[5, 6], [[7, 8], [9, 10]]⟩ ⟨2, 64, 4, 1⟩
        = .error .InvalidSize :=
  ⟨(homomorphic_size_mismatch ⟨[], 0⟩ ⟨[], 0⟩ ⟨[1, 2], [[3, 4]]⟩ ⟨[5, 6], [[7, 8], [9, 10]]⟩
      ⟨2, 64, 4, 1⟩).2.2.1 (by decide),
    (homomorphic_size_mismatch ⟨[], 0⟩ ⟨[], 0⟩ ⟨[1, 2], [[3, 4]]⟩ ⟨[5, 6], [[7, 8], [9, 10]]⟩
      ⟨2, 64, 4, 1⟩).2.2.2 (by decide)⟩

/-- C15. `add`, `subtract` and `negacyclic_multiply` fail with `InvalidSize`
exactly when the two operands have different lengths; otherwise (modulus
`q > 0`) they return a polynomial of the common length. -/
theorem ring_size_mismatch (a b : List Int) (q : Int) :
    (polynomial.add a b q = .error .InvalidSize ↔ a.length ≠ b.length)
      ∧ (polynomial.subtract a b q = .error .InvalidSize ↔ a.length ≠ b.length)
      ∧ (polynomial.negacyclic_multiply a b q = .error .InvalidSize ↔ a.length ≠ b.length)
      ∧ (0 < q → a.length = b.length →
          (∃ r, polynomial.add a b q = .ok r ∧ r.length = a.length)
          ∧ (∃ r, polynomial.subtract a b q = .ok r ∧ r.length = a.length)
          ∧ (∃ r, polynomial.negacyclic_multiply a b q = .ok r ∧ r.length = a.length)) := by
  refine ⟨?_, ?_, ?_, ?_⟩
  · unfold polynomial.add
    by_cases h : a.length = b.length <;> simp [h]
  · unfold polynomial.subtract
    by_cases h : a.length = b.length <;> simp [h]
  · unfold polynomial.negacyclic_multiply
    by_cases h : a.length = b.length <;> simp [h]
  · intro _ h
    refine ⟨?_, ?_, ?_⟩
    · unfold polynomial.add
      simp [h]
    · unfold polynomial.subtract
      simp [h]
    · unfold polynomial.negacyclic_multiply
      simp [h]

/-- Witness of `ring_size_mismatch`: two polynomials of length 2, `q = 7`. -/
theorem ring_size_mismatch_witness :
    (∃ r, polynomial.add [1, 2] [3, 6] 7 = .ok r ∧ r.length = 2)
      ∧ (∃ r, polynomial.subtract [1, 2] [3, 6] 7 = .ok r ∧ r.length = 2)
      ∧ (∃ r, polynomial.negacyclic_multiply [1, 2] [3, 6] 7 = .ok r ∧ r.length = 2) :=
  (ring_size_mismatch [1, 2] [3, 6] 7).2.2.2 (by decide) (by decide)

/-! ## The modular primitives -/

/-- C16. `modq` is the non-negative residue: for every `x` and every `int64`
modulus `q > 0`, `0 ≤ modq(x, q) < q` and `modq(x, q) ≡ x (mod q)`. -/
theorem modq_nonneg_residue (x q : Int) (hq : 0 < q) (hq2 : q < 2 ^ 63) :
    0 ≤ modq x q ∧ modq x q < q ∧ modq x q ≡ x [ZMOD q] := by
  have hq3 : q < 9223372036854775808 := by
    have : (2 : Int) ^ 63 = 9223372036854775808 := by norm_num
    omega
  rw [modq_spec x q hq hq3]
  exact ⟨Int.emod_nonneg x hq.ne', Int.emod_lt_of_pos x hq, Int.mod_modEq x q⟩

/-- Witness of `modq_nonneg_residue`: `x = -7`, `q = 5` (the residue is `3`). -/
theorem modq_nonneg_residue_witness :
    0 ≤ modq (-7) 5 ∧ modq (-7) 5 < 5 ∧ modq (-7) 5 ≡ -7 [ZMOD 5] :=
  modq_nonneg_residue (-7) 5 (by decide) (by norm_num)

/-- C17. `center_rep` is the centred residue: for every `x` and every `int64`
modulus `q > 0`, `r = center_rep(x, q)` satisfies `r ≡ x (mod q)` and
`-q/2 < r ≤ q/2` as rationals; `center_rep(modq(x, q), q)` is the same value. -/
theorem center_rep_centred_residue (x q : Int) (hq : 0 < q) (hq2 : q < 2 ^ 63) :
    center_rep x q ≡ x [ZMOD q]
      ∧ -(q : ℚ) / 2 < (center_rep x q : ℚ) ∧ (center_rep x q : ℚ) ≤ (q : ℚ) / 2
      ∧ center_rep (modq x q) q = center_rep x q := by
  have hq3 : q < 9223372036854775808 := by
    have : (2 : Int) ^ 63 = 9223372036854775808 := by norm_num
    omega
  have h0 := Int.emod_nonneg x hq.ne'
  have h1 := Int.emod_lt_of_pos x hq
  have hint : -q < 2 * center_rep x q ∧ 2 * center_rep x q ≤ q := by
    rw [center_rep_spec x q hq hq3]
    split_ifs with h <;> omega
  refine ⟨(center_rep_modEq x q hq hq3).1, ?_, ?_, ?_⟩
  · have : ((-q : Int) : ℚ) < ((2 * center_rep x q : Int) : ℚ) := by exact_mod_cast hint.1
    push_cast at this
    linarith
  · have : ((2 * center_rep x q : Int) : ℚ) ≤ ((q : Int) : ℚ) := by exact_mod_cast hint.2
    push_cast at this
    linarith
  · rw [center_rep_spec (modq x q) q hq hq3, center_rep_spec x q hq hq3,
      modq_spec x q hq hq3, Int.emod_emod_of_dvd x (dvd_refl q)]

/-- Witness of `center_rep_centred_residue`: `x = 7`, `q = 10` (the residue is
`-3`). -/
theorem center_rep_centred_residue_witness :
    center_rep 7 10 ≡ 7 [ZMOD 10]
      ∧ -((10 : Int) : ℚ) / 2 < (center_rep 7 10 : ℚ) ∧ (center_rep 7 10 : ℚ) ≤ ((10 : Int) : ℚ) / 2
      ∧ center_rep (modq 7 10) 10 = center_rep 7 10 :=
  center_rep_centred_residue 7 10 (by decide) (by norm_num)

/-- C18 (amended). `dot_product_modq` is exact when the exact sum fits the
accumulator: for `0 < q ≤ 2^62` and two sequences of the same length `L` with
entries in `[0, q)` and `L·(q-1)² < 2^127`, no product and no partial sum leaves
the range of `__int128`, and the result is `(Σ a_i·b_i) mod q`, in `[0, q)`. -/
theorem dot_product_modq_exact (a b : List Int) (q : Int) (hq : 0 < q) (hq2 : q ≤ 2 ^ 62)
    (hlen : a.length = b.length)
    (ha : ∀ x ∈ a, 0 ≤ x ∧ x < q) (hb : ∀ x ∈ b, 0 ≤ x ∧ x < q)
    (hfit : (a.length : Int) * (q - 1) ^ 2 < 2 ^ 127) :
    (∀ i, i < a.length → isInt128 (a.getD i 0 * b.getD i 0)
        ∧ isInt128 (dot_acc a b i + a.getD i 0 * b.getD i 0))
      ∧ dot_product_modq a b q = .ok (dotZ a b a.length % q)
      ∧ 0 ≤ dotZ a b a.length % q ∧ dotZ a b a.length % q < q := by
  have hq3 : q < 9223372036854775808 := by
    have : (2 : Int) ^ 62 = 4611686018427387904 := by norm_num
    omega
  have hfit2 : (a.length : Int) * (q - 1) ^ 2 < 170141183460469231731687303715884105728 := by
    have : (2 : Int) ^ 127 = 170141183460469231731687303715884105728 := by norm_num
    omega
  have hM0 : 0 ≤ (q - 1) ^ 2 := sq_nonneg _
  have hprod : ∀ i, i < a.length →
      0 ≤ a.getD i 0 * b.getD i 0 ∧ a.getD i 0 * b.getD i 0 ≤ (q - 1) ^ 2 := by
    intro i _
    obtain ⟨a0, a1⟩ := getD_range_bounds a q hq ha i
    obtain ⟨b0, b1⟩ := getD_range_bounds b q hq hb i
    constructor
    · exact mul_nonneg a0 b0
    · nlinarith
  refine ⟨?_, dot_product_modq_eq a b q _ hlen hq hq3 hprod hfit2 hM0,
    Int.emod_nonneg _ hq.ne', Int.emod_lt_of_pos _ hq⟩
  intro i hi
  have hi1 : ((i : Int) + 1) * (q - 1) ^ 2 ≤ (a.length : Int) * (q - 1) ^ 2 := by
    have : (i : Int) + 1 ≤ (a.length : Int) := by exact_mod_cast hi
    exact mul_le_mul_of_nonneg_right this hM0
  have hi2 : (i : Int) * (q - 1) ^ 2 < 170141183460469231731687303715884105728 := by
    nlinarith
  obtain ⟨e1, e2, e3⟩ := dot_acc_eq a b ((q - 1) ^ 2) i
    (fun j hj => hprod j (by omega)) hi2 hM0
  obtain ⟨p1, p2⟩ := hprod i hi
  rw [e1]
  unfold isInt128
  have e4 : ((i : Int) + 1) * (q - 1) ^ 2 = i * (q - 1) ^ 2 + (q - 1) ^ 2 := by ring
  constructor <;> constructor <;> omega

/-- Witness of `dot_product_modq_exact`: `q = 7`, `a = (3, 6)`, `b = (5, 6)`. -/
theorem dot_product_modq_exact_witness :
    (∀ i, i < 2 → isInt128 (([3, 6] : List Int).getD i 0 * ([5, 6] : List Int).getD i 0)
        ∧ isInt128 (dot_acc [3, 6] [5, 6] i
            + ([3, 6] : List Int).getD i 0 * ([5, 6] : List Int).getD i 0))
      ∧ dot_product_modq [3, 6] [5, 6] 7 = .ok (dotZ [3, 6] [5, 6] 2 % 7)
      ∧ 0 ≤ dotZ [3, 6] [5, 6] 2 % 7 ∧ dotZ [3, 6] [5, 6] 2 % 7 < 7 :=
  dot_product_modq_exact [3, 6] [5, 6] 7 (by decide) (by norm_num) (by decide)
    (by decide) (by decide) (by norm_num)

/-- C18 as stated fails: `q = 2^62 - 1`, `a = b = (q-1, …, q-1)` of length 9
(entries in `[0, q)`, length below `2^16`). The ninth addition leaves the range
of `__int128`, and the result is `q - 7` while `(Σ a_i·b_i) mod q = 9`. -/
theorem dot_product_modq_overflows :
    (0 : Int) < 4611686018427387903 ∧ (4611686018427387903 : Int) ≤ 2 ^ 62
      ∧ (List.replicate 9 (4611686018427387902 : Int)).length ≤ 2 ^ 16
      ∧ (∀ x ∈ List.replicate 9 (4611686018427387902 : Int),
          0 ≤ x ∧ x < 4611686018427387903)
      ∧ ¬ isInt128 (dot_acc (List.replicate 9 4611686018427387902)
            (List.replicate 9 4611686018427387902) 8
          + (List.replicate 9 (4611686018427387902 : Int)).getD 8 0
            * (List.replicate 9 (4611686018427387902 : Int)).getD 8 0)
      ∧ dot_product_modq (List.replicate 9 4611686018427387902)
          (List.replicate 9 4611686018427387902) 4611686018427387903
          = .ok 4611686018427387896
      ∧ dotZ (List.replicate 9 4611686018427387902)
          (List.replicate 9 4611686018427387902) 9 % 4611686018427387903 = 9 := by
  refine ⟨by decide, by norm_num, by norm_num, by decide, by decide, by decide, by decide⟩

/-! ## Products with monomials -/

theorem xpow_length (n j : Nat) : (xpow n j).length = n := by
  simp [xpow]

theorem xpow_getD (n j i : Nat) (hi : i < n) :
    (xpow n j).getD i 0 = if i = j then 1 else 0 := by
  unfold xpow
  rw [getD_map_range _ n i hi]

theorem xpow_isPoly (n j : Nat) : IsPoly n (xpow n j) := by
  refine isPoly_of_binary _ n (xpow_length n j) ?_
  intro x hx
  unfold xpow at hx
  simp only [List.mem_map, List.mem_range] at hx
  obtain ⟨i, -, rfl⟩ := hx
  split_ifs
  · exact Or.inr rfl
  · exact Or.inl rfl

/-- Product with `X^j` on the right: the coefficients are shifted by `j`
places and those that wrap are negated. -/
theorem ncF_xpow_right (f g : Nat → Int) (n k j : Nat) (hk : k < n) (hj : j < n)
    (hg : ∀ i, i < n → g i = if i = j then 1 else 0) :
    ncF f g n k = if j ≤ k then f (k - j) else -f (k + n - j) := by
  rw [ncF_eq_rows f g n k hk]
  by_cases hjk : j ≤ k
  · rw [if_pos hjk, Finset.sum_eq_single (k - j)]
    · rw [if_pos (by omega), hg (k - (k - j)) (by omega), if_pos (by omega)]
      ring
    · intro i hi hne
      have hi' := Finset.mem_range.mp hi
      split_ifs with h
      · rw [hg (k - i) (by omega), if_neg (by omega)]
        ring
      · rw [hg (k + n - i) (by omega), if_neg (by omega)]
        ring
    · intro h
      exact absurd (Finset.mem_range.mpr (by omega)) h
  · rw [if_neg hjk, Finset.sum_eq_single (k + n - j)]
    · rw [if_neg (by omega), hg (k + n - (k + n - j)) (by omega), if_pos (by omega)]
      ring
    · intro i hi hne
      have hi' := Finset.mem_range.mp hi
      split_ifs with h
      · rw [hg (k - i) (by omega), if_neg (by omega)]
        ring
      · rw [hg (k + n - i) (by omega), if_neg (by omega)]
        ring
    · intro h
      exact absurd (Finset.mem_range.mpr (by omega)) h

/-- Product with `X^j` on the left: the same shift. -/
theorem ncF_xpow_left (f g : Nat → Int) (n k j : Nat) (hk : k < n) (hj : j < n)
    (hf : ∀ i, i < n → f i = if i = j then 1 else 0) :
    ncF f g n k = if j ≤ k then g (k - j) else -g (k + n - j) := by
  rw [ncF_eq_rows f g n k hk, Finset.sum_eq_single j]
  · rw [hf j hj, if_pos rfl]
    split_ifs <;> ring
  · intro i hi hne
    have hi' := Finset.mem_range.mp hi
    rw [hf i hi', if_neg hne]
    split_ifs <;> ring
  · intro h
    exact absurd (Finset.mem_range.mpr hj) h

theorem negacyclic_multiply_xpow_right (a : List Int) (q : Int) (n j : Nat)
    (hq : 0 < q) (hq2 : q < 9223372036854775808) (ha : IsPoly n a) (hj : j < n) :
    polynomial.negacyclic_multiply a (xpow n j) q
      = .ok ((List.range n).map
          (fun k => (if j ≤ k then a.getD (k - j) 0 else -a.getD (k + n - j) 0) % q)) := by
  rw [nm_poly a (xpow n j) q n hq hq2 ha (xpow_isPoly n j)]
  congr 1
  apply List.map_congr_left
  intro k hk
  have hk' := List.mem_range.mp hk
  rw [negacyclicCoeff_eq_ncF,
    ncF_xpow_right _ _ n k j hk' hj (fun i hi => xpow_getD n j i hi)]

theorem negacyclic_multiply_xpow_left (a : List Int) (q : Int) (n j : Nat)
    (hq : 0 < q) (hq2 : q < 9223372036854775808) (ha : IsPoly n a) (hj : j < n) :
    polynomial.negacyclic_multiply (xpow n j) a q
      = .ok ((List.range n).map
          (fun k => (if j ≤ k then a.getD (k - j) 0 else -a.getD (k + n - j) 0) % q)) := by
  rw [nm_poly (xpow n j) a q n hq hq2 (xpow_isPoly n j) ha]
  congr 1
  apply List.map_congr_left
  intro k hk
  have hk' := List.mem_range.mp hk
  rw [negacyclicCoeff_eq_ncF,
    ncF_xpow_left _ _ n k j hk' hj (fun i hi => xpow_getD n j i hi)]

theorem map_range_eq_self (a : List Int) (q : Int) (n : Nat) (hq : 0 < q) (hlen : a.length = n)
    (ha : ∀ x ∈ a, 0 ≤ x ∧ x < q) :
    (List.range n).map (fun k => (if 0 ≤ k then a.getD (k - 0) 0 else -a.getD (k + n - 0) 0) % q)
      = a := by
  subst hlen
  conv_rhs => rw [← map_getD_range_self a]
  apply List.map_congr_left
  intro k _
  obtain ⟨h0, h1⟩ := getD_range_bounds a q hq ha k
  rw [if_pos (Nat.zero_le k), Nat.sub_zero, Int.emod_eq_of_lt h0 h1]

/-- C19. The polynomial `1 = (1, 0, …, 0)` is the multiplicative identity: for
every `int64` modulus `q > 0`, every `n ≥ 1` and every polynomial `a` of length
`n` with coefficients in `[0, q)`, `negacyclic_multiply(a, 1, q) = a` and
`negacyclic_multiply(1, a, q) = a`. -/
theorem negacyclic_multiply_one (a : List Int) (q : Int) (n : Nat)
    (hq : 0 < q) (hq2 : q < 2 ^ 63) (hn : 1 ≤ n) (hlen : a.length = n)
    (ha : ∀ x ∈ a, 0 ≤ x ∧ x < q) :
    polynomial.negacyclic_multiply a (xpow n 0) q = .ok a
      ∧ polynomial.negacyclic_multiply (xpow n 0) a q = .ok a := by
  have hq3 : q < 9223372036854775808 := by
    have : (2 : Int) ^ 63 = 9223372036854775808 := by norm_num
    omega
  have hP : IsPoly n a := ⟨hlen, isInt64_of_range a q hq3 ha⟩
  rw [negacyclic_multiply_xpow_right a q n 0 hq hq3 hP (by omega),
    negacyclic_multiply_xpow_left a q n 0 hq hq3 hP (by omega),
    map_range_eq_self a q n hq hlen ha]
  exact ⟨rfl, rfl⟩

/-- Witness of `negacyclic_multiply_one`: `q = 7`, `n = 3`, `a = (2, 0, 6)`. -/
theorem negacyclic_multiply_one_witness :
    polynomial.negacyclic_multiply [2, 0, 6] (xpow 3 0) 7 = .ok [2, 0, 6]
      ∧ polynomial.negacyclic_multiply (xpow 3 0) [2, 0, 6] 7 = .ok [2, 0, 6] :=
  negacyclic_multiply_one [2, 0, 6] 7 3 (by decide) (by norm_num) (by decide) (by decide)
    (by decide)

/-- C20. Sign flip on wrap, `X^n = -1`: for every `int64` modulus `q > 0`,
every polynomial `a` of length `n` with coefficients in `[0, q)` and every
`0 < i < n` (hence `n ≥ 2`), multiplying `a` by `X^i` and then by `X^(n-i)` gives
`negate(a, q)`. -/
theorem negacyclic_multiply_wrap_negates (a : List Int) (q : Int) (n i : Nat)
    (hq : 0 < q) (hq2 : q < 2 ^ 63) (hlen : a.length = n)
    (ha : ∀ x ∈ a, 0 ≤ x ∧ x < q) (hi0 : 0 < i) (hi : i < n) :
    ∃ c, polynomial.negacyclic_multiply a (xpow n i) q = .ok c
      ∧ polynomial.negacyclic_multiply c (xpow n (n - i)) q
          = .ok (polynomial.negate a q) := by
  have hq3 : q < 9223372036854775808 := by
    have : (2 : Int) ^ 63 = 9223372036854775808 := by norm_num
    omega
  have hP : IsPoly n a := ⟨hlen, isInt64_of_range a q hq3 ha⟩
  refine ⟨_, negacyclic_multiply_xpow_right a q n i hq hq3 hP hi, ?_⟩
  have hc : IsPoly n ((List.range n).map
      (fun k => (if i ≤ k then a.getD (k - i) 0 else -a.getD (k + n - i) 0) % q)) :=
    (reduced_map_emod _ q n hq).isPoly hq3
  rw [negacyclic_multiply_xpow_right _ q n (n - i) hq hq3 hc (by omega)]
  unfold polynomial.negate
  rw [hlen]
  congr 1
  apply List.map_congr_left
  intro k hk
  have hk' := List.mem_range.mp hk
  obtain ⟨h0, h1⟩ := getD_range_bounds a q hq ha k
  rw [wrap64_eq _ (by omega) (by omega), modq_spec _ q hq hq3]
  by_cases hc1 : n - i ≤ k
  · rw [if_pos hc1, getD_map_range _ n (k - (n - i)) (by omega), if_neg (by omega)]
    have e : k - (n - i) + n - i = k := by omega
    rw [e, Int.emod_emod_of_dvd _ (dvd_refl q)]
  · rw [if_neg hc1, getD_map_range _ n (k + n - (n - i)) (by omega), if_pos (by omega)]
    have e : k + n - (n - i) - i = k := by omega
    rw [e, Int.emod_eq_of_lt h0 h1]

/-- Witness of `negacyclic_multiply_wrap_negates`: `q = 7`, `n = 3`,
`a = (2, 0, 6)`, `i = 1`. -/
theorem negacyclic_multiply_wrap_negates_witness :
    ∃ c, polynomial.negacyclic_multiply [2, 0, 6] (xpow 3 1) 7 = .ok c
      ∧ polynomial.negacyclic_multiply c (xpow 3 (3 - 1)) 7
          = .ok (polynomial.negate [2, 0, 6] 7) :=
  negacyclic_multiply_wrap_negates [2, 0, 6] 7 3 1 (by decide) (by norm_num) (by decide)
    (by decide) (by decide) (by decide)

/-! ## Ring identities of `add` and `scalar_multiply` -/

/-- C21. Polynomial addition is commutative: `add(a, b, q) = add(b, a, q)` for
all operands (the same `int64` sum is reduced on both sides), and for `q > 0`
and operands of equal length both calls return the same polynomial. -/
theorem add_commutative (a b : List Int) (q : Int) :
    polynomial.add a b q = polynomial.add b a q
      ∧ (0 < q → a.length = b.length →
          ∃ r, polynomial.add a b q = .ok r ∧ polynomial.add b a q = .ok r
            ∧ r.length = a.length) := by
  have h : polynomial.add a b q = polynomial.add b a q := by
    unfold polynomial.add
    by_cases hlen : a.length = b.length
    · rw [if_neg (by simpa using hlen), if_neg (by simpa using hlen.symm), hlen]
      congr 1
      apply List.map_congr_left
      intro i _
      rw [add_comm]
    · rw [if_pos hlen, if_pos (fun e => hlen e.symm)]
  refine ⟨h, ?_⟩
  intro _ hlen
  rw [← h]
  unfold polynomial.add
  rw [if_neg (by simpa using hlen)]
  exact ⟨_, rfl, rfl, by simp⟩

/-- Witness of `add_commutative`: `q = 7`, `a = (1, 6)`, `b = (3, 5)`. -/
theorem add_commutative_witness :
    ∃ r, polynomial.add [1, 6] [3, 5] 7 = .ok r ∧ polynomial.add [3, 5] [1, 6] 7 = .ok r
      ∧ r.length = 2 :=
  (add_commutative [1, 6] [3, 5] 7).2 (by decide) (by decide)

/-- C22. Polynomial addition is associative: for `0 < q < 2^62` and polynomials
`a`, `b`, `c` of the same length with coefficients in `[0, q)`,
`add(add(a, b, q), c, q) = add(a, add(b, c, q), q)`. -/
theorem add_associative (a b c : List Int) (q : Int) (hq : 0 < q) (hq2 : q < 2 ^ 62)
    (hab : a.length = b.length) (hbc : b.length = c.length)
    (ha : ∀ x ∈ a, 0 ≤ x ∧ x < q) (hb : ∀ x ∈ b, 0 ≤ x ∧ x < q)
    (hc : ∀ x ∈ c, 0 ≤ x ∧ x < q) :
    ∃ ab bc r, polynomial.add a b q = .ok ab ∧ polynomial.add b c q = .ok bc
      ∧ polynomial.add ab c q = .ok r ∧ polynomial.add a bc q = .ok r := by
  have hq3 : q ≤ 4611686018427387904 := by
    have : (2 : Int) ^ 62 = 4611686018427387904 := by norm_num
    omega
  have hA : Reduced q a.length a := ⟨rfl, ha⟩
  have hB : Reduced q a.length b := ⟨hab.symm, hb⟩
  have hC : Reduced q a.length c := ⟨by omega, hc⟩
  have hAB := reduced_map_emod (fun k => a.getD k 0 + b.getD k 0) q a.length hq
  have hBC := reduced_map_emod (fun k => b.getD k 0 + c.getD k 0) q a.length hq
  refine ⟨_, _, _, add_reduced a b q a.length hq hq3 hA hB,
    add_reduced b c q a.length hq hq3 hB hC,
    add_reduced _ c q a.length hq hq3 hAB hC, ?_⟩
  rw [add_reduced a _ q a.length hq hq3 hA hBC]
  congr 1
  apply List.map_congr_left
  intro k hk
  have hk' := List.mem_range.mp hk
  rw [getD_map_range _ a.length k hk', getD_map_range _ a.length k hk']
  beta_reduce
  rw [Int.add_emod_emod, Int.emod_add_emod, add_assoc]

/-- Witness of `add_associative`: `q = 7`, `a = (1, 6)`, `b = (3, 5)`, `c = (6, 6)`. -/
theorem add_associative_witness :
    ∃ ab bc r, polynomial.add [1, 6] [3, 5] 7 = .ok ab ∧ polynomial.add [3, 5] [6, 6] 7 = .ok bc
      ∧ polynomial.add ab [6, 6] 7 = .ok r ∧ polynomial.add [1, 6] bc 7 = .ok r :=
  add_associative [1, 6] [3, 5] [6, 6] 7 (by decide) (by norm_num) (by decide) (by decide)
    (by decide) (by decide) (by decide)

/-- C23 (amended). `scalar_multiply` distributes over `add` for `0 < q ≤ 2^62`:
for every `int64` scalar `c` and polynomials `a`, `b` of the same length with
coefficients in `[0, q)`,
`scalar_multiply(add(a, b, q), c, q)
  = add(scalar_multiply(a, c, q), scalar_multiply(b, c, q), q)`. -/
theorem scalar_multiply_distributes (a b : List Int) (c q : Int) (hq : 0 < q)
    (hq2 : q ≤ 2 ^ 62) (hc : isInt64 c) (hab : a.length = b.length)
    (ha : ∀ x ∈ a, 0 ≤ x ∧ x < q) (hb : ∀ x ∈ b, 0 ≤ x ∧ x < q) :
    ∃ ab, polynomial.add a b q = .ok ab
      ∧ polynomial.add (polynomial.scalar_multiply a c q) (polynomial.scalar_multiply b c q) q
          = .ok (polynomial.scalar_multiply ab c q) := by
  have hq3 : q ≤ 4611686018427387904 := by
    have : (2 : Int) ^ 62 = 4611686018427387904 := by norm_num
    omega
  have hq4 : q < 9223372036854775808 := by omega
  have hA : Reduced q a.length a := ⟨rfl, ha⟩
  have hB : Reduced q a.length b := ⟨hab.symm, hb⟩
  have hAB := reduced_map_emod (fun k => a.getD k 0 + b.getD k 0) q a.length hq
  obtain ⟨sa, saR⟩ := scalar_multiply_reduced a c q a.length hq hq4 (hA.isPoly hq4) hc
  obtain ⟨sb, sbR⟩ := scalar_multiply_reduced b c q a.length hq hq4 (hB.isPoly hq4) hc
  obtain ⟨sab, -⟩ := scalar_multiply_reduced _ c q a.length hq hq4 (hAB.isPoly hq4) hc
  refine ⟨_, add_reduced a b q a.length hq hq3 hA hB, ?_⟩
  rw [add_reduced _ _ q a.length hq hq3 saR sbR, sab, sa, sb]
  congr 1
  apply List.map_congr_left
  intro k hk
  have hk' := List.mem_range.mp hk
  rw [getD_map_range _ a.length k hk', getD_map_range _ a.length k hk',
    getD_map_range _ a.length k hk']
  beta_reduce
  have h1 : a.getD k 0 * c % q + b.getD k 0 * c % q ≡ a.getD k 0 * c + b.getD k 0 * c
      [ZMOD q] := (Int.mod_modEq _ q).add (Int.mod_modEq _ q)
  have h2 : (a.getD k 0 + b.getD k 0) % q * c ≡ (a.getD k 0 + b.getD k 0) * c [ZMOD q] :=
    (Int.mod_modEq _ q).mul_right c
  rw [← add_mul] at h1
  exact h1.trans h2.symm

/-- Witness of `scalar_multiply_distributes`: `q = 7`, `c = -3`, `a = (1, 6)`,
`b = (3, 5)`. -/
theorem scalar_multiply_distributes_witness :
    ∃ ab, polynomial.add [1, 6] [3, 5] 7 = .ok ab
      ∧ polynomial.add (polynomial.scalar_multiply [1, 6] (-3) 7)
          (polynomial.scalar_multiply [3, 5] (-3) 7) 7
          = .ok (polynomial.scalar_multiply ab (-3) 7) :=
  scalar_multiply_distributes [1, 6] [3, 5] (-3) 7 (by decide) (by norm_num) (by decide)
    (by decide) (by decide) (by decide)

/-- C23 as stated fails when `q > 2^62`, where the `int64` sum in `add` wraps:
`q = 2^62 + 1`, `c = 2^62`, `a = b = (1)`. The left side is
`scalar_multiply((2), c, q) = (q - 2)`; on the right the sum
`(q - 1) + (q - 1) = 2^63` wraps and the result is `(2)`. -/
theorem scalar_multiply_distributes_fails_large_q :
    (0 : Int) < 4611686018427387905 ∧ isInt64 4611686018427387904
      ∧ (∀ x ∈ ([1] : List Int), 0 ≤ x ∧ x < 4611686018427387905)
      ∧ polynomial.add [1] [1] 4611686018427387905 = .ok [2]
      ∧ polynomial.scalar_multiply [2] 4611686018427387904 4611686018427387905
          = [4611686018427387903]
      ∧ polynomial.add (polynomial.scalar_multiply [1] 4611686018427387904 4611686018427387905)
          (polynomial.scalar_multiply [1] 4611686018427387904 4611686018427387905)
          4611686018427387905 = .ok [2] := by
  refine ⟨by decide, by decide, by decide, by decide, by decide, by decide⟩

/-! ## The GLWE phase and the public key relation -/

/-- The phase of a ciphertext built by the common encryption steps under a key
built by `generate_glwe_public_key`: `b - Σ_j d_j·s_j ≡ scaled_m + e·u + e1
- Σ_j e2_j·s_j` modulo `q`, coefficient by coefficient. -/
theorem glwe_phase_ct (sk : List (List Int)) (params : Parameters)
    (uA : Nat → Nat → Int) (ue : Nat → Int) (scaled_m : List Int)
    (uu ue1 : Nat → Int) (ue2 : Nat → Nat → Int)
    (hq : 0 < params.q) (hq2 : params.q ≤ 4611686018427387904)
    (hsk : ∀ j, j < sk.length → IsPoly params.n (sk.getD j []))
    (hA : ∀ i j, i < sk.length → j < params.n → 0 ≤ uA i j ∧ uA i j < params.q)
    (hsm : Reduced params.q params.n scaled_m)
    (hu : ∀ i, i < params.n → uu i = 0 ∨ uu i = 1) :
    ∃ (pk : GLWEPublicKey) (ct : GLWECiphertext),
      generate_glwe_public_key sk params uA ue = .ok pk ∧
      glwe_encrypt_scaled scaled_m pk params uu ue1 ue2 = .ok ct ∧
      ∀ i, i < params.n →
        ct.b.getD i 0 - ∑ j ∈ Finset.range sk.length,
            ncF (fun c => (ct.d_tilde.getD j []).getD c 0)
              (fun c => (sk.getD j []).getD c 0) params.n i
          ≡ scaled_m.getD i 0 + ncF ue uu params.n i + ue1 i
            - ∑ j ∈ Finset.range sk.length,
                ncF (ue2 j) (fun c => (sk.getD j []).getD c 0) params.n i
          [ZMOD params.q] := by
  obtain ⟨pk1, hpk, hpk1red, hpk1⟩ := generate_glwe_public_key_spec sk params uA ue hq hq2 hsk hA
  set pk : GLWEPublicKey := ⟨pk1, (List.range sk.length).map
    (fun i => (List.range params.n).map (fun j => uA i j))⟩ with hpkdef
  have hpk2len : pk.pk2.length = sk.length := by simp [hpkdef]
  have hpk2get : ∀ j, j < sk.length →
      pk.pk2.getD j [] = (List.range params.n).map (fun c => uA j c) := by
    intro j hj
    simp only [hpkdef]
    rw [getD_map_range_gen _ _ _ _ hj]
  have hpk2red : ∀ j, j < pk.pk2.length → Reduced params.q params.n (pk.pk2.getD j []) := by
    intro j hj
    rw [hpk2len] at hj
    rw [hpk2get j hj]
    exact ⟨by simp, map_range_mem_bounds _ _ 0 params.q (fun c hc => hA j c hj hc)⟩
  obtain ⟨b, d, hct, -, hb, -, hd⟩ := glwe_encrypt_scaled_spec scaled_m pk params
    uu ue1 ue2 hq hq2 hpk1red hpk2red hsm hu
  refine ⟨pk, ⟨b, d⟩, hpk, hct, ?_⟩
  intro i hi
  have hbody : b.getD i 0 ≡ (∑ j ∈ Finset.range sk.length,
        ncF (fun c => ncF (fun c => uA j c) (fun c => (sk.getD j []).getD c 0) params.n c)
          uu params.n i) + ncF ue uu params.n i + scaled_m.getD i 0 + ue1 i
      [ZMOD params.q] := by
    refine (hb i hi).trans ?_
    refine Int.ModEq.add (Int.ModEq.add ?_ (Int.ModEq.refl _)) (Int.ModEq.refl _)
    refine (ncF_congr_left _ _ uu params.q params.n i (fun c hc => hpk1 c hc)).trans ?_
    rw [ncF_add_left, ncF_sum_left]
  have hsum : ∀ (k : Nat), k ≤ sk.length → (∑ j ∈ Finset.range k,
      ncF (fun c => (d.getD j []).getD c 0) (fun c => (sk.getD j []).getD c 0) params.n i)
    ≡ ∑ j ∈ Finset.range k,
      (ncF (fun c => ncF (fun c => uA j c) uu params.n c)
          (fun c => (sk.getD j []).getD c 0) params.n i
        + ncF (ue2 j) (fun c => (sk.getD j []).getD c 0) params.n i) [ZMOD params.q] := by
    intro k
    induction k with
    | zero => intro _; simp
    | succ k ih =>
      intro hk
      rw [Finset.sum_range_succ, Finset.sum_range_succ]
      refine (ih (by omega)).add ?_
      have hk' : k < pk.pk2.length := by rw [hpk2len]; omega
      refine (ncF_congr_left _ _ _ params.q params.n i
        (fun c hc => (hd k hk').2 c hc)).trans ?_
      rw [ncF_add_left]
      refine Int.ModEq.add ?_ (Int.ModEq.refl _)
      rw [ncF_ext _ (fun c => ncF (fun c => uA k c) uu params.n c) _ _ params.n i
        (fun c _ => ncF_ext _ _ _ _ params.n c
          (fun c' hc' => by rw [hpk2get k (by omega), getD_map_range _ _ _ hc'])
          (fun _ _ => rfl))
        (fun _ _ => rfl)]
  have hswap : (∑ j ∈ Finset.range sk.length,
        ncF (fun c => ncF (fun c => uA j c) (fun c => (sk.getD j []).getD c 0) params.n c)
          uu params.n i)
      = ∑ j ∈ Finset.range sk.length,
        ncF (fun c => ncF (fun c => uA j c) uu params.n c)
          (fun c => (sk.getD j []).getD c 0) params.n i := by
    apply Finset.sum_congr rfl
    intro j _
    exact ncF_swap _ _ _ params.n i hi
  refine (hbody.sub (hsum sk.length le_rfl)).trans ?_
  rw [hswap, Finset.sum_add_distrib]
  have e : ∀ X Y Z W V : Int, X + Y + Z + W - (X + V) = Z + Y + W - V := by
    intros; ring
  rw [e]

/-- C24 (amended). GLWE phase invariant for `0 < q ≤ 2^62`: for a secret key of
`int64` polynomials of length `n`, the public key built from it with mask `A` in
`[0, q)` and key noise `e`, and the ciphertext `(b, d)` built by `encrypt_glwe`
from a message of length `n` with binary `u` and noises `e1`, `e2`, every
coefficient of `b - Σ_j d_j·s_j` is congruent modulo `q` to the coefficient of
`Δ·m + e·u + e1 - Σ_j e2_j·s_j`, with `Δ = ⌊q/t⌋` and `·` the negacyclic
product. -/
theorem glwe_phase_invariant (message : List Int) (sk : List (List Int)) (params : Parameters)
    (uA : Nat → Nat → Int) (ue uu ue1 : Nat → Int) (ue2 : Nat → Nat → Int)
    (hq : 0 < params.q) (hq2 : params.q ≤ 2 ^ 62) (ht : 0 < params.t)
    (hsk : ∀ s ∈ sk, IsPoly params.n s)
    (hA : ∀ i j, i < sk.length → j < params.n → 0 ≤ uA i j ∧ uA i j < params.q)
    (hm : IsPoly params.n message)
    (hu : ∀ i, i < params.n → uu i = 0 ∨ uu i = 1) :
    ∃ (pk : GLWEPublicKey) (ct : GLWECiphertext),
      generate_glwe_public_key sk params uA ue = .ok pk ∧
      encrypt_glwe message pk params uu ue1 ue2 = .ok ct ∧
      ∀ i, i < params.n →
        ct.b.getD i 0 - ∑ j ∈ Finset.range sk.length,
            ncF (fun c => (ct.d_tilde.getD j []).getD c 0)
              (fun c => (sk.getD j []).getD c 0) params.n i
          ≡ params.q / params.t * message.getD i 0 + ncF ue uu params.n i + ue1 i
            - ∑ j ∈ Finset.range sk.length,
                ncF (ue2 j) (fun c => (sk.getD j []).getD c 0) params.n i
          [ZMOD params.q] := by
  have hq62 : params.q ≤ 4611686018427387904 := by
    have : (2 : Int) ^ 62 = 4611686018427387904 := by norm_num
    omega
  have hq63 : params.q < 9223372036854775808 := by omega
  have hΔ : params.q.tdiv params.t = params.q / params.t :=
    Int.tdiv_eq_ediv (le_of_lt hq) (le_of_lt ht)
  have hΔ0 : 0 ≤ params.q / params.t := Int.ediv_nonneg (le_of_lt hq) (le_of_lt ht)
  have hΔle : params.q / params.t ≤ params.q := Int.ediv_le_self _ (le_of_lt hq)
  have hΔ64 : isInt64 (params.q / params.t) := ⟨by omega, by omega⟩
  obtain ⟨hsmeq, hsm⟩ := scalar_multiply_reduced message (params.q / params.t) params.q
    params.n hq hq63 hm hΔ64
  obtain ⟨pk, ct, hpk, hct, hphase⟩ := glwe_phase_ct sk params uA ue
    (polynomial.scalar_multiply message (params.q / params.t) params.q) uu ue1 ue2 hq hq62
    (fun j hj => hsk _ (getD_mem_or_nil sk j hj)) hA hsm hu
  refine ⟨pk, ct, hpk, ?_, ?_⟩
  · unfold encrypt_glwe
    rw [if_neg (by simpa using hm.1), hΔ]
    exact hct
  · intro i hi
    refine (hphase i hi).trans ?_
    refine Int.ModEq.sub (Int.ModEq.add (Int.ModEq.add ?_ (Int.ModEq.refl _))
      (Int.ModEq.refl _)) (Int.ModEq.refl _)
    rw [hsmeq, getD_map_range _ _ _ hi, mul_comm]
    exact Int.mod_modEq _ _

/-- Witness of `glwe_phase_invariant`: `n = 2`, `k = 2`, `q = 4096`, `t = 4`. -/
theorem glwe_phase_invariant_witness :
    ∃ (pk : GLWEPublicKey) (ct : GLWECiphertext),
      generate_glwe_public_key [[1, 0], [0, 1]] ⟨2, 4096, 4, 1⟩
        (fun i j => 100 * (i : Int) + 7 * (j : Int) + 3) (fun _ => 1) = .ok pk ∧
      encrypt_glwe [3, 1] pk ⟨2, 4096, 4, 1⟩ (fun i => (i : Int)) (fun _ => -1)
        (fun _ _ => 1) = .ok ct ∧
      ∀ i, i < 2 →
        ct.b.getD i 0 - ∑ j ∈ Finset.range 2,
            ncF (fun c => (ct.d_tilde.getD j []).getD c 0)
              (fun c => (([[1, 0], [0, 1]] : List (List Int)).getD j []).getD c 0) 2 i
          ≡ 4096 / 4 * ([3, 1] : List Int).getD i 0 + ncF (fun _ => 1) (fun i => (i : Int)) 2 i
              + (-1)
            - ∑ j ∈ Finset.range 2,
                ncF (fun _ => 1)
                  (fun c => (([[1, 0], [0, 1]] : List (List Int)).getD j []).getD c 0) 2 i
          [ZMOD 4096] :=
  glwe_phase_invariant [3, 1] [[1, 0], [0, 1]] ⟨2, 4096, 4, 1⟩
    (fun i j => 100 * (i : Int) + 7 * (j : Int) + 3) (fun _ => 1)
    (fun i => (i : Int)) (fun _ => -1) (fun _ _ => 1)
    (by decide) (by norm_num) (by decide) (by decide)
    (by intro i j hi hj; simp at hi hj; dsimp only; constructor <;> omega)
    (by decide)
    (by intro i hi; simp at hi; dsimp only; omega)

/-- C24 as stated fails when `q > 2^62`, where the `int64` sum in `add` wraps:
`n = k = 1`, `q = 5 * 2^60`, `t = 4` (`Δ = 5 * 2^58`), key `[[1]]`, `pk2 = [[q - 1]]`,
message `[3]`, `u = [1]`, all noises `0`. The body is `b = 3170534137668829183`
and `b - d·s` is not congruent to `Δ·3` modulo `q`. -/
theorem glwe_phase_invariant_fails_large_q :
    generate_glwe_public_key [[1]] ⟨1, 5764607523034234880, 4, 0⟩
        (fun _ _ => 5764607523034234879) (fun _ => 0)
      = .ok ⟨[5764607523034234879], [[5764607523034234879]]⟩ ∧
    encrypt_glwe [3] ⟨[5764607523034234879], [[5764607523034234879]]⟩
        ⟨1, 5764607523034234880, 4, 0⟩ (fun _ => 1) (fun _ => 0) (fun _ _ => 0)
      = .ok ⟨[3170534137668829183], [[5764607523034234879]]⟩ ∧
    ¬ (([3170534137668829183] : List Int).getD 0 0
        - ncF (fun c => ([5764607523034234879] : List Int).getD c 0)
            (fun c => ([1] : List Int).getD c 0) 1 0
      ≡ 5764607523034234880 / 4 * ([3] : List Int).getD 0 0
          + ncF (fun _ => 0) (fun _ => 1) 1 0 + 0
          - ncF (fun _ => 0) (fun c => ([1] : List Int).getD c 0) 1 0
        [ZMOD 5764607523034234880]) := by
  refine ⟨by decide, by decide, by decide⟩

/-- C25 (amended). GLWE public key relation for `0 < q ≤ 2^62`: for a secret key
of `k` `int64` polynomials of length `n`, a sampled `pk2` with coefficients in
`[0, q)` and a sampled noise `e`, `generate_glwe_public_key` returns `(pk1, pk2)`
where `pk1` has length `n`, every coefficient is
`(Σ_j negacyclic_multiply(pk2_j, s_j)[i] + e[i]) mod q`, and lies in `[0, q)`. -/
theorem glwe_public_key_relation (sk : List (List Int)) (params : Parameters)
    (uA : Nat → Nat → Int) (ue : Nat → Int)
    (hq : 0 < params.q) (hq2 : params.q ≤ 2 ^ 62)
    (hsk : ∀ s ∈ sk, IsPoly params.n s)
    (hA : ∀ i j, i < sk.length → j < params.n → 0 ≤ uA i j ∧ uA i j < params.q) :
    ∃ (pk1 : List Int) (P : Nat → List Int),
      generate_glwe_public_key sk params uA ue
        = .ok ⟨pk1, (List.range sk.length).map
            (fun i => (List.range params.n).map (fun j => uA i j))⟩ ∧
      (∀ j, j < sk.length →
        polynomial.negacyclic_multiply ((List.range params.n).map (fun c => uA j c))
          (sk.getD j []) params.q = .ok (P j)) ∧
      pk1.length = params.n ∧
      ∀ i, i < params.n →
        pk1.getD i 0 = (∑ j ∈ Finset.range sk.length, (P j).getD i 0 + ue i) % params.q
          ∧ 0 ≤ pk1.getD i 0 ∧ pk1.getD i 0 < params.q := by
  have hq62 : params.q ≤ 4611686018427387904 := by
    have : (2 : Int) ^ 62 = 4611686018427387904 := by norm_num
    omega
  have hq63 : params.q < 9223372036854775808 := by omega
  have hskP : ∀ j, j < sk.length → IsPoly params.n (sk.getD j []) :=
    fun j hj => hsk _ (getD_mem_or_nil sk j hj)
  obtain ⟨pk1, hpk, hred, hcong⟩ :=
    generate_glwe_public_key_spec sk params uA ue hq hq62 hskP hA
  refine ⟨pk1, fun j => (List.range params.n).map
    (fun k => negacyclicCoeff ((List.range params.n).map (fun c => uA j c)) (sk.getD j [])
      params.n k % params.q), hpk, ?_, hred.1, ?_⟩
  · intro j hj
    exact nm_poly _ _ params.q params.n hq hq63
      (isPoly_map_range _ _ params.q hq63 (fun c hc => hA j c hj hc)) (hskP j hj)
  · intro i hi
    obtain ⟨b0, b1⟩ := getD_range_bounds pk1 params.q hq hred.2 i
    refine ⟨?_, b0, b1⟩
    have hsum : (∑ j ∈ Finset.range sk.length,
          ((List.range params.n).map
            (fun k => negacyclicCoeff ((List.range params.n).map (fun c => uA j c))
              (sk.getD j []) params.n k % params.q)).getD i 0)
        ≡ ∑ j ∈ Finset.range sk.length,
          ncF (fun c => uA j c) (fun c => (sk.getD j []).getD c 0) params.n i
        [ZMOD params.q] := by
      have hgen : ∀ (k : Nat), (∑ j ∈ Finset.range k,
          ((List.range params.n).map
            (fun k => negacyclicCoeff ((List.range params.n).map (fun c => uA j c))
              (sk.getD j []) params.n k % params.q)).getD i 0)
        ≡ ∑ j ∈ Finset.range k,
          ncF (fun c => uA j c) (fun c => (sk.getD j []).getD c 0) params.n i
        [ZMOD params.q] := by
        intro k
        induction k with
        | zero => simp
        | succ k ih =>
          rw [Finset.sum_range_succ, Finset.sum_range_succ]
          refine ih.add ?_
          rw [getD_map_range _ _ _ hi, negacyclicCoeff_eq_ncF]
          refine (Int.mod_modEq _ _).trans ?_
          rw [ncF_ext _ (fun c => uA k c) _ _ params.n i
            (fun c hc => getD_map_range _ _ _ hc) (fun _ _ => rfl)]
      exact hgen sk.length
    have h1 : pk1.getD i 0 ≡ ∑ j ∈ Finset.range sk.length,
          ((List.range params.n).map
            (fun k => negacyclicCoeff ((List.range params.n).map (fun c => uA j c))
              (sk.getD j []) params.n k % params.q)).getD i 0 + ue i [ZMOD params.q] :=
      (hcong i hi).trans (hsum.symm.add (Int.ModEq.refl _))
    have h2 : pk1.getD i 0 % params.q = pk1.getD i 0 := Int.emod_eq_of_lt b0 b1
    rw [← h2]
    exact h1

/-- Witness of `glwe_public_key_relation`: `n = 2`, `k = 2`, `q = 4096`. -/
theorem glwe_public_key_relation_witness :
    ∃ (pk1 : List Int) (P : Nat → List Int),
      generate_glwe_public_key [[1, 0], [0, 1]] ⟨2, 4096, 4, 1⟩
          (fun i j => 100 * (i : Int) + 7 * (j : Int) + 3) (fun _ => -1)
        = .ok ⟨pk1, (List.range 2).map
            (fun i => (List.range 2).map (fun j => 100 * (i : Int) + 7 * (j : Int) + 3))⟩ ∧
      (∀ j : Nat, j < 2 →
        polynomial.negacyclic_multiply
          ((List.range 2).map (fun c => 100 * (j : Int) + 7 * (c : Int) + 3))
          (([[1, 0], [0, 1]] : List (List Int)).getD j []) 4096 = .ok (P j)) ∧
      pk1.length = 2 ∧
      ∀ i, i < 2 →
        pk1.getD i 0 = (∑ j ∈ Finset.range 2, (P j).getD i 0 + (-1)) % 4096
          ∧ 0 ≤ pk1.getD i 0 ∧ pk1.getD i 0 < 4096 :=
  glwe_public_key_relation [[1, 0], [0, 1]] ⟨2, 4096, 4, 1⟩
    (fun i j => 100 * (i : Int) + 7 * (j : Int) + 3) (fun _ => -1)
    (by decide) (by norm_num) (by decide)
    (by intro i j hi hj; simp at hi hj; dsimp only; constructor <;> omega)

/-- C25 as stated fails when `q > 2^62`, where the `int64` sum in `add` wraps:
`n = k = 1`, `q = 5 * 2^60`, `B = 1`, key `[[1]]`, `pk2 = [[q - 1]]`, noise draw
`-1` (stored as `q - 1`). The product is `(q - 1)`, the sum `(q - 1) + (q - 1)`
exceeds `2^63`, and `pk1 = (4 * 2^60 - 2)` while `((q - 1) + (-1)) mod q = q - 2`. -/
theorem glwe_public_key_relation_fails_large_q :
    polynomial.negacyclic_multiply [5764607523034234879] [1] 5764607523034234880
      = .ok [5764607523034234879] ∧
    generate_glwe_public_key [[1]] ⟨1, 5764607523034234880, 4, 1⟩
        (fun _ _ => 5764607523034234879) (fun _ => -1)
      = .ok ⟨[4611686018427387902], [[5764607523034234879]]⟩ ∧
    (5764607523034234879 + (-1) : Int) % 5764607523034234880 = 5764607523034234878 ∧
    (4611686018427387902 : Int) ≠ 5764607523034234878 := by
  refine ⟨by decide, by decide, by decide, by decide⟩

/-! ## The scaling factors of GLev -/

theorem decrypt_pow_fold (β : Int) (m : Nat) :
    (List.range m).foldl (fun bp _ => wrap64 (bp * β)) 1 = beta_pow β m := by
  induction m with
  | zero => rfl
  | succ m ih =>
    rw [List.range_succ, List.foldl_append, ih]
    simp [beta_pow]

/-- The loop of `encrypt_glev_deltas` over `m` iterations: the factors of the
levels `0 .. m-1` in order, unless a division has no result, and the power of
level `m` in the state. -/
theorem encrypt_glev_deltas_fold (q β : Int) (m : Nat) :
    (List.range m).foldlM
        (fun (st : List Int × Int) _ =>
          match glev_delta q β st.2 with
          | .error err => Except.error err
          | .ok delta_j => .ok (st.1 ++ [delta_j], wrap64 (st.2 * β)))
        (([], 1) : List Int × Int)
      = match (List.range m).mapM (fun j => glev_delta q β (beta_pow β j)) with
        | .error err => .error err
        | .ok ds => .ok (ds, beta_pow β m) := by
  induction m with
  | zero => rfl
  | succ m ih =>
    rw [List.range_succ, List.foldlM_append, ih, ← List.range_succ, mapM_range_succ]
    cases (List.range m).mapM (fun j => glev_delta q β (beta_pow β j)) with
    | error e => rfl
    | ok ds =>
      cases h2 : glev_delta q β (beta_pow β m) <;>
        simp [List.foldlM, bind, Except.bind, pure, Except.pure, h2, beta_pow]

/-- The scaling factor of the decryption loop. -/
theorem decrypt_glev_delta_eq (q β level_idx : Int) :
    decrypt_glev_delta q β level_idx = glev_delta q β (beta_pow β level_idx.toNat) := by
  unfold decrypt_glev_delta
  rw [decrypt_pow_fold]

/-- The factors of the encryption loop are those of the levels `0 .. l`, each
computed from the power kept in the loop state. -/
theorem encrypt_glev_deltas_eq (q β l : Int) (h0 : 0 ≤ l + 1) (h1 : l + 1 < 2147483648) :
    encrypt_glev_deltas q β l
      = (List.range (l + 1).toNat).mapM (fun j => glev_delta q β (beta_pow β j)) := by
  unfold encrypt_glev_deltas
  rw [if_neg (by omega)]
  erw [encrypt_glev_deltas_fold]
  cases (List.range (l + 1).toNat).mapM (fun j => glev_delta q β (beta_pow β j)) <;> rfl

/-- Outside the range of the level count the encryption loop has no result. -/
theorem encrypt_glev_deltas_range (q β l : Int) (ds : List Int)
    (h : encrypt_glev_deltas q β l = .ok ds) : 0 ≤ l + 1 ∧ l + 1 < 2147483648 := by
  by_contra hc
  unfold encrypt_glev_deltas at h
  rw [if_pos (by omega)] at h
  cases h

/-- The `j`-th scaling factor of an encryption loop that ends, from the power kept
in the loop state. -/
theorem encrypt_glev_deltas_getD (q β l : Int) (ds : List Int) (j : Nat) (hj : (j : Int) ≤ l)
    (h : encrypt_glev_deltas q β l = .ok ds) :
    glev_delta q β (beta_pow β j) = .ok (ds.getD j 0) := by
  obtain ⟨h0, h1⟩ := encrypt_glev_deltas_range q β l ds h
  rw [encrypt_glev_deltas_eq q β l h0 h1] at h
  exact (mapM_range_inv _ _ ds h).2 j (by omega)

theorem mapM_congr_except {α β : Type} (f g : α → Except Error β) (xs : List α)
    (h : ∀ x ∈ xs, f x = g x) : xs.mapM f = xs.mapM g := by
  induction xs with
  | nil => rfl
  | cons x xs ih =>
    rw [List.mapM_cons, List.mapM_cons, h x (List.mem_cons_self _ _),
      ih (fun y hy => h y (List.mem_cons_of_mem _ hy))]

/-- A `mapM` whose function fails wherever the function of a failing `mapM`
fails, fails as well. -/
theorem mapM_error_of_error {α β γ : Type} (f : α → Except Error β) (g : α → Except Error γ)
    (hfg : ∀ x e, f x = .error e → ∃ e2, g x = .error e2) :
    ∀ (xs : List α) (e : Error), xs.mapM f = .error e → ∃ e2, xs.mapM g = .error e2 := by
  intro xs
  induction xs with
  | nil =>
    intro e h
    rw [List.mapM_nil] at h
    cases h
  | cons x xs ih =>
    intro e h
    rw [List.mapM_cons] at h
    rw [List.mapM_cons]
    cases hf : f x with
    | error e1 =>
      obtain ⟨e2, hg⟩ := hfg x e1 hf
      rw [hg]
      exact ⟨e2, rfl⟩
    | ok y =>
      rw [hf] at h
      cases hg : g x with
      | error e2 => exact ⟨e2, rfl⟩
      | ok z =>
        cases hxs : xs.mapM f with
        | error e3 =>
          obtain ⟨e4, h4⟩ := ih e3 hxs
          rw [h4]
          exact ⟨e4, rfl⟩
        | ok ys =>
          rw [hxs] at h
          cases h

/-- `encrypt_glev` encrypts level `j` under the `j`-th factor of its loop: when
the loop of the factors ends with the list `ds`, level `j` is encrypted under
`ds[j]`; when that loop has no result, neither has `encrypt_glev`. -/
theorem encrypt_glev_uses_deltas (message : List Int) (pk : GLWEPublicKey)
    (params : Parameters) (l β : Int) (uu ue1 : Nat → Nat → Int)
    (ue2 : Nat → Nat → Nat → Int) :
    (∀ ds, encrypt_glev_deltas params.q β l = .ok ds →
      encrypt_glev message pk params l β uu ue1 ue2
        = match (List.range (l + 1).toNat).mapM
            (fun j => glwe_encrypt_scaled
              (polynomial.scalar_multiply message (ds.getD j 0) params.q)
              pk params (uu j) (ue1 j) (ue2 j)) with
          | .error err => .error err
          | .ok levels => .ok ⟨levels⟩)
    ∧ (∀ e, encrypt_glev_deltas params.q β l = .error e →
        ∃ e2, encrypt_glev message pk params l β uu ue1 ue2 = .error e2) := by
  constructor
  · intro ds h
    obtain ⟨h0, h1⟩ := encrypt_glev_deltas_range params.q β l ds h
    have key := mapM_congr_except
      (fun j =>
        match glev_delta params.q β (beta_pow β j) with
        | .error err => Except.error err
        | .ok delta_j =>
          glwe_encrypt_scaled (polynomial.scalar_multiply message delta_j params.q)
            pk params (uu j) (ue1 j) (ue2 j))
      (fun j => glwe_encrypt_scaled
        (polynomial.scalar_multiply message (ds.getD j 0) params.q)
        pk params (uu j) (ue1 j) (ue2 j))
      (List.range (l + 1).toNat)
      (fun j hj => by
        have hj2 := List.mem_range.mp hj
        beta_reduce
        rw [encrypt_glev_deltas_getD params.q β l ds j (by omega) h])
    rw [encrypt_glev_eq, if_neg (by omega)]
    erw [key]
  · intro e h
    by_cases hr : l + 1 < 0 ∨ 2147483648 ≤ l + 1
    · refine ⟨.NoResult, ?_⟩
      rw [encrypt_glev_eq, if_pos hr]
    · rw [encrypt_glev_deltas_eq params.q β l (by omega) (by omega)] at h
      obtain ⟨e2, h2⟩ := mapM_error_of_error
        (fun j => glev_delta params.q β (beta_pow β j))
        (fun j =>
          match glev_delta params.q β (beta_pow β j) with
          | .error err => Except.error err
          | .ok delta_j =>
            glwe_encrypt_scaled (polynomial.scalar_multiply message delta_j params.q)
              pk params (uu j) (ue1 j) (ue2 j))
        (fun j e1 hj => by
          refine ⟨e1, ?_⟩
          have hj2 : glev_delta params.q β (beta_pow β j) = .error e1 := hj
          beta_reduce
          rw [hj2])
        _ e h
      refine ⟨e2, ?_⟩
      rw [encrypt_glev_eq, if_neg hr]
      erw [h2]

/-- `decrypt_glev_level` decrypts under the factor of its loop, and has no result
when the division of that loop has none. -/
theorem decrypt_glev_level_uses_delta (ct : GLevCiphertext) (sk : List (List Int))
    (params : Parameters) (level_idx β : Int) :
    decrypt_glev_level ct sk params level_idx β
      = if level_idx ≥ (ct.levels.length : Int) then .error .LevelOutOfRange
        else
          match decrypt_glev_delta params.q β level_idx with
          | .error err => .error err
          | .ok delta_i => glwe_decrypt_scaled
            (ct.levels.getD (level_idx % 18446744073709551616).toNat ⟨[], []⟩) sk params
            delta_i := by
  unfold decrypt_glev_level
  rw [decrypt_glev_delta_eq]

/-- C26. The scaling factor of `encrypt_glev` in iteration `j` (from the power
accumulated in the loop) and the one `decrypt_glev_level` recomputes for
`level_idx = j` are equal, for every `q`, `β`, `l` and every `0 ≤ j ≤ l`, with no
condition on the `int64` power (it wraps the same way in both loops): the loop of
`encrypt_glev` over the levels `0 .. l` computes, level by level, the factors that
`decrypt_glev_level` recomputes (and has a result exactly when every one of these
has), and when it ends with the factors `ds`, `decrypt_glev_level` uses `ds[j]`
for `level_idx = j`. -/
theorem glev_delta_agree (q β l : Int) (j : Nat) (hj : (j : Int) ≤ l) :
    (l + 1 < 2147483648 →
        encrypt_glev_deltas q β l
          = (List.range (l + 1).toNat).mapM
              (fun (i : Nat) => decrypt_glev_delta q β (i : Int)))
      ∧ ∀ ds, encrypt_glev_deltas q β l = .ok ds →
          decrypt_glev_delta q β (j : Int) = .ok (ds.getD j 0) := by
  constructor
  · intro hl
    rw [encrypt_glev_deltas_eq q β l (by omega) hl]
    exact mapM_congr_except _ _ _ (fun i _ => by
      rw [decrypt_glev_delta_eq, Int.toNat_ofNat])
  · intro ds h
    rw [decrypt_glev_delta_eq, Int.toNat_ofNat]
    exact encrypt_glev_deltas_getD q β l ds j hj h

/-- Witness of `glev_delta_agree`: `q = 2^40`, `β = 2^32 + 1`, `l = 3`, `j = 1`,
where `β·β` wraps to `2^33 + 1` (both factors are `127`). -/
theorem glev_delta_agree_witness :
    ((3 : Int) + 1 < 2147483648 →
        encrypt_glev_deltas 1099511627776 4294967297 3
          = (List.range ((3 : Int) + 1).toNat).mapM
              (fun (i : Nat) => decrypt_glev_delta 1099511627776 4294967297 (i : Int)))
      ∧ ∀ ds, encrypt_glev_deltas 1099511627776 4294967297 3 = .ok ds →
          decrypt_glev_delta 1099511627776 4294967297 ((1 : Nat) : Int)
            = .ok (ds.getD 1 0) :=
  glev_delta_agree 1099511627776 4294967297 3 1 (by decide)

/-- C27 (amended). For `q > 0`, `β ≥ 2` and a level `0 ≤ j ≤ l` with
`β^(j+1) < 2^63`, the scaling factor of level `j` in `encrypt_glev` and in
`decrypt_glev_level` is `⌊q / β^(j+1)⌋` if that is non-zero and `1` otherwise; it
is at least `1` and the divisor `β·β^j` of the code is `β^(j+1) > 0`. The loop of
`encrypt_glev` through level `j` ends and its factor `j` is that value, and so is
factor `j` of every loop over `0 .. l` that ends. -/
theorem glev_delta_formula (q β l : Int) (j : Nat) (hq : 0 < q) (hβ : 2 ≤ β)
    (hj : (j : Int) ≤ l) (hpow : β ^ (j + 1) < 2 ^ 63) :
    (∃ ds, encrypt_glev_deltas q β (j : Int) = .ok ds
        ∧ ds.getD j 0 = (if q / β ^ (j + 1) = 0 then 1 else q / β ^ (j + 1)))
      ∧ (∀ ds, encrypt_glev_deltas q β l = .ok ds →
          ds.getD j 0 = (if q / β ^ (j + 1) = 0 then 1 else q / β ^ (j + 1)))
      ∧ decrypt_glev_delta q β (j : Int)
        = .ok (if q / β ^ (j + 1) = 0 then 1 else q / β ^ (j + 1))
      ∧ 1 ≤ (if q / β ^ (j + 1) = 0 then 1 else q / β ^ (j + 1))
      ∧ wrap64 (β * beta_pow β j) = β ^ (j + 1) ∧ 0 < wrap64 (β * beta_pow β j) := by
  have h63 : (2 : Int) ^ 63 = 9223372036854775808 := by norm_num
  have hpow2 : β ^ (j + 1) < 9223372036854775808 := by omega
  have hβ0 : 0 < β := by omega
  have hspec : ∀ i, i ≤ j → glev_delta q β (beta_pow β i)
      = .ok (if q / β ^ (i + 1) = 0 then 1 else q / β ^ (i + 1)) := by
    intro i hi
    exact (glev_delta_spec q β i hq hβ0
      (lt_of_le_of_lt (int_pow_le_pow β hβ0 (i + 1) (j + 1) (by omega)) hpow2)).1
  obtain ⟨h1, h2, -⟩ := glev_delta_spec q β j hq hβ0 hpow2
  have hpj : β ^ j < 9223372036854775808 :=
    lt_of_le_of_lt (int_pow_le_pow β hβ0 j (j + 1) (by omega)) hpow2
  have hpos : 0 < β ^ (j + 1) := pow_pos hβ0 _
  have hdiv : wrap64 (β * beta_pow β j) = β ^ (j + 1) := by
    rw [beta_pow_eq β hβ0 j hpj, ← pow_succ']
    exact wrap64_eq _ (by omega) hpow2
  -- the level count `j + 1` is below `2^31`: `2^(j+1) ≤ β^(j+1) < 2^63`
  have hj63 : j + 1 < 63 := by
    by_contra hc
    have e1 : (2 : Int) ^ 63 ≤ 2 ^ (j + 1) :=
      pow_le_pow_right₀ (by norm_num) (by omega)
    have e2 : (2 : Int) ^ (j + 1) ≤ β ^ (j + 1) :=
      pow_le_pow_left₀ (by norm_num) hβ _
    omega
  have hval : ∀ l2 ds, (j : Int) ≤ l2 → encrypt_glev_deltas q β l2 = .ok ds →
      ds.getD j 0 = (if q / β ^ (j + 1) = 0 then 1 else q / β ^ (j + 1)) := by
    intro l2 ds hj2 h
    have := encrypt_glev_deltas_getD q β l2 ds j hj2 h
    rw [h1] at this
    exact (Except.ok.inj this).symm
  refine ⟨?_, fun ds h => hval l ds hj h, ?_, h2, hdiv, by rw [hdiv]; exact hpos⟩
  · have hex := mapM_ok_of_exists (List.range (j + 1))
      (fun i => glev_delta q β (beta_pow β i))
      (fun i hi => ⟨_, hspec i (by have := List.mem_range.mp hi; omega)⟩)
    have heq := encrypt_glev_deltas_eq q β (j : Int) (by omega) (by omega)
    have e : ((j : Int) + 1).toNat = j + 1 := by omega
    rw [e] at heq
    rw [hex] at heq
    exact ⟨_, heq, hval (j : Int) _ le_rfl heq⟩
  · rw [decrypt_glev_delta_eq, Int.toNat_ofNat]
    exact h1

/-- Witness of `glev_delta_formula`: `q = 2^32`, `β = 16`, `l = 3`, `j = 2`. -/
theorem glev_delta_formula_witness :
    (∃ ds, encrypt_glev_deltas 4294967296 16 ((2 : Nat) : Int) = .ok ds
        ∧ ds.getD 2 0
          = (if (4294967296 : Int) / 16 ^ (2 + 1) = 0 then 1 else 4294967296 / 16 ^ (2 + 1)))
      ∧ (∀ ds, encrypt_glev_deltas 4294967296 16 3 = .ok ds →
          ds.getD 2 0
            = (if (4294967296 : Int) / 16 ^ (2 + 1) = 0 then 1 else 4294967296 / 16 ^ (2 + 1)))
      ∧ decrypt_glev_delta 4294967296 16 ((2 : Nat) : Int)
        = .ok (if (4294967296 : Int) / 16 ^ (2 + 1) = 0 then 1 else 4294967296 / 16 ^ (2 + 1))
      ∧ (1 : Int) ≤ (if (4294967296 : Int) / 16 ^ (2 + 1) = 0 then 1
          else 4294967296 / 16 ^ (2 + 1))
      ∧ wrap64 (16 * beta_pow 16 2) = 16 ^ (2 + 1) ∧ 0 < wrap64 (16 * beta_pow 16 2) :=
  glev_delta_formula 4294967296 16 3 2 (by decide) (by decide) (by decide) (by norm_num)

/-- C27 as stated fails when the `int64` power wraps. For `q = 2^40`,
`β = 2^32 + 1`, level `1`: `β·β` wraps to `2^33 + 1` and both functions use the
factor `127`, while `⌊q / β^2⌋ = 0` asks for `1`. For `β = 2^32`, level `1`, the
divisor `β·β` wraps to `0` and neither function has a result: the division by
zero does occur. -/
theorem glev_delta_formula_fails_on_wrap :
    (0 : Int) < 1099511627776 ∧ (2 : Int) ≤ 4294967297
      ∧ encrypt_glev_deltas 1099511627776 4294967297 1 = .ok [255, 127]
      ∧ decrypt_glev_delta 1099511627776 4294967297 1 = .ok 127
      ∧ (1099511627776 : Int) / (4294967297 * 4294967297) = 0
      ∧ wrap64 (4294967296 * beta_pow 4294967296 1) = 0
      ∧ encrypt_glev_deltas 1099511627776 4294967296 1 = .error .NoResult
      ∧ decrypt_glev_delta 1099511627776 4294967296 1 = .error .NoResult := by
  refine ⟨by decide, by decide, by decide, by decide, by decide, by decide, by decide,
    by decide⟩
/-! ## Shapes: lengths and coefficient ranges of the results -/

theorem add_shape (a b : List Int) (q : Int) (n : Nat) (hq : 0 < q)
    (hq2 : q < 9223372036854775808) (ha : a.length = n) (hb : b.length = n) :
    ∃ r, polynomial.add a b q = .ok r ∧ Reduced q n r := by
  unfold polynomial.add
  rw [if_neg (by simp [ha, hb]), ha]
  exact ⟨_, rfl, reduced_map_modq _ q n hq hq2⟩

theorem negacyclic_multiply_shape (a b : List Int) (q : Int) (n : Nat) (hq : 0 < q)
    (hq2 : q < 9223372036854775808) (ha : a.length = n) (hb : b.length = n) :
    ∃ r, polynomial.negacyclic_multiply a b q = .ok r ∧ Reduced q n r := by
  unfold polynomial.negacyclic_multiply
  rw [if_neg (by simp [ha, hb])]
  simp only [ha]
  exact ⟨_, rfl, reduced_map_modq _ q n hq hq2⟩

theorem scalar_multiply_length (a : List Int) (c q : Int) :
    (polynomial.scalar_multiply a c q).length = a.length := by
  simp [polynomial.scalar_multiply]

theorem negate_length (a : List Int) (q : Int) : (polynomial.negate a q).length = a.length := by
  simp [polynomial.negate]

/-- A `mapM` over `0 .. k-1` whose every call succeeds returns the list of the
results, in order. -/
theorem mapM_range_ok {β : Type} [Inhabited β] (k : Nat) (f : Nat → Except Error β)
    (h : ∀ i, i < k → ∃ y, f i = .ok y) :
    ∃ ys, (List.range k).mapM f = .ok ys ∧ ys.length = k
      ∧ ∀ i, i < k → f i = .ok (ys.getD i default) := by
  refine ⟨_, mapM_ok_of_exists (List.range k) f
    (fun x hx => h x (List.mem_range.mp hx)), by simp, ?_⟩
  intro i hi
  rw [getD_map_range_gen _ _ _ _ hi]
  obtain ⟨y, hy⟩ := h i hi
  rw [hy]

theorem mem_getD_index {β : Type} (ys : List β) (d y : β) (hy : y ∈ ys) :
    ∃ i, i < ys.length ∧ ys.getD i d = y := by
  obtain ⟨i, hi, e⟩ := List.mem_iff_getElem.mp hy
  exact ⟨i, hi, by rw [List.getD_eq_getElem _ _ hi, e]⟩

/-- The shape of the ciphertext returned by the common encryption steps. -/
theorem glwe_encrypt_scaled_shape (scaled_m : List Int) (pk : GLWEPublicKey)
    (params : Parameters) (uu ue1 : Nat → Int) (ue2 : Nat → Nat → Int)
    (hq : 0 < params.q) (hq2 : params.q < 9223372036854775808)
    (hpk1 : pk.pk1.length = params.n)
    (hpk2 : ∀ p ∈ pk.pk2, p.length = params.n)
    (hsm : scaled_m.length = params.n) :
    ∃ ct, glwe_encrypt_scaled scaled_m pk params uu ue1 ue2 = .ok ct ∧
      Reduced params.q params.n ct.b ∧ ct.d_tilde.length = pk.pk2.length ∧
      ∀ d ∈ ct.d_tilde, Reduced params.q params.n d := by
  have hu : ((List.range params.n).map uu).length = params.n := by simp
  obtain ⟨r1, h1, hr1⟩ := negacyclic_multiply_shape pk.pk1 _ params.q params.n hq hq2 hpk1 hu
  obtain ⟨r2, h2, hr2⟩ := add_shape r1 scaled_m params.q params.n hq hq2 hr1.1 hsm
  obtain ⟨r3, h3, hr3⟩ := add_shape r2
    ((List.range params.n).map (fun i => modq (ue1 i) params.q)) params.q params.n hq hq2
    hr2.1 (by simp)
  have hrow : ∀ i, i < pk.pk2.length → ∃ y,
      (match polynomial.negacyclic_multiply (pk.pk2.getD i [])
          ((List.range params.n).map uu) params.q with
        | .error err => Except.error err
        | .ok tmp => polynomial.add tmp
            (((List.range pk.pk2.length).map
              (fun i => (List.range params.n).map (fun j => modq (ue2 i j) params.q))).getD i [])
            params.q) = .ok y ∧ Reduced params.q params.n y := by
    intro i hi
    have hp : (pk.pk2.getD i []).length = params.n := hpk2 _ (getD_mem_or_nil pk.pk2 i hi)
    obtain ⟨t1, ht1, htr⟩ := negacyclic_multiply_shape (pk.pk2.getD i []) _ params.q params.n
      hq hq2 hp hu
    rw [ht1, getD_map_range_gen _ _ _ _ hi]
    exact add_shape t1 _ params.q params.n hq hq2 htr.1 (by simp)
  obtain ⟨ds, hds, hdlen, hdget⟩ := mapM_range_ok pk.pk2.length _
    (fun i hi => (hrow i hi).imp (fun _ h => h.1))
  refine ⟨⟨r3, ds⟩, ?_, hr3, hdlen, ?_⟩
  · unfold glwe_encrypt_scaled
    simp only
    rw [h1]
    simp only
    rw [h2]
    simp only
    rw [h3]
    simp only
    erw [hds]
  · intro d hd
    obtain ⟨i, hi, rfl⟩ := mem_getD_index ds default d hd
    rw [hdlen] at hi
    obtain ⟨y, hy, hyr⟩ := hrow i hi
    have := hdget i hi
    rw [hy] at this
    cases this
    exact hyr

/-- A call of `encrypt_glev` that returns a ciphertext: the level count `l + 1`
is in the range of `int`, there are `l + 1` levels, every division of the loop
had a result `Δ_j`, and level `j` is the outcome of the encryption steps on the
message scaled by `Δ_j`. -/
theorem encrypt_glev_inv (message : List Int) (pk : GLWEPublicKey) (params : Parameters)
    (l β : Int) (uu ue1 : Nat → Nat → Int) (ue2 : Nat → Nat → Nat → Int)
    (levels : List GLWECiphertext)
    (h : encrypt_glev message pk params l β uu ue1 ue2 = .ok ⟨levels⟩) :
    0 ≤ l + 1 ∧ l + 1 < 2147483648 ∧ levels.length = (l + 1).toNat ∧
      ∀ j, j < (l + 1).toNat → ∃ δ, glev_delta params.q β (beta_pow β j) = .ok δ ∧
        glwe_encrypt_scaled (polynomial.scalar_multiply message δ params.q)
          pk params (uu j) (ue1 j) (ue2 j) = .ok (levels.getD j default) := by
  rw [encrypt_glev_eq] at h
  by_cases hr : l + 1 < 0 ∨ 2147483648 ≤ l + 1
  · rw [if_pos hr] at h
    cases h
  · rw [if_neg hr] at h
    cases hmap : (List.range (l + 1).toNat).mapM
        (fun j =>
          match glev_delta params.q β (beta_pow β j) with
          | .error err => Except.error err
          | .ok delta_j =>
            glwe_encrypt_scaled (polynomial.scalar_multiply message delta_j params.q)
              pk params (uu j) (ue1 j) (ue2 j)) with
    | error e =>
      have h2 := h
      erw [hmap] at h2
      cases h2
    | ok ys =>
      have h2 := h
      erw [hmap] at h2
      have hys : ys = levels := by
        have h3 : (Except.ok ⟨ys⟩ : Except Error GLevCiphertext) = .ok ⟨levels⟩ := h2
        cases h3
        rfl
      subst hys
      obtain ⟨hlen, hget⟩ := mapM_range_inv _ _ ys hmap
      refine ⟨by omega, by omega, hlen, ?_⟩
      intro j hj
      have hj2 := hget j hj
      cases hd : glev_delta params.q β (beta_pow β j) with
      | error e =>
        have h4 : (match glev_delta params.q β (beta_pow β j) with
            | .error err => Except.error err
            | .ok delta_j =>
              glwe_encrypt_scaled (polynomial.scalar_multiply message delta_j params.q)
                pk params (uu j) (ue1 j) (ue2 j)) = .ok (ys.getD j default) := hj2
        rw [hd] at h4
        cases h4
      | ok δ =>
        have h4 : (match glev_delta params.q β (beta_pow β j) with
            | .error err => Except.error err
            | .ok delta_j =>
              glwe_encrypt_scaled (polynomial.scalar_multiply message delta_j params.q)
                pk params (uu j) (ue1 j) (ue2 j)) = .ok (ys.getD j default) := hj2
        rw [hd] at h4
        exact ⟨δ, rfl, h4⟩

/-- For polynomials of length `n`, a level count in the range of `int` and
non-zero divisors, `encrypt_glev` returns a ciphertext. -/
theorem encrypt_glev_levels (message : List Int) (pk : GLWEPublicKey) (params : Parameters)
    (l : Nat) (β : Int) (uu ue1 : Nat → Nat → Int) (ue2 : Nat → Nat → Nat → Int)
    (hq : 0 < params.q) (hq2 : params.q < 9223372036854775808)
    (hpk1 : pk.pk1.length = params.n)
    (hpk2 : ∀ p ∈ pk.pk2, p.length = params.n)
    (hm : message.length = params.n)
    (hl : l + 1 < 2147483648)
    (hdiv : ∀ j : Nat, j ≤ l → wrap64 (β * beta_pow β j) ≠ 0) :
    ∃ levels, encrypt_glev message pk params (l : Int) β uu ue1 ue2 = .ok ⟨levels⟩ ∧
      levels.length = l + 1 ∧
      ∀ j, j ≤ l → ∃ δ, glev_delta params.q β (beta_pow β j) = .ok δ ∧
        glwe_encrypt_scaled (polynomial.scalar_multiply message δ params.q)
          pk params (uu j) (ue1 j) (ue2 j) = .ok (levels.getD j default) := by
  have hlev : ∀ j, j < l + 1 → ∃ y,
      (match glev_delta params.q β (beta_pow β j) with
        | .error err => Except.error err
        | .ok delta_j =>
          glwe_encrypt_scaled (polynomial.scalar_multiply message delta_j params.q)
            pk params (uu j) (ue1 j) (ue2 j)) = .ok y := by
    intro j hj
    rw [glev_delta_ok params.q β (beta_pow β j) hq (hdiv j (by omega))]
    exact (glwe_encrypt_scaled_shape _ pk params (uu j) (ue1 j) (ue2 j) hq hq2 hpk1 hpk2
      (by rw [scalar_multiply_length, hm])).imp (fun _ h => h.1)
  obtain ⟨ys, hys, -, -⟩ := mapM_range_ok (l + 1) _ hlev
  have henc : encrypt_glev message pk params (l : Int) β uu ue1 ue2 = .ok ⟨ys⟩ := by
    rw [encrypt_glev_eq, if_neg (by omega)]
    have e : ((l : Int) + 1).toNat = l + 1 := by omega
    rw [e]
    erw [hys]
  obtain ⟨-, -, hlen, hget⟩ := encrypt_glev_inv message pk params (l : Int) β uu ue1 ue2 ys henc
  have e : ((l : Int) + 1).toNat = l + 1 := by omega
  rw [e] at hlen hget
  exact ⟨ys, henc, hlen, fun j hj => hget j (by omega)⟩

/-- The shape of a GLev ciphertext: `l + 1` levels, each a GLWE ciphertext with
reduced polynomials of length `n`. -/
theorem encrypt_glev_shape (message : List Int) (pk : GLWEPublicKey) (params : Parameters)
    (l : Nat) (β : Int) (uu ue1 : Nat → Nat → Int) (ue2 : Nat → Nat → Nat → Int)
    (hq : 0 < params.q) (hq2 : params.q < 9223372036854775808)
    (hpk1 : pk.pk1.length = params.n)
    (hpk2 : ∀ p ∈ pk.pk2, p.length = params.n)
    (hm : message.length = params.n)
    (hl : l + 1 < 2147483648)
    (hdiv : ∀ j : Nat, j ≤ l → wrap64 (β * beta_pow β j) ≠ 0) :
    ∃ levels, encrypt_glev message pk params (l : Int) β uu ue1 ue2 = .ok ⟨levels⟩ ∧
      levels.length = l + 1 ∧
      ∀ ct ∈ levels, Reduced params.q params.n ct.b ∧ ct.d_tilde.length = pk.pk2.length ∧
        ∀ d ∈ ct.d_tilde, Reduced params.q params.n d := by
  obtain ⟨ys, henc, hlen, hget⟩ :=
    encrypt_glev_levels message pk params l β uu ue1 ue2 hq hq2 hpk1 hpk2 hm hl hdiv
  refine ⟨ys, henc, hlen, ?_⟩
  intro ct hct
  obtain ⟨j, hj, rfl⟩ := mem_getD_index ys default ct hct
  rw [hlen] at hj
  obtain ⟨δ, -, hδ⟩ := hget j (by omega)
  obtain ⟨y, hy, hyr⟩ := glwe_encrypt_scaled_shape
    (polynomial.scalar_multiply message δ params.q) pk params (uu j) (ue1 j) (ue2 j)
    hq hq2 hpk1 hpk2 (by rw [scalar_multiply_length, hm])
  rw [hy] at hδ
  cases hδ
  exact hyr

/-- C30 (amended). GLev shape: for every `l ≥ 0` with `l + 1 < 2^31` and a base `β`
for which no `int64` divisor `β·β^j`, `j ≤ l`, is zero (an `int64` modulus
`q > 0`, a public key and a message of polynomials of length `n`),
`encrypt_glev(m, pk, params, l, β)` returns exactly `l + 1` GLWE ciphertexts,
each with a body of length `n` and `|pk.pk2|` mask polynomials of length `n`, all
coefficients in `[0, q)`. -/
theorem glev_shape (message : List Int) (pk : GLWEPublicKey) (params : Parameters)
    (l : Nat) (β : Int) (uu ue1 : Nat → Nat → Int) (ue2 : Nat → Nat → Nat → Int)
    (hq : 0 < params.q) (hq2 : params.q < 2 ^ 63)
    (hpk1 : pk.pk1.length = params.n)
    (hpk2 : ∀ p ∈ pk.pk2, p.length = params.n)
    (hm : message.length = params.n)
    (hl : l + 1 < 2 ^ 31)
    (hdiv : ∀ j : Nat, j ≤ l → wrap64 (β * beta_pow β j) ≠ 0) :
    ∃ levels, encrypt_glev message pk params (l : Int) β uu ue1 ue2 = .ok ⟨levels⟩ ∧
      levels.length = l + 1 ∧
      ∀ ct ∈ levels,
        (ct.b.length = params.n ∧ ∀ x ∈ ct.b, 0 ≤ x ∧ x < params.q) ∧
        ct.d_tilde.length = pk.pk2.length ∧
        ∀ d ∈ ct.d_tilde, d.length = params.n ∧ ∀ x ∈ d, 0 ≤ x ∧ x < params.q := by
  have hq3 : params.q < 9223372036854775808 := by
    have : (2 : Int) ^ 63 = 9223372036854775808 := by norm_num
    omega
  exact encrypt_glev_shape message pk params l β uu ue1 ue2 hq hq3 hpk1 hpk2 hm
    (by norm_num at hl; omega) hdiv

/-- Witness of `glev_shape`: `n = 2`, `k = 1`, `q = 2^32`, `β = 16`, `l = 3`. -/
theorem glev_shape_witness :
    ∃ levels, encrypt_glev [3, 1] ⟨[5, 6], [[7, 8]]⟩ ⟨2, 4294967296, 256, 8⟩ ((3 : Nat) : Int) 16
        (fun _ i => (i : Int)) (fun _ _ => -1) (fun _ _ _ => 1) = .ok ⟨levels⟩ ∧
      levels.length = 3 + 1 ∧
      ∀ ct ∈ levels,
        (ct.b.length = 2 ∧ ∀ x ∈ ct.b, 0 ≤ x ∧ x < 4294967296) ∧
        ct.d_tilde.length = 1 ∧
        ∀ d ∈ ct.d_tilde, d.length = 2 ∧ ∀ x ∈ d, 0 ≤ x ∧ x < 4294967296 :=
  glev_shape [3, 1] ⟨[5, 6], [[7, 8]]⟩ ⟨2, 4294967296, 256, 8⟩ 3 16
    (fun _ i => (i : Int)) (fun _ _ => -1) (fun _ _ _ => 1)
    (by decide) (by norm_num) (by decide) (by decide) (by decide) (by norm_num)
    (by intro j hj; interval_cases j <;> decide)

/-- C30 as stated fails. With `β = 2^32` and `l = 1` the divisor `β·β` of level `1`
is `2^64`, which is `0` in `int64`: the division `q / (β·β^1)` has no result and
`encrypt_glev` returns no ciphertext (`n = 2`, `k = 1`, `q = 2^32`). With
`l = 2^31 - 1` and `β = 1` (every divisor is `1`) the level count `l + 1` is
outside the range of `int` and no ciphertext is returned either. -/
theorem glev_shape_fails_zero_divisor :
    wrap64 (4294967296 * beta_pow 4294967296 1) = 0
      ∧ encrypt_glev [3, 1] ⟨[5, 6], [[7, 8]]⟩ ⟨2, 4294967296, 256, 8⟩ 1 4294967296
          (fun _ i => (i : Int)) (fun _ _ => -1) (fun _ _ _ => 1) = .error .NoResult
      ∧ encrypt_glev [3, 1] ⟨[5, 6], [[7, 8]]⟩ ⟨2, 4294967296, 256, 8⟩ 2147483647 1
          (fun _ i => (i : Int)) (fun _ _ => -1) (fun _ _ _ => 1) = .error .NoResult := by
  refine ⟨by decide, by decide, by decide⟩

/-- C28 (amended). GGSW layout: for a secret key of `k` polynomials, `l ≥ 0` with
`l + 1 < 2^31` and a base `β` for which no `int64` divisor `β·β^j`, `j ≤ l`, is
zero (all polynomials of length `n`, an `int64` modulus `q > 0`), `encrypt_ggsw`
returns exactly `k + 1` GLev rows; for `i < k`, row `i` is the GLev encryption,
with the same `pk`, `l` and `β`, of `negate(negacyclic_multiply(s_i, m, q), q)`,
and row `k` is the GLev encryption of `m`. -/
theorem ggsw_layout (message : List Int) (pk : GLWEPublicKey) (sk : List (List Int))
    (params : Parameters) (l : Nat) (β : Int)
    (uu ue1 : Nat → Nat → Nat → Int) (ue2 : Nat → Nat → Nat → Nat → Int)
    (hq : 0 < params.q) (hq2 : params.q < 2 ^ 63)
    (hsk : ∀ s ∈ sk, s.length = params.n)
    (hpk1 : pk.pk1.length = params.n)
    (hpk2 : ∀ p ∈ pk.pk2, p.length = params.n)
    (hm : message.length = params.n)
    (hl : l + 1 < 2 ^ 31)
    (hdiv : ∀ j : Nat, j ≤ l → wrap64 (β * beta_pow β j) ≠ 0) :
    ∃ ct, encrypt_ggsw message pk sk params (l : Int) β uu ue1 ue2 = .ok ct ∧
      ct.glev_rows.length = sk.length + 1 ∧
      (∀ i, i < sk.length → ∃ si_m,
        polynomial.negacyclic_multiply (sk.getD i []) message params.q = .ok si_m ∧
        encrypt_glev (polynomial.negate si_m params.q) pk params (l : Int) β
          (uu i) (ue1 i) (ue2 i) = .ok (ct.glev_rows.getD i default)) ∧
      encrypt_glev message pk params (l : Int) β (uu sk.length) (ue1 sk.length) (ue2 sk.length)
        = .ok (ct.glev_rows.getD sk.length default) := by
  have hq3 : params.q < 9223372036854775808 := by
    have : (2 : Int) ^ 63 = 9223372036854775808 := by norm_num
    omega
  have hl2 : l + 1 < 2147483648 := by norm_num at hl; omega
  have hrow : ∀ i, i < sk.length → ∃ y,
      (match polynomial.negacyclic_multiply (sk.getD i []) message params.q with
        | .error err => Except.error err
        | .ok si_m =>
          encrypt_glev (polynomial.negate si_m params.q) pk params (l : Int) β
            (uu i) (ue1 i) (ue2 i)) = .ok y ∧
      ∃ si_m, polynomial.negacyclic_multiply (sk.getD i []) message params.q = .ok si_m ∧
        encrypt_glev (polynomial.negate si_m params.q) pk params (l : Int) β
          (uu i) (ue1 i) (ue2 i) = .ok y := by
    intro i hi
    obtain ⟨si_m, h1, hr⟩ := negacyclic_multiply_shape (sk.getD i []) message params.q params.n
      hq hq3 (hsk _ (getD_mem_or_nil sk i hi)) hm
    obtain ⟨levels, h2, -⟩ := encrypt_glev_shape (polynomial.negate si_m params.q) pk params l β
      (uu i) (ue1 i) (ue2 i) hq hq3 hpk1 hpk2 (by rw [negate_length, hr.1]) hl2 hdiv
    refine ⟨⟨levels⟩, ?_, si_m, h1, h2⟩
    rw [h1]
    exact h2
  obtain ⟨rows, hrows, hlen, hget⟩ := mapM_range_ok sk.length _
    (fun i hi => (hrow i hi).imp (fun _ h => h.1))
  obtain ⟨levels, hlast, -⟩ := encrypt_glev_shape message pk params l β
    (uu sk.length) (ue1 sk.length) (ue2 sk.length) hq hq3 hpk1 hpk2 hm hl2 hdiv
  refine ⟨⟨rows ++ [⟨levels⟩]⟩, ?_, by simp [hlen], ?_, ?_⟩
  · unfold encrypt_ggsw
    simp only
    erw [hrows]
    simp only
    rw [hlast]
  · intro i hi
    obtain ⟨y, hy, si_m, h1, h2⟩ := hrow i hi
    have := hget i hi
    rw [hy] at this
    cases this
    refine ⟨si_m, h1, ?_⟩
    rw [h2]
    congr 1
    simp only
    rw [List.getD_append _ _ _ _ (by rw [hlen]; exact hi)]
  · rw [hlast]
    congr 1
    simp only
    rw [List.getD_append_right _ _ _ _ (by rw [hlen]), hlen, Nat.sub_self]
    rfl

/-- Witness of `ggsw_layout`: `n = 2`, `k = 1`, `q = 2^32`, `β = 16`, `l = 3`. -/
theorem ggsw_layout_witness :
    ∃ ct, encrypt_ggsw [3, 1] ⟨[5, 6], [[7, 8]]⟩ [[1, 0]] ⟨2, 4294967296, 256, 8⟩
        ((3 : Nat) : Int) 16 (fun _ _ i => (i : Int)) (fun _ _ _ => -1) (fun _ _ _ _ => 1)
        = .ok ct ∧
      ct.glev_rows.length = 1 + 1 ∧
      (∀ i, i < 1 → ∃ si_m,
        polynomial.negacyclic_multiply (([[1, 0]] : List (List Int)).getD i []) [3, 1]
          4294967296 = .ok si_m ∧
        encrypt_glev (polynomial.negate si_m 4294967296) ⟨[5, 6], [[7, 8]]⟩
          ⟨2, 4294967296, 256, 8⟩ ((3 : Nat) : Int) 16
          (fun _ i => (i : Int)) (fun _ _ => -1) (fun _ _ _ => 1)
          = .ok (ct.glev_rows.getD i default)) ∧
      encrypt_glev [3, 1] ⟨[5, 6], [[7, 8]]⟩ ⟨2, 4294967296, 256, 8⟩ ((3 : Nat) : Int) 16
        (fun _ i => (i : Int)) (fun _ _ => -1) (fun _ _ _ => 1)
        = .ok (ct.glev_rows.getD 1 default) :=
  ggsw_layout [3, 1] ⟨[5, 6], [[7, 8]]⟩ [[1, 0]] ⟨2, 4294967296, 256, 8⟩ 3 16
    (fun _ _ i => (i : Int)) (fun _ _ _ => -1) (fun _ _ _ _ => 1)
    (by decide) (by norm_num) (by decide) (by decide) (by decide) (by decide) (by norm_num)
    (by intro j hj; interval_cases j <;> decide)

/-- C28 as stated fails. With `β = 2^32` and `l = 1` the divisor `β·β` of level `1`
is `0` in `int64`: the GLev encryption of the first row has no result and
`encrypt_ggsw` returns no ciphertext (`n = 2`, `k = 1`, `q = 2^32`, key `[[1, 0]]`).
With `l = 2^31 - 1` and `β = 1` (every divisor is `1`) the level count is outside
the range of `int` and no ciphertext is returned either. -/
theorem ggsw_layout_fails_zero_divisor :
    wrap64 (4294967296 * beta_pow 4294967296 1) = 0
      ∧ encrypt_ggsw [3, 1] ⟨[5, 6], [[7, 8]]⟩ [[1, 0]] ⟨2, 4294967296, 256, 8⟩
          1 4294967296 (fun _ _ i => (i : Int)) (fun _ _ _ => -1) (fun _ _ _ _ => 1)
        = .error .NoResult
      ∧ encrypt_ggsw [3, 1] ⟨[5, 6], [[7, 8]]⟩ [[1, 0]] ⟨2, 4294967296, 256, 8⟩
          2147483647 1 (fun _ _ i => (i : Int)) (fun _ _ _ => -1) (fun _ _ _ _ => 1)
        = .error .NoResult := by
  refine ⟨by decide, by decide, by decide⟩

/-- C29. `decrypt_ggsw` reads only the last row: for a GGSW ciphertext with at
least one row it is `decrypt_glev_level` of the last row, so two ciphertexts with
the same last row decrypt to the same result whatever their other rows hold. -/
theorem decrypt_ggsw_last_row (ct : GGSWCiphertext) (sk : List (List Int))
    (params : Parameters) (level_idx β : Int) (h : ct.glev_rows ≠ []) :
    decrypt_ggsw ct sk params level_idx β
        = decrypt_glev_level (ct.glev_rows.getLast h) sk params level_idx β
      ∧ ∀ (ct2 : GGSWCiphertext) (h2 : ct2.glev_rows ≠ []),
          ct2.glev_rows.getLast h2 = ct.glev_rows.getLast h →
          decrypt_ggsw ct2 sk params level_idx β = decrypt_ggsw ct sk params level_idx β := by
  have key : ∀ (c : GGSWCiphertext) (hc : c.glev_rows ≠ []),
      decrypt_ggsw c sk params level_idx β
        = decrypt_glev_level (c.glev_rows.getLast hc) sk params level_idx β := by
    intro c hc
    unfold decrypt_ggsw
    simp only
    rw [List.getLastD_eq_getLast?, List.getLast?_eq_getLast _ hc]
    rfl
  refine ⟨key ct h, ?_⟩
  intro ct2 h2 e
  rw [key ct2 h2, key ct h, e]

/-- Witness of `decrypt_ggsw_last_row`: a GGSW ciphertext with two rows. -/
theorem decrypt_ggsw_last_row_witness :
    decrypt_ggsw ⟨[⟨[⟨[9, 9], [[9, 9]]⟩]⟩, ⟨[⟨[1, 2], [[3, 4]]⟩]⟩]⟩ [[1, 0]] ⟨2, 64, 4, 1⟩ 0 2
        = decrypt_glev_level
            ((⟨[⟨[⟨[9, 9], [[9, 9]]⟩]⟩, ⟨[⟨[1, 2], [[3, 4]]⟩]⟩]⟩ : GGSWCiphertext).glev_rows.getLast
              (by decide))
            [[1, 0]] ⟨2, 64, 4, 1⟩ 0 2
      ∧ ∀ (ct2 : GGSWCiphertext) (h2 : ct2.glev_rows ≠ []),
          ct2.glev_rows.getLast h2
            = (⟨[⟨[⟨[9, 9], [[9, 9]]⟩]⟩, ⟨[⟨[1, 2], [[3, 4]]⟩]⟩]⟩ :
                GGSWCiphertext).glev_rows.getLast (by decide) →
          decrypt_ggsw ct2 [[1, 0]] ⟨2, 64, 4, 1⟩ 0 2
            = decrypt_ggsw ⟨[⟨[⟨[9, 9], [[9, 9]]⟩]⟩, ⟨[⟨[1, 2], [[3, 4]]⟩]⟩]⟩ [[1, 0]]
                ⟨2, 64, 4, 1⟩ 0 2 :=
  decrypt_ggsw_last_row ⟨[⟨[⟨[9, 9], [[9, 9]]⟩]⟩, ⟨[⟨[1, 2], [[3, 4]]⟩]⟩]⟩ [[1, 0]]
    ⟨2, 64, 4, 1⟩ 0 2 (by decide)

/-! ## Noise beyond the budget -/

/-- C31. Excess noise is silent miscoding: `decrypt_lwe` returns a value on every
ciphertext whose mask has the length of the key (moduli `q, t > 0`), and with
`q = 64`, `t = 4` (`Δ = 16`, even), `m = 1` and the noise `e = Δ/2 = 8` the
ciphertext `b = ⟨a, s⟩ + Δ·m + e = 29` decrypts, without error, to `2 ≠ m`. -/
theorem excess_noise_miscodes :
    (∀ (ct : LWECiphertext) (sk : List Int) (params : Parameters),
        0 < params.q → 0 < params.t → ct.a.length = sk.length →
        ∃ v, decrypt_lwe ct sk params = .ok v)
      ∧ (64 : Int).tdiv 4 = 16 ∧ 2 * |(8 : Int)| ≥ 16
      ∧ encrypt_lwe 1 [1, 0] ⟨2, 64, 4, 8⟩ (fun i => 5 + i) 8 = .ok ⟨[5, 6], 29⟩
      ∧ decrypt_lwe ⟨[5, 6], 29⟩ [1, 0] ⟨2, 64, 4, 8⟩ = .ok 2 := by
  refine ⟨?_, by decide, by decide, by decide, by decide⟩
  intro ct sk params _ _ h
  obtain ⟨v, hv⟩ := dot_product_modq_ok ct.a sk params.q h
  unfold decrypt_lwe
  simp only [h, ne_eq, not_true_eq_false, if_false, hv]
  exact ⟨_, rfl⟩

/-- Witness of `excess_noise_miscodes`: the ciphertext `([5, 6], 29)` under the key
`(1, 0)` with `q = 64`, `t = 4`. -/
theorem excess_noise_miscodes_witness :
    ∃ v, decrypt_lwe ⟨[5, 6], 29⟩ [1, 0] ⟨2, 64, 4, 8⟩ = .ok v :=
  excess_noise_miscodes.1 ⟨[5, 6], 29⟩ [1, 0] ⟨2, 64, 4, 8⟩ (by decide) (by decide) (by decide)

/-! ## Ring outputs -/

theorem subtract_shape (a b : List Int) (q : Int) (n : Nat) (hq : 0 < q)
    (hq2 : q < 9223372036854775808) (ha : a.length = n) (hb : b.length = n) :
    ∃ r, polynomial.subtract a b q = .ok r ∧ Reduced q n r := by
  unfold polynomial.subtract
  rw [if_neg (by simp [ha, hb]), ha]
  exact ⟨_, rfl, reduced_map_modq _ q n hq hq2⟩

theorem scalar_multiply_shape (a : List Int) (c q : Int) (hq : 0 < q)
    (hq2 : q < 9223372036854775808) :
    Reduced q a.length (polynomial.scalar_multiply a c q) := by
  unfold polynomial.scalar_multiply
  exact reduced_map_modq _ q a.length hq hq2

/-- C35. Ring outputs are reduced polynomials: for every `int64` modulus `q > 0`
and all input polynomials (equal lengths where two are taken), `add`, `subtract`,
`scalar_multiply`, `negate` and `negacyclic_multiply` return a polynomial of the
length of the input whose every coefficient lies in `[0, q)`. -/
theorem ring_outputs_reduced (a b : List Int) (c q : Int) (hq : 0 < q) (hq2 : q < 2 ^ 63)
    (hlen : a.length = b.length) :
    (∃ r, polynomial.add a b q = .ok r ∧ r.length = a.length ∧ ∀ x ∈ r, 0 ≤ x ∧ x < q)
      ∧ (∃ r, polynomial.subtract a b q = .ok r ∧ r.length = a.length
          ∧ ∀ x ∈ r, 0 ≤ x ∧ x < q)
      ∧ ((polynomial.scalar_multiply a c q).length = a.length
          ∧ ∀ x ∈ polynomial.scalar_multiply a c q, 0 ≤ x ∧ x < q)
      ∧ ((polynomial.negate a q).length = a.length
          ∧ ∀ x ∈ polynomial.negate a q, 0 ≤ x ∧ x < q)
      ∧ (∃ r, polynomial.negacyclic_multiply a b q = .ok r ∧ r.length = a.length
          ∧ ∀ x ∈ r, 0 ≤ x ∧ x < q) := by
  have hq3 : q < 9223372036854775808 := by
    have : (2 : Int) ^ 63 = 9223372036854775808 := by norm_num
    omega
  exact ⟨add_shape a b q a.length hq hq3 rfl hlen.symm,
    subtract_shape a b q a.length hq hq3 rfl hlen.symm,
    scalar_multiply_shape a c q hq hq3, negate_reduced a q hq hq3,
    negacyclic_multiply_shape a b q a.length hq hq3 rfl hlen.symm⟩

/-- Witness of `ring_outputs_reduced`: `q = 7`, `a = (-9, 100)`, `b = (3, -6)`,
`c = -2`. -/
theorem ring_outputs_reduced_witness :
    (∃ r, polynomial.add [-9, 100] [3, -6] 7 = .ok r ∧ r.length = 2
        ∧ ∀ x ∈ r, 0 ≤ x ∧ x < 7)
      ∧ (∃ r, polynomial.subtract [-9, 100] [3, -6] 7 = .ok r ∧ r.length = 2
          ∧ ∀ x ∈ r, 0 ≤ x ∧ x < 7)
      ∧ ((polynomial.scalar_multiply [-9, 100] (-2) 7).length = 2
          ∧ ∀ x ∈ polynomial.scalar_multiply [-9, 100] (-2) 7, 0 ≤ x ∧ x < 7)
      ∧ ((polynomial.negate [-9, 100] 7).length = 2
          ∧ ∀ x ∈ polynomial.negate [-9, 100] 7, 0 ≤ x ∧ x < 7)
      ∧ (∃ r, polynomial.negacyclic_multiply [-9, 100] [3, -6] 7 = .ok r ∧ r.length = 2
          ∧ ∀ x ∈ r, 0 ≤ x ∧ x < 7) :=
  ring_outputs_reduced [-9, 100] [3, -6] (-2) 7 (by decide) (by norm_num) (by decide)

/-! ## Commutativity and associativity of the negacyclic product -/

theorem ncF_comm (f g : Nat → Int) (n k : Nat) (hk : k < n) : ncF f g n k = ncF g f n k := by
  have hn : 0 < n := by omega
  apply adjoinRoot_injective (fun k => ncF f g n k) (fun k => ncF g f n k) n hn _ k hk
  rw [adjoinRoot_ncF _ _ n hn, adjoinRoot_ncF _ _ n hn]
  ring

theorem ncF_assoc (f g h : Nat → Int) (n k : Nat) (hk : k < n) :
    ncF (fun i => ncF f g n i) h n k = ncF f (fun i => ncF g h n i) n k := by
  have hn : 0 < n := by omega
  apply adjoinRoot_injective (fun k => ncF (fun i => ncF f g n i) h n k)
    (fun k => ncF f (fun i => ncF g h n i) n k) n hn _ k hk
  rw [adjoinRoot_ncF _ _ n hn, adjoinRoot_ncF _ _ n hn, adjoinRoot_ncF _ _ n hn,
    adjoinRoot_ncF _ _ n hn]
  ring

theorem ncF_congr_right (f g g' : Nat → Int) (q : Int) (n k : Nat) (hk : k < n)
    (h : ∀ i, i < n → g i ≡ g' i [ZMOD q]) :
    ncF f g n k ≡ ncF f g' n k [ZMOD q] := by
  rw [ncF_comm f g n k hk, ncF_comm f g' n k hk]
  exact ncF_congr_left g g' f q n k h

/-- C36. `negacyclic_multiply` is commutative: for every `int64` modulus `q > 0`
and all polynomials `a`, `b` of the same length (`int64` coefficients),
`negacyclic_multiply(a, b, q) = negacyclic_multiply(b, a, q)`. -/
theorem negacyclic_multiply_comm (a b : List Int) (q : Int) (hq : 0 < q) (hq2 : q < 2 ^ 63)
    (hlen : a.length = b.length) (ha : ∀ x ∈ a, isInt64 x) (hb : ∀ x ∈ b, isInt64 x) :
    ∃ r, polynomial.negacyclic_multiply a b q = .ok r
      ∧ polynomial.negacyclic_multiply b a q = .ok r := by
  have hq3 : q < 9223372036854775808 := by
    have : (2 : Int) ^ 63 = 9223372036854775808 := by norm_num
    omega
  refine ⟨_, polynomial.negacyclic_multiply_eq a b q hq hq3 hlen ha hb, ?_⟩
  rw [polynomial.negacyclic_multiply_eq b a q hq hq3 hlen.symm hb ha, ← hlen]
  congr 1
  apply List.map_congr_left
  intro k hk
  rw [negacyclicCoeff_eq_ncF, negacyclicCoeff_eq_ncF,
    ncF_comm _ _ a.length k (List.mem_range.mp hk)]

/-- Witness of `negacyclic_multiply_comm`: `q = 7`, `a = (2, -3, 6)`, `b = (1, 5, -4)`. -/
theorem negacyclic_multiply_comm_witness :
    ∃ r, polynomial.negacyclic_multiply [2, -3, 6] [1, 5, -4] 7 = .ok r
      ∧ polynomial.negacyclic_multiply [1, 5, -4] [2, -3, 6] 7 = .ok r :=
  negacyclic_multiply_comm [2, -3, 6] [1, 5, -4] 7 (by decide) (by norm_num) (by decide)
    (by decide) (by decide)

/-- C37. `negacyclic_multiply` is associative: for every `int64` modulus `q > 0`
and all polynomials `a`, `b`, `c` of the same length `n` (`int64` coefficients),
`negacyclic_multiply(negacyclic_multiply(a, b, q), c, q)
  = negacyclic_multiply(a, negacyclic_multiply(b, c, q), q)`. -/
theorem negacyclic_multiply_assoc (a b c : List Int) (q : Int) (n : Nat)
    (hq : 0 < q) (hq2 : q < 2 ^ 63)
    (ha : IsPoly n a) (hb : IsPoly n b) (hc : IsPoly n c) :
    ∃ ab bc r, polynomial.negacyclic_multiply a b q = .ok ab
      ∧ polynomial.negacyclic_multiply b c q = .ok bc
      ∧ polynomial.negacyclic_multiply ab c q = .ok r
      ∧ polynomial.negacyclic_multiply a bc q = .ok r := by
  have hq3 : q < 9223372036854775808 := by
    have : (2 : Int) ^ 63 = 9223372036854775808 := by norm_num
    omega
  have hab := (reduced_map_emod (fun k => negacyclicCoeff a b n k) q n hq).isPoly hq3
  have hbc := (reduced_map_emod (fun k => negacyclicCoeff b c n k) q n hq).isPoly hq3
  refine ⟨_, _, _, nm_poly a b q n hq hq3 ha hb, nm_poly b c q n hq hq3 hb hc,
    nm_poly _ c q n hq hq3 hab hc, ?_⟩
  rw [nm_poly a _ q n hq hq3 ha hbc]
  congr 1
  apply List.map_congr_left
  intro k hk
  have hk' := List.mem_range.mp hk
  rw [negacyclicCoeff_eq_ncF, negacyclicCoeff_eq_ncF]
  have h1 : ncF (fun i => ((List.range n).map
        (fun k => negacyclicCoeff a b n k % q)).getD i 0) (fun j => c.getD j 0) n k
      ≡ ncF (fun i => ncF (fun i => a.getD i 0) (fun j => b.getD j 0) n i)
        (fun j => c.getD j 0) n k [ZMOD q] := by
    apply ncF_congr_left
    intro i hi
    rw [getD_map_range _ _ _ hi, negacyclicCoeff_eq_ncF]
    exact Int.mod_modEq _ _
  have h2 : ncF (fun i => a.getD i 0) (fun j => ((List.range n).map
        (fun k => negacyclicCoeff b c n k % q)).getD j 0) n k
      ≡ ncF (fun i => a.getD i 0)
        (fun i => ncF (fun i => b.getD i 0) (fun j => c.getD j 0) n i) n k [ZMOD q] := by
    apply ncF_congr_right _ _ _ q n k hk'
    intro i hi
    rw [getD_map_range _ _ _ hi, negacyclicCoeff_eq_ncF]
    exact Int.mod_modEq _ _
  rw [ncF_assoc _ _ _ n k hk'] at h1
  exact (h2.trans h1.symm)

/-- Witness of `negacyclic_multiply_assoc`: `q = 7`, `n = 3`. -/
theorem negacyclic_multiply_assoc_witness :
    ∃ ab bc r, polynomial.negacyclic_multiply [2, -3, 6] [1, 5, -4] 7 = .ok ab
      ∧ polynomial.negacyclic_multiply [1, 5, -4] [0, 3, 3] 7 = .ok bc
      ∧ polynomial.negacyclic_multiply ab [0, 3, 3] 7 = .ok r
      ∧ polynomial.negacyclic_multiply [2, -3, 6] bc 7 = .ok r :=
  negacyclic_multiply_assoc [2, -3, 6] [1, 5, -4] [0, 3, 3] 7 3 (by decide) (by norm_num)
    (by decide) (by decide) (by decide)

/-! ## The integer rounding of GLWE -/

/-- The integer rounding for every `int64` divisor: `centered ± delta/2` does not
overflow when `|centered| ≤ 2^62`. -/
theorem round_div_int_eq_gen (c δ : Int) (hδ : 0 < δ) (hδ2 : δ < 9223372036854775808)
    (hc1 : -4611686018427387904 ≤ c) (hc2 : c ≤ 4611686018427387904) :
    round_div_int c δ = roundHalfAway c δ := by
  have hδ2' : δ.tdiv 2 = δ / 2 := Int.tdiv_eq_ediv hδ.le (by norm_num)
  have key : ∀ x : Int, 0 ≤ x → (x + δ / 2) / δ = (2 * x + δ) / (2 * δ) := by
    intro x _
    have h1 := Int.emod_add_ediv (x + δ / 2) δ
    have h2 := Int.emod_nonneg (x + δ / 2) hδ.ne'
    have h3 := Int.emod_lt_of_pos (x + δ / 2) hδ
    symm
    apply ediv_unique (2 * x + δ) (2 * δ) _ (2 * ((x + δ / 2) % δ) + δ % 2) (by omega) (by omega)
    have h4 : δ = 2 * (δ / 2) + δ % 2 := by omega
    linear_combination (-2) * h1 + h4
  unfold round_div_int roundHalfAway
  rw [hδ2']
  by_cases h : c ≥ 0
  · rw [if_pos h, if_neg (by omega), wrap64_eq _ (by omega) (by omega),
      Int.tdiv_eq_ediv (by omega) hδ.le]
    exact key c h
  · rw [if_neg h, if_pos (by omega), wrap64_eq _ (by omega) (by omega),
      tdiv_pos_cases _ _ hδ, if_neg (by omega)]
    rw [show -(c - δ / 2) = -c + δ / 2 by ring, key (-c) (by omega)]

/-- The floor `⌊(2x + d) / (2d)⌋` is the nearest integer to `x / d`, halves upward. -/
theorem floor_half_bounds (x d : Int) (hd : 0 < d) :
    (x : ℚ) / d - 1 / 2 < ((2 * x + d) / (2 * d) : Int)
      ∧ (((2 * x + d) / (2 * d) : Int) : ℚ) ≤ (x : ℚ) / d + 1 / 2 := by
  have h2d : (0 : Int) < 2 * d := by omega
  have h1 := Int.ediv_mul_le (2 * x + d) h2d.ne'
  have h2 := Int.lt_ediv_add_one_mul_self (2 * x + d) h2d
  set r := (2 * x + d) / (2 * d) with hr
  have hdq : (0 : ℚ) < d := by exact_mod_cast hd
  have h1q : (r : ℚ) * (2 * d) ≤ 2 * x + d := by exact_mod_cast h1
  have h2q : (2 * x + d : ℚ) < (r + 1) * (2 * d) := by exact_mod_cast h2
  constructor
  · rw [div_sub' _ _ _ hdq.ne', div_lt_iff₀ hdq]
    nlinarith
  · rw [div_add' _ _ _ hdq.ne', le_div_iff₀ hdq]
    nlinarith

/-- The rounding `roundHalfAway c d` is the integer nearest to the rational `c / d`, the
halfway cases away from zero. -/
theorem roundHalfAway_nearest (c d : Int) (hd : 0 < d) :
    |(c : ℚ) / d - roundHalfAway c d| ≤ 1 / 2
      ∧ (|(c : ℚ) / d - roundHalfAway c d| = 1 / 2 →
          |(c : ℚ) / d| < |(roundHalfAway c d : ℚ)|) := by
  have hdq : (0 : ℚ) < d := by exact_mod_cast hd
  unfold roundHalfAway
  by_cases hc : c < 0
  · rw [if_pos hc]
    obtain ⟨b1, b2⟩ := floor_half_bounds (-c) d hd
    have hx : (c : ℚ) / d < 0 := div_neg_of_neg_of_pos (by exact_mod_cast hc) hdq
    push_cast at b1 b2 ⊢
    rw [neg_div] at b1 b2
    constructor
    · rw [abs_le]
      constructor <;> linarith
    · intro htie
      have hval : (c : ℚ) / d - -(((2 * -c + d) / (2 * d) : Int) : ℚ) = 1 / 2 := by
        rcases abs_eq (by norm_num : (0 : ℚ) ≤ 1 / 2) |>.mp htie with h | h
        · exact h
        · exfalso
          linarith
      push_cast at hval
      rw [abs_of_neg hx, abs_of_neg (by linarith)]
      linarith
  · rw [if_neg hc]
    obtain ⟨b1, b2⟩ := floor_half_bounds c d hd
    have hx : (0 : ℚ) ≤ (c : ℚ) / d := div_nonneg (by exact_mod_cast (not_lt.mp hc)) hdq.le
    constructor
    · rw [abs_le]
      constructor <;> linarith
    · intro htie
      have hval : (c : ℚ) / d - (((2 * c + d) / (2 * d) : Int) : ℚ) = -(1 / 2) := by
        rcases abs_eq (by norm_num : (0 : ℚ) ≤ 1 / 2) |>.mp htie with h | h
        · linarith
        · exact h
      rw [abs_of_nonneg hx, abs_of_nonneg (by linarith)]
      linarith

/-- C32. The integer rounding of `decrypt_glwe` and `decrypt_glev_level` is
round-half-away-from-zero: for every `int64` `Δ ≥ 1` (even or odd) and every
centred value `c` (`|c| ≤ 2^62`), `(c + Δ/2)/Δ` for `c ≥ 0` and `(c - Δ/2)/Δ` for
`c < 0`, with truncating division, is the integer nearest to the rational `c/Δ`
with ties away from zero; where the double quotient of `decrypt_lwe` and
`decrypt_rlwe` is exact (`|c| < 2^52`, `Δ < 2^53`) it is the value of their
`llround`. -/
theorem round_div_int_half_away (c δ : Int) (hδ : 1 ≤ δ) (hδ2 : δ < 2 ^ 63)
    (hc : |c| ≤ 2 ^ 62) :
    |(c : ℚ) / δ - round_div_int c δ| ≤ 1 / 2
      ∧ (|(c : ℚ) / δ - round_div_int c δ| = 1 / 2 →
          |(c : ℚ) / δ| < |(round_div_int c δ : ℚ)|)
      ∧ (|c| < 2 ^ 52 → δ < 2 ^ 53 →
          Dbl.llround (Dbl.div (Dbl.ofInt c) (Dbl.ofInt δ)) = round_div_int c δ) := by
  have e63 : (2 : Int) ^ 63 = 9223372036854775808 := by norm_num
  have e62 : (2 : Int) ^ 62 = 4611686018427387904 := by norm_num
  have hc' := abs_le.mp hc
  have heq := round_div_int_eq_gen c δ (by omega) (by omega) (by omega) (by omega)
  rw [heq]
  obtain ⟨h1, h2⟩ := roundHalfAway_nearest c δ (by omega)
  refine ⟨h1, h2, ?_⟩
  intro hc52 hδ53
  refine Dbl.llround_div_ofInt c δ ?_ (by omega) hδ53
  have e52 : (2 : Int) ^ 52 = 4503599627370496 := by norm_num
  have : (c.natAbs : Int) < 4503599627370496 := by
    rw [Int.natCast_natAbs]
    omega
  have e52n : (2 : Nat) ^ 52 = 4503599627370496 := by norm_num
  omega

/-- Witness of `round_div_int_half_away`: `c = -25`, `Δ = 10` (a tie, rounded to
`-3`). -/
theorem round_div_int_half_away_witness :
    |((-25 : Int) : ℚ) / (10 : Int) - round_div_int (-25) 10| ≤ 1 / 2
      ∧ (|((-25 : Int) : ℚ) / (10 : Int) - round_div_int (-25) 10| = 1 / 2 →
          |((-25 : Int) : ℚ) / (10 : Int)| < |(round_div_int (-25) 10 : ℚ)|)
      ∧ (|(-25 : Int)| < 2 ^ 52 → (10 : Int) < 2 ^ 53 →
          Dbl.llround (Dbl.div (Dbl.ofInt (-25)) (Dbl.ofInt 10)) = round_div_int (-25) 10) :=
  round_div_int_half_away (-25) 10 (by decide) (by norm_num) (by norm_num)

/-! ## A GLev level as a GLWE encryption -/

/-- The encryption steps of `encrypt_glwe` return a ciphertext only for a scaled
message of length `n`. -/
theorem glwe_encrypt_scaled_length (scaled_m : List Int) (pk : GLWEPublicKey)
    (params : Parameters) (uu ue1 : Nat → Int) (ue2 : Nat → Nat → Int) (ct : GLWECiphertext)
    (h : glwe_encrypt_scaled scaled_m pk params uu ue1 ue2 = .ok ct) :
    scaled_m.length = params.n := by
  unfold glwe_encrypt_scaled at h
  simp only at h
  cases h1 : polynomial.negacyclic_multiply pk.pk1 ((List.range params.n).map uu) params.q with
  | error e =>
    rw [h1] at h
    cases h
  | ok pk1u =>
    rw [h1] at h
    simp only at h
    cases h2 : polynomial.add pk1u scaled_m params.q with
    | error e =>
      rw [h2] at h
      cases h
    | ok s1 =>
      unfold polynomial.negacyclic_multiply at h1
      unfold polynomial.add at h2
      by_cases e1 : pk.pk1.length ≠ ((List.range params.n).map uu).length
      · rw [if_pos e1] at h1
        cases h1
      · rw [if_neg e1] at h1
        by_cases e2 : pk1u.length ≠ scaled_m.length
        · rw [if_pos e2] at h2
          cases h2
        · have hp : pk1u.length = pk.pk1.length := by
            have := Except.ok.inj h1
            rw [← this]
            simp
          simp at e1 e2
          omega

/-- C33. A GLev level is a GLWE encryption with `Δ_j` in place of `Δ`: whenever
`encrypt_glev` (the loop of `glev.cpp`) returns a ciphertext, the loop of the
scaling factors ends with factors `Δ_0 .. Δ_l` and, for the same public key,
message and draws `u`, `e1`, `e2`, its level `j` is what the encryption steps of
`encrypt_glwe` (`glwe.cpp`) return on the message scaled by `Δ_j`. It is
`encrypt_glwe(m, pk, params2)` for every parameter set `params2` that differs from
`params` in a `t` with `⌊q / t⌋ = Δ_j`, and so it is `encrypt_glwe(m, pk, params)`
when `Δ_j = ⌊q / t⌋`. -/
theorem glev_level_is_glwe (message : List Int) (pk : GLWEPublicKey) (params : Parameters)
    (l β : Int) (uu ue1 : Nat → Nat → Int) (ue2 : Nat → Nat → Nat → Int)
    (levels : List GLWECiphertext) (j : Nat) (hj : (j : Int) ≤ l)
    (henc : encrypt_glev message pk params l β uu ue1 ue2 = .ok ⟨levels⟩) :
    ∃ ds, encrypt_glev_deltas params.q β l = .ok ds ∧
      glwe_encrypt_scaled (polynomial.scalar_multiply message (ds.getD j 0) params.q)
          pk params (uu j) (ue1 j) (ue2 j) = .ok (levels.getD j default)
      ∧ (∀ t2 : Int, params.q.tdiv t2 = ds.getD j 0 →
          encrypt_glwe message pk ⟨params.n, params.q, t2, params.noise_bound⟩
            (uu j) (ue1 j) (ue2 j) = .ok (levels.getD j default))
      ∧ (ds.getD j 0 = params.q.tdiv params.t →
          encrypt_glwe message pk params (uu j) (ue1 j) (ue2 j)
            = .ok (levels.getD j default)) := by
  obtain ⟨h0, h1, -, hget⟩ := encrypt_glev_inv message pk params l β uu ue1 ue2 levels henc
  obtain ⟨ds, hds, -, -⟩ := mapM_range_ok (l + 1).toNat
    (fun i => glev_delta params.q β (beta_pow β i))
    (fun i hi => (hget i hi).imp (fun _ h => h.1))
  have hdeltas : encrypt_glev_deltas params.q β l = .ok ds := by
    rw [encrypt_glev_deltas_eq params.q β l h0 h1]
    exact hds
  obtain ⟨δ, hδ, hlev⟩ := hget j (by omega)
  have hδds : ds.getD j 0 = δ := by
    have := encrypt_glev_deltas_getD params.q β l ds j hj hdeltas
    rw [hδ] at this
    exact (Except.ok.inj this).symm
  rw [← hδds] at hlev
  have hm : message.length = params.n := by
    rw [← scalar_multiply_length message (ds.getD j 0) params.q]
    exact glwe_encrypt_scaled_length _ pk params (uu j) (ue1 j) (ue2 j) _ hlev
  have hglwe : ∀ t2 : Int, params.q.tdiv t2 = ds.getD j 0 →
      encrypt_glwe message pk ⟨params.n, params.q, t2, params.noise_bound⟩
        (uu j) (ue1 j) (ue2 j) = .ok (levels.getD j default) := by
    intro t2 ht2
    unfold encrypt_glwe
    rw [if_neg (by simpa using hm)]
    simp only
    rw [ht2]
    exact hlev
  refine ⟨ds, hdeltas, hlev, hglwe, ?_⟩
  intro hΔ
  exact hglwe params.t hΔ.symm

/-- Witness of `glev_level_is_glwe`: `n = 2`, `k = 1`, `q = 2^32`, `t = 256`,
`β = 16`, `l = 3`; level `1` has `Δ_1 = q / 256 = q / t`, so it is the ciphertext
of `encrypt_glwe` on the same draws. -/
theorem glev_level_is_glwe_witness :
    encrypt_glev [3, 1] ⟨[5, 6], [[7, 8]]⟩ ⟨2, 4294967296, 256, 8⟩ 3 16
        (fun _ i => (i : Int)) (fun _ _ => -1) (fun _ _ _ => 1)
      = .ok ⟨[⟨[805306361, 268435460], [[4294967289, 8]]⟩,
          ⟨[50331641, 16777220], [[4294967289, 8]]⟩,
          ⟨[3145721, 1048580], [[4294967289, 8]]⟩,
          ⟨[196601, 65540], [[4294967289, 8]]⟩]⟩
    ∧ encrypt_glwe [3, 1] ⟨[5, 6], [[7, 8]]⟩ ⟨2, 4294967296, 256, 8⟩
        (fun i => (i : Int)) (fun _ => -1) (fun _ _ => 1)
      = .ok ⟨[50331641, 16777220], [[4294967289, 8]]⟩
    ∧ ∃ ds, encrypt_glev_deltas 4294967296 16 3 = .ok ds ∧
      glwe_encrypt_scaled (polynomial.scalar_multiply [3, 1] (ds.getD 1 0) 4294967296)
          ⟨[5, 6], [[7, 8]]⟩ ⟨2, 4294967296, 256, 8⟩
          (fun i => (i : Int)) (fun _ => -1) (fun _ _ => 1)
        = .ok (([⟨[805306361, 268435460], [[4294967289, 8]]⟩,
          ⟨[50331641, 16777220], [[4294967289, 8]]⟩,
          ⟨[3145721, 1048580], [[4294967289, 8]]⟩,
          ⟨[196601, 65540], [[4294967289, 8]]⟩] : List GLWECiphertext).getD 1 default)
      ∧ (∀ t2 : Int, (4294967296 : Int).tdiv t2 = ds.getD 1 0 →
          encrypt_glwe [3, 1] ⟨[5, 6], [[7, 8]]⟩ ⟨2, 4294967296, t2, 8⟩
            (fun i => (i : Int)) (fun _ => -1) (fun _ _ => 1)
          = .ok (([⟨[805306361, 268435460], [[4294967289, 8]]⟩,
            ⟨[50331641, 16777220], [[4294967289, 8]]⟩,
            ⟨[3145721, 1048580], [[4294967289, 8]]⟩,
            ⟨[196601, 65540], [[4294967289, 8]]⟩] : List GLWECiphertext).getD 1 default))
      ∧ (ds.getD 1 0 = (4294967296 : Int).tdiv 256 →
          encrypt_glwe [3, 1] ⟨[5, 6], [[7, 8]]⟩ ⟨2, 4294967296, 256, 8⟩
            (fun i => (i : Int)) (fun _ => -1) (fun _ _ => 1)
          = .ok (([⟨[805306361, 268435460], [[4294967289, 8]]⟩,
            ⟨[50331641, 16777220], [[4294967289, 8]]⟩,
            ⟨[3145721, 1048580], [[4294967289, 8]]⟩,
            ⟨[196601, 65540], [[4294967289, 8]]⟩] : List GLWECiphertext).getD 1 default)) :=
  ⟨by decide, by decide,
    glev_level_is_glwe [3, 1] ⟨[5, 6], [[7, 8]]⟩ ⟨2, 4294967296, 256, 8⟩ 3 16
      (fun _ i => (i : Int)) (fun _ _ => -1) (fun _ _ _ => 1) _ 1 (by decide) (by decide)⟩

/-! ## GLev level decryption without wrap -/

theorem map_range_set (f : Nat → Int) (L m : Nat) (x : Int) :
    ((List.range L).map f).set m x = (List.range L).map (fun i => if i = m then x else f i) := by
  apply List.ext_getElem
  · simp
  · intro i h1 h2
    simp only [List.length_map, List.length_range] at h2
    rw [List.getElem_set]
    simp only [List.getElem_map, List.getElem_range]
    by_cases h : m = i
    · rw [if_pos h, if_pos h.symm]
    · rw [if_neg h, if_neg (fun e => h e.symm)]

theorem ediv_pow_succ (v b : Int) (hv : 0 ≤ v) (hb : 0 < b) (m : Nat) :
    v / b ^ m / b = v / b ^ (m + 1) := by
  obtain ⟨vn, rfl⟩ := Int.eq_ofNat_of_zero_le hv
  obtain ⟨bn, rfl⟩ := Int.eq_ofNat_of_zero_le hb.le
  have h := Nat.div_div_eq_div_mul vn (bn ^ m) bn
  have e : ((vn / bn ^ m / bn : Nat) : Int) = ((vn / (bn ^ m * bn) : Nat) : Int) := by rw [h]
  push_cast at e
  rw [pow_succ, e]

/-- The state of the loop of `decompose` after `m` iterations: the first `m`
digits are written and the running value is `value / base^m`. -/
theorem decompose_fold (value base : Int) (L : Nat) (hv : 0 ≤ value)
    (hv2 : value < 9223372036854775808) (hb : 0 < base) :
    ∀ m, m ≤ L →
      (List.range m).foldl
          (fun (st : List Int × Int) i =>
            (st.1.set i (st.2.tmod base), wrap64 (st.2.tdiv base)))
          (List.replicate L 0, value)
        = ((List.range L).map (fun i => if i < m then value / base ^ i % base else 0),
            value / base ^ m) := by
  intro m
  induction m with
  | zero =>
    intro _
    simp only [List.range_zero, List.foldl_nil, pow_zero, Int.ediv_one, Nat.not_lt_zero,
      if_false]
    congr 1
    apply List.ext_getElem
    · simp
    · intro i h1 h2
      simp
  | succ m ih =>
    intro hm
    rw [List.range_succ, List.foldl_append, ih (by omega)]
    simp only [List.foldl_cons, List.foldl_nil]
    have hpow : 0 < base ^ m := pow_pos hb m
    have hq0 : 0 ≤ value / base ^ m := Int.ediv_nonneg hv hpow.le
    have hqle : value / base ^ m ≤ value := Int.ediv_le_self _ hv
    have hq1 : 0 ≤ value / base ^ m / base := Int.ediv_nonneg hq0 hb.le
    have hq2 : value / base ^ m / base ≤ value / base ^ m := Int.ediv_le_self _ hq0
    rw [Int.tmod_eq_emod hq0 hb.le, Int.tdiv_eq_ediv hq0 hb.le,
      wrap64_eq _ (by omega) (by omega), map_range_set, ediv_pow_succ value base hv hb m]
    congr 1
    apply List.map_congr_left
    intro i _
    by_cases h1 : i = m
    · rw [if_pos h1, if_pos (by omega), h1]
    · rw [if_neg h1]
      by_cases h2 : i < m
      · rw [if_pos h2, if_pos (by omega)]
      · rw [if_neg h2, if_neg (by omega)]

theorem decompose_eq (value base : Int) (L : Nat) (hv : 0 ≤ value)
    (hv2 : value < 9223372036854775808) (hb : 0 < base) :
    decompose value base (L : Int) = (List.range L).map (fun i => value / base ^ i % base) := by
  unfold decompose
  rw [Int.toNat_ofNat, decompose_fold value base L hv hv2 hb L le_rfl]
  apply List.map_congr_left
  intro i hi
  rw [if_pos (List.mem_range.mp hi)]

/-- The digits of a natural number: `Σ_{i<L} (v / b^i mod b)·b^i = v mod b^L`. -/
theorem digits_sum (v b : Int) (hv : 0 ≤ v) (hb : 0 < b) (L : Nat) :
    ∑ i ∈ Finset.range L, v / b ^ i % b * b ^ i = v % b ^ L := by
  obtain ⟨vn, rfl⟩ := Int.eq_ofNat_of_zero_le hv
  obtain ⟨bn, rfl⟩ := Int.eq_ofNat_of_zero_le hb.le
  induction L with
  | zero => simp
  | succ L ih =>
    rw [Finset.sum_range_succ, ih]
    have h := @Nat.mod_mul (bn ^ L) bn vn
    have e : ((vn % (bn ^ L * bn) : Nat) : Int)
        = ((vn % bn ^ L + bn ^ L * (vn / bn ^ L % bn) : Nat) : Int) := by rw [h]
    push_cast at e
    rw [pow_succ, e]
    ring

/-- C38. `decompose` yields the base-β digits, least significant first: for every
`int64` `value ≥ 0`, `base ≥ 2` and `levels ≥ 0`, `decompose(value, base, levels)`
has `levels` entries `d_i`, each in `[0, base)`, with
`Σ_i d_i·base^i = value mod base^levels`, which is `value` when
`value < base^levels`. -/
theorem decompose_digits (value base : Int) (levels : Nat) (hv : 0 ≤ value)
    (hv2 : value < 2 ^ 63) (hb : 2 ≤ base) :
    (decompose value base (levels : Int)).length = levels
      ∧ (∀ d ∈ decompose value base (levels : Int), 0 ≤ d ∧ d < base)
      ∧ ∑ i ∈ Finset.range levels, (decompose value base (levels : Int)).getD i 0 * base ^ i
          = value % base ^ levels
      ∧ (value < base ^ levels →
          ∑ i ∈ Finset.range levels, (decompose value base (levels : Int)).getD i 0 * base ^ i
            = value) := by
  have hv3 : value < 9223372036854775808 := by
    have : (2 : Int) ^ 63 = 9223372036854775808 := by norm_num
    omega
  have hb0 : 0 < base := by omega
  rw [decompose_eq value base levels hv hv3 hb0]
  have hsum : ∑ i ∈ Finset.range levels,
      ((List.range levels).map (fun i => value / base ^ i % base)).getD i 0 * base ^ i
        = value % base ^ levels := by
    rw [← digits_sum value base hv hb0 levels]
    apply Finset.sum_congr rfl
    intro i hi
    rw [getD_map_range _ _ _ (Finset.mem_range.mp hi)]
  refine ⟨by simp, ?_, hsum, ?_⟩
  · intro d hd
    simp only [List.mem_map, List.mem_range] at hd
    obtain ⟨i, -, rfl⟩ := hd
    exact ⟨Int.emod_nonneg _ hb0.ne', Int.emod_lt_of_pos _ hb0⟩
  · intro hlt
    rw [hsum]
    exact Int.emod_eq_of_lt hv hlt

/-- Witness of `decompose_digits`: `value = 1000`, `base = 16`, `levels = 2`
(digits `8, 14`, and `8 + 14·16 = 232 = 1000 mod 256`). -/
theorem decompose_digits_witness :
    (decompose 1000 16 ((2 : Nat) : Int)).length = 2
      ∧ (∀ d ∈ decompose 1000 16 ((2 : Nat) : Int), 0 ≤ d ∧ d < 16)
      ∧ ∑ i ∈ Finset.range 2, (decompose 1000 16 ((2 : Nat) : Int)).getD i 0 * 16 ^ i
          = 1000 % 16 ^ 2
      ∧ ((1000 : Int) < 16 ^ 2 →
          ∑ i ∈ Finset.range 2, (decompose 1000 16 ((2 : Nat) : Int)).getD i 0 * 16 ^ i
            = 1000) :=
  decompose_digits 1000 16 2 (by decide) (by norm_num) (by decide)

/-! ## `math/bigint.cpp`: multiplication and division -/

set_option maxRecDepth 100000 in
/-- C40 (the code at the failing input). The case of the test passes:
`123 * 456 = 56088` and `56088 / 123 = 456`. For `a = b = 2^32` the `uint64_t`
product of the two digits wraps to `0`, so `a * b = 0` and `(a * b) / a = 0 ≠ b`;
for `a = 3`, `b = 2^63 - 1` the product is `2^63 - 3` and
`(a * b) / a = 3074457345618258601 ≠ b`. -/
theorem bigint_div_mul_fails :
    BigInt.mul 100 (BigInt.ofInt64 123) (BigInt.ofInt64 456) = .ok (BigInt.ofInt64 56088)
      ∧ BigInt.div 100 (BigInt.ofInt64 56088) (BigInt.ofInt64 123) = .ok (BigInt.ofInt64 456)
      ∧ BigInt.mul 100 (BigInt.ofInt64 4294967296) (BigInt.ofInt64 4294967296)
          = .ok (BigInt.ofInt64 0)
      ∧ BigInt.div 100 (BigInt.ofInt64 0) (BigInt.ofInt64 4294967296) = .ok (BigInt.ofInt64 0)
      ∧ BigInt.ofInt64 0 ≠ BigInt.ofInt64 4294967296
      ∧ BigInt.mul 100 (BigInt.ofInt64 3) (BigInt.ofInt64 9223372036854775807)
          = .ok (BigInt.ofInt64 9223372036854775805)
      ∧ BigInt.div 100 (BigInt.ofInt64 9223372036854775805) (BigInt.ofInt64 3)
          = .ok (BigInt.ofInt64 3074457345618258601)
      ∧ BigInt.ofInt64 3074457345618258601 ≠ BigInt.ofInt64 9223372036854775807 := by
  refine ⟨by decide, by decide, by decide, by decide, by decide, by decide, by decide,
    by decide⟩

/-! ## `math/ntt.cpp`: the number-theoretic transform -/

namespace NTT

theorem wrapU64_of_lt {x : Nat} (h : x < 2 ^ 64) : wrapU64 x = x := by
  unfold wrapU64; exact Nat.mod_eq_of_lt (by norm_num at h ⊢; exact h)

theorem wrapU128_of_lt {x : Nat} (h : x < 2 ^ 128) : wrapU128 x = x := by
  unfold wrapU128; exact Nat.mod_eq_of_lt (by norm_num at h ⊢; exact h)

theorem modPowLoop_spec (m : Nat) (hm64 : m < 2 ^ 64) :
    ∀ fuel result base exp, exp < 2 ^ fuel → result < m → base < m →
      modPowLoop m fuel result base exp = (result * base ^ exp) % m := by
  intro fuel
  induction fuel with
  | zero =>
    intro result base exp he hr _
    have : exp = 0 := by simpa using he
    subst this
    simp [modPowLoop, Nat.mod_eq_of_lt hr]
  | succ f ih =>
    intro result base exp he hr hb
    have hm0 : 0 < m := by omega
    unfold modPowLoop
    by_cases h0 : exp > 0
    · rw [if_pos h0]
      have hbb : wrapU128 (base * base) = base * base := by
        apply wrapU128_of_lt
        calc base * base < 2 ^ 64 * 2 ^ 64 := Nat.mul_lt_mul'' (by omega) (by omega)
          _ = 2 ^ 128 := by norm_num
      have hrb : wrapU128 (result * base) = result * base := by
        apply wrapU128_of_lt
        calc result * base < 2 ^ 64 * 2 ^ 64 := Nat.mul_lt_mul'' (by omega) (by omega)
          _ = 2 ^ 128 := by norm_num
      rw [hbb, hrb, Nat.and_one_is_mod, Nat.shiftRight_eq_div_pow, pow_one]
      have he2 : exp / 2 < 2 ^ f := by
        rw [pow_succ] at he; omega
      have hdecomp : exp = 2 * (exp / 2) + exp % 2 := by omega
      by_cases hodd : exp % 2 ≠ 0
      · rw [if_pos hodd, ih _ _ _ he2 (Nat.mod_lt _ hm0) (Nat.mod_lt _ hm0)]
        have h1 : exp % 2 = 1 := by omega
        change (result * base % m * (base * base % m) ^ (exp / 2)) ≡ result * base ^ exp [MOD m]
        have e1 : result * base ^ exp = result * base * (base * base) ^ (exp / 2) := by
          conv_lhs => rw [hdecomp, h1]
          rw [pow_succ, pow_mul, pow_two]; ring
        rw [e1]
        exact Nat.ModEq.mul (Nat.mod_modEq _ _) (Nat.ModEq.pow _ (Nat.mod_modEq _ _))
      · rw [if_neg hodd, ih _ _ _ he2 hr (Nat.mod_lt _ hm0)]
        have h1 : exp % 2 = 0 := by omega
        change (result * (base * base % m) ^ (exp / 2)) ≡ result * base ^ exp [MOD m]
        have e1 : result * base ^ exp = result * (base * base) ^ (exp / 2) := by
          conv_lhs => rw [hdecomp, h1]
          rw [Nat.add_zero, pow_mul, pow_two]
        rw [e1]
        exact Nat.ModEq.mul rfl (Nat.ModEq.pow _ (Nat.mod_modEq _ _))
    · have : exp = 0 := by omega
      subst this
      simp [Nat.mod_eq_of_lt hr]

theorem modPow_spec (b e m : Nat) (hm : 1 < m) (hm64 : m < 2 ^ 64) (he : e < 2 ^ 64) :
    modPow b e m = b ^ e % m := by
  unfold modPow
  rw [modPowLoop_spec m hm64 64 1 (b % m) e he hm (Nat.mod_lt _ (by omega)), one_mul]
  exact (Nat.pow_mod b e m).symm

theorem modInverse_spec (a m : Nat) (hm : 1 < m) (hm64 : m < 2 ^ 64) :
    modInverse a m = a ^ (m - 2) % m := by
  unfold modInverse
  have h : wrapU64 (m + 18446744073709551616 - 2) = m - 2 := by
    unfold wrapU64
    have : m + 18446744073709551616 - 2 = (m - 2) + 18446744073709551616 := by omega
    rw [this, Nat.add_mod_right]
    exact Nat.mod_eq_of_lt (by norm_num at hm64; omega)
  rw [h]
  exact modPow_spec a (m - 2) m hm hm64 (by omega)

theorem isPrimeLoop_prime (p : Nat) (hp : p.Prime) (hp62 : p < 2 ^ 62) :
    ∀ fuel i, 5 ≤ i → i < 2 ^ 32 → p < i + 6 * fuel → isPrimeLoop p fuel i = .ok true := by
  intro fuel
  induction fuel with
  | zero =>
    intro i h5 h32 hlt
    have hii : wrapU64 (i * i) = i * i := by
      apply wrapU64_of_lt
      calc i * i < 2 ^ 32 * 2 ^ 32 := Nat.mul_lt_mul'' h32 h32
        _ = 2 ^ 64 := by norm_num
    unfold isPrimeLoop
    rw [hii, if_neg]
    have : i ≤ i * i := Nat.le_mul_self i
    omega
  | succ f ih =>
    intro i h5 h32 hlt
    have hii : wrapU64 (i * i) = i * i := by
      apply wrapU64_of_lt
      calc i * i < 2 ^ 32 * 2 ^ 32 := Nat.mul_lt_mul'' h32 h32
        _ = 2 ^ 64 := by norm_num
    unfold isPrimeLoop
    rw [hii]
    by_cases hc : i * i ≤ p
    · rw [if_pos hc]
      have hi31 : i < 2 ^ 31 := by
        by_contra hge
        have : 2 ^ 31 * 2 ^ 31 ≤ i * i := Nat.mul_le_mul (by omega) (by omega)
        norm_num at this hp62
        omega
      have h5i : 5 * i ≤ i * i := Nat.mul_le_mul_right i h5
      have hndvd : ∀ d, 1 < d → d < p → p % d ≠ 0 := by
        intro d h1 hd h0
        have hdvd : d ∣ p := Nat.dvd_of_mod_eq_zero h0
        rcases (Nat.dvd_prime hp).1 hdvd with h | h <;> omega
      have hw2 : wrapU64 (i + 2) = i + 2 := wrapU64_of_lt (by norm_num at hi31 ⊢; omega)
      have hw6 : wrapU64 (i + 6) = i + 6 := wrapU64_of_lt (by norm_num at hi31 ⊢; omega)
      rw [hw2, hw6, if_neg]
      · exact ih (i + 6) (by omega) (by norm_num at hi31 ⊢; omega) (by omega)
      · intro h
        rcases h with h | h
        · exact hndvd i (by omega) (by omega) h
        · exact hndvd (i + 2) (by omega) (by omega) h
    · rw [if_neg hc]

theorem isPrime_prime (p : Nat) (hp : p.Prime) (hp62 : p < 2 ^ 62) : isPrime p = .ok true := by
  unfold isPrime
  have h2 := hp.two_le
  rw [if_neg (by omega)]
  by_cases h23 : p = 2 ∨ p = 3
  · rw [if_pos h23]
  · rw [if_neg h23]
    have hndvd : ∀ d, 1 < d → d < p → p % d ≠ 0 := by
      intro d h1 hd h0
      have hdvd : d ∣ p := Nat.dvd_of_mod_eq_zero h0
      rcases (Nat.dvd_prime hp).1 hdvd with h | h <;> omega
    have hp5 : 5 ≤ p := by
      by_contra h
      have : p = 4 := by omega
      subst this
      exact absurd hp (by norm_num)
    rw [if_neg]
    · exact isPrimeLoop_prime p hp hp62 p 5 (by omega) (by norm_num) (by omega)
    · intro h
      rcases h with h | h
      · exact hndvd 2 (by omega) (by omega) h
      · exact hndvd 3 (by omega) (by omega) h

theorem maxNLoop_spec (c : Nat) (hc : 0 < c) (hc64 : c < 2 ^ 64) :
    ∀ fuel maxN temp, maxN * temp = c → (∃ a, maxN = 2 ^ a) →
      (maxNLoop fuel maxN temp).1 ∣ c ∧ ∃ a, (maxNLoop fuel maxN temp).1 = 2 ^ a := by
  intro fuel
  induction fuel with
  | zero =>
    intro maxN temp h hpow
    exact ⟨⟨temp, by simpa [maxNLoop] using h.symm⟩, by simpa [maxNLoop] using hpow⟩
  | succ f ih =>
    intro maxN temp h hpow
    unfold maxNLoop
    by_cases ht : temp % 2 = 0
    · rw [if_pos ht]
      have ht0 : 0 < temp := by
        rcases Nat.eq_zero_or_pos temp with h0 | h0
        · subst h0; simp at h; omega
        · exact h0
      have hprod : maxN * 2 * (temp / 2) = c := by
        rw [Nat.mul_assoc, Nat.mul_div_cancel' (Nat.dvd_of_mod_eq_zero ht)]; exact h
      have hle : maxN * 2 ≤ c := by
        have : 1 ≤ temp / 2 := by omega
        calc maxN * 2 = maxN * 2 * 1 := by ring
          _ ≤ maxN * 2 * (temp / 2) := Nat.mul_le_mul_left _ this
          _ = c := hprod
      rw [wrapU64_of_lt (by omega)]
      obtain ⟨a, ha⟩ := hpow
      exact ih _ _ hprod ⟨a + 1, by rw [ha, pow_succ]⟩
    · rw [if_neg ht]
      exact ⟨⟨temp, h.symm⟩, hpow⟩

theorem fillTable_fold (m r M : Nat) (hm : 1 < m) (hm32 : m < 2 ^ 32) (hr : r < m) :
    ∀ k, k + 1 ≤ M →
      let tab := (List.range k).foldl
        (fun tab idx => tab.set (idx + 1) (wrapU64 (tab.getD (idx + 1 - 1) 0 * r) % m))
        ((List.replicate M 0).set 0 1)
      tab.length = M ∧ (∀ i, i ≤ k → tab.getD i 0 = r ^ i % m) ∧
        ∀ i, k < i → tab.getD i 0 = 0 := by
  intro k
  induction k with
  | zero =>
    intro hM
    simp only [List.range_zero, List.foldl_nil, List.length_set, List.length_replicate, true_and]
    constructor
    · intro i hi
      have : i = 0 := by omega
      subst this
      rw [List.getD_eq_getElem _ _ (by simp; omega)]
      simp [Nat.mod_eq_of_lt hm]
    · intro i hi
      by_cases hiM : i < M
      · rw [List.getD_eq_getElem _ _ (by simp; omega)]
        rw [List.getElem_set_ne (by omega)]
        simp
      · rw [List.getD_eq_default _ _ (by simp; omega)]
  | succ k ih =>
    intro hM
    obtain ⟨hlen, hlo, hhi⟩ := ih (by omega)
    simp only [List.range_succ, List.foldl_append, List.foldl_cons, List.foldl_nil]
    set tab := (List.range k).foldl
        (fun tab idx => tab.set (idx + 1) (wrapU64 (tab.getD (idx + 1 - 1) 0 * r) % m))
        ((List.replicate M 0).set 0 1) with htab
    refine ⟨by simp [hlen], ?_, ?_⟩
    · intro i hi
      by_cases hik : i = k + 1
      · subst hik
        rw [List.getD_eq_getElem _ _ (by simp [hlen]; omega), List.getElem_set_self]
        rw [Nat.add_sub_cancel, hlo k (le_refl _)]
        have hlt : r ^ k % m * r < 2 ^ 64 := by
          have h1 : r ^ k % m < m := Nat.mod_lt _ (by omega)
          calc r ^ k % m * r < 2 ^ 32 * 2 ^ 32 := Nat.mul_lt_mul'' (by omega) (by omega)
            _ = 2 ^ 64 := by norm_num
        rw [wrapU64_of_lt hlt, pow_succ, Nat.mod_mul_mod]
      · have hne : k + 1 ≠ i := fun h => hik h.symm
        rw [List.getD_eq_getElem?_getD, List.getElem?_set_ne hne, ← List.getD_eq_getElem?_getD]
        exact hlo i (by omega)
    · intro i hi
      have hne : k + 1 ≠ i := by omega
      rw [List.getD_eq_getElem?_getD, List.getElem?_set_ne hne, ← List.getD_eq_getElem?_getD]
      exact hhi i (by omega)

theorem fillTable_spec (m r M : Nat) (hm : 1 < m) (hm32 : m < 2 ^ 32) (hr : r < m)
    (hM : 0 < M) :
    (fillTable m r M).length = M ∧ ∀ i, i < M → (fillTable m r M).getD i 0 = r ^ i % m := by
  have h := fillTable_fold m r M hm hm32 hr (M - 1) (by omega)
  simp only at h
  unfold fillTable
  exact ⟨h.1, fun i hi => h.2.1 i (by omega)⟩

end NTT
namespace NTT

theorem and_two_pow_of_lt {j m : Nat} (h : j < 2 ^ m) : j &&& 2 ^ m = 0 := by
  rw [Nat.and_two_pow, Nat.testBit_lt_two_pow h]; simp

theorem xor_two_pow_of_lt {j m : Nat} (h : j < 2 ^ m) : j ^^^ 2 ^ m = 2 ^ m + j := by
  apply Nat.eq_of_testBit_eq
  intro i
  rw [Nat.testBit_xor, Nat.testBit_two_pow]
  rcases Nat.lt_trichotomy i m with hi | hi | hi
  · rw [Nat.testBit_two_pow_add_gt hi]
    have : ¬ m = i := by omega
    simp [this]
  · subst hi
    rw [Nat.testBit_two_pow_add_eq, Nat.testBit_lt_two_pow h]; simp
  · have h1 : j < 2 ^ i := lt_of_lt_of_le h (Nat.pow_le_pow_right (by norm_num) (by omega))
    have h2 : 2 ^ m + j < 2 ^ i := by
      have : 2 ^ (m + 1) ≤ 2 ^ i := Nat.pow_le_pow_right (by norm_num) (by omega)
      rw [pow_succ] at this; omega
    rw [Nat.testBit_lt_two_pow h1, Nat.testBit_lt_two_pow h2]
    have : ¬ m = i := by omega
    simp [this]

theorem add_and_two_pow_of_lt {j m : Nat} (h : j < 2 ^ m) : (2 ^ m + j) &&& 2 ^ m ≠ 0 := by
  rw [Nat.and_two_pow, Nat.testBit_two_pow_add_eq, Nat.testBit_lt_two_pow h]
  simp

theorem add_xor_two_pow_of_lt {j m : Nat} (h : j < 2 ^ m) : (2 ^ m + j) ^^^ 2 ^ m = j := by
  rw [← xor_two_pow_of_lt h, Nat.xor_assoc, Nat.xor_self, Nat.xor_zero]

end NTT

theorem bitRev_lt : ∀ m b, bitRev m b < 2 ^ m := by
  intro m
  induction m with
  | zero => intro b; simp [bitRev]
  | succ m ih =>
    intro b
    have h := ih (b / 2)
    have h2 : b % 2 < 2 := Nat.mod_lt _ (by norm_num)
    unfold bitRev
    rw [pow_succ]
    rcases (by omega : b % 2 = 0 ∨ b % 2 = 1) with h0 | h0 <;> rw [h0] <;> omega

theorem bitRev_zero : ∀ m, bitRev m 0 = 0 := by
  intro m
  induction m with
  | zero => rfl
  | succ m ih => simp [bitRev, ih]

theorem bitRev_double (m b : Nat) : bitRev (m + 1) (2 * b) = bitRev m b := by
  simp [bitRev]

theorem bitRev_double_succ (m b : Nat) : bitRev (m + 1) (2 * b + 1) = 2 ^ m + bitRev m b := by
  have h1 : (2 * b + 1) % 2 = 1 := by omega
  have h2 : (2 * b + 1) / 2 = b := by omega
  simp [bitRev, h1, h2]

theorem bitRev_top : ∀ m b, bitRev (m + 1) b = 2 * bitRev m (b % 2 ^ m) + (b / 2 ^ m) % 2 := by
  intro m
  induction m with
  | zero => intro b; simp [bitRev]
  | succ m ih =>
    intro b
    have e1 : bitRev (m + 1 + 1) b = (b % 2) * 2 ^ (m + 1) + bitRev (m + 1) (b / 2) := rfl
    have e2 : bitRev (m + 1) (b % 2 ^ (m + 1))
        = (b % 2 ^ (m + 1) % 2) * 2 ^ m + bitRev m (b % 2 ^ (m + 1) / 2) := rfl
    rw [e1, ih (b / 2), e2]
    have h1 : b % 2 ^ (m + 1) % 2 = b % 2 :=
      Nat.mod_mod_of_dvd b (Dvd.intro_left (2 ^ m) (by rw [pow_succ]))
    have h2 : b % 2 ^ (m + 1) / 2 = b / 2 % 2 ^ m := by
      rw [pow_succ, Nat.mul_comm]; exact Nat.mod_mul_right_div_self b 2 (2 ^ m)
    have h3 : b / 2 / 2 ^ m = b / 2 ^ (m + 1) := by
      rw [Nat.div_div_eq_div_mul, pow_succ, Nat.mul_comm]
    rw [h1, h2, h3, pow_succ]; ring

theorem bitRev_bitRev : ∀ m b, b < 2 ^ m → bitRev m (bitRev m b) = b := by
  intro m
  induction m with
  | zero => intro b hb; simp at hb; subst hb; rfl
  | succ m ih =>
    intro b hb
    have hb2 : b / 2 < 2 ^ m := by rw [pow_succ] at hb; omega
    have hlt := bitRev_lt m (b / 2)
    have e1 : bitRev (m + 1) b = (b % 2) * 2 ^ m + bitRev m (b / 2) := rfl
    rw [bitRev_top, e1]
    have h1 : ((b % 2) * 2 ^ m + bitRev m (b / 2)) % 2 ^ m = bitRev m (b / 2) := by
      rw [Nat.mul_add_mod_of_lt hlt]
    have h2 : ((b % 2) * 2 ^ m + bitRev m (b / 2)) / 2 ^ m = b % 2 := by
      rw [Nat.add_comm, Nat.add_mul_div_right _ _ (by positivity), Nat.div_eq_of_lt hlt,
        Nat.zero_add]
    rw [h1, h2, ih _ hb2, Nat.mod_mod]
    omega

namespace NTT

theorem revCarry_spec : ∀ m fuel i, m < fuel → i + 1 < 2 ^ (m + 1) →
    revCarry fuel (bitRev (m + 1) i) (2 ^ m) = bitRev (m + 1) (i + 1) := by
  intro m
  induction m with
  | zero =>
    intro fuel i hf hi
    have : i = 0 := by norm_num at hi; omega
    subst this
    obtain ⟨f, rfl⟩ : ∃ f, fuel = f + 1 := ⟨fuel - 1, by omega⟩
    simp [revCarry, bitRev]
  | succ m ih =>
    intro fuel i hf hi
    obtain ⟨f, rfl⟩ : ∃ f, fuel = f + 1 := ⟨fuel - 1, by omega⟩
    have hlt := bitRev_lt (m + 1) (i / 2)
    have e1 : bitRev (m + 1 + 1) i = (i % 2) * 2 ^ (m + 1) + bitRev (m + 1) (i / 2) := rfl
    have e2 : bitRev (m + 1 + 1) (i + 1)
        = ((i + 1) % 2) * 2 ^ (m + 1) + bitRev (m + 1) ((i + 1) / 2) := rfl
    unfold revCarry
    rw [e1, e2]
    rcases (by omega : i % 2 = 0 ∨ i % 2 = 1) with h0 | h0
    · have h1 : (i + 1) % 2 = 1 := by omega
      have h2 : (i + 1) / 2 = i / 2 := by omega
      rw [h0, h1, h2, Nat.zero_mul, Nat.zero_add, Nat.one_mul, and_two_pow_of_lt hlt]
      rw [if_neg (by simp), xor_two_pow_of_lt hlt]
    · have h1 : (i + 1) % 2 = 0 := by omega
      have h2 : (i + 1) / 2 = i / 2 + 1 := by omega
      rw [h0, h1, h2, Nat.zero_mul, Nat.zero_add, Nat.one_mul, if_pos (add_and_two_pow_of_lt hlt),
        add_xor_two_pow_of_lt hlt]
      have h3 : 2 ^ (m + 1) >>> 1 = 2 ^ m := by
        rw [Nat.shiftRight_eq_div_pow, pow_succ]; simp
      rw [h3]
      apply ih f (i / 2) (by omega)
      rw [pow_succ] at hi; omega

end NTT
namespace NTT

theorem getD_set_of_lt (l : List Nat) (a v t : Nat) (ha : a < l.length) :
    (l.set a v).getD t 0 = if t = a then v else l.getD t 0 := by
  by_cases h : t = a
  · subst h
    rw [if_pos rfl, List.getD_eq_getElem _ _ (by simpa using ha), List.getElem_set_self]
  · rw [if_neg h, List.getD_eq_getElem?_getD, List.getElem?_set_ne (fun e => h e.symm),
      ← List.getD_eq_getElem?_getD]

theorem bitReverse_fold (K : Nat) (data : List Nat) (hK : K < 64)
    (hlen : data.length = 2 ^ (K + 1)) :
    ∀ m, m + 1 ≤ 2 ^ (K + 1) →
      let st := (List.range m).foldl
        (fun (st : Nat × List Nat) idx =>
          (revCarry 64 st.1 (data.length >>> 1),
            if idx + 1 < revCarry 64 st.1 (data.length >>> 1) then
              swap st.2 (idx + 1) (revCarry 64 st.1 (data.length >>> 1)) else st.2))
        (0, data)
      st.1 = bitRev (K + 1) m ∧ st.2.length = 2 ^ (K + 1) ∧
        ∀ t, t < 2 ^ (K + 1) → st.2.getD t 0 =
          if t ≤ m ∨ bitRev (K + 1) t ≤ m then data.getD (bitRev (K + 1) t) 0
          else data.getD t 0 := by
  intro m
  induction m with
  | zero =>
    intro _
    refine ⟨(bitRev_zero _).symm, hlen, ?_⟩
    intro t ht
    simp only [List.range_zero, List.foldl_nil]
    by_cases h : t ≤ 0 ∨ bitRev (K + 1) t ≤ 0
    · rw [if_pos h]
      rcases h with h | h
      · have : t = 0 := by omega
        subst this
        rw [bitRev_zero]
      · have h0 : bitRev (K + 1) t = 0 := by omega
        have := bitRev_bitRev (K + 1) t ht
        rw [h0, bitRev_zero] at this
        rw [h0, ← this]
    · rw [if_neg h]
  | succ m ih =>
    intro hm
    obtain ⟨hj, hl, hval⟩ := ih (by omega)
    simp only [List.range_succ, List.foldl_append, List.foldl_cons, List.foldl_nil]
    set st := (List.range m).foldl
        (fun (st : Nat × List Nat) idx =>
          (revCarry 64 st.1 (data.length >>> 1),
            if idx + 1 < revCarry 64 st.1 (data.length >>> 1) then
              swap st.2 (idx + 1) (revCarry 64 st.1 (data.length >>> 1)) else st.2))
        (0, data) with hst
    have hshift : data.length >>> 1 = 2 ^ K := by
      rw [hlen, Nat.shiftRight_eq_div_pow, pow_succ]; simp
    have hrev : revCarry 64 st.1 (data.length >>> 1) = bitRev (K + 1) (m + 1) := by
      rw [hshift, hj]
      exact revCarry_spec K 64 m hK (by omega)
    rw [hrev]
    have hjlt := bitRev_lt (K + 1) (m + 1)
    have hjj := bitRev_bitRev (K + 1) (m + 1) (by omega)
    set j := bitRev (K + 1) (m + 1) with hjdef
    refine ⟨rfl, ?_, ?_⟩
    · by_cases hij : m + 1 < j
      · rw [if_pos hij]; simp [swap, hl]
      · rw [if_neg hij]; exact hl
    · intro t ht
      have htt := bitRev_bitRev (K + 1) t ht
      have htlt := bitRev_lt (K + 1) t
      by_cases hij : m + 1 < j
      · rw [if_pos hij]
        have hci : st.2.getD (m + 1) 0 = data.getD (m + 1) 0 := by
          rw [hval (m + 1) (by omega), if_neg]
          rw [← hjdef]; omega
        have hcj : st.2.getD j 0 = data.getD j 0 := by
          rw [hval j hjlt, if_neg]
          rw [hjj]; omega
        unfold swap
        rw [getD_set_of_lt _ _ _ _ (by simp [hl]; omega), getD_set_of_lt _ _ _ _ (by omega),
          hci, hcj]
        by_cases htj : t = j
        · rw [if_pos htj, htj, hjj, if_pos (Or.inr (le_refl _))]
        · rw [if_neg htj]
          by_cases hti : t = m + 1
          · rw [if_pos hti, hti, if_pos (Or.inl (le_refl _))]
          · rw [if_neg hti, hval t ht]
            have hne : bitRev (K + 1) t ≠ m + 1 := by
              intro h
              rw [h] at htt
              exact htj htt.symm
            by_cases hc : t ≤ m ∨ bitRev (K + 1) t ≤ m
            · rw [if_pos hc, if_pos (by omega)]
            · rw [if_neg hc, if_neg (by omega)]
      · rw [if_neg hij, hval t ht]
        by_cases hc : t ≤ m ∨ bitRev (K + 1) t ≤ m
        · rw [if_pos hc, if_pos (by omega)]
        · rw [if_neg hc]
          by_cases hti : t = m + 1
          · rw [if_pos (Or.inl (by omega))]
            subst hti
            have : j = m + 1 := by omega
            rw [← hjdef, this]
          · by_cases hsi : bitRev (K + 1) t = m + 1
            · exfalso
              rw [hsi] at htt
              omega
            · rw [if_neg (by omega)]

theorem bitReverse_spec (K : Nat) (data : List Nat) (hK : K < 64)
    (hlen : data.length = 2 ^ (K + 1)) :
    (bitReverse data).length = 2 ^ (K + 1) ∧
      ∀ t, t < 2 ^ (K + 1) → (bitReverse data).getD t 0 = data.getD (bitRev (K + 1) t) 0 := by
  have hpos : 0 < 2 ^ (K + 1) := by positivity
  have h := bitReverse_fold K data hK hlen (2 ^ (K + 1) - 1) (by omega)
  simp only at h
  unfold bitReverse
  rw [hlen] at h ⊢
  refine ⟨h.2.1, ?_⟩
  intro t ht
  rw [h.2.2 t ht, if_pos (Or.inl (by omega))]

end NTT
namespace NTT

theorem sub_wrap (u v p : Nat) (hu : u < p) (hv : v < p) (hp : p < 2 ^ 32) :
    wrapU64 (wrapU64 (u + 18446744073709551616 - v) + p) = u + p - v := by
  unfold wrapU64
  norm_num at hp
  omega

theorem butterfly_eq (p : Nat) (tab : List Nat) (step h i : Nat) (d : List Nat) (j : Nat)
    (hp0 : 0 < p) (hp32 : p < 2 ^ 32) (htab : ∀ a, tab.getD a 0 < 2 ^ 64)
    (hd : ∀ t, d.getD t 0 < p) :
    butterfly p tab step (2 * h) i d j =
      (d.set (i + j) ((d.getD (i + j) 0 + d.getD (i + j + h) 0 * tab.getD (step * j) 0 % p) % p)).set
        (i + j + h)
        ((d.getD (i + j) 0 + p - d.getD (i + j + h) 0 * tab.getD (step * j) 0 % p) % p) := by
  unfold butterfly
  have h2 : 2 * h / 2 = h := Nat.mul_div_cancel_left h (by norm_num)
  simp only [h2]
  have hprod : wrapU128 (d.getD (i + j + h) 0 * tab.getD (step * j) 0)
      = d.getD (i + j + h) 0 * tab.getD (step * j) 0 := by
    apply wrapU128_of_lt
    have h1 := hd (i + j + h)
    have h3 := htab (step * j)
    calc d.getD (i + j + h) 0 * tab.getD (step * j) 0 < 2 ^ 32 * 2 ^ 64 :=
          Nat.mul_lt_mul'' (by omega) h3
      _ < 2 ^ 128 := by norm_num
  rw [hprod]
  have hv : d.getD (i + j + h) 0 * tab.getD (step * j) 0 % p < p := Nat.mod_lt _ hp0
  have hu := hd (i + j)
  have hsum : d.getD (i + j) 0 + d.getD (i + j + h) 0 * tab.getD (step * j) 0 % p < 2 ^ 64 := by
    calc d.getD (i + j) 0 + d.getD (i + j + h) 0 * tab.getD (step * j) 0 % p
        < 2 ^ 32 + 2 ^ 32 := by omega
      _ < 2 ^ 64 := by norm_num
  rw [sub_wrap _ _ p hu hv hp32, wrapU64_of_lt hsum]

theorem butterfly_fold (p : Nat) (tab : List Nat) (step h i : Nat) (base : List Nat)
    (hp0 : 0 < p) (hp32 : p < 2 ^ 32) (htab : ∀ a, tab.getD a 0 < 2 ^ 64)
    (hbase : ∀ t, base.getD t 0 < p) (hlen : i + 2 * h ≤ base.length) :
    ∀ m, m ≤ h →
      let d := (List.range m).foldl (fun d j => butterfly p tab step (2 * h) i d j) base
      d.length = base.length ∧ (∀ t, d.getD t 0 < p) ∧
      (∀ k, k < m →
        d.getD (i + k) 0
          = (base.getD (i + k) 0 + base.getD (i + k + h) 0 * tab.getD (step * k) 0 % p) % p ∧
        d.getD (i + k + h) 0
          = (base.getD (i + k) 0 + p - base.getD (i + k + h) 0 * tab.getD (step * k) 0 % p) % p) ∧
      (∀ t, (t < i ∨ i + m ≤ t) → (t < i + h ∨ i + h + m ≤ t) → d.getD t 0 = base.getD t 0) := by
  intro m
  induction m with
  | zero =>
    intro _
    exact ⟨rfl, hbase, fun k hk => absurd hk (by omega), fun t _ _ => rfl⟩
  | succ m ih =>
    intro hm
    obtain ⟨hl, hlt, hform, hun⟩ := ih (by omega)
    simp only [List.range_succ, List.foldl_append, List.foldl_cons, List.foldl_nil]
    set d := (List.range m).foldl (fun d j => butterfly p tab step (2 * h) i d j) base with hd
    rw [butterfly_eq p tab step h i d m hp0 hp32 htab hlt]
    have hu : d.getD (i + m) 0 = base.getD (i + m) 0 := hun _ (by omega) (by omega)
    have hx : d.getD (i + m + h) 0 = base.getD (i + m + h) 0 := hun _ (by omega) (by omega)
    rw [hu, hx]
    have hget : ∀ t, ((d.set (i + m)
        ((base.getD (i + m) 0 + base.getD (i + m + h) 0 * tab.getD (step * m) 0 % p) % p)).set
        (i + m + h)
        ((base.getD (i + m) 0 + p - base.getD (i + m + h) 0 * tab.getD (step * m) 0 % p) % p)).getD
          t 0 =
        if t = i + m + h then
          (base.getD (i + m) 0 + p - base.getD (i + m + h) 0 * tab.getD (step * m) 0 % p) % p
        else if t = i + m then
          (base.getD (i + m) 0 + base.getD (i + m + h) 0 * tab.getD (step * m) 0 % p) % p
        else d.getD t 0 := by
      intro t
      rw [getD_set_of_lt _ _ _ _ (by simp [hl]; omega), getD_set_of_lt _ _ _ _ (by omega)]
    refine ⟨by simp [hl], ?_, ?_, ?_⟩
    · intro t
      rw [hget]
      split_ifs
      · exact Nat.mod_lt _ hp0
      · exact Nat.mod_lt _ hp0
      · exact hlt t
    · intro k hk
      rw [hget, hget]
      by_cases hkm : k = m
      · subst hkm
        rw [if_neg (by omega), if_pos rfl, if_pos rfl]
        exact ⟨rfl, rfl⟩
      · rw [if_neg (by omega), if_neg (by omega), if_neg (by omega), if_neg (by omega)]
        exact hform k (by omega)
    · intro t h1 h2
      rw [hget, if_neg (by omega), if_neg (by omega)]
      exact hun t (by omega) (by omega)

theorem stage_fold (p : Nat) (tab : List Nat) (h B : Nat) (data : List Nat) (hh : 0 < h)
    (hp0 : 0 < p) (hp32 : p < 2 ^ 32) (htab : ∀ a, tab.getD a 0 < 2 ^ 64)
    (hdata : ∀ t, data.getD t 0 < p) (hlen : data.length = B * (2 * h)) :
    ∀ m, m ≤ B →
      let d := (List.range m).foldl
        (fun data b =>
          (List.range (2 * h / 2)).foldl
            (fun data j => butterfly p tab (tab.length / (2 * h)) (2 * h) (b * (2 * h)) data j) data)
        data
      d.length = data.length ∧ (∀ t, d.getD t 0 < p) ∧
      (∀ b k, b < m → k < h →
        d.getD (b * (2 * h) + k) 0
          = (data.getD (b * (2 * h) + k) 0 + data.getD (b * (2 * h) + k + h) 0 *
              tab.getD (tab.length / (2 * h) * k) 0 % p) % p ∧
        d.getD (b * (2 * h) + k + h) 0
          = (data.getD (b * (2 * h) + k) 0 + p - data.getD (b * (2 * h) + k + h) 0 *
              tab.getD (tab.length / (2 * h) * k) 0 % p) % p) ∧
      (∀ t, m * (2 * h) ≤ t → d.getD t 0 = data.getD t 0) := by
  intro m
  induction m with
  | zero =>
    intro _
    exact ⟨rfl, hdata, fun b k hb _ => absurd hb (by omega), fun t _ => rfl⟩
  | succ m ih =>
    intro hm
    obtain ⟨hl, hlt, hform, hun⟩ := ih (by omega)
    simp only [List.range_succ, List.foldl_append, List.foldl_cons, List.foldl_nil]
    set d := (List.range m).foldl
        (fun data b =>
          (List.range (2 * h / 2)).foldl
            (fun data j => butterfly p tab (tab.length / (2 * h)) (2 * h) (b * (2 * h)) data j) data)
        data with hd
    have h2 : 2 * h / 2 = h := Nat.mul_div_cancel_left h (by norm_num)
    rw [h2]
    have hblock : m * (2 * h) + 2 * h ≤ d.length := by
      rw [hl, hlen]
      calc m * (2 * h) + 2 * h = (m + 1) * (2 * h) := by ring
        _ ≤ B * (2 * h) := Nat.mul_le_mul_right _ hm
    obtain ⟨il, ilt, iform, iun⟩ :=
      butterfly_fold p tab (tab.length / (2 * h)) h (m * (2 * h)) d hp0 hp32 htab hlt hblock h
        (le_refl _)
    refine ⟨il.trans hl, ilt, ?_, ?_⟩
    · intro b k hb hk
      by_cases hbm : b = m
      · subst hbm
        have := iform k hk
        rw [hun _ (by omega), hun _ (by omega)] at this
        exact this
      · have hb1 : b + 1 ≤ m := by omega
        have hle : (b + 1) * (2 * h) ≤ m * (2 * h) := Nat.mul_le_mul_right _ hb1
        have hexp : (b + 1) * (2 * h) = b * (2 * h) + 2 * h := by ring
        rw [iun _ (by omega) (by omega), iun _ (by omega) (by omega)]
        exact hform b k (by omega) hk
    · intro t ht
      have hexp : (m + 1) * (2 * h) = m * (2 * h) + 2 * h := by ring
      rw [iun t (by omega) (by omega)]
      exact hun t (by omega)

theorem stage_spec (p : Nat) (tab : List Nat) (h B : Nat) (data : List Nat) (hh : 0 < h)
    (hp0 : 0 < p) (hp32 : p < 2 ^ 32) (htab : ∀ a, tab.getD a 0 < 2 ^ 64)
    (hdata : ∀ t, data.getD t 0 < p) (hlen : data.length = B * (2 * h)) :
    (stage p tab (2 * h) data).length = data.length ∧
      (∀ t, (stage p tab (2 * h) data).getD t 0 < p) ∧
      ∀ b k, b < B → k < h →
        (stage p tab (2 * h) data).getD (b * (2 * h) + k) 0
          = (data.getD (b * (2 * h) + k) 0 + data.getD (b * (2 * h) + k + h) 0 *
              tab.getD (tab.length / (2 * h) * k) 0 % p) % p ∧
        (stage p tab (2 * h) data).getD (b * (2 * h) + k + h) 0
          = (data.getD (b * (2 * h) + k) 0 + p - data.getD (b * (2 * h) + k + h) 0 *
              tab.getD (tab.length / (2 * h) * k) 0 % p) % p := by
  have hcount : (data.length + 2 * h - 1) / (2 * h) = B := by
    rw [hlen]
    have h0 : 0 < 2 * h := by omega
    have : B * (2 * h) + 2 * h - 1 = (2 * h - 1) + (2 * h) * B := by
      have := Nat.mul_comm B (2 * h); omega
    rw [this, Nat.add_mul_div_left _ _ h0, Nat.div_eq_of_lt (by omega), Nat.zero_add]
  have hf := stage_fold p tab h B data hh hp0 hp32 htab hdata hlen B (le_refl _)
  simp only at hf
  unfold stage
  simp only [hcount]
  exact ⟨hf.1, hf.2.1, hf.2.2.1⟩

end NTT
namespace NTT

theorem sum_range_two_mul {F : Type*} [CommRing F] (f : Nat → F) (N : Nat) :
    ∑ J ∈ Finset.range (2 * N), f J = ∑ j ∈ Finset.range N, (f (2 * j) + f (2 * j + 1)) := by
  induction N with
  | zero => simp
  | succ N ih =>
    have : 2 * (N + 1) = 2 * N + 1 + 1 := by ring
    rw [this, Finset.sum_range_succ, Finset.sum_range_succ, ih, Finset.sum_range_succ]
    ring

/-- One decimation-in-time stage turns the transforms of length `2^s` of the
`2^(r+1)` interleaved subsequences into the transforms of length `2^(s+1)` of
the `2^r` subsequences. -/
theorem dft_stage_step {F : Type*} [CommRing F] (x : Nat → F) (ζ : F) (s r : Nat)
    (hζ : ζ ^ (2 ^ (s + r)) = -1) (d e : Nat → F)
    (hd : ∀ b k, b < 2 ^ (r + 1) → k < 2 ^ s →
      d (b * 2 ^ s + k)
        = ∑ j ∈ Finset.range (2 ^ s), x (j * 2 ^ (r + 1) + bitRev (r + 1) b) * ζ ^ (2 ^ (r + 1) * j * k))
    (hstep : ∀ b k, b < 2 ^ r → k < 2 ^ s →
      e (b * (2 * 2 ^ s) + k)
        = d (b * (2 * 2 ^ s) + k) + d (b * (2 * 2 ^ s) + k + 2 ^ s) * ζ ^ (2 ^ r * k) ∧
      e (b * (2 * 2 ^ s) + k + 2 ^ s)
        = d (b * (2 * 2 ^ s) + k) - d (b * (2 * 2 ^ s) + k + 2 ^ s) * ζ ^ (2 ^ r * k)) :
    ∀ b k, b < 2 ^ r → k < 2 ^ (s + 1) →
      e (b * 2 ^ (s + 1) + k)
        = ∑ j ∈ Finset.range (2 ^ (s + 1)), x (j * 2 ^ r + bitRev r b) * ζ ^ (2 ^ r * j * k) := by
  intro b k hb hk
  have hone : ζ ^ (2 ^ (s + r + 1)) = 1 := by
    rw [pow_succ 2 (s + r), pow_mul, hζ]; norm_num
  have hb0 : 2 * b < 2 ^ (r + 1) := by rw [pow_succ]; omega
  have hb1 : 2 * b + 1 < 2 ^ (r + 1) := by rw [pow_succ]; omega
  have hs2 : (2 : Nat) ^ (s + 1) = 2 * 2 ^ s := by rw [pow_succ]; ring
  have i0 : ∀ k0, b * (2 * 2 ^ s) + k0 = (2 * b) * 2 ^ s + k0 := fun k0 => by ring
  have i1 : ∀ k0, b * (2 * 2 ^ s) + k0 + 2 ^ s = (2 * b + 1) * 2 ^ s + k0 := fun k0 => by ring
  have hpe : ∀ j k0 : Nat, ζ ^ (2 ^ r * (2 * j) * (k0 + 2 ^ s)) = ζ ^ (2 ^ (r + 1) * j * k0) := by
    intro j k0
    have : 2 ^ r * (2 * j) * (k0 + 2 ^ s) = 2 ^ (r + 1) * j * k0 + 2 ^ (s + r + 1) * j := by
      rw [pow_succ, pow_succ, pow_add]; ring
    rw [this, pow_add, pow_mul _ _ j, hone, one_pow, mul_one]
  have hhalf : ζ ^ (2 ^ r * 2 ^ s) = -1 := by
    rw [← pow_add, Nat.add_comm]; exact hζ
  rw [hs2, sum_range_two_mul]
  by_cases hks : k < 2 ^ s
  · rw [(hstep b k hb hks).1, i1, i0, hd _ _ hb0 hks, hd _ _ hb1 hks, bitRev_double,
      bitRev_double_succ, Finset.sum_mul, ← Finset.sum_add_distrib]
    apply Finset.sum_congr rfl
    intro j _
    have a0 : 2 * j * 2 ^ r + bitRev r b = j * 2 ^ (r + 1) + bitRev r b := by
      rw [pow_succ]; ring
    have a1 : (2 * j + 1) * 2 ^ r + bitRev r b = j * 2 ^ (r + 1) + (2 ^ r + bitRev r b) := by
      rw [pow_succ]; ring
    have p0 : 2 ^ r * (2 * j) * k = 2 ^ (r + 1) * j * k := by rw [pow_succ]; ring
    have p1 : 2 ^ r * (2 * j + 1) * k = 2 ^ (r + 1) * j * k + 2 ^ r * k := by
      rw [pow_succ]; ring
    rw [a0, a1, p0, p1, pow_add ζ]
    ring
  · obtain ⟨k0, rfl⟩ : ∃ k0, k = k0 + 2 ^ s := ⟨k - 2 ^ s, by omega⟩
    have hk0 : k0 < 2 ^ s := by rw [hs2] at hk; omega
    have hidx : b * (2 * 2 ^ s) + (k0 + 2 ^ s) = b * (2 * 2 ^ s) + k0 + 2 ^ s := by ring
    rw [hidx, (hstep b k0 hb hk0).2, i1, i0, hd _ _ hb0 hk0, hd _ _ hb1 hk0, bitRev_double,
      bitRev_double_succ, Finset.sum_mul, ← Finset.sum_sub_distrib]
    apply Finset.sum_congr rfl
    intro j _
    have a0 : 2 * j * 2 ^ r + bitRev r b = j * 2 ^ (r + 1) + bitRev r b := by
      rw [pow_succ]; ring
    have a1 : (2 * j + 1) * 2 ^ r + bitRev r b = j * 2 ^ (r + 1) + (2 ^ r + bitRev r b) := by
      rw [pow_succ]; ring
    have p1 : 2 ^ r * (2 * j + 1) * (k0 + 2 ^ s)
        = 2 ^ r * (2 * j) * (k0 + 2 ^ s) + (2 ^ r * k0 + 2 ^ r * 2 ^ s) := by ring
    rw [a0, a1, p1, pow_add ζ, pow_add ζ, hpe, hhalf]
    ring

end NTT
namespace NTT

theorem cast_add_mod (p a b c : Nat) :
    (((a + b * c % p) % p : Nat) : ZMod p) = (a : ZMod p) + (b : ZMod p) * (c : ZMod p) := by
  rw [ZMod.natCast_mod, Nat.cast_add, ZMod.natCast_mod, Nat.cast_mul]

theorem cast_sub_mod (p a b c : Nat) (hp : 0 < p) :
    (((a + p - b * c % p) % p : Nat) : ZMod p) = (a : ZMod p) - (b : ZMod p) * (c : ZMod p) := by
  have hv : b * c % p ≤ a + p :=
    le_of_lt (lt_of_lt_of_le (Nat.mod_lt _ hp) (Nat.le_add_left _ _))
  rw [ZMod.natCast_mod, Nat.cast_sub hv, Nat.cast_add, ZMod.natCast_self, ZMod.natCast_mod,
    Nat.cast_mul]
  ring

/-- The loop over `len`, for any kernel `κ` that one butterfly stage on the table
`tab` advances: the result is the transform of the input with the kernel
`κ (K + 1) 0`. -/
theorem stages_gen (p : Nat) (hp0 : 0 < p) (hp32 : p < 2 ^ 32) (tab : List Nat)
    (htab64 : ∀ a, tab.getD a 0 < 2 ^ 64) (K : Nat) (hK : K < 62) (x : Nat → ZMod p)
    (κ : Nat → Nat → Nat → Nat → ZMod p)
    (hstep : ∀ s r (d e : Nat → ZMod p), s + r = K →
      (∀ b k, b < 2 ^ (r + 1) → k < 2 ^ s →
        d (b * 2 ^ s + k)
          = ∑ j ∈ Finset.range (2 ^ s), x (j * 2 ^ (r + 1) + bitRev (r + 1) b) * κ s (r + 1) j k) →
      (∀ b k, b < 2 ^ r → k < 2 ^ s →
        e (b * (2 * 2 ^ s) + k)
          = d (b * (2 * 2 ^ s) + k) + d (b * (2 * 2 ^ s) + k + 2 ^ s) *
              ((tab.getD (tab.length / (2 * 2 ^ s) * k) 0 : Nat) : ZMod p) ∧
        e (b * (2 * 2 ^ s) + k + 2 ^ s)
          = d (b * (2 * 2 ^ s) + k) - d (b * (2 * 2 ^ s) + k + 2 ^ s) *
              ((tab.getD (tab.length / (2 * 2 ^ s) * k) 0 : Nat) : ZMod p)) →
      ∀ b k, b < 2 ^ r → k < 2 ^ (s + 1) →
        e (b * 2 ^ (s + 1) + k)
          = ∑ j ∈ Finset.range (2 ^ (s + 1)), x (j * 2 ^ r + bitRev r b) * κ (s + 1) r j k) :
    ∀ r s fuel data, s + r = K + 1 → r ≤ fuel → data.length = 2 ^ (K + 1) →
      (∀ t, data.getD t 0 < p) →
      (∀ b k, b < 2 ^ r → k < 2 ^ s →
        ((data.getD (b * 2 ^ s + k) 0 : Nat) : ZMod p)
          = ∑ j ∈ Finset.range (2 ^ s), x (j * 2 ^ r + bitRev r b) * κ s r j k) →
      ∃ out, stages p tab fuel (2 ^ (s + 1)) data = .ok out ∧ out.length = 2 ^ (K + 1) ∧
        (∀ t, out.getD t 0 < p) ∧
        ∀ k, k < 2 ^ (K + 1) →
          ((out.getD k 0 : Nat) : ZMod p)
            = ∑ j ∈ Finset.range (2 ^ (K + 1)), x j * κ (K + 1) 0 j k := by
  intro r
  induction r with
  | zero =>
    intro s fuel data hs _ hlen hdata hinv
    have hsK : s = K + 1 := by omega
    subst hsK
    have hgt : ¬ 2 ^ (K + 1 + 1) ≤ data.length := by
      rw [hlen, pow_succ 2 (K + 1)]
      have : 0 < 2 ^ (K + 1) := by positivity
      omega
    refine ⟨data, ?_, hlen, hdata, ?_⟩
    · cases fuel with
      | zero => unfold stages; rw [if_neg hgt]
      | succ f => unfold stages; rw [if_neg hgt]
    · intro k hk
      have := hinv 0 k (by norm_num) hk
      simpa [bitRev] using this
  | succ r ih =>
    intro s fuel data hs hfuel hlen hdata hinv
    obtain ⟨f, rfl⟩ : ∃ f, fuel = f + 1 := ⟨fuel - 1, by omega⟩
    have hsr : s + r = K := by omega
    have hle : 2 ^ (s + 1) ≤ data.length := by
      rw [hlen]; exact Nat.pow_le_pow_right (by norm_num) (by omega)
    have hs2 : (2 : Nat) ^ (s + 1) = 2 * 2 ^ s := by rw [pow_succ]; ring
    have hB : data.length = 2 ^ r * (2 * 2 ^ s) := by
      rw [hlen, ← hs2, ← pow_add]; congr 1; omega
    have hw : wrapU64 (2 ^ (s + 1) * 2) = 2 ^ (s + 1 + 1) := by
      rw [← pow_succ]
      apply wrapU64_of_lt
      exact Nat.pow_lt_pow_right (by norm_num) (by omega)
    unfold stages
    rw [if_pos hle, hw, hs2]
    obtain ⟨sl, slt, sform⟩ :=
      stage_spec p tab (2 ^ s) (2 ^ r) data (by positivity) hp0 hp32 htab64 hdata hB
    apply ih (s + 1) f (stage p tab (2 * 2 ^ s) data) (by omega) (by omega) (sl.trans hlen) slt
    apply hstep s r
      (fun t => ((data.getD t 0 : Nat) : ZMod p))
      (fun t => (((stage p tab (2 * 2 ^ s) data).getD t 0 : Nat) : ZMod p)) hsr hinv
    intro b k hb hk
    obtain ⟨f1, f2⟩ := sform b k hb hk
    refine ⟨?_, ?_⟩
    · show (((stage p tab (2 * 2 ^ s) data).getD (b * (2 * 2 ^ s) + k) 0 : Nat) : ZMod p) = _
      rw [f1, cast_add_mod]
    · show (((stage p tab (2 * 2 ^ s) data).getD (b * (2 * 2 ^ s) + k + 2 ^ s) 0 : Nat) : ZMod p)
        = _
      rw [f2, cast_sub_mod _ _ _ _ hp0]

/-- The size check, the bit reversal and the loop over `len` of `forward` and
`inverse`, for any kernel `κ` that one butterfly stage on the table `tab`
advances. -/
theorem transform_gen (p : Nat) (hp0 : 0 < p) (hp32 : p < 2 ^ 32) (tab : List Nat)
    (htab64 : ∀ a, tab.getD a 0 < 2 ^ 64) (K : Nat) (hK : K < 62)
    (data : List Nat) (hdl : data.length = 2 ^ (K + 1)) (hdata : ∀ t, data.getD t 0 < p)
    (κ : Nat → Nat → Nat → Nat → ZMod p) (hκ0 : κ 0 (K + 1) 0 0 = 1)
    (hstep : ∀ s r (d e : Nat → ZMod p), s + r = K →
      (∀ b k, b < 2 ^ (r + 1) → k < 2 ^ s →
        d (b * 2 ^ s + k)
          = ∑ j ∈ Finset.range (2 ^ s),
              (fun t => ((data.getD t 0 : Nat) : ZMod p)) (j * 2 ^ (r + 1) + bitRev (r + 1) b)
                * κ s (r + 1) j k) →
      (∀ b k, b < 2 ^ r → k < 2 ^ s →
        e (b * (2 * 2 ^ s) + k)
          = d (b * (2 * 2 ^ s) + k) + d (b * (2 * 2 ^ s) + k + 2 ^ s) *
              ((tab.getD (tab.length / (2 * 2 ^ s) * k) 0 : Nat) : ZMod p) ∧
        e (b * (2 * 2 ^ s) + k + 2 ^ s)
          = d (b * (2 * 2 ^ s) + k) - d (b * (2 * 2 ^ s) + k + 2 ^ s) *
              ((tab.getD (tab.length / (2 * 2 ^ s) * k) 0 : Nat) : ZMod p)) →
      ∀ b k, b < 2 ^ r → k < 2 ^ (s + 1) →
        e (b * 2 ^ (s + 1) + k)
          = ∑ j ∈ Finset.range (2 ^ (s + 1)),
              (fun t => ((data.getD t 0 : Nat) : ZMod p)) (j * 2 ^ r + bitRev r b)
                * κ (s + 1) r j k) :
    ∃ out, transform p tab data = .ok out ∧ out.length = 2 ^ (K + 1) ∧
      (∀ t, out.getD t 0 < p) ∧
      ∀ k, k < 2 ^ (K + 1) →
        ((out.getD k 0 : Nat) : ZMod p)
          = ∑ j ∈ Finset.range (2 ^ (K + 1)),
              ((data.getD j 0 : Nat) : ZMod p) * κ (K + 1) 0 j k := by
  obtain ⟨bl, bval⟩ := bitReverse_spec K data (by omega) hdl
  have hblt : ∀ t, (bitReverse data).getD t 0 < p := by
    intro t
    by_cases ht : t < 2 ^ (K + 1)
    · rw [bval t ht]; exact hdata _
    · rw [List.getD_eq_default _ _ (by omega)]; exact hp0
  have hn1 : 1 < 2 ^ (K + 1) := Nat.one_lt_two_pow (by omega)
  have hn64 : 2 ^ (K + 1) < 2 ^ 64 := Nat.pow_lt_pow_right (by norm_num) (by omega)
  have hcheck : ¬ (data.length = 1 ∨
      data.length &&& wrapU64 (data.length + 18446744073709551616 - 1) ≠ 0) := by
    rw [hdl]
    have hw : wrapU64 (2 ^ (K + 1) + 18446744073709551616 - 1) = 2 ^ (K + 1) - 1 := by
      unfold wrapU64
      have : 2 ^ (K + 1) + 18446744073709551616 - 1
          = (2 ^ (K + 1) - 1) + 18446744073709551616 := by omega
      rw [this, Nat.add_mod_right]
      exact Nat.mod_eq_of_lt (by norm_num at hn64 ⊢; omega)
    rw [hw, Nat.and_pow_two_sub_one_eq_mod, Nat.mod_self]
    intro h
    rcases h with h | h
    · omega
    · exact h rfl
  have hst := stages_gen p hp0 hp32 tab htab64 K hK
    (fun t => ((data.getD t 0 : Nat) : ZMod p)) κ hstep
    (K + 1) 0 64 (bitReverse data) (by omega) (by omega) bl hblt
    (by
      intro b k hb hk
      have hk0 : k = 0 := by simpa using hk
      subst hk0
      have e : b * 2 ^ 0 + 0 = b := by simp
      rw [e, bval b hb]
      simp [hκ0])
  have e2 : (2 : Nat) ^ (0 + 1) = 2 := by norm_num
  rw [e2] at hst
  obtain ⟨out, hout, hol, holt, hoval⟩ := hst
  refine ⟨out, ?_, hol, holt, hoval⟩
  unfold transform
  simp only
  rw [if_neg hcheck]
  exact hout

theorem transform_spec (p : Nat) (hp0 : 0 < p) (hp32 : p < 2 ^ 32) (tab : List Nat)
    (htab64 : ∀ a, tab.getD a 0 < 2 ^ 64) (v K : Nat) (hKv : K + 1 ≤ v) (hK : K < 62)
    (hlen : tab.length = 2 ^ v) (ω : ZMod p) (hω : ω ^ (2 ^ (v - 1)) = -1)
    (htab : ∀ i, i < 2 ^ v → ((tab.getD i 0 : Nat) : ZMod p) = ω ^ i)
    (data : List Nat) (hdl : data.length = 2 ^ (K + 1)) (hdata : ∀ t, data.getD t 0 < p) :
    ∃ out, transform p tab data = .ok out ∧ out.length = 2 ^ (K + 1) ∧
      (∀ t, out.getD t 0 < p) ∧
      ∀ k, k < 2 ^ (K + 1) →
        ((out.getD k 0 : Nat) : ZMod p)
          = ∑ j ∈ Finset.range (2 ^ (K + 1)),
              ((data.getD j 0 : Nat) : ZMod p) * (ω ^ (2 ^ (v - (K + 1)))) ^ (j * k) := by
  have hζ : (ω ^ (2 ^ (v - (K + 1)))) ^ (2 ^ K) = -1 := by
    rw [← pow_mul, ← pow_add]
    have : v - (K + 1) + K = v - 1 := by omega
    rw [this]; exact hω
  have htab2 : ∀ s r k, s + r = K → k < 2 ^ s →
      ((tab.getD (tab.length / (2 * 2 ^ s) * k) 0 : Nat) : ZMod p)
        = (ω ^ (2 ^ (v - (K + 1)))) ^ (2 ^ r * k) := by
    intro s r k hsr hk
    have hdiv : tab.length / (2 * 2 ^ s) = 2 ^ (v - (s + 1)) := by
      rw [hlen, ← pow_succ', Nat.pow_div (by omega) (by norm_num)]
    have hidx : 2 ^ (v - (s + 1)) * k < 2 ^ v := by
      calc 2 ^ (v - (s + 1)) * k < 2 ^ (v - (s + 1)) * 2 ^ s :=
            Nat.mul_lt_mul_of_pos_left hk (by positivity)
        _ = 2 ^ (v - (s + 1) + s) := by rw [pow_add]
        _ ≤ 2 ^ v := Nat.pow_le_pow_right (by norm_num) (by omega)
    rw [hdiv, htab _ hidx, ← pow_mul, ← Nat.mul_assoc, ← pow_add]
    have : v - (K + 1) + r = v - (s + 1) := by omega
    rw [this]
  obtain ⟨out, hout, hol, holt, hoval⟩ := transform_gen p hp0 hp32 tab htab64 K hK data hdl hdata
    (fun _ r j k => (ω ^ (2 ^ (v - (K + 1)))) ^ (2 ^ r * j * k)) (by simp)
    (by
      intro s r d e hsr hd hbf
      have hbf2 : ∀ b k, b < 2 ^ r → k < 2 ^ s →
          e (b * (2 * 2 ^ s) + k)
            = d (b * (2 * 2 ^ s) + k) + d (b * (2 * 2 ^ s) + k + 2 ^ s) *
                (ω ^ (2 ^ (v - (K + 1)))) ^ (2 ^ r * k) ∧
          e (b * (2 * 2 ^ s) + k + 2 ^ s)
            = d (b * (2 * 2 ^ s) + k) - d (b * (2 * 2 ^ s) + k + 2 ^ s) *
                (ω ^ (2 ^ (v - (K + 1)))) ^ (2 ^ r * k) := by
        intro b k hb hk
        rw [← htab2 s r k hsr hk]
        exact hbf b k hb hk
      exact dft_stage_step (fun t => ((data.getD t 0 : Nat) : ZMod p))
        (ω ^ (2 ^ (v - (K + 1)))) s r (by rw [hsr]; exact hζ) d e hd hbf2)
  refine ⟨out, hout, hol, holt, ?_⟩
  intro k hk
  rw [hoval k hk]
  apply Finset.sum_congr rfl
  intro j _
  simp

end NTT
namespace NTT

theorem geom_sum_root {F : Type*} [Field F] (y : F) (n : Nat) (hy : y ≠ 1) (hyn : y ^ n = 1) :
    ∑ j ∈ Finset.range n, y ^ j = 0 := by
  have h := mul_geom_sum y n
  rw [hyn, sub_self] at h
  exact (mul_eq_zero.1 h).resolve_left (sub_ne_zero.2 hy)

/-- Inversion of the discrete Fourier transform over a field: for `ζ` of exact
order `n`, transforming with `ζ` and then with `ζ⁻¹` multiplies by `n`. -/
theorem dft_inversion {F : Type*} [Field F] (ζ : F) (n : Nat) (hζn : ζ ^ n = 1)
    (hprim : ∀ d, 0 < d → d < n → ζ ^ d ≠ 1) (x : Nat → F) (i : Nat) (hi : i < n) :
    ∑ k ∈ Finset.range n, (∑ j ∈ Finset.range n, x j * ζ ^ (j * k)) * (ζ⁻¹) ^ (k * i)
      = (n : F) * x i := by
  have hζ0 : ζ ≠ 0 := by
    intro h
    rw [h, zero_pow (by omega)] at hζn
    exact zero_ne_one hζn
  have hterm : ∀ j k : Nat, x j * ζ ^ (j * k) * (ζ⁻¹) ^ (k * i) = x j * (ζ ^ j * (ζ⁻¹) ^ i) ^ k := by
    intro j k
    rw [mul_pow, ← pow_mul, ← pow_mul, Nat.mul_comm i k, mul_assoc]
  simp_rw [Finset.sum_mul, hterm]
  rw [Finset.sum_comm]
  simp_rw [← Finset.mul_sum]
  rw [Finset.sum_eq_single i]
  · have h1 : ζ ^ i * (ζ⁻¹) ^ i = 1 := by
      rw [← mul_pow, mul_inv_cancel₀ hζ0, one_pow]
    rw [h1]
    simp [mul_comm]
  · intro j hj hji
    have hjn : j < n := Finset.mem_range.1 hj
    have hne : ζ ^ j * (ζ⁻¹) ^ i ≠ 1 := by
      intro h
      have hij : ζ ^ j = ζ ^ i := by
        have h2 := congrArg (fun z => z * ζ ^ i) h
        simp only at h2
        rw [mul_assoc, ← mul_pow, inv_mul_cancel₀ hζ0, one_pow, mul_one, one_mul] at h2
        exact h2
      rcases Nat.lt_or_gt_of_ne hji with hlt | hgt
      · apply hprim (i - j) (by omega) (by omega)
        have h3 : ζ ^ i = ζ ^ j * ζ ^ (i - j) := by rw [← pow_add]; congr 1; omega
        rw [h3] at hij
        have h4 := mul_left_cancel₀ (pow_ne_zero j hζ0) (hij.symm.trans (mul_one _).symm)
        exact h4
      · apply hprim (j - i) (by omega) (by omega)
        have h3 : ζ ^ j = ζ ^ i * ζ ^ (j - i) := by rw [← pow_add]; congr 1; omega
        rw [h3] at hij
        have h4 := mul_left_cancel₀ (pow_ne_zero i hζ0) (hij.trans (mul_one _).symm)
        exact h4
    have hpow : (ζ ^ j * (ζ⁻¹) ^ i) ^ n = 1 := by
      rw [mul_pow, ← pow_mul, ← pow_mul, Nat.mul_comm j n, Nat.mul_comm i n, pow_mul, pow_mul,
        hζn, inv_pow, hζn]
      simp
    rw [geom_sum_root _ n hne hpow, mul_zero]
  · intro h
    exact absurd (Finset.mem_range.2 hi) h

theorem create_spec (p g : Nat) (hp : p.Prime) (hp32 : p < 2 ^ 32) :
    ∃ v, 2 ^ v ∣ p - 1 ∧ (maxNLoop 64 1 (p - 1)).1 = 2 ^ v ∧
      create p g = .ok ⟨p, g, fillTable p (g ^ ((p - 1) / 2 ^ v) % p) (2 ^ v),
        fillTable p ((g ^ ((p - 1) / 2 ^ v) % p) ^ (p - 2) % p) (2 ^ v)⟩ := by
  have h2 := hp.two_le
  have hp64 : p < 2 ^ 64 := lt_trans hp32 (by norm_num)
  obtain ⟨hdvd, v, hv⟩ := maxNLoop_spec (p - 1) (by omega) (by omega) 64 1 (p - 1)
    (Nat.one_mul _) ⟨0, rfl⟩
  refine ⟨v, hv ▸ hdvd, hv, ?_⟩
  unfold create
  rw [isPrime_prime p hp (lt_trans hp32 (by norm_num))]
  simp only [hv]
  have he : (p - 1) / 2 ^ v < 2 ^ 64 := lt_of_le_of_lt (Nat.div_le_self _ _) (by omega)
  rw [modPow_spec g _ p (by omega) hp64 he, modInverse_spec _ p (by omega) hp64]

end NTT
namespace NTT

theorem fillTable_lt (m r M : Nat) (hm : 1 < m) (hm32 : m < 2 ^ 32) (hr : r < m) (hM : 0 < M) :
    ∀ a, (fillTable m r M).getD a 0 < m := by
  intro a
  obtain ⟨hl, hv⟩ := fillTable_spec m r M hm hm32 hr hM
  by_cases ha : a < M
  · rw [hv a ha]; exact Nat.mod_lt _ (by omega)
  · rw [List.getD_eq_default _ _ (by omega)]; omega

theorem getD_lt_of_forall (p : Nat) (hp0 : 0 < p) (data : List Nat)
    (hdata : ∀ x ∈ data, x < p) : ∀ t, data.getD t 0 < p := by
  intro t
  by_cases ht : t < data.length
  · rw [List.getD_eq_getElem _ _ ht]; exact hdata _ (List.getElem_mem ht)
  · rw [List.getD_eq_default _ _ (by omega)]; exact hp0

/-- The last loop of `inverse`: multiplying by `modInverse(n, modulus)` undoes a
factor `n` that is a unit modulo the prime `p`. -/
theorem scale_back (p n : Nat) (hp : p.Prime) (hp32 : p < 2 ^ 32) (z data : List Nat)
    (hn0 : ((n : Nat) : ZMod p) ≠ 0) (zl : z.length = n) (hlen : data.length = n)
    (zlt : ∀ t, z.getD t 0 < p) (hdlt : ∀ t, data.getD t 0 < p)
    (hval : ∀ k, k < n →
      ((z.getD k 0 : Nat) : ZMod p) = ((n : Nat) : ZMod p) * ((data.getD k 0 : Nat) : ZMod p)) :
    z.map (fun x => wrapU128 (x * modInverse n p) % p) = data := by
  haveI : Fact p.Prime := ⟨hp⟩
  have h2 := hp.two_le
  have hp0 : 0 < p := by omega
  have hp64 : p < 2 ^ 64 := lt_trans hp32 (by norm_num)
  have hinvN : ((modInverse n p : Nat) : ZMod p) = (((n : Nat) : ZMod p))⁻¹ := by
    rw [modInverse_spec _ p (by omega) hp64, ZMod.natCast_mod, Nat.cast_pow]
    apply eq_inv_of_mul_eq_one_left
    rw [← pow_succ]
    have : p - 2 + 1 = p - 1 := by omega
    rw [this]; exact ZMod.pow_card_sub_one_eq_one hn0
  have hinvNlt : modInverse n p < p := by
    rw [modInverse_spec _ p (by omega) hp64]; exact Nat.mod_lt _ hp0
  apply List.ext_getElem
  · rw [List.length_map, zl, hlen]
  · intro k hk1 hk2
    have hk : k < n := by rw [hlen] at hk2; exact hk2
    have hkz : k < z.length := by rw [zl]; exact hk
    rw [List.getElem_map]
    have hzk : z[k] = z.getD k 0 := (List.getD_eq_getElem _ _ _).symm
    have hdk : data[k] = data.getD k 0 := (List.getD_eq_getElem _ _ _).symm
    rw [hzk, hdk]
    have hprod : wrapU128 (z.getD k 0 * modInverse n p) = z.getD k 0 * modInverse n p := by
      apply wrapU128_of_lt
      calc z.getD k 0 * modInverse n p < 2 ^ 64 * 2 ^ 64 :=
            Nat.mul_lt_mul'' (lt_trans (zlt k) hp64) (lt_trans hinvNlt hp64)
        _ = 2 ^ 128 := by norm_num
    rw [hprod]
    have hcast : (((z.getD k 0 * modInverse n p % p : Nat)) : ZMod p)
        = ((data.getD k 0 : Nat) : ZMod p) := by
      rw [ZMod.natCast_mod, Nat.cast_mul, hinvN, hval k hk, mul_comm, ← mul_assoc,
        inv_mul_cancel₀ hn0, one_mul]
    have hmod := (ZMod.natCast_eq_natCast_iff' _ _ p).1 hcast
    rw [Nat.mod_mod, Nat.mod_eq_of_lt (hdlt k)] at hmod
    exact hmod

/-- The round trip on the tables the constructor builds, for a length `2^(K+1)`
that does not exceed the table length `2^v`. -/
theorem round_trip_core (p g v K : Nat) (data : List Nat) (hp : p.Prime) (hp32 : p < 2 ^ 32)
    (hg : IsPrimitiveRootMod p g) (hv : 2 ^ v ∣ p - 1) (hKv : K + 1 ≤ v)
    (hlen : data.length = 2 ^ (K + 1)) (hdata : ∀ x ∈ data, x < p) :
    ∃ y, transform p (fillTable p (g ^ ((p - 1) / 2 ^ v) % p) (2 ^ v)) data = .ok y ∧
      y.length = 2 ^ (K + 1) ∧
      ∃ z, transform p (fillTable p ((g ^ ((p - 1) / 2 ^ v) % p) ^ (p - 2) % p) (2 ^ v)) y
          = .ok z ∧
        z.map (fun x => wrapU128 (x * modInverse (2 ^ (K + 1)) p) % p) = data := by
  haveI : Fact p.Prime := ⟨hp⟩
  have h2 := hp.two_le
  have hp0 : 0 < p := by omega
  have hp64 : p < 2 ^ 64 := lt_trans hp32 (by norm_num)
  have hMpos : 0 < 2 ^ v := by positivity
  have hp1 : 0 < p - 1 := by omega
  have hMle : 2 ^ v ≤ p - 1 := Nat.le_of_dvd hp1 hv
  have hnM : 2 ^ (K + 1) ≤ 2 ^ v := Nat.pow_le_pow_right (by norm_num) hKv
  have hK : K < 62 := by
    by_contra hge
    have : 2 ^ 32 ≤ 2 ^ (K + 1) := Nat.pow_le_pow_right (by norm_num) (by omega)
    omega
  -- the generator and the root of unity in the field
  set e := (p - 1) / 2 ^ v with he
  have hev : e * 2 ^ v = p - 1 := Nat.div_mul_cancel hv
  have he0 : 0 < e := by
    rcases Nat.eq_zero_or_pos e with h | h
    · rw [h] at hev; omega
    · exact h
  set γ : ZMod p := (g : ZMod p) with hγ
  have hγ0 : γ ≠ 0 := by
    intro h
    apply hg.1
    have := (ZMod.natCast_zmod_eq_zero_iff_dvd g p).1 h
    exact Nat.mod_eq_zero_of_dvd this
  have hγne : ∀ k, 0 < k → k < p - 1 → γ ^ k ≠ 1 := by
    intro k hk0 hk1 h
    apply hg.2 k hk1 hk0
    have h1 : ((g ^ k : Nat) : ZMod p) = ((1 : Nat) : ZMod p) := by
      rw [Nat.cast_pow, Nat.cast_one]; exact h
    have h2 := (ZMod.natCast_eq_natCast_iff' (g ^ k) 1 p).1 h1
    rw [h2]; exact Nat.mod_eq_of_lt (by omega)
  have hγp : γ ^ (p - 1) = 1 := ZMod.pow_card_sub_one_eq_one hγ0
  set root := g ^ e % p with hroot
  have hrootlt : root < p := Nat.mod_lt _ hp0
  set ω : ZMod p := γ ^ e with hωdef
  have hrootc : ((root : Nat) : ZMod p) = ω := by
    rw [hroot, ZMod.natCast_mod, Nat.cast_pow]
  obtain ⟨v1, rfl⟩ : ∃ v1, v = v1 + 1 := ⟨v - 1, by omega⟩
  have hhalf2 : 2 * (e * 2 ^ v1) = p - 1 := by rw [← hev, pow_succ]; ring
  have hω : ω ^ (2 ^ (v1 + 1 - 1)) = -1 := by
    rw [Nat.add_sub_cancel, hωdef, ← pow_mul]
    have hsq : (γ ^ (e * 2 ^ v1)) ^ 2 = 1 := by
      rw [← pow_mul, Nat.mul_comm, hhalf2]; exact hγp
    rcases sq_eq_one_iff.1 hsq with h | h
    · exact absurd h (hγne _ (Nat.mul_pos he0 (by positivity)) (by omega))
    · exact h
  have hωM : ω ^ (2 ^ (v1 + 1)) = 1 := by
    rw [Nat.add_sub_cancel] at hω
    rw [pow_succ 2 v1, pow_mul, hω]; norm_num
  have hω0 : ω ≠ 0 := pow_ne_zero _ hγ0
  have hωp : ω ^ (p - 1) = 1 := ZMod.pow_card_sub_one_eq_one hω0
  set iroot := root ^ (p - 2) % p with hiroot
  have hirootlt : iroot < p := Nat.mod_lt _ hp0
  have hirootc : ((iroot : Nat) : ZMod p) = ω⁻¹ := by
    rw [hiroot, ZMod.natCast_mod, Nat.cast_pow, hrootc]
    apply eq_inv_of_mul_eq_one_left
    rw [← pow_succ]
    have : p - 2 + 1 = p - 1 := by omega
    rw [this]; exact hωp
  have hωi : (ω⁻¹) ^ (2 ^ (v1 + 1 - 1)) = -1 := by
    rw [inv_pow, hω]; norm_num
  -- the two tables
  obtain ⟨rl, rv⟩ := fillTable_spec p root (2 ^ (v1 + 1)) (by omega) hp32 hrootlt hMpos
  obtain ⟨il, iv⟩ := fillTable_spec p iroot (2 ^ (v1 + 1)) (by omega) hp32 hirootlt hMpos
  have rlt := fillTable_lt p root (2 ^ (v1 + 1)) (by omega) hp32 hrootlt hMpos
  have ilt := fillTable_lt p iroot (2 ^ (v1 + 1)) (by omega) hp32 hirootlt hMpos
  have rtab : ∀ i, i < 2 ^ (v1 + 1) →
      (((fillTable p root (2 ^ (v1 + 1))).getD i 0 : Nat) : ZMod p) = ω ^ i := by
    intro i hi
    rw [rv i hi, ZMod.natCast_mod, Nat.cast_pow, hrootc]
  have itab : ∀ i, i < 2 ^ (v1 + 1) →
      (((fillTable p iroot (2 ^ (v1 + 1))).getD i 0 : Nat) : ZMod p) = (ω⁻¹) ^ i := by
    intro i hi
    rw [iv i hi, ZMod.natCast_mod, Nat.cast_pow, hirootc]
  have hdlt := getD_lt_of_forall p hp0 data hdata
  -- forward
  obtain ⟨y, hy, yl, ylt, yval⟩ :=
    transform_spec p hp0 hp32 _ (fun a => lt_trans (rlt a) hp64) (v1 + 1) K hKv hK rl ω hω rtab
      data hlen hdlt
  -- inverse
  obtain ⟨z, hz, zl, zlt, zval⟩ :=
    transform_spec p hp0 hp32 _ (fun a => lt_trans (ilt a) hp64) (v1 + 1) K hKv hK il (ω⁻¹) hωi
      itab y yl ylt
  refine ⟨y, hy, yl, z, hz, ?_⟩
  -- the order of ζ
  set ζ : ZMod p := ω ^ (2 ^ (v1 + 1 - (K + 1))) with hζdef
  have hpowKv : 2 ^ (v1 + 1 - (K + 1)) * 2 ^ (K + 1) = 2 ^ (v1 + 1) := by
    rw [← pow_add]; congr 1; omega
  have hζn : ζ ^ (2 ^ (K + 1)) = 1 := by
    rw [hζdef, ← pow_mul, hpowKv]; exact hωM
  have hζprim : ∀ d, 0 < d → d < 2 ^ (K + 1) → ζ ^ d ≠ 1 := by
    intro d hd0 hd1
    rw [hζdef, hωdef, ← pow_mul, ← pow_mul]
    apply hγne
    · exact Nat.mul_pos he0 (Nat.mul_pos (by positivity) hd0)
    · calc e * (2 ^ (v1 + 1 - (K + 1)) * d) < e * (2 ^ (v1 + 1 - (K + 1)) * 2 ^ (K + 1)) :=
            Nat.mul_lt_mul_of_pos_left (Nat.mul_lt_mul_of_pos_left hd1 (by positivity)) he0
        _ = e * 2 ^ (v1 + 1) := by rw [hpowKv]
        _ = p - 1 := hev
  have hζi : (ω⁻¹) ^ (2 ^ (v1 + 1 - (K + 1))) = ζ⁻¹ := by rw [inv_pow]
  -- the factor 1 / n
  have hnp : 2 ^ (K + 1) < p := by omega
  have hn0 : ((2 ^ (K + 1) : Nat) : ZMod p) ≠ 0 := by
    intro h
    have hd := (ZMod.natCast_zmod_eq_zero_iff_dvd (2 ^ (K + 1)) p).1 h
    have := Nat.le_of_dvd (by positivity) hd
    omega
  apply scale_back p (2 ^ (K + 1)) hp hp32 z data hn0 zl hlen zlt hdlt
  intro k hk
  rw [zval k hk, hζi]
  have hsum : ∑ j ∈ Finset.range (2 ^ (K + 1)), ((y.getD j 0 : Nat) : ZMod p) * ζ⁻¹ ^ (j * k)
      = ∑ j ∈ Finset.range (2 ^ (K + 1)),
          (∑ i ∈ Finset.range (2 ^ (K + 1)), ((data.getD i 0 : Nat) : ZMod p) * ζ ^ (i * j))
            * ζ⁻¹ ^ (j * k) := by
    apply Finset.sum_congr rfl
    intro j hj
    rw [yval j (Finset.mem_range.1 hj)]
  rw [hsum, dft_inversion ζ (2 ^ (K + 1)) hζn hζprim _ k hk]

end NTT
theorem walshBit_top : ∀ s j k,
    walshBit (s + 1) j k = walshBit s (j % 2 ^ s) (k / 2) + (j / 2 ^ s % 2) * (k % 2) := by
  intro s
  induction s with
  | zero => intro j k; simp [walshBit]
  | succ s ih =>
    intro j k
    have e1 : walshBit (s + 1 + 1) j k
        = walshBit (s + 1) (j / 2) (k % 2 ^ (s + 1)) + (j % 2) * (k / 2 ^ (s + 1) % 2) := rfl
    have e2 : walshBit (s + 1) (j % 2 ^ (s + 1)) (k / 2)
        = walshBit s (j % 2 ^ (s + 1) / 2) (k / 2 % 2 ^ s)
          + (j % 2 ^ (s + 1) % 2) * (k / 2 / 2 ^ s % 2) := rfl
    rw [e1, ih (j / 2) (k % 2 ^ (s + 1)), e2]
    have hm : ∀ a : Nat, a % 2 ^ (s + 1) % 2 = a % 2 := fun a =>
      Nat.mod_mod_of_dvd a (Dvd.intro_left (2 ^ s) (by rw [pow_succ]))
    have hd : ∀ a : Nat, a % 2 ^ (s + 1) / 2 = a / 2 % 2 ^ s := fun a => by
      rw [pow_succ, Nat.mul_comm]; exact Nat.mod_mul_right_div_self a 2 (2 ^ s)
    have hq : ∀ a : Nat, a / 2 / 2 ^ s = a / 2 ^ (s + 1) := fun a => by
      rw [Nat.div_div_eq_div_mul, pow_succ, Nat.mul_comm]
    rw [hm, hm, hd, hd, hq, hq]
    ring

theorem walshBit_step (s j c k0 t : Nat) (hc : c < 2) (hk0 : k0 < 2 ^ s) (ht : t < 2) :
    walshBit (s + 1) (2 * j + c) (k0 + t * 2 ^ s) = walshBit s j k0 + c * t := by
  have e1 : walshBit (s + 1) (2 * j + c) (k0 + t * 2 ^ s)
      = walshBit s ((2 * j + c) / 2) ((k0 + t * 2 ^ s) % 2 ^ s)
        + ((2 * j + c) % 2) * ((k0 + t * 2 ^ s) / 2 ^ s % 2) := rfl
  have h1 : (2 * j + c) / 2 = j := by omega
  have h2 : (2 * j + c) % 2 = c := by omega
  have h3 : (k0 + t * 2 ^ s) % 2 ^ s = k0 := by
    rw [Nat.add_mul_mod_self_right, Nat.mod_eq_of_lt hk0]
  have h4 : (k0 + t * 2 ^ s) / 2 ^ s = t := by
    rw [Nat.add_mul_div_right _ _ (by positivity), Nat.div_eq_of_lt hk0, Nat.zero_add]
  rw [e1, h1, h2, h3, h4, Nat.mod_eq_of_lt ht]

theorem walshBit_low (s j t : Nat) (hj : j < 2 ^ s) (ht : t < 2) (i : Nat) :
    walshBit (s + 1) (j + t * 2 ^ s) i = walshBit s j (i / 2) + t * (i % 2) := by
  rw [walshBit_top]
  have h3 : (j + t * 2 ^ s) % 2 ^ s = j := by
    rw [Nat.add_mul_mod_self_right, Nat.mod_eq_of_lt hj]
  have h4 : (j + t * 2 ^ s) / 2 ^ s = t := by
    rw [Nat.add_mul_div_right _ _ (by positivity), Nat.div_eq_of_lt hj, Nat.zero_add]
  rw [h3, h4, Nat.mod_eq_of_lt ht]

namespace NTT

/-- One butterfly stage with all twiddle factors equal to `1` (a stage of the
Walsh-Hadamard transform). -/
theorem hadamard_stage_step {F : Type*} [CommRing F] (x : Nat → F) (s r : Nat) (d e : Nat → F)
    (hd : ∀ b k, b < 2 ^ (r + 1) → k < 2 ^ s →
      d (b * 2 ^ s + k)
        = ∑ j ∈ Finset.range (2 ^ s),
            x (j * 2 ^ (r + 1) + bitRev (r + 1) b) * (-1) ^ walshBit s j k)
    (hstep : ∀ b k, b < 2 ^ r → k < 2 ^ s →
      e (b * (2 * 2 ^ s) + k) = d (b * (2 * 2 ^ s) + k) + d (b * (2 * 2 ^ s) + k + 2 ^ s) ∧
      e (b * (2 * 2 ^ s) + k + 2 ^ s)
        = d (b * (2 * 2 ^ s) + k) - d (b * (2 * 2 ^ s) + k + 2 ^ s)) :
    ∀ b k, b < 2 ^ r → k < 2 ^ (s + 1) →
      e (b * 2 ^ (s + 1) + k)
        = ∑ j ∈ Finset.range (2 ^ (s + 1)), x (j * 2 ^ r + bitRev r b) * (-1) ^ walshBit (s + 1) j k := by
  intro b k hb hk
  have hb0 : 2 * b < 2 ^ (r + 1) := by rw [pow_succ]; omega
  have hb1 : 2 * b + 1 < 2 ^ (r + 1) := by rw [pow_succ]; omega
  have hs2 : (2 : Nat) ^ (s + 1) = 2 * 2 ^ s := by rw [pow_succ]; ring
  have i0 : ∀ k0, b * (2 * 2 ^ s) + k0 = (2 * b) * 2 ^ s + k0 := fun k0 => by ring
  have i1 : ∀ k0, b * (2 * 2 ^ s) + k0 + 2 ^ s = (2 * b + 1) * 2 ^ s + k0 := fun k0 => by ring
  rw [hs2, sum_range_two_mul]
  by_cases hks : k < 2 ^ s
  · rw [(hstep b k hb hks).1, i1, i0, hd _ _ hb0 hks, hd _ _ hb1 hks, bitRev_double,
      bitRev_double_succ, ← Finset.sum_add_distrib]
    apply Finset.sum_congr rfl
    intro j _
    have a0 : 2 * j * 2 ^ r + bitRev r b = j * 2 ^ (r + 1) + bitRev r b := by
      rw [pow_succ]; ring
    have a1 : (2 * j + 1) * 2 ^ r + bitRev r b = j * 2 ^ (r + 1) + (2 ^ r + bitRev r b) := by
      rw [pow_succ]; ring
    have w0 := walshBit_step s j 0 k 0 (by norm_num) hks (by norm_num)
    have w1 := walshBit_step s j 1 k 0 (by norm_num) hks (by norm_num)
    simp only [Nat.zero_mul, Nat.add_zero, Nat.mul_zero] at w0 w1
    rw [a0, a1, w0, w1]
  · obtain ⟨k0, rfl⟩ : ∃ k0, k = k0 + 2 ^ s := ⟨k - 2 ^ s, by omega⟩
    have hk0 : k0 < 2 ^ s := by rw [hs2] at hk; omega
    have hidx : b * (2 * 2 ^ s) + (k0 + 2 ^ s) = b * (2 * 2 ^ s) + k0 + 2 ^ s := by ring
    rw [hidx, (hstep b k0 hb hk0).2, i1, i0, hd _ _ hb0 hk0, hd _ _ hb1 hk0, bitRev_double,
      bitRev_double_succ, ← Finset.sum_sub_distrib]
    apply Finset.sum_congr rfl
    intro j _
    have a0 : 2 * j * 2 ^ r + bitRev r b = j * 2 ^ (r + 1) + bitRev r b := by
      rw [pow_succ]; ring
    have a1 : (2 * j + 1) * 2 ^ r + bitRev r b = j * 2 ^ (r + 1) + (2 ^ r + bitRev r b) := by
      rw [pow_succ]; ring
    have w0 := walshBit_step s j 0 k0 1 (by norm_num) hk0 (by norm_num)
    have w1 := walshBit_step s j 1 k0 1 (by norm_num) hk0 (by norm_num)
    simp only [Nat.zero_mul, Nat.add_zero, Nat.one_mul, Nat.mul_one] at w0 w1
    rw [a0, a1, w0, w1, pow_succ]
    ring

/-- The rows of the kernel `(-1)^walshBit` are orthogonal. -/
theorem walsh_orthogonal {F : Type*} [CommRing F] : ∀ s j i, j < 2 ^ s → i < 2 ^ s →
    ∑ k ∈ Finset.range (2 ^ s), ((-1 : F) ^ walshBit s j k * (-1) ^ walshBit s k i)
      = if j = i then ((2 ^ s : Nat) : F) else 0 := by
  intro s
  induction s with
  | zero =>
    intro j i hj hi
    have hj0 : j = 0 := by simpa using hj
    have hi0 : i = 0 := by simpa using hi
    subst hj0; subst hi0
    simp [walshBit]
  | succ s ih =>
    intro j i hj hi
    have hj2 : j / 2 < 2 ^ s := by rw [pow_succ] at hj; omega
    have hi2 : i / 2 < 2 ^ s := by rw [pow_succ] at hi; omega
    have hsplit : (2 : Nat) ^ (s + 1) = 2 ^ s + 2 ^ s := by rw [pow_succ]; ring
    have hjd : j = 2 * (j / 2) + j % 2 := by omega
    have hlo : ∀ k, k ∈ Finset.range (2 ^ s) →
        (-1 : F) ^ walshBit (s + 1) j k * (-1) ^ walshBit (s + 1) k i
          = (-1 : F) ^ walshBit s (j / 2) k * (-1) ^ walshBit s k (i / 2) := by
      intro k hk
      have hk1 : k < 2 ^ s := Finset.mem_range.1 hk
      have w1 := walshBit_step s (j / 2) (j % 2) k 0 (Nat.mod_lt _ (by norm_num)) hk1
        (by norm_num)
      have w2 := walshBit_low s k 0 hk1 (by norm_num) i
      simp only [Nat.zero_mul, Nat.add_zero, Nat.mul_zero] at w1 w2
      rw [← hjd] at w1
      rw [w1, w2]
    have hhi : ∀ k, k ∈ Finset.range (2 ^ s) →
        (-1 : F) ^ walshBit (s + 1) j (2 ^ s + k) * (-1) ^ walshBit (s + 1) (2 ^ s + k) i
          = (-1 : F) ^ (j % 2 + i % 2)
            * ((-1 : F) ^ walshBit s (j / 2) k * (-1) ^ walshBit s k (i / 2)) := by
      intro k hk
      have hk1 : k < 2 ^ s := Finset.mem_range.1 hk
      have w1 := walshBit_step s (j / 2) (j % 2) k 1 (Nat.mod_lt _ (by norm_num)) hk1
        (by norm_num)
      have w2 := walshBit_low s k 1 hk1 (by norm_num) i
      simp only [Nat.one_mul, Nat.mul_one] at w1 w2
      rw [← hjd, Nat.add_comm k] at w1
      rw [Nat.add_comm k] at w2
      rw [w1, w2, pow_add, pow_add, pow_add]
      ring
    rw [hsplit, Finset.sum_range_add, Finset.sum_congr rfl hlo, Finset.sum_congr rfl hhi,
      ← Finset.mul_sum, ih _ _ hj2 hi2]
    have hcast : (((2 ^ s + 2 ^ s : Nat)) : F) = 2 * ((2 ^ s : Nat) : F) := by
      push_cast; ring
    rcases (by omega : j % 2 = 0 ∨ j % 2 = 1) with hj0 | hj0 <;>
      rcases (by omega : i % 2 = 0 ∨ i % 2 = 1) with hi0 | hi0
    · rw [hj0, hi0]
      by_cases hji : j = i
      · rw [if_pos hji, if_pos (by omega), hcast]; ring
      · rw [if_neg hji, if_neg (by omega)]; ring
    · rw [hj0, hi0, if_neg (by omega : ¬ j = i)]
      ring
    · rw [hj0, hi0, if_neg (by omega : ¬ j = i)]
      ring
    · rw [hj0, hi0]
      by_cases hji : j = i
      · rw [if_pos hji, if_pos (by omega), hcast]; norm_num; ring
      · rw [if_neg hji, if_neg (by omega)]; ring

/-- Inversion of the transform with kernel `(-1)^walshBit`: applying it twice
multiplies by `2^s`. -/
theorem walsh_inversion {F : Type*} [CommRing F] (s : Nat) (x : Nat → F) (k : Nat)
    (hk : k < 2 ^ s) :
    ∑ j ∈ Finset.range (2 ^ s),
        (∑ i ∈ Finset.range (2 ^ s), x i * (-1) ^ walshBit s i j) * (-1) ^ walshBit s j k
      = ((2 ^ s : Nat) : F) * x k := by
  have hterm : ∀ i j : Nat, x i * (-1) ^ walshBit s i j * (-1) ^ walshBit s j k
      = x i * ((-1) ^ walshBit s i j * (-1) ^ walshBit s j k) := fun i j => by ring
  simp_rw [Finset.sum_mul, hterm]
  rw [Finset.sum_comm]
  simp_rw [← Finset.mul_sum]
  rw [Finset.sum_eq_single k]
  · rw [walsh_orthogonal s k k hk hk, if_pos rfl, mul_comm]
  · intro i hi hik
    rw [walsh_orthogonal s i k (Finset.mem_range.1 hi) hk, if_neg hik, mul_zero]
  · intro h
    exact absurd (Finset.mem_range.2 hk) h

end NTT
namespace NTT

theorem transform_hadamard (p : Nat) (hp0 : 0 < p) (hp32 : p < 2 ^ 32) (tab : List Nat)
    (htab64 : ∀ a, tab.getD a 0 < 2 ^ 64) (htl : tab.length = 2) (ht0 : tab.getD 0 0 = 1)
    (K : Nat) (hK : K < 62) (data : List Nat) (hdl : data.length = 2 ^ (K + 1))
    (hdata : ∀ t, data.getD t 0 < p) :
    ∃ out, transform p tab data = .ok out ∧ out.length = 2 ^ (K + 1) ∧
      (∀ t, out.getD t 0 < p) ∧
      ∀ k, k < 2 ^ (K + 1) →
        ((out.getD k 0 : Nat) : ZMod p)
          = ∑ j ∈ Finset.range (2 ^ (K + 1)),
              ((data.getD j 0 : Nat) : ZMod p) * (-1) ^ walshBit (K + 1) j k := by
  have hidx : ∀ s k, k < 2 ^ s → tab.length / (2 * 2 ^ s) * k = 0 := by
    intro s k hk
    rw [htl]
    cases s with
    | zero =>
      have : k = 0 := by simpa using hk
      subst this
      rfl
    | succ s =>
      have h1 : 1 < 2 ^ (s + 1) := Nat.one_lt_two_pow (by omega)
      rw [Nat.div_eq_of_lt (by omega), Nat.zero_mul]
  have htw : ∀ s k, k < 2 ^ s →
      ((tab.getD (tab.length / (2 * 2 ^ s) * k) 0 : Nat) : ZMod p) = 1 := by
    intro s k hk
    rw [hidx s k hk, ht0, Nat.cast_one]
  exact transform_gen p hp0 hp32 tab htab64 K hK data hdl hdata
    (fun s _ j k => (-1) ^ walshBit s j k) (by simp [walshBit])
    (by
      intro s r d e _ hd hbf
      have hbf2 : ∀ b k, b < 2 ^ r → k < 2 ^ s →
          e (b * (2 * 2 ^ s) + k) = d (b * (2 * 2 ^ s) + k) + d (b * (2 * 2 ^ s) + k + 2 ^ s) ∧
          e (b * (2 * 2 ^ s) + k + 2 ^ s)
            = d (b * (2 * 2 ^ s) + k) - d (b * (2 * 2 ^ s) + k + 2 ^ s) := by
        intro b k hb hk
        have := hbf b k hb hk
        rw [htw s k hk, mul_one] at this
        exact this
      exact hadamard_stage_step (fun t => ((data.getD t 0 : Nat) : ZMod p)) s r d e hd hbf2)

/-- The round trip on tables of length `2`: every twiddle factor read is
`tab[0] = 1`, and both directions are the same Walsh-Hadamard transform. -/
theorem round_trip_core_hadamard (p r1 r2 K : Nat) (data : List Nat) (hp : p.Prime)
    (hp32 : p < 2 ^ 32) (hodd : p ≠ 2) (hr1 : r1 < p) (hr2 : r2 < p) (hK : K < 62)
    (hlen : data.length = 2 ^ (K + 1)) (hdata : ∀ x ∈ data, x < p) :
    ∃ y, transform p (fillTable p r1 2) data = .ok y ∧ y.length = 2 ^ (K + 1) ∧
      ∃ z, transform p (fillTable p r2 2) y = .ok z ∧
        z.map (fun x => wrapU128 (x * modInverse (2 ^ (K + 1)) p) % p) = data := by
  haveI : Fact p.Prime := ⟨hp⟩
  have h2 := hp.two_le
  have hp0 : 0 < p := by omega
  have hp64 : p < 2 ^ 64 := lt_trans hp32 (by norm_num)
  obtain ⟨l1, v1⟩ := fillTable_spec p r1 2 (by omega) hp32 hr1 (by norm_num)
  obtain ⟨l2, v2⟩ := fillTable_spec p r2 2 (by omega) hp32 hr2 (by norm_num)
  have lt1 := fillTable_lt p r1 2 (by omega) hp32 hr1 (by norm_num)
  have lt2 := fillTable_lt p r2 2 (by omega) hp32 hr2 (by norm_num)
  have t1 : (fillTable p r1 2).getD 0 0 = 1 := by
    rw [v1 0 (by norm_num), pow_zero]; exact Nat.mod_eq_of_lt (by omega)
  have t2 : (fillTable p r2 2).getD 0 0 = 1 := by
    rw [v2 0 (by norm_num), pow_zero]; exact Nat.mod_eq_of_lt (by omega)
  have hdlt := getD_lt_of_forall p hp0 data hdata
  obtain ⟨y, hy, yl, ylt, yval⟩ :=
    transform_hadamard p hp0 hp32 _ (fun a => lt_trans (lt1 a) hp64) l1 t1 K hK data hlen hdlt
  obtain ⟨z, hz, zl, zlt, zval⟩ :=
    transform_hadamard p hp0 hp32 _ (fun a => lt_trans (lt2 a) hp64) l2 t2 K hK y yl ylt
  refine ⟨y, hy, yl, z, hz, ?_⟩
  have hn0 : ((2 ^ (K + 1) : Nat) : ZMod p) ≠ 0 := by
    intro h
    have hd := (ZMod.natCast_zmod_eq_zero_iff_dvd (2 ^ (K + 1)) p).1 h
    have hd2 : p ∣ 2 := hp.dvd_of_dvd_pow hd
    have := Nat.le_of_dvd (by norm_num) hd2
    omega
  apply scale_back p (2 ^ (K + 1)) hp hp32 z data hn0 zl hlen zlt hdlt
  intro k hk
  rw [zval k hk]
  have hsum : ∑ j ∈ Finset.range (2 ^ (K + 1)),
        ((y.getD j 0 : Nat) : ZMod p) * (-1) ^ walshBit (K + 1) j k
      = ∑ j ∈ Finset.range (2 ^ (K + 1)),
          (∑ i ∈ Finset.range (2 ^ (K + 1)),
            ((data.getD i 0 : Nat) : ZMod p) * (-1) ^ walshBit (K + 1) i j)
            * (-1) ^ walshBit (K + 1) j k := by
    apply Finset.sum_congr rfl
    intro j hj
    rw [yval j (Finset.mem_range.1 hj)]
  rw [hsum, walsh_inversion (K + 1) _ k hk]

end NTT

/-! ### The round trip `inverse ∘ forward` -/

/-- Above `getMaxLength()` the round trip fails: `5` is prime, `2` is a primitive root modulo `5`, the
vector has length `8` and entries below `5`, and `inverse` after `forward`
returns another vector. The tables have `getMaxLength() = 4` entries, so for
`len = 8` the index step `roots.size() / len` is `0` and every twiddle of the
last stage is `roots[0] = 1`. -/
theorem ntt_round_trip_fails_above_max_length :
    Nat.Prime 5 ∧ IsPrimitiveRootMod 5 2
      ∧ NTT.create 5 2 = .ok ⟨5, 2, [1, 2, 4, 3], [1, 3, 4, 2]⟩
      ∧ NTT.getMaxLength ⟨5, 2, [1, 2, 4, 3], [1, 3, 4, 2]⟩ = 4
      ∧ NTT.forward ⟨5, 2, [1, 2, 4, 3], [1, 3, 4, 2]⟩ [0, 1, 0, 0, 0, 0, 0, 0]
          = .ok [1, 1, 1, 1, 4, 4, 4, 4]
      ∧ NTT.inverse ⟨5, 2, [1, 2, 4, 3], [1, 3, 4, 2]⟩ [1, 1, 1, 1, 4, 4, 4, 4]
          = .ok [0, 2, 0, 4, 0, 0, 0, 0] := by
  refine ⟨by norm_num, by decide, by decide, by decide, by decide, by decide⟩

/-- The modulus `2` (prime, primitive root `1`): the table has one entry and the
round trip of the vector `1, 0` gives `0, 0`, since `modInverse(2, 2)` is not an
inverse of the length. -/
theorem ntt_round_trip_fails_mod_two :
    Nat.Prime 2 ∧ IsPrimitiveRootMod 2 1
      ∧ NTT.create 2 1 = .ok ⟨2, 1, [1], [1]⟩
      ∧ NTT.forward ⟨2, 1, [1], [1]⟩ [1, 0] = .ok [1, 1]
      ∧ NTT.inverse ⟨2, 1, [1], [1]⟩ [1, 1] = .ok [0, 0] := by
  refine ⟨by norm_num, by decide, by decide, by decide, by decide⟩

/-- The round trip where the products of the table loop fit 64 bits: for an NTT
built over a prime modulus `p < 2^32` with a
primitive root `g`, and every vector of power-of-two length `n = 2^K ≥ 2` whose
entries are below `p`, where `n` does not exceed `getMaxLength()` (the largest
power of two dividing `p - 1`, computed by the constructor) or
`getMaxLength() = 2` and `n < 2^63`: the constructor returns, `forward` returns,
and `inverse` applied to its result returns the original vector. -/
theorem ntt_round_trip (p g K : Nat) (data : List Nat) (hp : p.Prime) (hp32 : p < 2 ^ 32)
    (hg : IsPrimitiveRootMod p g) (hK : 1 ≤ K) (hlen : data.length = 2 ^ K)
    (hmax : data.length ≤ (NTT.maxNLoop 64 1 (p - 1)).1
      ∨ ((NTT.maxNLoop 64 1 (p - 1)).1 = 2 ∧ data.length < 2 ^ 63))
    (hdata : ∀ x ∈ data, x < p) :
    ∃ ntt y, NTT.create p g = .ok ntt
      ∧ NTT.getMaxLength ntt = (NTT.maxNLoop 64 1 (p - 1)).1
      ∧ NTT.forward ntt data = .ok y ∧ NTT.inverse ntt y = .ok data := by
  obtain ⟨v, hv, hmaxN, hcreate⟩ := NTT.create_spec p g hp hp32
  obtain ⟨K1, rfl⟩ : ∃ K1, K = K1 + 1 := ⟨K - 1, by omega⟩
  have h2 := hp.two_le
  have hr : (g ^ ((p - 1) / 2 ^ v) % p) < p := Nat.mod_lt _ (by omega)
  have hr2 : ((g ^ ((p - 1) / 2 ^ v) % p) ^ (p - 2) % p) < p := Nat.mod_lt _ (by omega)
  have hcore : ∃ y, NTT.transform p (NTT.fillTable p (g ^ ((p - 1) / 2 ^ v) % p) (2 ^ v)) data
        = .ok y ∧ y.length = 2 ^ (K1 + 1) ∧
      ∃ z, NTT.transform p
          (NTT.fillTable p ((g ^ ((p - 1) / 2 ^ v) % p) ^ (p - 2) % p) (2 ^ v)) y = .ok z ∧
        z.map (fun x => wrapU128 (x * NTT.modInverse (2 ^ (K1 + 1)) p) % p) = data := by
    rcases hmax with hle | ⟨htwo, h63⟩
    · have hKv : K1 + 1 ≤ v := by
        rw [hlen, hmaxN] at hle
        exact (Nat.pow_le_pow_iff_right (by norm_num)).1 hle
      exact NTT.round_trip_core p g v K1 data hp hp32 hg hv hKv hlen hdata
    · have hv1 : v = 1 := by
        rw [hmaxN] at htwo
        exact Nat.pow_right_injective (le_refl 2) (by simpa using htwo)
      subst hv1
      have hodd : p ≠ 2 := by
        intro h
        rw [h] at hv
        norm_num at hv
      have hK62 : K1 < 62 := by
        rw [hlen] at h63
        have := (Nat.pow_lt_pow_iff_right (by norm_num : 1 < 2)).1 h63
        omega
      have := NTT.round_trip_core_hadamard p _ _ K1 data hp hp32 hodd hr hr2 hK62 hlen hdata
      simpa using this
  obtain ⟨y, hy, yl, z, hz, hzd⟩ := hcore
  refine ⟨_, y, hcreate, ?_, hy, ?_⟩
  · unfold NTT.getMaxLength
    rw [hmaxN]
    exact (NTT.fillTable_spec p _ (2 ^ v) (by omega) hp32 hr (by positivity)).1
  · unfold NTT.inverse
    simp only [hz, yl, hzd]

set_option maxRecDepth 100000 in
/-- Witness of `ntt_round_trip`: the first case of the repository's test, `p = 97`,
`g = 5`, the vector `1, 2, 3, 4` (`getMaxLength() = 32`). -/
theorem ntt_round_trip_witness :
    ∃ ntt y, NTT.create 97 5 = .ok ntt
      ∧ NTT.getMaxLength ntt = (NTT.maxNLoop 64 1 (97 - 1)).1
      ∧ NTT.forward ntt [1, 2, 3, 4] = .ok y ∧ NTT.inverse ntt y = .ok [1, 2, 3, 4] :=
  ntt_round_trip 97 5 2 [1, 2, 3, 4] (by norm_num) (by norm_num) (by decide) (by norm_num) rfl
    (Or.inl (by decide)) (by decide)

/-! ### Moduli above `2^32`, and tables of length `2` -/

/-- A unit `g` whose powers `g^((p-1)/q)`, `q` a prime factor of `p - 1`, differ
from `1` is a primitive root modulo the prime `p`. -/
theorem isPrimitiveRootMod_of_prime_factors (p g : Nat) (hp : p.Prime) (hg : g % p ≠ 0)
    (h : ∀ q, q.Prime → q ∣ p - 1 → g ^ ((p - 1) / q) % p ≠ 1) : IsPrimitiveRootMod p g := by
  haveI : Fact p.Prime := ⟨hp⟩
  refine ⟨hg, ?_⟩
  intro k hk1 hk0 hgk
  have hγk : ((g : Nat) : ZMod p) ^ k = 1 := by
    have h1 : ((g ^ k % p : Nat) : ZMod p) = ((1 : Nat) : ZMod p) := by rw [hgk]
    rwa [ZMod.natCast_mod, Nat.cast_pow, Nat.cast_one] at h1
  have hγ0 : ((g : Nat) : ZMod p) ≠ 0 := by
    intro h0
    exact hg (Nat.mod_eq_zero_of_dvd ((ZMod.natCast_zmod_eq_zero_iff_dvd g p).1 h0))
  have hγp : ((g : Nat) : ZMod p) ^ (p - 1) = 1 := ZMod.pow_card_sub_one_eq_one hγ0
  have hdk : orderOf ((g : Nat) : ZMod p) ∣ k := orderOf_dvd_of_pow_eq_one hγk
  have hdle : orderOf ((g : Nat) : ZMod p) ≤ k := Nat.le_of_dvd hk0 hdk
  obtain ⟨m, hm⟩ := orderOf_dvd_of_pow_eq_one hγp
  have hm1 : m ≠ 1 := by
    intro h1
    rw [h1, mul_one] at hm
    omega
  obtain ⟨q, hq, c, hc⟩ := Nat.exists_prime_and_dvd hm1
  have hpq : p - 1 = q * (orderOf ((g : Nat) : ZMod p) * c) := by
    rw [hm, hc]; ring
  have hdiv : (p - 1) / q = orderOf ((g : Nat) : ZMod p) * c := by
    rw [hpq, Nat.mul_div_cancel_left _ hq.pos]
  apply h q hq ⟨_, hpq⟩
  have h1 : ((g ^ ((p - 1) / q) : Nat) : ZMod p) = ((1 : Nat) : ZMod p) := by
    rw [Nat.cast_pow, Nat.cast_one, hdiv, pow_mul, pow_orderOf_eq_one, one_pow]
  have h2 := (ZMod.natCast_eq_natCast_iff' _ _ p).1 h1
  rw [h2]
  exact Nat.mod_eq_of_lt hp.one_lt

theorem prime_factors_8589934608 (q : Nat) (hq : q.Prime) (hd : q ∣ 8589934608) :
    q = 2 ∨ q = 3 ∨ q = 59 ∨ q = 3033169 := by
  have e : 8589934608 = 2 ^ 4 * 3 * 59 * 3033169 := by norm_num
  rw [e] at hd
  rcases (Nat.Prime.dvd_mul hq).1 hd with h | h
  · rcases (Nat.Prime.dvd_mul hq).1 h with h | h
    · rcases (Nat.Prime.dvd_mul hq).1 h with h | h
      · exact Or.inl ((Nat.prime_dvd_prime_iff_eq hq Nat.prime_two).1 (hq.dvd_of_dvd_pow h))
      · exact Or.inr (Or.inl ((Nat.prime_dvd_prime_iff_eq hq Nat.prime_three).1 h))
    · exact Or.inr (Or.inr (Or.inl ((Nat.prime_dvd_prime_iff_eq hq (by norm_num)).1 h)))
  · exact Or.inr (Or.inr (Or.inr ((Nat.prime_dvd_prime_iff_eq hq (by norm_num)).1 h)))

theorem pow_19_mod_8589934609 (q : Nat) (hq : q.Prime) (hd : q ∣ 8589934609 - 1) :
    19 ^ ((8589934609 - 1) / q) % 8589934609 ≠ 1 := by
  have hspec : ∀ e, e < 2 ^ 64 → 19 ^ e % 8589934609 = NTT.modPow 19 e 8589934609 :=
    fun e he => (NTT.modPow_spec 19 e 8589934609 (by norm_num) (by norm_num) he).symm
  have hd2 : q ∣ 8589934608 := by norm_num at hd; exact hd
  rcases prime_factors_8589934608 q hq hd2 with h | h | h | h <;> subst h <;>
    rw [hspec _ (by norm_num)] <;> decide

theorem prime_8589934609 : Nat.Prime 8589934609 := by
  apply lucas_primality 8589934609 ((19 : Nat) : ZMod 8589934609)
  · have h1 : 19 ^ (8589934609 - 1) % 8589934609 = 1 := by
      rw [← NTT.modPow_spec 19 _ 8589934609 (by norm_num) (by norm_num) (by norm_num)]
      decide
    have h2 : ((19 ^ (8589934609 - 1) % 8589934609 : Nat) : ZMod 8589934609)
        = ((1 : Nat) : ZMod 8589934609) := by rw [h1]
    rwa [ZMod.natCast_mod, Nat.cast_pow, Nat.cast_one] at h2
  · intro q hq hd h
    apply pow_19_mod_8589934609 q hq hd
    have h1 : ((19 ^ ((8589934609 - 1) / q) : Nat) : ZMod 8589934609)
        = ((1 : Nat) : ZMod 8589934609) := by
      rw [Nat.cast_pow, Nat.cast_one]; exact h
    exact (ZMod.natCast_eq_natCast_iff' _ _ 8589934609).1 h1

set_option maxRecDepth 100000 in
/-- C39 (the code at the failing input). The table loop of the constructor
multiplies in 64 bits, while `modPow`, `forward` and `inverse` multiply in 128
bits. Over the prime
`p = 8589934609 = 2^33 + 17` with the primitive root `19` the constructor
returns tables of `getMaxLength() = 16` entries, but `roots[2]` is not the square
of `roots[1]` modulo `p` (the product exceeds `2^64`), and the round trip of the
vector `1, 2, 3, 4`, of length `4 ≤ 16`, returns another vector. -/
theorem ntt_roots_table_overflows :
    Nat.Prime 8589934609 ∧ IsPrimitiveRootMod 8589934609 19
      ∧ NTT.create 8589934609 19 = .ok ⟨8589934609, 19,
          [1, 5164234399, 1388718618, 7525932381, 1209254416, 8506691441, 1504956268,
            663345023, 8527629366, 932271970, 596622147, 2364639176, 7058508727, 7672181614,
            2113257288, 1565441698],
          [1, 4861476890, 2281255359, 7327585962, 996829794, 2093581116, 6754765700,
            2052123700, 6883013629, 3343323216, 5658360776, 6712129149, 2870174667, 1566872438,
            987779536, 1275537669]⟩
      ∧ 5164234399 * 5164234399 % 8589934609 = 7831169647
      ∧ NTT.forward ⟨8589934609, 19,
          [1, 5164234399, 1388718618, 7525932381, 1209254416, 8506691441, 1504956268,
            663345023, 8527629366, 932271970, 596622147, 2364639176, 7058508727, 7672181614,
            2113257288, 1565441698],
          [1, 4861476890, 2281255359, 7327585962, 996829794, 2093581116, 6754765700,
            2052123700, 6883013629, 3343323216, 5658360776, 6712129149, 2870174667, 1566872438,
            987779536, 1275537669]⟩ [1, 2, 3, 4]
          = .ok [10, 6171425775, 8589934607, 2418508830]
      ∧ NTT.inverse ⟨8589934609, 19,
          [1, 5164234399, 1388718618, 7525932381, 1209254416, 8506691441, 1504956268,
            663345023, 8527629366, 932271970, 596622147, 2364639176, 7058508727, 7672181614,
            2113257288, 1565441698],
          [1, 4861476890, 2281255359, 7327585962, 996829794, 2093581116, 6754765700,
            2052123700, 6883013629, 3343323216, 5658360776, 6712129149, 2870174667, 1566872438,
            987779536, 1275537669]⟩ [10, 6171425775, 8589934607, 2418508830]
          = .ok [1, 3181803185, 3, 5408131430] := by
  refine ⟨prime_8589934609, ?_, ?_, by norm_num, by decide, by decide⟩
  · exact isPrimitiveRootMod_of_prime_factors 8589934609 19 prime_8589934609 (by norm_num)
      pow_19_mod_8589934609
  · unfold NTT.create
    rw [NTT.isPrime_prime 8589934609 prime_8589934609 (by norm_num)]
    decide

/-- Tables of length `2` (`p ≡ 3 mod 4`): for a prime modulus `p < 2^32`, any second
constructor argument `g` and every vector of power-of-two length `2 ≤ n < 2^63` with
entries below `p`, `inverse` after `forward` returns the original vector. Every
twiddle factor read is `roots[0] = 1`. -/
theorem ntt_round_trip_max_length_two (p g K : Nat) (data : List Nat) (hp : p.Prime)
    (hp32 : p < 2 ^ 32) (hK : 1 ≤ K) (hlen : data.length = 2 ^ K)
    (htwo : (NTT.maxNLoop 64 1 (p - 1)).1 = 2) (h63 : data.length < 2 ^ 63)
    (hdata : ∀ x ∈ data, x < p) :
    ∃ ntt y, NTT.create p g = .ok ntt ∧ NTT.getMaxLength ntt = 2
      ∧ NTT.forward ntt data = .ok y ∧ NTT.inverse ntt y = .ok data := by
  obtain ⟨v, hv, hmaxN, hcreate⟩ := NTT.create_spec p g hp hp32
  obtain ⟨K1, rfl⟩ : ∃ K1, K = K1 + 1 := ⟨K - 1, by omega⟩
  have h2 := hp.two_le
  have hr : (g ^ ((p - 1) / 2 ^ v) % p) < p := Nat.mod_lt _ (by omega)
  have hr2 : ((g ^ ((p - 1) / 2 ^ v) % p) ^ (p - 2) % p) < p := Nat.mod_lt _ (by omega)
  have hv1 : v = 1 := by
    rw [hmaxN] at htwo
    exact Nat.pow_right_injective (le_refl 2) (by simpa using htwo)
  subst hv1
  have hodd : p ≠ 2 := by
    intro h
    rw [h] at hv
    norm_num at hv
  have hK62 : K1 < 62 := by
    rw [hlen] at h63
    have := (Nat.pow_lt_pow_iff_right (by norm_num : 1 < 2)).1 h63
    omega
  have hcore : ∃ y, NTT.transform p (NTT.fillTable p (g ^ ((p - 1) / 2 ^ 1) % p) (2 ^ 1)) data
        = .ok y ∧ y.length = 2 ^ (K1 + 1) ∧
      ∃ z, NTT.transform p
          (NTT.fillTable p ((g ^ ((p - 1) / 2 ^ 1) % p) ^ (p - 2) % p) (2 ^ 1)) y = .ok z ∧
        z.map (fun x => wrapU128 (x * NTT.modInverse (2 ^ (K1 + 1)) p) % p) = data := by
    have := NTT.round_trip_core_hadamard p _ _ K1 data hp hp32 hodd hr hr2 hK62 hlen hdata
    simpa using this
  obtain ⟨y, hy, yl, z, hz, hzd⟩ := hcore
  refine ⟨_, y, hcreate, ?_, hy, ?_⟩
  · unfold NTT.getMaxLength
    exact (NTT.fillTable_spec p _ (2 ^ 1) (by omega) hp32 hr (by norm_num)).1
  · unfold NTT.inverse
    simp only [hz, yl, hzd]

theorem prime_factors_1073741826 (q : Nat) (hq : q.Prime) (hd : q ∣ 1073741826) :
    q = 2 ∨ q = 3 ∨ q = 59 ∨ q = 3033169 := by
  have e : 1073741826 = 2 * 3 * 59 * 3033169 := by norm_num
  rw [e] at hd
  rcases (Nat.Prime.dvd_mul hq).1 hd with h | h
  · rcases (Nat.Prime.dvd_mul hq).1 h with h | h
    · rcases (Nat.Prime.dvd_mul hq).1 h with h | h
      · exact Or.inl ((Nat.prime_dvd_prime_iff_eq hq Nat.prime_two).1 h)
      · exact Or.inr (Or.inl ((Nat.prime_dvd_prime_iff_eq hq Nat.prime_three).1 h))
    · exact Or.inr (Or.inr (Or.inl ((Nat.prime_dvd_prime_iff_eq hq (by norm_num)).1 h)))
  · exact Or.inr (Or.inr (Or.inr ((Nat.prime_dvd_prime_iff_eq hq (by norm_num)).1 h)))

theorem prime_1073741827 : Nat.Prime 1073741827 := by
  have hspec : ∀ e, e < 2 ^ 64 → 2 ^ e % 1073741827 = NTT.modPow 2 e 1073741827 :=
    fun e he => (NTT.modPow_spec 2 e 1073741827 (by norm_num) (by norm_num) he).symm
  have hcast : ∀ e v : Nat, 2 ^ e % 1073741827 = v →
      ((2 : Nat) : ZMod 1073741827) ^ e = ((v : Nat) : ZMod 1073741827) := by
    intro e v h
    rw [← h, ZMod.natCast_mod, Nat.cast_pow]
  apply lucas_primality 1073741827 ((2 : Nat) : ZMod 1073741827)
  · have h1 : 2 ^ (1073741827 - 1) % 1073741827 = 1 := by
      rw [hspec _ (by norm_num)]; decide
    rw [hcast _ _ h1, Nat.cast_one]
  · intro q hq hd h
    have hd2 : q ∣ 1073741826 := by norm_num at hd; exact hd
    have hne : 2 ^ ((1073741827 - 1) / q) % 1073741827 ≠ 1 := by
      rcases prime_factors_1073741826 q hq hd2 with h | h | h | h <;> subst h <;>
        rw [hspec _ (by norm_num)] <;> decide
    apply hne
    have h1 : ((2 ^ ((1073741827 - 1) / q) : Nat) : ZMod 1073741827)
        = ((1 : Nat) : ZMod 1073741827) := by
      rw [Nat.cast_pow, Nat.cast_one]; exact h
    exact (ZMod.natCast_eq_natCast_iff' _ _ 1073741827).1 h1

set_option maxRecDepth 100000 in
/-- The second case of the repository's test (`testNTTWithDifferentSizes`): the
modulus `1073741827 = 2^30 + 3` is prime with `getMaxLength() = 2`, and the vector
`1, …, 16` survives the round trip. -/
theorem ntt_test_different_sizes :
    ∃ ntt y, NTT.create 1073741827 5 = .ok ntt ∧ NTT.getMaxLength ntt = 2
      ∧ NTT.forward ntt [1, 2, 3, 4, 5, 6, 7, 8, 9, 10, 11, 12, 13, 14, 15, 16] = .ok y
      ∧ NTT.inverse ntt y = .ok [1, 2, 3, 4, 5, 6, 7, 8, 9, 10, 11, 12, 13, 14, 15, 16] :=
  ntt_round_trip_max_length_two 1073741827 5 4 _ prime_1073741827 (by norm_num) (by norm_num) rfl
    (by decide) (by norm_num) (by decide)

/-- The second argument of that test, `5`, is not a primitive root modulo
`1073741827`: `5^((p-1)/3) = 1`. -/
theorem five_not_primitive_root : ¬ IsPrimitiveRootMod 1073741827 5 := by
  intro h
  apply h.2 357913942 (by norm_num) (by norm_num)
  rw [← NTT.modPow_spec 5 _ 1073741827 (by norm_num) (by norm_num) (by norm_num)]
  decide

end turinged
